import Mathlib

/-! The B+ tree of `src/BPTree.h`.

The C++ program keeps its nodes on the free store and links them with raw
pointers (`parent`, `next`, `ptr2node`).  The embedding keeps that shape:

* the free store is a list of cells, an address is an index into it, `new`
  appends a cell (addresses are never reused) and `delete` empties a cell;
* a null pointer is `none`;
* every function of the class is a state-passing function on `BPTree`;
  the result `none` stands for a run the C++ standard gives no meaning to
  (an index outside a vector, a null or dangling pointer dereferenced) or for
  a loop that does not end;
* `ptr2val` owns one heap value per key and never shares it, so the vector of
  value pointers is the list of the values themselves;
* messages written to `std::cout` are advisory and are not modelled; what
  `serialize` and `deserialize` write to `std::cerr` is returned.
-/

namespace BPlus

/-! ## Vectors with C++ indexing -/

/-- Read `v[i]` for an `int` index; outside the vector there is no result. -/
def vget {α : Type} (v : List α) (i : Int) : Option α :=
  if 0 ≤ i then v[i.toNat]? else none

/-- Write `v[i] = x`. -/
def vset {α : Type} (v : List α) (i : Int) (x : α) : Option (List α) :=
  if 0 ≤ i ∧ i.toNat < v.length then some (v.set i.toNat x) else none

/-- Call `v.insert(v.begin() + i, x)`. -/
def vinsert {α : Type} (v : List α) (i : Int) (x : α) : Option (List α) :=
  if 0 ≤ i ∧ i.toNat ≤ v.length then some (v.take i.toNat ++ x :: v.drop i.toNat) else none

/-- Call `v.erase(v.begin() + i)`. -/
def verase {α : Type} (v : List α) (i : Int) : Option (List α) :=
  if 0 ≤ i ∧ i.toNat < v.length then some (v.take i.toNat ++ v.drop (i.toNat + 1)) else none

/-- The range `[v.begin() + i, v.end())`, as used by `assign`. -/
def vfrom {α : Type} (v : List α) (i : Int) : Option (List α) :=
  if 0 ≤ i ∧ i.toNat ≤ v.length then some (v.drop i.toNat) else none

/-- Call `v.erase(v.begin() + i, v.end())`. -/
def vtrunc {α : Type} (v : List α) (i : Int) : Option (List α) :=
  if 0 ≤ i ∧ i.toNat ≤ v.length then some (v.take i.toNat) else none

/-- Call `v.pop_back()`. -/
def vpop {α : Type} (v : List α) : Option (List α) :=
  if v.isEmpty then none else some v.dropLast

/-- Conversion of an `int` to the 64-bit `size_t` in a mixed comparison, and
the result of `size() - 1`: a negative value wraps around by `2^64`; an `int`
that is not negative and a size are below `2^64` and stay as they are. -/
def sizeT (i : Int) : Int := if i < 0 then i + 2 ^ 64 else i

/-! ## Nodes and the free store -/

/-- The class `Node<KeyT, ValT>`. -/
structure Node (K V : Type) where
  leaf : Bool
  parent : Option Nat
  next : Option Nat
  key : List K
  ptr2node : List (Option Nat)
  ptr2val : List V
  deriving DecidableEq, Repr

/-- The free store: cell `p` holds the node at address `p`, if it is live. -/
abbrev Heap (K V : Type) := List (Option (Node K V))

/-- Dereference an address. -/
def Heap.read {K V : Type} (h : Heap K V) (p : Nat) : Option (Node K V) :=
  h.getD p none

/-- Store a node at an address. -/
def Heap.write {K V : Type} (h : Heap K V) (p : Nat) (nd : Node K V) : Heap K V :=
  h.set p (some nd)

/-- The statement `delete p`. -/
def Heap.free {K V : Type} (h : Heap K V) (p : Nat) : Heap K V :=
  h.set p none

/-- The expression `new Node(...)`: the fresh address is the next unused index. -/
def Heap.alloc {K V : Type} (h : Heap K V) (nd : Node K V) : Heap K V × Nat :=
  (h ++ [some nd], h.length)

/-- The class `BPTree<KeyT, ValT>`: its two fields and the store its nodes live in. -/
structure BPTree (K V : Type) where
  order : Nat
  root : Option Nat
  heap : Heap K V
  deriving DecidableEq, Repr

/-- The constructor `BPTree(int order)`. -/
def BPTree.new {K V : Type} (order : Nat) : BPTree K V :=
  { order := order, root := none, heap := [] }

section Ops

variable {K V : Type} [LinearOrder K]

/-- The loop of `keyIndex`: advance `loc` while the next key is `<= _key`. -/
def keyIndexLoop (key : List K) (_key : K) : Nat → Int → Int
  | 0, loc => loc
  | fuel + 1, loc =>
    if loc + 1 < (key.length : Int) then
      match vget key (loc + 1) with
      | some x => if x ≤ _key then keyIndexLoop key _key fuel (loc + 1) else loc
      | none => loc
    else loc

/-- The function `keyIndex`: the loop runs at most `size` times. -/
def keyIndex (_node : Node K V) (_key : K) : Int :=
  keyIndexLoop _node.key _key _node.key.length (-1)

/-- The descent loop of `keyIndexInLeaf`, from the node at address `node`. -/
def keyIndexInLeafLoop (h : Heap K V) (_key : K) : Nat → Nat → Option (Nat × Int)
  | 0, _ => none
  | fuel + 1, node => do
    let some nd := h.read node | none
    let loc := keyIndex nd _key
    if nd.leaf then some (node, loc)
    else do
      let some child := vget nd.ptr2node (loc + 1) | none
      let some child := child | none
      keyIndexInLeafLoop h _key fuel child

/-- The function `keyIndexInLeaf`.  A descent that visits more nodes than the
store has cells has entered a cycle and never ends. -/
def keyIndexInLeaf (t : BPTree K V) (_key : K) : Option (Option Nat × Int) :=
  match t.root with
  | none => some (none, -1)
  | some r => (keyIndexInLeafLoop t.heap _key t.heap.length r).map fun x => (some x.1, x.2)

/-- The function `splitLeaf`; returns the address of the new leaf. -/
def splitLeaf (t : BPTree K V) (_leaf : Nat) : Option (BPTree K V × Nat) := do
  let some lf := t.heap.read _leaf | none
  let new_leaf := t.heap.length
  let mid : Int := (lf.key.length / 2 : Nat)
  let some nkey := vfrom lf.key mid | none
  let some nval := vfrom lf.ptr2val mid | none
  let some okey := vtrunc lf.key mid | none
  let some oval := vtrunc lf.ptr2val mid | none
  let nl : Node K V :=
    { leaf := true, parent := lf.parent, next := lf.next, key := nkey, ptr2node := [],
      ptr2val := nval }
  let h1 := (t.heap.alloc nl).1
  let h2 := h1.write _leaf { lf with next := some new_leaf, key := okey, ptr2val := oval }
  some ({ t with heap := h2 }, new_leaf)

/-- The loop `for (each : children) each->parent = p`. -/
def reparent (p : Nat) : List (Option Nat) → Heap K V → Option (Heap K V)
  | [], h => some h
  | c :: cs, h => do
    let some c := c | none
    let some cn := h.read c | none
    reparent p cs (h.write c { cn with parent := some p })

/-- The function `splitNode`; returns the new node and the key pushed up. -/
def splitNode (t : BPTree K V) (_node : Nat) : Option (BPTree K V × Nat × K) := do
  let some nd := t.heap.read _node | none
  let new_node := t.heap.length
  let mid : Int := ((nd.key.length + 1) / 2 : Nat) - 1
  let some push_key := vget nd.key mid | none
  let some nkey := vfrom nd.key (mid + 1) | none
  let some nptr := vfrom nd.ptr2node (mid + 1) | none
  let some okey := vtrunc nd.key mid | none
  let some optr := vtrunc nd.ptr2node (mid + 1) | none
  let nn : Node K V :=
    { leaf := false, parent := nd.parent, next := none, key := nkey, ptr2node := nptr,
      ptr2val := [] }
  let h1 := (t.heap.alloc nn).1
  let h2 := h1.write _node { nd with key := okey, ptr2node := optr }
  let some h3 := reparent new_node nptr h2 | none
  some ({ t with heap := h3 }, new_node, push_key)

/-- The new-root block shared by `insert` and `createIndex`: a fresh internal
node with one key and the two halves as children. -/
def newRoot (t : BPTree K V) (node new_node : Nat) (push_key : K) : Option (BPTree K V) := do
  let new_root := t.heap.length
  let nr : Node K V :=
    { leaf := false, parent := none, next := none, key := [push_key],
      ptr2node := [some node, some new_node], ptr2val := [] }
  let h1 := (t.heap.alloc nr).1
  let some a := h1.read node | none
  let h2 := h1.write node { a with parent := some new_root }
  let some b := h2.read new_node | none
  let h3 := h2.write new_node { b with parent := some new_root }
  some { t with root := some new_root, heap := h3 }

/-- The function `createIndex`; the fuel bounds the recursion towards the root. -/
def createIndex : Nat → BPTree K V → Nat → K → Option (BPTree K V)
  | 0, _, _, _ => none
  | fuel + 1, t, _new_node, _index => do
    let some nn := t.heap.read _new_node | none
    let some node := nn.parent | none
    let some nd := t.heap.read node | none
    let loc := keyIndex nd _index
    let some key1 := vinsert nd.key (loc + 1) _index | none
    let some ptr1 := vinsert nd.ptr2node (loc + 2) (some _new_node) | none
    let t1 : BPTree K V := { t with heap := t.heap.write node { nd with key := key1, ptr2node := ptr1 } }
    if key1.length > t.order then do
      let some (t2, new_node, push_key) := splitNode t1 node | none
      if some node = t2.root then newRoot t2 node new_node push_key
      else createIndex fuel t2 new_node push_key
    else some t1

/-- The function `insert`. -/
def insert (t : BPTree K V) (_key : K) (_val : V) : Option (BPTree K V) :=
  match t.root with
  | none =>
    let nr : Node K V :=
      { leaf := true, parent := none, next := none, key := [_key], ptr2node := [none],
        ptr2val := [_val] }
    some { t with root := some (t.heap.alloc nr).2, heap := (t.heap.alloc nr).1 }
  | some _ => do
    let some pair := keyIndexInLeaf t _key | none
    let some leaf := pair.1 | none
    let loc := pair.2
    let some lf := t.heap.read leaf | none
    let some hit := (if loc ≠ -1 then (vget lf.key loc).map (fun x => decide (x = _key))
      else some false) | none
    if hit then do
      let some val1 := vset lf.ptr2val loc _val | none
      some { t with heap := t.heap.write leaf { lf with ptr2val := val1 } }
    else do
      let some key1 := vinsert lf.key (loc + 1) _key | none
      let some val1 := vinsert lf.ptr2val (loc + 1) _val | none
      let t1 : BPTree K V := { t with heap := t.heap.write leaf { lf with key := key1, ptr2val := val1 } }
      if key1.length > t.order then do
        let some (t2, new_leaf) := splitLeaf t1 leaf | none
        let some nl := t2.heap.read new_leaf | none
        let some sep := vget nl.key 0 | none
        if some leaf = t2.root then newRoot t2 leaf new_leaf sep
        else createIndex t2.heap.length t2 new_leaf sep
      else some t1

/-- The search `for (i ...) if (parent->ptr2node[i] == node) { idx = i; break; }`. -/
def childIndex (ptrs : List (Option Nat)) (node : Nat) : Int :=
  if ptrs.indexOf (some node) < ptrs.length then (ptrs.indexOf (some node) : Nat) else -1

/-- The block `// parent is empty` closing both underflow handlers: a root
without keys hands the tree to its first child. -/
def collapseRoot (t : BPTree K V) : Option (BPTree K V) := do
  let some r := t.root | none
  let some rn := t.heap.read r | none
  if rn.key.isEmpty ∧ ¬ rn.ptr2node.isEmpty then do
    let some new_root := vget rn.ptr2node 0 | none
    let h1 := t.heap.free r
    let some new_root := new_root | none
    let some c := h1.read new_root | none
    some { t with root := some new_root, heap := h1.write new_root { c with parent := none } }
  else some t

/-- The test `sibling->key.size() > (order + 1) / 2` on the child at index `i`. -/
def canLend (t : BPTree K V) (ptrs : List (Option Nat)) (i : Int) : Option Bool := do
  let some s := vget ptrs i | none
  let some s := s | none
  let some sn := t.heap.read s | none
  some (decide (sn.key.length > (t.order + 1) / 2))

/-- The branch `// borrow from left` of `handleNodeUnderflow`. -/
def nodeBorrowLeft (t : BPTree K V) (node parent : Nat) (idx : Int) : Option (BPTree K V) := do
  let some nd := t.heap.read node | none
  let some pn := t.heap.read parent | none
  let some left_sibling := vget pn.ptr2node (idx - 1) | none
  let some left_sibling := left_sibling | none
  let some ln := t.heap.read left_sibling | none
  let some sep := vget pn.key (idx - 1) | none
  let some moved := ln.ptr2node.getLast? | none
  let h1 := t.heap.write node { nd with key := sep :: nd.key, ptr2node := moved :: nd.ptr2node }
  let some moved := moved | none
  let some mn := h1.read moved | none
  let h2 := h1.write moved { mn with parent := some node }
  -- update parent index
  let some ln := h2.read left_sibling | none
  let some up := ln.key.getLast? | none
  let some pn := h2.read parent | none
  let some pkey := vset pn.key (idx - 1) up | none
  let h3 := h2.write parent { pn with key := pkey }
  let some ln := h3.read left_sibling | none
  let some lkey := vpop ln.key | none
  let some lptr := vpop ln.ptr2node | none
  some { t with heap := h3.write left_sibling { ln with key := lkey, ptr2node := lptr } }

/-- The branch `// borrow from right` of `handleNodeUnderflow`. -/
def nodeBorrowRight (t : BPTree K V) (node parent : Nat) (idx : Int) : Option (BPTree K V) := do
  let some nd := t.heap.read node | none
  let some pn := t.heap.read parent | none
  let some right_sibling := vget pn.ptr2node (idx + 1) | none
  let some right_sibling := right_sibling | none
  let some rn := t.heap.read right_sibling | none
  let some sep := vget pn.key idx | none
  let some moved := rn.ptr2node.head? | none
  let h1 := t.heap.write node { nd with key := nd.key ++ [sep], ptr2node := nd.ptr2node ++ [moved] }
  let some moved := moved | none
  let some mn := h1.read moved | none
  let h2 := h1.write moved { mn with parent := some node }
  -- update parent index
  let some rn := h2.read right_sibling | none
  let some up := rn.key.head? | none
  let some pn := h2.read parent | none
  let some pkey := vset pn.key idx up | none
  let h3 := h2.write parent { pn with key := pkey }
  let some rn := h3.read right_sibling | none
  let some rkey := verase rn.key 0 | none
  let some rptr := verase rn.ptr2node 0 | none
  some { t with heap := h3.write right_sibling { rn with key := rkey, ptr2node := rptr } }

/-- The branch `// left` of the merge in `handleNodeUnderflow`, up to `delete node`. -/
def nodeMergeLeft (t : BPTree K V) (node parent : Nat) (idx : Int) : Option (BPTree K V) := do
  let some nd := t.heap.read node | none
  let some pn := t.heap.read parent | none
  let some left_sibling := vget pn.ptr2node (idx - 1) | none
  let some left_sibling := left_sibling | none
  let some ln := t.heap.read left_sibling | none
  let some sep := vget pn.key (idx - 1) | none
  let h1 := t.heap.write left_sibling
    { ln with key := ln.key ++ [sep] ++ nd.key, ptr2node := ln.ptr2node ++ nd.ptr2node }
  let some nd := h1.read node | none
  let some h2 := reparent left_sibling nd.ptr2node h1 | none
  let some pn := h2.read parent | none
  let some pkey := verase pn.key (idx - 1) | none
  let some pptr := verase pn.ptr2node idx | none
  let h3 := h2.write parent { pn with key := pkey, ptr2node := pptr }
  some { t with heap := h3.free node }

/-- The branch `// right` of the merge in `handleNodeUnderflow`, up to
`delete right_sibling`. -/
def nodeMergeRight (t : BPTree K V) (node parent : Nat) (idx : Int) : Option (BPTree K V) := do
  let some nd := t.heap.read node | none
  let some pn := t.heap.read parent | none
  let some right_sibling := vget pn.ptr2node (idx + 1) | none
  let some right_sibling := right_sibling | none
  let some rn := t.heap.read right_sibling | none
  let some sep := vget pn.key idx | none
  let h1 := t.heap.write node
    { nd with key := nd.key ++ [sep] ++ rn.key, ptr2node := nd.ptr2node ++ rn.ptr2node }
  let some rn := h1.read right_sibling | none
  let some h2 := reparent node rn.ptr2node h1 | none
  let some pn := h2.read parent | none
  let some pkey := verase pn.key idx | none
  let some pptr := verase pn.ptr2node (idx + 1) | none
  let h3 := h2.write parent { pn with key := pkey, ptr2node := pptr }
  some { t with heap := h3.free right_sibling }

/-- The test `parent->key.size() < (order + 1) / 2 && parent != root` made after a merge. -/
def parentUnderflow (t : BPTree K V) (parent : Nat) : Option Bool := do
  let some pn := t.heap.read parent | none
  some (decide (pn.key.length < (t.order + 1) / 2) && decide (some parent ≠ t.root))

/-- The function `handleNodeUnderflow`; the fuel bounds the recursion towards the root. -/
def handleNodeUnderflow : Nat → BPTree K V → Nat → Option (BPTree K V)
  | 0, _, _ => none
  | fuel + 1, t, node => do
    let some nd := t.heap.read node | none
    let some parent := nd.parent | none
    let some pn := t.heap.read parent | none
    let idx := childIndex pn.ptr2node node
    let some bl := (if idx > 0 then canLend t pn.ptr2node (idx - 1) else some false) | none
    if bl then nodeBorrowLeft t node parent idx
    else do
      let some br := (if sizeT idx < sizeT ((pn.ptr2node.length : Int) - 1)
        then canLend t pn.ptr2node (idx + 1) else some false) | none
      if br then nodeBorrowRight t node parent idx
      else do
        -- can't borrow, merge
        let some t1 := (if idx > 0 then nodeMergeLeft t node parent idx
          else nodeMergeRight t node parent idx) | none
        let some under := parentUnderflow t1 parent | none
        let some t2 := (if under then handleNodeUnderflow fuel t1 parent else some t1) | none
        -- parent is empty
        collapseRoot t2

/-- The branch `// borrow from left sib` of `handleLeafUnderflow`. -/
def leafBorrowLeft (t : BPTree K V) (leaf parent : Nat) (idx : Int) : Option (BPTree K V) := do
  let some lf := t.heap.read leaf | none
  let some pn := t.heap.read parent | none
  let some left_sibling := vget pn.ptr2node (idx - 1) | none
  let some left_sibling := left_sibling | none
  let some ln := t.heap.read left_sibling | none
  let some k := ln.key.getLast? | none
  let some v := ln.ptr2val.getLast? | none
  let h1 := t.heap.write leaf { lf with key := k :: lf.key, ptr2val := v :: lf.ptr2val }
  let some ln := h1.read left_sibling | none
  let some lkey := vpop ln.key | none
  let some lval := vpop ln.ptr2val | none
  let h2 := h1.write left_sibling { ln with key := lkey, ptr2val := lval }
  -- update parent index
  let some lf := h2.read leaf | none
  let some k0 := vget lf.key 0 | none
  let some pn := h2.read parent | none
  let some pkey := vset pn.key (idx - 1) k0 | none
  some { t with heap := h2.write parent { pn with key := pkey } }

/-- The branch `// borrow from right sib` of `handleLeafUnderflow`. -/
def leafBorrowRight (t : BPTree K V) (leaf parent : Nat) (idx : Int) : Option (BPTree K V) := do
  let some lf := t.heap.read leaf | none
  let some pn := t.heap.read parent | none
  let some right_sibling := vget pn.ptr2node (idx + 1) | none
  let some right_sibling := right_sibling | none
  let some rn := t.heap.read right_sibling | none
  let some k := rn.key.head? | none
  let some v := rn.ptr2val.head? | none
  let h1 := t.heap.write leaf { lf with key := lf.key ++ [k], ptr2val := lf.ptr2val ++ [v] }
  let some rn := h1.read right_sibling | none
  let some rkey := verase rn.key 0 | none
  let some rval := verase rn.ptr2val 0 | none
  let h2 := h1.write right_sibling { rn with key := rkey, ptr2val := rval }
  -- update parent index
  let some rn := h2.read right_sibling | none
  let some k0 := vget rn.key 0 | none
  let some pn := h2.read parent | none
  let some pkey := vset pn.key idx k0 | none
  some { t with heap := h2.write parent { pn with key := pkey } }

/-- The branch `// left` of the merge in `handleLeafUnderflow`, up to `delete leaf`. -/
def leafMergeLeft (t : BPTree K V) (leaf parent : Nat) (idx : Int) : Option (BPTree K V) := do
  let some lf := t.heap.read leaf | none
  let some pn := t.heap.read parent | none
  let some left_sibling := vget pn.ptr2node (idx - 1) | none
  let some left_sibling := left_sibling | none
  let some ln := t.heap.read left_sibling | none
  let h1 := t.heap.write left_sibling
    { ln with key := ln.key ++ lf.key, ptr2val := ln.ptr2val ++ lf.ptr2val, next := lf.next }
  let some pn := h1.read parent | none
  let some pkey := verase pn.key (idx - 1) | none
  let some pptr := verase pn.ptr2node idx | none
  let h2 := h1.write parent { pn with key := pkey, ptr2node := pptr }
  some { t with heap := h2.free leaf }

/-- The branch `// right` of the merge in `handleLeafUnderflow`, up to
`delete right_sibling`. -/
def leafMergeRight (t : BPTree K V) (leaf parent : Nat) (idx : Int) : Option (BPTree K V) := do
  let some lf := t.heap.read leaf | none
  let some pn := t.heap.read parent | none
  let some right_sibling := vget pn.ptr2node (idx + 1) | none
  let some right_sibling := right_sibling | none
  let some rn := t.heap.read right_sibling | none
  let h1 := t.heap.write leaf
    { lf with key := lf.key ++ rn.key, ptr2val := lf.ptr2val ++ rn.ptr2val, next := rn.next }
  let some pn := h1.read parent | none
  let some pkey := verase pn.key idx | none
  let some pptr := verase pn.ptr2node (idx + 1) | none
  let h2 := h1.write parent { pn with key := pkey, ptr2node := pptr }
  some { t with heap := h2.free right_sibling }

/-- The function `handleLeafUnderflow`. -/
def handleLeafUnderflow (t : BPTree K V) (leaf : Nat) : Option (BPTree K V) := do
  let some lf := t.heap.read leaf | none
  let some parent := lf.parent | none
  let some pn := t.heap.read parent | none
  let idx := childIndex pn.ptr2node leaf
  let some bl := (if idx > 0 then canLend t pn.ptr2node (idx - 1) else some false) | none
  if bl then leafBorrowLeft t leaf parent idx
  else do
    let some br := (if sizeT idx < sizeT ((pn.ptr2node.length : Int) - 1)
      then canLend t pn.ptr2node (idx + 1) else some false) | none
    if br then leafBorrowRight t leaf parent idx
    else do
      -- can't borrow, merge
      let some t1 := (if idx > 0 then leafMergeLeft t leaf parent idx
        else leafMergeRight t leaf parent idx) | none
      let some under := parentUnderflow t1 parent | none
      let some t2 := (if under then handleNodeUnderflow t1.heap.length t1 parent else some t1) | none
      -- parent is empty
      collapseRoot t2

/-- The function `erase`. -/
def erase (t : BPTree K V) (_key : K) : Option (BPTree K V) := do
  let some pair := keyIndexInLeaf t _key | none
  let loc := pair.2
  if loc = -1 then some t
  else do
    let some leaf := pair.1 | none
    let some lf := t.heap.read leaf | none
    let some k := vget lf.key loc | none
    if k ≠ _key then some t
    else do
      let some key1 := verase lf.key loc | none
      let some val1 := verase lf.ptr2val loc | none
      let t1 : BPTree K V := { t with heap := t.heap.write leaf { lf with key := key1, ptr2val := val1 } }
      -- no underflow
      if key1.length ≥ (t.order + 1) / 2 ∨ some leaf = t.root then some t1
      else handleLeafUnderflow t1 leaf

/-- The function `find`: `some none` is the null result, `some (some v)` a
pointer to the stored value `v`. -/
def find (t : BPTree K V) (_key : K) : Option (Option V) := do
  let some pair := keyIndexInLeaf t _key | none
  let loc := pair.2
  if loc = -1 then some none
  else do
    let some leaf := pair.1 | none
    let some lf := t.heap.read leaf | none
    let some k := vget lf.key loc | none
    if k ≠ _key then some none
    else do
      let some v := vget lf.ptr2val loc | none
      some (some v)

/-- The function `update`; returns the new tree and the boolean result. -/
def update (t : BPTree K V) (_key : K) (_new_val : V) : Option (BPTree K V × Bool) := do
  let some pair := keyIndexInLeaf t _key | none
  let loc := pair.2
  if loc = -1 then some (t, false)
  else do
    let some leaf := pair.1 | none
    let some lf := t.heap.read leaf | none
    let some k := vget lf.key loc | none
    if k ≠ _key then some (t, false)
    else do
      let some val1 := vset lf.ptr2val loc _new_val | none
      some ({ t with heap := t.heap.write leaf { lf with ptr2val := val1 } }, true)

/-! ## Serialization -/

end Ops

/-- One item of the file: the `bool` flag, the `size_t` key count, a key or a
value, each written verbatim.  A file that ends inside the bytes of a key or
of a value has `cutKey` or `cutVal` as its last item: the item carries the
object that reading these bytes over a value-initialised object leaves.  A
file that ends inside the bytes of a key count ends, in the model, before the
count.  The stream is the sequence of items; a read that meets an item of
another kind is outside the model. -/
inductive Tok (K V : Type) where
  | flag (b : Bool)
  | count (n : Nat)
  | key (k : K)
  | val (v : V)
  | cutKey (k : K)
  | cutVal (v : V)
  deriving DecidableEq, Repr

section Serial

variable {K V : Type} [LinearOrder K]

/-- The loop `while (!q.empty())` of `serialize`: the items written from the
queue `q` on. -/
def serializeLoop (h : Heap K V) : Nat → List (Option Nat) → Option (List (Tok K V))
  | _, [] => some []
  | 0, _ :: _ => none
  | fuel + 1, node :: q => do
    let some node := node | none
    let some nd := h.read node | none
    let head : List (Tok K V) := Tok.flag nd.leaf :: Tok.count nd.key.length :: nd.key.map Tok.key
    if nd.leaf then
      let some rest := serializeLoop h fuel q | none
      some (head ++ nd.ptr2val.map Tok.val ++ rest)
    else
      let some rest := serializeLoop h fuel (q ++ nd.ptr2node) | none
      some (head ++ rest)

/-- The function `serialize`, for a file that opens: the items written.  The
queue pops each node of a tree once, so the number of cells of the store
bounds the number of rounds. -/
def serialize (t : BPTree K V) : Option (List (Tok K V)) :=
  serializeLoop t.heap t.heap.length (match t.root with | none => [] | some r => [some r])

/-- Read `n` keys, one after the other, into the keys that
`key.resize(key_count)` value-initialised (`default` is the value-initialised
key).  A read that meets the end of the file fails: it stores the bytes that
are left, and every later read of the stream does nothing, so the keys that
were not read stay as `resize` made them and the loop goes on to the end. -/
def readKeys [Inhabited K] : Nat → List (Tok K V) → Option (List K × List (Tok K V))
  | 0, s => some ([], s)
  | n + 1, [] => some (List.replicate (n + 1) default, [])
  | n + 1, Tok.key k :: s =>
    match readKeys n s with
    | some (ks, s1) => some (k :: ks, s1)
    | none => none
  | n + 1, Tok.cutKey k :: _ => some (k :: List.replicate n default, [])
  | _ + 1, _ => none

/-- Read `n` values, one after the other, each into the object that
`new ValT()` value-initialised (`default`).  A read that meets the end of the
file fails and leaves the values that were not read as they are. -/
def readVals [Inhabited V] : Nat → List (Tok K V) → Option (List V × List (Tok K V))
  | 0, s => some ([], s)
  | n + 1, [] => some (List.replicate (n + 1) default, [])
  | n + 1, Tok.val v :: s =>
    match readVals n s with
    | some (vs, s1) => some (v :: vs, s1)
    | none => none
  | n + 1, Tok.cutVal v :: _ => some (v :: List.replicate n default, [])
  | _ + 1, _ => none

/-- The loop `// Find the correct position to insert the child`: the first
null slot of `parent` receives `child`. -/
def linkChild (h : Heap K V) (parent child : Nat) : Option (Heap K V) := do
  let some pn := h.read parent | none
  if pn.ptr2node.indexOf none < pn.ptr2node.length then
    let h1 := h.write parent { pn with ptr2node := pn.ptr2node.set (pn.ptr2node.indexOf none) (some child) }
    let some cn := h1.read child | none
    some (h1.write child { cn with parent := some parent })
  else some h

/-- The loop `while (infile)` of `deserialize`; each round reads one record.
The round that finds the file at its end when it reads the flag leaves the
loop.  A round whose reads of keys or values meet the end of the file goes on
with the node as it is, links it and leaves the loop at the next test of the
stream.  A file that ends between a flag and the end of the key count leaves
`key_count` uninitialised: the model gives no result there. -/
def deserializeLoop [Inhabited K] [Inhabited V] :
    Nat → List (Tok K V) → List Nat → BPTree K V → Option (BPTree K V)
  | 0, _, _, _ => none
  | _ + 1, [], _, t => some t
  | fuel + 1, Tok.flag is_leaf :: Tok.count key_count :: s, parent_queue, t => do
    let some (keys, s1) := readKeys key_count s | none
    let some (vals, s2) := (if is_leaf then readVals key_count s1 else some ([], s1)) | none
    let current_node := t.heap.length
    let nd : Node K V :=
      { leaf := is_leaf, parent := none, next := none, key := keys,
        ptr2node := if is_leaf then [] else List.replicate (key_count + 1) none, ptr2val := vals }
    let h1 := (t.heap.alloc nd).1
    -- Link to parent
    let some (t1, queue1) :=
      (match t.root with
        | none => some ({ t with root := some current_node, heap := h1 }, parent_queue)
        | some _ =>
          match parent_queue with
          | [] => none
          | parent :: rest =>
            match linkChild h1 parent current_node with
            | some h2 => some ({ t with heap := h2 }, rest)
            | none => none) | none
    -- If not leaf, push to parent queue for children
    let queue2 := if is_leaf then queue1 else queue1 ++ List.replicate (key_count + 1) current_node
    deserializeLoop fuel s2 queue2 t1
  | _ + 1, _, _, _ => none

/-- The function `deserialize`.  The argument is the content of the file, or
`none` when the file cannot be opened; the result is the tree together with
the lines written to `std::cerr`.  The function returns `void` and has no
other way to report anything. -/
def deserialize [Inhabited K] [Inhabited V] (t : BPTree K V) (file : Option (List (Tok K V))) :
    Option (BPTree K V × List String) :=
  match file with
  | none => some (t, ["Error opening file for reading!"])
  | some s =>
    match deserializeLoop (s.length + 1) s [] { t with root := none } with
    | some t1 => some (t1, [])
    | none => none

/-! ## Observations on a tree -/

/-- Concatenate the results of `f` on every child, left to right. -/
def collect {α : Type} (f : Nat → Option (List α)) : List (Option Nat) → Option (List α)
  | [] => some []
  | c :: cs => do
    let some c := c | none
    let some xs := f c | none
    let some ys := collect f cs | none
    some (xs ++ ys)

/-- The key/value pairs in the leaves below `p`, children taken left to right. -/
def entriesLoop (h : Heap K V) : Nat → Nat → Option (List (K × V))
  | 0, _ => none
  | fuel + 1, p => do
    let some nd := h.read p | none
    if nd.leaf then some (nd.key.zip nd.ptr2val)
    else collect (entriesLoop h fuel) nd.ptr2node

/-- The key/value pairs of the tree, leaves taken left to right. -/
def entries (t : BPTree K V) : Option (List (K × V)) :=
  match t.root with
  | none => some []
  | some r => entriesLoop t.heap t.heap.length r

/-- The keys of the tree, leaves taken left to right. -/
def leafKeys (t : BPTree K V) : Option (List K) :=
  (entries t).map fun es => es.map Prod.fst

/-- The depth of every leaf below `p`, where `p` itself is at depth `d`. -/
def depthsLoop (h : Heap K V) : Nat → Nat → Nat → Option (List Nat)
  | 0, _, _ => none
  | fuel + 1, p, d => do
    let some nd := h.read p | none
    if nd.leaf then some [d]
    else collect (fun c => depthsLoop h fuel c (d + 1)) nd.ptr2node

/-- The depth of every leaf of the tree, the root being at depth `0`. -/
def leafDepths (t : BPTree K V) : Option (List Nat) :=
  match t.root with
  | none => some []
  | some r => depthsLoop t.heap t.heap.length r 0

/-- The leftmost leaf below `p`: follow the first child down. -/
def leftmostLoop (h : Heap K V) : Nat → Nat → Option Nat
  | 0, _ => none
  | fuel + 1, p => do
    let some nd := h.read p | none
    if nd.leaf then some p
    else
      let some c := vget nd.ptr2node 0 | none
      let some c := c | none
      leftmostLoop h fuel c

/-- The keys met by following `next` from the leaf `p` to the end of the chain. -/
def chainLoop (h : Heap K V) : Nat → Option Nat → Option (List K)
  | _, none => some []
  | 0, some _ => none
  | fuel + 1, some p => do
    let some nd := h.read p | none
    let some rest := chainLoop h fuel nd.next | none
    some (nd.key ++ rest)

/-- The leaf-chain traversal: the keys met from the leftmost leaf along `next`. -/
def chainKeys (t : BPTree K V) : Option (List K) :=
  match t.root with
  | none => some []
  | some r =>
    match leftmostLoop t.heap t.heap.length r with
    | some l => chainLoop t.heap t.heap.length (some l)
    | none => none

/-- The number of leaves of the tree. -/
def leafCount (t : BPTree K V) : Option Nat :=
  (leafDepths t).map List.length

/-- The height of the tree: the depth of its leftmost leaf, `0` for an empty tree. -/
def height (t : BPTree K V) : Option Nat :=
  (leafDepths t).map fun ds => ds.headD 0

/-! ## Runs of the public operations -/

end Serial

/-- A call of one of the mutating public operations. -/
inductive Op (K V : Type) where
  | insert (k : K) (v : V)
  | erase (k : K)
  | update (k : K) (v : V)
  deriving DecidableEq, Repr

section Runs

variable {K V : Type} [LinearOrder K]

/-- Perform one call. -/
def step (t : BPTree K V) : Op K V → Option (BPTree K V)
  | Op.insert k v => insert t k v
  | Op.erase k => erase t k
  | Op.update k v => (update t k v).map Prod.fst

/-- Perform the calls one after the other, starting from `t`. -/
def runFrom (t : BPTree K V) : List (Op K V) → Option (BPTree K V)
  | [] => some t
  | op :: ops =>
    match step t op with
    | some t1 => runFrom t1 ops
    | none => none

/-- The tree built from the empty tree of order `n` by the calls `ops`. -/
def run (n : Nat) (ops : List (Op K V)) : Option (BPTree K V) :=
  runFrom (BPTree.new n) ops

end Runs

/-! ## Well-formed trees

The invariant is stated node by node.  Besides the store it mentions three
ghost maps on addresses: the open key range `[lo, hi)` a node is responsible
for (`none` is an open end) and the height of the node above the leaves. -/

section Invariant

variable {K V : Type} [LinearOrder K]

/-- The bound `lo` is at most `k`. -/
def loLe (lo : Option K) (k : K) : Prop :=
  match lo with
  | none => True
  | some b => b ≤ k

/-- The bound `lo` is below `k`. -/
def loLt (lo : Option K) (k : K) : Prop :=
  match lo with
  | none => True
  | some b => b < k

/-- The key `k` is below the bound `hi`. -/
def ltHi (k : K) (hi : Option K) : Prop :=
  match hi with
  | none => True
  | some b => k < b

/-- The last key of `a`, or `lo` when there is none. -/
def lastOr (lo : Option K) (a : List K) : Option K :=
  match a.getLast? with
  | some x => some x
  | none => lo

/-- The first key of `b`, or `hi` when there is none. -/
def headOr (b : List K) (hi : Option K) : Option K :=
  match b with
  | [] => hi
  | x :: _ => some x

/-- The number of keys `<= k` at the front of the list; on a sorted list,
the number of keys `<= k`. -/
def rank (keys : List K) (k : K) : Nat :=
  (keys.takeWhile fun x => decide (x ≤ k)).length

/-- The ghost maps. -/
structure Ghost (K : Type) where
  lo : Nat → Option K
  hi : Nat → Option K
  ht : Nat → Nat

/-- The children `cs` of a node with keys `keys` and range `[lo, hi)`: there
is one more child than keys, and `P` holds of every child with the range its
two neighbouring keys leave it. -/
def Kids (P : Option Nat → Option K → Option K → Prop) :
    Option K → List K → List (Option Nat) → Option K → Prop
  | lo, [], cs, hi => ∃ c, cs = [c] ∧ P c lo hi
  | lo, k :: ks, cs, hi => ∃ c cs1, cs = c :: cs1 ∧ P c lo (some k) ∧ Kids P (some k) ks cs1 hi

/-- A run of children, each closed by the key after it. -/
def SegL (P : Option Nat → Option K → Option K → Prop) :
    Option K → List K → List (Option Nat) → Prop
  | _, [], cs => cs = []
  | lo, k :: ks, cs => ∃ c cs1, cs = c :: cs1 ∧ P c lo (some k) ∧ SegL P (some k) ks cs1

/-- What a node at `p` asks of its child `c` with range `[lo, hi)`. -/
def ChildOK (g : Ghost K) (h : Heap K V) (p : Nat) (c : Option Nat) (lo hi : Option K) : Prop :=
  ∃ c1 cn, c = some c1 ∧ h.read c1 = some cn ∧ cn.parent = some p ∧
    g.ht p = g.ht c1 + 1 ∧ g.lo c1 = lo ∧ g.hi c1 = hi

/-- The node `nd` at address `p` is well formed. -/
structure NodeOK (g : Ghost K) (h : Heap K V) (p : Nat) (nd : Node K V) : Prop where
  sorted : nd.key.Pairwise (fun a b => a < b)
  lower : ∀ k ∈ nd.key, if nd.leaf then loLe (g.lo p) k else loLt (g.lo p) k
  upper : ∀ k ∈ nd.key, ltHi k (g.hi p)
  leafOK : nd.leaf = true → g.ht p = 0 ∧ nd.ptr2val.length = nd.key.length
  kids : nd.leaf = false → Kids (ChildOK g h p) (g.lo p) nd.key nd.ptr2node (g.hi p)

/-- The member `next` of the leaf `nd` at `p`: null when the range of `p` has
no upper end, and else the leaf whose range begins where that of `p` ends. -/
def NextOK (g : Ghost K) (h : Heap K V) (p : Nat) (nd : Node K V) : Prop :=
  match g.hi p with
  | none => nd.next = none
  | some b => ∃ q qn, nd.next = some q ∧ h.read q = some qn ∧ qn.leaf = true ∧ g.lo q = some b

/-- The tree is well formed with respect to the ghost maps, except that the
internal node `exc`, if any, may have lost its last key. -/
structure InvG (t : BPTree K V) (g : Ghost K) (exc : Option Nat) : Prop where
  root : ∃ r rn, t.root = some r ∧ t.heap.read r = some rn ∧ rn.parent = none ∧
    g.lo r = none ∧ g.hi r = none
  nodes : ∀ p nd, t.heap.read p = some nd → NodeOK g t.heap p nd
  attached : ∀ p nd, t.heap.read p = some nd → t.root ≠ some p →
    ∃ q qn, nd.parent = some q ∧ t.heap.read q = some qn ∧ qn.leaf = false ∧
      some p ∈ qn.ptr2node
  nonempty : ∀ p nd, t.heap.read p = some nd → nd.leaf = false → exc ≠ some p → nd.key ≠ []
  low : ∀ p nd, t.heap.read p = some nd → g.ht p < t.heap.length
  chain : ∀ p nd, t.heap.read p = some nd → nd.leaf = true → NextOK g t.heap p nd

/-- The tree is well formed: it is the empty tree of the constructor, or it
satisfies the node-by-node invariant for some ghost maps. -/
def Inv (t : BPTree K V) : Prop :=
  (t.root = none ∧ t.heap = []) ∨ ∃ g, InvG t g none

/-- The leaf at some address stores `k` with the value `v`. -/
def Contains (t : BPTree K V) (k : K) (v : V) : Prop :=
  ∃ (p : Nat) (nd : Node K V) (i : Nat), t.heap.read p = some nd ∧ nd.leaf = true ∧
    nd.key[i]? = some k ∧ nd.ptr2val[i]? = some v

/-- What a leaf at address `p` stores: its keys and values. -/
def leafView (h : Heap K V) (p : Nat) : Option (List K × List V) :=
  match h.read p with
  | some nd => if nd.leaf then some (nd.key, nd.ptr2val) else none
  | none => none

/-- Give the address `p` a new range and height. -/
def Ghost.set (g : Ghost K) (p : Nat) (lo hi : Option K) (ht : Nat) : Ghost K :=
  { lo := fun q => if q = p then lo else g.lo q
    hi := fun q => if q = p then hi else g.hi q
    ht := fun q => if q = p then ht else g.ht q }

/-- The key/value pairs stored by the leaf at address `p`. -/
def pairsAt (h : Heap K V) (p : Nat) : List (K × V) :=
  match leafView h p with
  | some (ks, vs) => ks.zip vs
  | none => []

/-- Two stores hold the same key/value pairs in their leaves. -/
def SamePairs (h h1 : Heap K V) : Prop :=
  ∀ k v, (∃ p, (k, v) ∈ pairsAt h1 p) ↔ (∃ p, (k, v) ∈ pairsAt h p)

/-- The ghost maps after the node `P` was split at the key `s` and its right
half went to the address `N`. -/
def splitGhost (g : Ghost K) (P N : Nat) (s : K) : Ghost K :=
  (g.set P (g.lo P) (some s) (g.ht P)).set N (some s) (g.hi P) (g.ht P)

/-- The node `P` with record `pn` was split at the key `s`: in the store `h2`
it holds `pn1`, the fresh address holds the right half `nn`, and the children
in `R` were handed over to the right half. -/
structure SplitOK (t : BPTree K V) (g : Ghost K) (P : Nat) (pn : Node K V) (h2 : Heap K V)
    (pn1 nn : Node K V) (s : K) (R : Nat → Prop) : Prop where
  live : t.heap.read P = some pn
  len : h2.length = t.heap.length + 1
  readP : h2.read P = some pn1
  readN : h2.read t.heap.length = some nn
  readR : ∀ p, R p → p ≠ P ∧ nn.leaf = false ∧ some p ∈ nn.ptr2node ∧ ∃ nd, t.heap.read p = some nd ∧
    nd.parent = some P ∧ h2.read p = some { nd with parent := some t.heap.length }
  readO : ∀ p, ¬ R p → p ≠ P → p ≠ t.heap.length → h2.read p = t.heap.read p
  parP : pn1.parent = pn.parent
  parN : nn.parent = pn.parent
  leafP : pn1.leaf = pn.leaf
  leafN : nn.leaf = pn.leaf
  nextP : pn.leaf = true → pn1.next = some t.heap.length
  nextN : pn.leaf = true → nn.next = pn.next
  keep : ∀ p, some p ∈ pn.ptr2node → ¬ R p → some p ∈ pn1.ptr2node
  loS : loLt (g.lo P) s
  hiS : ltHi s (g.hi P)
  okP : NodeOK (splitGhost g P t.heap.length s) h2 P pn1
  okN : NodeOK (splitGhost g P t.heap.length s) h2 t.heap.length nn
  neP : pn1.key ≠ []
  neN : nn.key ≠ []

/-- The ghost maps after the node `B` was merged into its left neighbour `A`. -/
def mergeGhost (g : Ghost K) (A B : Nat) : Ghost K :=
  g.set A (g.lo A) (g.hi B) (g.ht A)

/-- The ghost maps after the border between the neighbours `A` and `B` moved to the key `m1`. -/
def borrowGhost (g : Ghost K) (A B : Nat) (m1 : K) : Ghost K :=
  (g.set A (g.lo A) (some m1) (g.ht A)).set B (some m1) (g.hi B) (g.ht B)

/-- The child `B` of `Q` was merged into its left neighbour `A`: in the store
`h2` the node `A` holds `an1`, `B` is gone, `Q` lost the separator `m` and the
slot of `B`, and the children in `R` (those of `B`) have `A` as their parent. -/
structure MergeOK (t : BPTree K V) (g : Ghost K) (Q A B : Nat) (qn an bn : Node K V)
    (a b : List K) (m : K) (ca cb : List (Option Nat)) (h2 : Heap K V) (an1 : Node K V)
    (R : Nat → Prop) : Prop where
  liveQ : t.heap.read Q = some qn
  leafQ : qn.leaf = false
  keyQ : qn.key = a ++ m :: b
  ptrQ : qn.ptr2node = ca ++ some A :: some B :: cb
  lenQ : a.length = ca.length
  liveA : t.heap.read A = some an
  liveB : t.heap.read B = some bn
  len : h2.length = t.heap.length
  readA : h2.read A = some an1
  readB : h2.read B = none
  readQ : h2.read Q = some { qn with key := a ++ b, ptr2node := ca ++ some A :: cb }
  readR : ∀ p, R p → an1.leaf = false ∧ some p ∈ an1.ptr2node ∧ ∃ nd, t.heap.read p = some nd ∧
    nd.parent = some B ∧ h2.read p = some { nd with parent := some A }
  readO : ∀ p, ¬ R p → p ≠ A → p ≠ B → p ≠ Q → h2.read p = t.heap.read p
  allR : ∀ p, bn.leaf = false → some p ∈ bn.ptr2node → R p
  parA : an1.parent = an.parent
  leafA : an1.leaf = an.leaf
  leafB : bn.leaf = an.leaf
  nextA : an.leaf = true → an1.next = bn.next
  keep : ∀ p, some p ∈ an.ptr2node → some p ∈ an1.ptr2node
  okA : NodeOK (mergeGhost g A B) h2 A an1
  neA : an1.leaf = false → an1.key ≠ []

/-- The neighbours `A` and `B` under `Q` exchanged an entry: in the store `h2`
they hold `an1` and `bn1`, the separator `m` between them became `m1`, and the
children in `R` (the one that changed sides) have the receiver `X` as parent. -/
structure BorrowOK (t : BPTree K V) (g : Ghost K) (Q A B : Nat) (qn an bn : Node K V)
    (a b : List K) (m m1 : K) (ca cb : List (Option Nat)) (h2 : Heap K V) (an1 bn1 : Node K V)
    (R : Nat → Prop) (X : Nat) : Prop where
  liveQ : t.heap.read Q = some qn
  leafQ : qn.leaf = false
  keyQ : qn.key = a ++ m :: b
  ptrQ : qn.ptr2node = ca ++ some A :: some B :: cb
  lenQ : a.length = ca.length
  liveA : t.heap.read A = some an
  liveB : t.heap.read B = some bn
  len : h2.length = t.heap.length
  readA : h2.read A = some an1
  readB : h2.read B = some bn1
  readQ : h2.read Q = some { qn with key := a ++ m1 :: b }
  readR : ∀ p, R p → (∃ xn1, h2.read X = some xn1 ∧ xn1.leaf = false ∧ some p ∈ xn1.ptr2node) ∧
    ∃ nd, t.heap.read p = some nd ∧ (nd.parent = some A ∨ nd.parent = some B) ∧
      h2.read p = some { nd with parent := some X }
  readO : ∀ p, ¬ R p → p ≠ A → p ≠ B → p ≠ Q → h2.read p = t.heap.read p
  parA : an1.parent = an.parent
  parB : bn1.parent = bn.parent
  leafA : an1.leaf = an.leaf
  leafB : bn1.leaf = bn.leaf
  nextA : an1.next = an.next
  nextB : bn1.next = bn.next
  keepA : ∀ p, some p ∈ an.ptr2node → ¬ R p → some p ∈ an1.ptr2node
  keepB : ∀ p, some p ∈ bn.ptr2node → ¬ R p → some p ∈ bn1.ptr2node
  loM : loLt (g.lo A) m1
  hiM : ltHi m1 (g.hi B)
  okA : NodeOK (borrowGhost g A B m1) h2 A an1
  okB : NodeOK (borrowGhost g A B m1) h2 B bn1
  neA : an1.leaf = false → an1.key ≠ []
  neB : bn1.leaf = false → bn1.key ≠ []

/-- The state in which `createIndex` is entered: once the key `s` and the
node `N` are inserted into the parent of `N`, the tree is well formed. -/
def Attach (t : BPTree K V) (g : Ghost K) (N : Nat) (s : K) : Prop :=
  ∃ (nn : Node K V) (Q : Nat) (qn : Node K V) (a b : List K) (ca cb : List (Option Nat)) (P : Nat),
    t.heap.read N = some nn ∧ nn.parent = some Q ∧ t.heap.read Q = some qn ∧
    qn.key = a ++ b ∧ qn.ptr2node = ca ++ some P :: cb ∧ a.length = ca.length ∧
    InvG { t with
      heap := t.heap.write Q
        { qn with key := a ++ s :: b, ptr2node := ca ++ some P :: some N :: cb } } g none

/-! ## Subtrees

The keys below a node, the addresses below a node, and what it means for a
node of one store to carry the same subtree as a node of another. -/

/-- The keys in the leaves below the node `p`, left to right. -/
def subtreeKeys (t : BPTree K V) (p : Nat) : Option (List K) :=
  (entriesLoop t.heap t.heap.length p).map fun es => es.map Prod.fst

/-- The smallest key of a list. -/
def smallest : List K → Option K
  | [] => none
  | x :: xs => some (xs.foldl min x)

/-- The key `keys[i]` of the node `p`, with the smallest key below `children[i+1]`. -/
def sepAt (t : BPTree K V) (p i : Nat) : Option (K × Option K) :=
  match t.heap.read p with
  | none => none
  | some nd =>
    match nd.key[i]?, nd.ptr2node[i + 1]? with
    | some s, some (some c) => (subtreeKeys t c).map fun ks => (s, smallest ks)
    | _, _ => none

/-- The parent of a node, or the node itself when it has none. -/
def parentOf (h : Heap K V) (p : Nat) : Nat :=
  match h.read p with
  | some nd => nd.parent.getD p
  | none => p

/-- The addresses of the nodes below `p`, down to `d` levels, parents first. -/
def nodesBelow (h : Heap K V) : Nat → Nat → List Nat
  | 0, p => [p]
  | d + 1, p =>
    p :: (match h.read p with
      | some nd => nd.ptr2node.flatMap fun c =>
        match c with
        | some x => nodesBelow h d x
        | none => []
      | none => [])

/-- The number of nodes the queue of `serialize` still has to write: the
nodes below its entries. -/
def queueSize (g : Ghost K) (h : Heap K V) (q : List (Option Nat)) : Nat :=
  (q.map fun c =>
    match c with
    | some x => (nodesBelow h (g.ht x) x).length
    | none => 0).sum

/-- The node `q` of the store `h1` carries the subtree of height `d` that the
node `p` carries in the store `h`: the same keys node for node, the same
values in the leaves, and children that are newer than their parent. -/
def Iso (h h1 : Heap K V) : Nat → Nat → Nat → Prop
  | 0, p, q => ∃ nd nd1, h.read p = some nd ∧ h1.read q = some nd1 ∧ nd.leaf = true ∧
      nd1.leaf = true ∧ nd1.key = nd.key ∧ nd1.ptr2val = nd.ptr2val
  | d + 1, p, q => ∃ nd nd1, h.read p = some nd ∧ h1.read q = some nd1 ∧ nd.leaf = false ∧
      nd1.leaf = false ∧ nd1.key = nd.key ∧ nd.ptr2node ≠ [] ∧
      List.Forall₂ (fun c c1 => ∃ x y, c = some x ∧ c1 = some y ∧ q < y ∧ Iso h h1 d x y)
        nd.ptr2node nd1.ptr2node

/-- A node of `deserialize` whose children are still to come: its address,
the children linked so far, the children of the written node that are still
in the queue of `serialize`, and their height. -/
structure Pending where
  addr : Nat
  filled : List (Option Nat)
  rem : List (Option Nat)
  d : Nat

/-- The pending node is in the store as `deserialize` left it. -/
def PendOK (g : Ghost K) (h h1 : Heap K V) (b : Pending) : Prop :=
  ∃ nd1, h1.read b.addr = some nd1 ∧ nd1.leaf = false ∧
    nd1.ptr2node = b.filled ++ List.replicate b.rem.length none ∧ none ∉ b.filled ∧
    b.rem ≠ [] ∧ ∀ c ∈ b.rem, ∃ x xn, c = some x ∧ h.read x = some xn ∧ g.ht x = b.d

end Invariant

end BPlus

namespace BPlus

section AllKeys

variable {K V : Type} [LinearOrder K]

/-! ## The keys of a subtree -/

/-- The keys of every node below `p`, leaf or internal: the keys of the node,
then those below its children, left to right. -/
def keysBelowLoop (h : Heap K V) : Nat → Nat → Option (List K)
  | 0, _ => none
  | fuel + 1, p =>
    match h.read p with
    | none => none
    | some nd =>
      if nd.leaf then some nd.key
      else
        match collect (keysBelowLoop h fuel) nd.ptr2node with
        | some ks => some (nd.key ++ ks)
        | none => none

/-- The keys stored in the subtree of the node `p`, internal nodes included. -/
def keysBelow (t : BPTree K V) (p : Nat) : Option (List K) :=
  keysBelowLoop t.heap t.heap.length p

end AllKeys

end BPlus

namespace BPlus

section Runs2

variable {K V : Type}

/-! ## The leaves in a row, and files cut short -/

/-- The leaves `ls`, in this order, cover the range `[lo, hi)`: each is a
live leaf, the first begins at `lo`, the last ends at `hi`, and each ends at
the key at which the next one begins. -/
def LeafRun (g : Ghost K) (h : Heap K V) (ls : List Nat) (lo hi : Option K) : Prop :=
  (∃ a b, ls.head? = some a ∧ ls.getLast? = some b ∧ g.lo a = lo ∧ g.hi b = hi) ∧
  ls.Chain' (fun a b => ∃ k, g.hi a = some k ∧ g.lo b = some k) ∧
  ∀ l ∈ ls, ∃ ln, h.read l = some ln ∧ ln.leaf = true

end Runs2

end BPlus

set_option linter.unusedSectionVars false
set_option linter.unusedVariables false
set_option linter.unnecessarySeqFocus false
set_option linter.unusedTactic false
set_option linter.unreachableTactic false

namespace BPlus

section Basic

variable {K V : Type} [LinearOrder K]

/-! ### The free store -/

theorem Heap.read_def (h : Heap K V) (p : Nat) : h.read p = (h[p]?).getD none := by
  simp [Heap.read, List.getD_eq_getElem?_getD]

theorem Heap.read_lt {h : Heap K V} {p : Nat} {nd : Node K V} (hp : h.read p = some nd) :
    p < h.length := by
  by_contra hlt
  have : h[p]? = none := List.getElem?_eq_none (by omega)
  simp [Heap.read_def, this] at hp

@[simp] theorem Heap.length_write (h : Heap K V) (p : Nat) (nd : Node K V) :
    (h.write p nd).length = h.length := by
  simp [Heap.write]

@[simp] theorem Heap.length_free (h : Heap K V) (p : Nat) : (h.free p).length = h.length := by
  simp [Heap.free]

@[simp] theorem Heap.length_alloc (h : Heap K V) (nd : Node K V) :
    (h.alloc nd).1.length = h.length + 1 := by
  simp [Heap.alloc]

@[simp] theorem Heap.alloc_snd (h : Heap K V) (nd : Node K V) : (h.alloc nd).2 = h.length := rfl

theorem Heap.read_write (h : Heap K V) (p q : Nat) (nd : Node K V) :
    (h.write p nd).read q = if q = p ∧ p < h.length then some nd else h.read q := by
  simp only [Heap.read_def, Heap.write, List.getElem?_set]
  by_cases hqp : q = p
  · subst hqp
    by_cases hl : q < h.length
    · simp [hl]
    · simp [hl, List.getElem?_eq_none (Nat.le_of_not_lt hl)]
  · have : ¬ p = q := fun e => hqp e.symm
    simp [hqp, this]

theorem Heap.read_write_same {h : Heap K V} {p : Nat} {x : Node K V} (hp : h.read p = some x)
    (nd : Node K V) : (h.write p nd).read p = some nd := by
  simp [Heap.read_write, Heap.read_lt hp]

theorem Heap.read_write_ne (h : Heap K V) {p q : Nat} (hq : q ≠ p) (nd : Node K V) :
    (h.write p nd).read q = h.read q := by
  simp [Heap.read_write, hq]

theorem Heap.read_free (h : Heap K V) (p q : Nat) :
    (h.free p).read q = if q = p then none else h.read q := by
  simp only [Heap.read_def, Heap.free, List.getElem?_set]
  by_cases hqp : q = p
  · subst hqp
    by_cases hl : q < h.length
    · simp [hl]
    · simp [hl, List.getElem?_eq_none (Nat.le_of_not_lt hl)]
  · have : ¬ p = q := fun e => hqp e.symm
    simp [hqp, this]

theorem Heap.read_alloc (h : Heap K V) (nd : Node K V) (q : Nat) :
    (h.alloc nd).1.read q = if q = h.length then some nd else h.read q := by
  simp only [Heap.read_def, Heap.alloc]
  by_cases hq : q = h.length
  · subst hq; simp
  · by_cases hl : q < h.length
    · simp [hq, List.getElem?_append_left hl]
    · have h1 : (h ++ [some nd])[q]? = none := List.getElem?_eq_none (by simp; omega)
      have h2 : h[q]? = none := List.getElem?_eq_none (by omega)
      simp [hq, h1, h2]

theorem Heap.read_length (h : Heap K V) : h.read h.length = none := by
  simp [Heap.read_def]

/-! ### Vectors -/

@[simp] theorem vget_natCast {α : Type} (v : List α) (i : Nat) : vget v (i : Int) = v[i]? := by
  simp [vget]

theorem vget_of_nonneg {α : Type} (v : List α) {i : Int} (hi : 0 ≤ i) :
    vget v i = v[i.toNat]? := by
  simp [vget, hi]

@[simp] theorem vget_zero {α : Type} (v : List α) : vget v 0 = v[0]? := by
  simp [vget]

theorem vset_natCast {α : Type} (v : List α) (i : Nat) (x : α) (hi : i < v.length) :
    vset v (i : Int) x = some (v.set i x) := by
  simp [vset, hi]

theorem vinsert_natCast {α : Type} (v : List α) (i : Nat) (x : α) (hi : i ≤ v.length) :
    vinsert v (i : Int) x = some (v.take i ++ x :: v.drop i) := by
  simp [vinsert, hi]

theorem verase_natCast {α : Type} (v : List α) (i : Nat) (hi : i < v.length) :
    verase v (i : Int) = some (v.take i ++ v.drop (i + 1)) := by
  simp [verase, hi]

theorem vfrom_natCast {α : Type} (v : List α) (i : Nat) (hi : i ≤ v.length) :
    vfrom v (i : Int) = some (v.drop i) := by
  simp [vfrom, hi]

theorem vtrunc_natCast {α : Type} (v : List α) (i : Nat) (hi : i ≤ v.length) :
    vtrunc v (i : Int) = some (v.take i) := by
  simp [vtrunc, hi]

/-! ### Bounds -/

@[simp] theorem loLe_none (k : K) : loLe (none : Option K) k := trivial
@[simp] theorem loLe_some (b k : K) : loLe (some b) k ↔ b ≤ k := Iff.rfl
@[simp] theorem loLt_none (k : K) : loLt (none : Option K) k := trivial
@[simp] theorem loLt_some (b k : K) : loLt (some b) k ↔ b < k := Iff.rfl
@[simp] theorem ltHi_none (k : K) : ltHi k (none : Option K) := trivial
@[simp] theorem ltHi_some (b k : K) : ltHi k (some b) ↔ k < b := Iff.rfl

theorem loLt.loLe {lo : Option K} {k : K} (h : loLt lo k) : loLe lo k := by
  cases lo with
  | none => trivial
  | some b => exact le_of_lt h

theorem loLe.mono_le {lo : Option K} {a b : K} (h : loLe lo a) (hab : a ≤ b) : loLe lo b := by
  cases lo with
  | none => trivial
  | some x => exact le_trans h hab

theorem loLe.trans_lt {lo : Option K} {a b : K} (h : loLe lo a) (hab : a < b) : loLt lo b := by
  cases lo with
  | none => trivial
  | some x => exact lt_of_le_of_lt h hab

theorem loLt.mono_lt {lo : Option K} {a b : K} (h : loLt lo a) (hab : a ≤ b) : loLt lo b := by
  cases lo with
  | none => trivial
  | some x => exact lt_of_lt_of_le h hab

theorem ltHi.anti {hi : Option K} {a b : K} (hab : a ≤ b) (h : ltHi b hi) : ltHi a hi := by
  cases hi with
  | none => trivial
  | some x => exact lt_of_le_of_lt hab h

@[simp] theorem lastOr_nil (lo : Option K) : lastOr lo [] = lo := rfl

@[simp] theorem lastOr_concat (lo : Option K) (a : List K) (x : K) :
    lastOr lo (a ++ [x]) = some x := by
  simp [lastOr]

@[simp] theorem lastOr_cons (lo : Option K) (x : K) (a : List K) :
    lastOr lo (x :: a) = lastOr (some x) a := by
  cases a with
  | nil => simp [lastOr]
  | cons y ys =>
    have hne : (y :: ys).getLast? ≠ none := by simp
    simp only [lastOr, List.getLast?_cons_cons]
    cases h : (y :: ys).getLast? with
    | none => exact absurd h hne
    | some z => rfl

@[simp] theorem headOr_nil (hi : Option K) : headOr [] hi = hi := rfl
@[simp] theorem headOr_cons (x : K) (b : List K) (hi : Option K) : headOr (x :: b) hi = some x := rfl

/-! ### The locator -/

@[simp] theorem rank_nil (k : K) : rank ([] : List K) k = 0 := rfl

theorem rank_cons (x : K) (xs : List K) (k : K) :
    rank (x :: xs) k = if x ≤ k then rank xs k + 1 else 0 := by
  by_cases h : x ≤ k <;> simp [rank, List.takeWhile_cons, h]

theorem rank_le_length (keys : List K) (k : K) : rank keys k ≤ keys.length := by
  induction keys with
  | nil => simp
  | cons x xs ih => rw [rank_cons]; split <;> simp <;> omega

theorem rank_append (a b : List K) (k : K) (ha : ∀ x ∈ a, x ≤ k) (hb : ∀ x ∈ b, k < x) :
    rank (a ++ b) k = a.length := by
  induction a with
  | nil =>
    cases b with
    | nil => simp
    | cons y ys =>
      have : ¬ y ≤ k := not_le.mpr (hb y (by simp))
      simp [rank_cons, this]
  | cons x xs ih =>
    have hx : x ≤ k := ha x (by simp)
    have := ih (fun y hy => ha y (by simp [hy]))
    simp [rank_cons, hx, this]

theorem keyIndexLoop_eq (keys : List K) (k : K) :
    ∀ (fuel m : Nat), m ≤ keys.length → keys.length ≤ m + fuel →
      keyIndexLoop keys k fuel ((m : Int) - 1) = ((m + rank (keys.drop m) k : Nat) : Int) - 1 := by
  intro fuel
  induction fuel with
  | zero =>
    intro m hm hf
    have : keys.drop m = [] := List.drop_eq_nil_of_le (by omega)
    simp [keyIndexLoop, this]
  | succ f ih =>
    intro m hm hf
    by_cases hlt : m < keys.length
    · have hd : keys.drop m = keys[m] :: keys.drop (m + 1) := List.drop_eq_getElem_cons hlt
      have hc : ((m : Int) - 1 + 1 < (keys.length : Int)) := by omega
      have hv : vget keys ((m : Int) - 1 + 1) = some keys[m] := by
        have : ((m : Int) - 1 + 1) = (m : Int) := by omega
        rw [this, vget_natCast]; exact List.getElem?_eq_getElem hlt
      by_cases hle : keys[m] ≤ k
      · have := ih (m + 1) (by omega) (by omega)
        have e : ((m : Int) - 1 + 1) = ((m + 1 : Nat) : Int) - 1 := by push_cast; ring
        simp only [keyIndexLoop, hc, hv, hle, if_true, hd, rank_cons]
        rw [e, this]; push_cast; ring
      · simp only [keyIndexLoop, hc, hv, hle, if_true, if_false, hd, rank_cons]
        simp
    · have : keys.drop m = [] := List.drop_eq_nil_of_le (by omega)
      have hc : ¬ ((m : Int) - 1 + 1 < (keys.length : Int)) := by omega
      simp only [keyIndexLoop, hc, this, if_false]
      simp

theorem keyIndex_eq (nd : Node K V) (k : K) : keyIndex nd k = (rank nd.key k : Int) - 1 := by
  have := keyIndexLoop_eq nd.key k nd.key.length 0 (by omega) (by omega)
  simpa [keyIndex] using this

theorem keyIndex_add_one (nd : Node K V) (k : K) : keyIndex nd k + 1 = (rank nd.key k : Int) := by
  rw [keyIndex_eq]; ring

end Basic

end BPlus

namespace BPlus

section KidsLemmas

variable {K V : Type} [LinearOrder K]

/-! ### Children and their ranges -/

theorem Kids.length_eq {P : Option Nat → Option K → Option K → Prop} :
    ∀ {ks : List K} {lo : Option K} {cs : List (Option Nat)} {hi : Option K},
      Kids P lo ks cs hi → cs.length = ks.length + 1 := by
  intro ks
  induction ks with
  | nil => intro lo cs hi h; obtain ⟨c, rfl, _⟩ := h; rfl
  | cons k ks ih =>
    intro lo cs hi h
    obtain ⟨c, cs1, rfl, _, h2⟩ := h
    simp [ih h2]

theorem Kids.imp {P Q : Option Nat → Option K → Option K → Prop} :
    ∀ {ks : List K} {lo : Option K} {cs : List (Option Nat)} {hi : Option K},
      (∀ c l u, c ∈ cs → P c l u → Q c l u) → Kids P lo ks cs hi → Kids Q lo ks cs hi := by
  intro ks
  induction ks with
  | nil =>
    intro lo cs hi hPQ h
    obtain ⟨c, rfl, hc⟩ := h
    exact ⟨c, rfl, hPQ c _ _ (by simp) hc⟩
  | cons k ks ih =>
    intro lo cs hi hPQ h
    obtain ⟨c, cs1, rfl, hc, h2⟩ := h
    exact ⟨c, cs1, rfl, hPQ c _ _ (by simp) hc,
      ih (fun c l u hmem => hPQ c l u (by simp [hmem])) h2⟩

theorem SegL.seg_length {P : Option Nat → Option K → Option K → Prop} :
    ∀ {ks : List K} {lo : Option K} {cs : List (Option Nat)},
      SegL P lo ks cs → cs.length = ks.length := by
  intro ks
  induction ks with
  | nil => intro lo cs h; simp [SegL] at h; simp [h]
  | cons k ks ih =>
    intro lo cs h
    obtain ⟨c, cs1, rfl, _, h2⟩ := h
    simp [ih h2]

theorem SegL.seg_imp {P Q : Option Nat → Option K → Option K → Prop} :
    ∀ {ks : List K} {lo : Option K} {cs : List (Option Nat)},
      (∀ c l u, c ∈ cs → P c l u → Q c l u) → SegL P lo ks cs → SegL Q lo ks cs := by
  intro ks
  induction ks with
  | nil => intro lo cs _ h; exact h
  | cons k ks ih =>
    intro lo cs hPQ h
    obtain ⟨c, cs1, rfl, hc, h2⟩ := h
    exact ⟨c, cs1, rfl, hPQ c _ _ (by simp) hc,
      ih (fun c l u hmem => hPQ c l u (by simp [hmem])) h2⟩

/-- Cut the children after the first `a.length` of them. -/
theorem kids_append {P : Option Nat → Option K → Option K → Prop} (b : List K)
    (cs : List (Option Nat)) (hi : Option K) :
    ∀ (a : List K) (ca : List (Option Nat)) (lo : Option K), a.length = ca.length →
      (Kids P lo (a ++ b) (ca ++ cs) hi ↔ SegL P lo a ca ∧ Kids P (lastOr lo a) b cs hi) := by
  intro a
  induction a with
  | nil =>
    intro ca lo hlen
    have : ca = [] := by
      cases ca with
      | nil => rfl
      | cons _ _ => simp at hlen
    subst this
    simp [SegL]
  | cons x xs ih =>
    intro ca lo hlen
    cases ca with
    | nil => simp at hlen
    | cons c ca1 =>
      have hl : xs.length = ca1.length := by simpa using hlen
      simp only [List.cons_append, Kids, SegL, lastOr_cons]
      constructor
      · rintro ⟨c2, cs2, heq, hc, hk⟩
        obtain ⟨rfl, rfl⟩ := List.cons.inj heq
        have := (ih ca1 (some x) hl).mp hk
        exact ⟨⟨c, ca1, rfl, hc, this.1⟩, this.2⟩
      · rintro ⟨⟨c2, cs2, heq, hc, hs⟩, hk⟩
        obtain ⟨rfl, rfl⟩ := List.cons.inj heq
        exact ⟨c, ca1 ++ cs, rfl, hc, (ih ca1 (some x) hl).mpr ⟨hs, hk⟩⟩

/-- The first child of a run and what is asked of it. -/
theorem kids_head {P : Option Nat → Option K → Option K → Prop} {lo hi : Option K}
    {b : List K} {c : Option Nat} {cs : List (Option Nat)} (h : Kids P lo b (c :: cs) hi) :
    P c lo (headOr b hi) := by
  cases b with
  | nil => obtain ⟨c1, heq, hc⟩ := h; obtain ⟨rfl, _⟩ := List.cons.inj heq; exact hc
  | cons x xs => obtain ⟨c1, cs1, heq, hc, _⟩ := h; obtain ⟨rfl, _⟩ := List.cons.inj heq; exact hc

/-- The child at index `i` and what is asked of it. -/
theorem kids_at {P : Option Nat → Option K → Option K → Prop} {lo hi : Option K}
    {keys : List K} {ptrs : List (Option Nat)} (h : Kids P lo keys ptrs hi) {i : Nat}
    {c : Option Nat} (hc : ptrs[i]? = some c) :
    P c (lastOr lo (keys.take i)) (headOr (keys.drop i) hi) := by
  have hlen := h.length_eq
  have hi1 : i < ptrs.length := (List.getElem?_eq_some.mp hc).1
  have hp : ptrs = ptrs.take i ++ c :: ptrs.drop (i + 1) := by
    have := List.getElem?_eq_some.mp hc
    obtain ⟨hl, rfl⟩ := this
    simp
  have hk : keys = keys.take i ++ keys.drop i := (List.take_append_drop i keys).symm
  rw [hk, hp] at h
  have hl : (keys.take i).length = (ptrs.take i).length := by
    simp [List.length_take]; omega
  have := ((kids_append _ _ hi _ _ lo hl).mp h).2
  have := kids_head this
  simpa using this

/-- The child chosen by the locator has the search key in its range. -/
theorem kids_rank {P : Option Nat → Option K → Option K → Prop} {k : K} :
    ∀ {keys : List K} {lo hi : Option K} {ptrs : List (Option Nat)},
      Kids P lo keys ptrs hi → loLe lo k → ltHi k hi →
      ∃ c l u, ptrs[rank keys k]? = some c ∧ P c l u ∧ loLe l k ∧ ltHi k u := by
  intro keys
  induction keys with
  | nil =>
    intro lo hi ptrs h hlo hhi
    obtain ⟨c, rfl, hc⟩ := h
    exact ⟨c, lo, hi, by simp, hc, hlo, hhi⟩
  | cons x xs ih =>
    intro lo hi ptrs h hlo hhi
    obtain ⟨c, cs1, rfl, hc, h2⟩ := h
    by_cases hx : x ≤ k
    · obtain ⟨c2, l, u, h3, h4, h5, h6⟩ := ih h2 (by simpa using hx) hhi
      refine ⟨c2, l, u, ?_, h4, h5, h6⟩
      simp [rank_cons, hx, h3]
    · refine ⟨c, lo, some x, ?_, hc, hlo, ?_⟩
      · simp [rank_cons, hx]
      · simpa using lt_of_not_le hx

theorem pairwise_le_last {a : List K} {x : K} (h : (a ++ [x]).Pairwise (fun p q => p < q)) :
    ∀ y ∈ a ++ [x], y ≤ x := by
  intro y hy
  rw [List.pairwise_append] at h
  rcases List.mem_append.mp hy with hy | hy
  · exact le_of_lt (h.2.2 y hy x (by simp))
  · simp at hy; exact le_of_eq hy

/-- On a sorted list the rank of a key lying between two neighbours is their position. -/
theorem rank_of_bounds {a b : List K} {lo hi : Option K} {k : K}
    (hs : (a ++ b).Pairwise (fun p q => p < q)) (hlo : loLe (lastOr lo a) k)
    (hhi : ltHi k (headOr b hi)) : rank (a ++ b) k = a.length := by
  apply rank_append
  · intro x hx
    rcases List.eq_nil_or_concat a with rfl | ⟨a1, z, rfl⟩
    · simp at hx
    · rw [List.concat_eq_append] at hlo hx hs
      simp only [lastOr_concat, loLe_some] at hlo
      have hsa : (a1 ++ [z]).Pairwise (fun p q => p < q) := (List.pairwise_append.mp hs).1
      exact le_trans (pairwise_le_last hsa x hx) hlo
  · intro x hx
    cases b with
    | nil => simp at hx
    | cons y ys =>
      simp only [headOr_cons, ltHi_some] at hhi
      have hsb : (y :: ys).Pairwise (fun p q => p < q) := (List.pairwise_append.mp hs).2.1
      rcases List.mem_cons.mp hx with rfl | hx
      · exact hhi
      · exact lt_trans hhi ((List.pairwise_cons.mp hsb).1 x hx)

theorem rank_mid {a b : List K} {x : K} (hs : (a ++ x :: b).Pairwise (fun p q => p < q)) :
    rank (a ++ x :: b) x = a.length + 1 := by
  have e : a ++ x :: b = (a ++ [x]) ++ b := by simp
  rw [e] at hs ⊢
  have := @rank_of_bounds K _ (a ++ [x]) b none none x hs (by simp) (by
    cases b with
    | nil => simp
    | cons y ys =>
      simp only [headOr_cons, ltHi_some]
      exact (List.pairwise_append.mp hs).2.2 x (by simp) y (by simp))
  rw [this]; simp

theorem split_at {α : Type} {l : List α} {i : Nat} {x : α} (h : l[i]? = some x) :
    l = l.take i ++ x :: l.drop (i + 1) ∧ (l.take i).length = i := by
  obtain ⟨hl, rfl⟩ := List.getElem?_eq_some.mp h
  refine ⟨by simp, ?_⟩
  simp [List.length_take]; omega

theorem getElem?_mid {α : Type} (ca cb : List α) (x : α) {i : Nat} (hi : i = ca.length) :
    (ca ++ x :: cb)[i]? = some x := by
  subst hi
  rw [List.getElem?_append_right (Nat.le_refl _)]
  simp

/-- On a sorted list the rank of a key at index `i` is `i + 1`. -/
theorem rank_of_mem {keys : List K} {i : Nat} {k : K}
    (hs : keys.Pairwise (fun p q => p < q)) (hk : keys[i]? = some k) : rank keys k = i + 1 := by
  obtain ⟨h1, h2⟩ := split_at hk
  rw [h1] at hs ⊢
  rw [rank_mid hs, h2]

end KidsLemmas

end BPlus

namespace BPlus

section Descent

variable {K V : Type} [LinearOrder K]

/-! ### The descent to a leaf -/

theorem loop_leaf {h : Heap K V} {k : K} {fuel p : Nat} {nd : Node K V}
    (hp : h.read p = some nd) (hl : nd.leaf = true) :
    keyIndexInLeafLoop h k (fuel + 1) p = some (p, keyIndex nd k) := by
  simp [keyIndexInLeafLoop, hp, hl]

theorem loop_node {h : Heap K V} {k : K} {fuel p c : Nat} {nd : Node K V}
    (hp : h.read p = some nd) (hl : nd.leaf = false)
    (hc : nd.ptr2node[rank nd.key k]? = some (some c)) :
    keyIndexInLeafLoop h k (fuel + 1) p = keyIndexInLeafLoop h k fuel c := by
  simp [keyIndexInLeafLoop, hp, hl, keyIndex_add_one, hc]

theorem loLe_of_lastOr {lo : Option K} {a : List K} {k : K} (ha : ∀ z ∈ a, loLt lo z)
    (h : loLe (lastOr lo a) k) : loLe lo k := by
  rcases List.eq_nil_or_concat a with rfl | ⟨a1, z, rfl⟩
  · simpa using h
  · rw [List.concat_eq_append] at h ha
    simp only [lastOr_concat, loLe_some] at h
    exact (ha z (by simp)).loLe.mono_le h

theorem ltHi_of_headOr {hi : Option K} {b : List K} {k : K} (hb : ∀ z ∈ b, ltHi z hi)
    (h : ltHi k (headOr b hi)) : ltHi k hi := by
  cases b with
  | nil => simpa using h
  | cons y ys =>
    simp only [headOr_cons, ltHi_some] at h
    exact ltHi.anti (le_of_lt h) (hb y (by simp))

theorem NodeOK.lower_loLe {g : Ghost K} {h : Heap K V} {p : Nat} {nd : Node K V}
    (ok : NodeOK g h p nd) {k : K} (hk : k ∈ nd.key) : loLe (g.lo p) k := by
  have := ok.lower k hk
  split at this
  · exact this
  · exact this.loLe

/-- From a node whose range holds `k` the descent ends in a leaf whose range holds `k`. -/
theorem descend_total {t : BPTree K V} {g : Ghost K} {exc : Option Nat} (inv : InvG t g exc)
    (k : K) : ∀ (d p : Nat) (nd : Node K V), t.heap.read p = some nd → g.ht p = d →
      loLe (g.lo p) k → ltHi k (g.hi p) → ∀ fuel, d < fuel →
      ∃ L ln, keyIndexInLeafLoop t.heap k fuel p = some (L, keyIndex ln k) ∧
        t.heap.read L = some ln ∧ ln.leaf = true ∧ loLe (g.lo L) k ∧ ltHi k (g.hi L) := by
  intro d
  induction d with
  | zero =>
    intro p nd hp hd hlo hhi fuel hf
    obtain ⟨f, rfl⟩ : ∃ f, fuel = f + 1 := ⟨fuel - 1, by omega⟩
    cases hl : nd.leaf with
    | true => exact ⟨p, nd, loop_leaf hp hl, hp, hl, hlo, hhi⟩
    | false =>
      obtain ⟨c, l, u, _, hc, _, _⟩ := kids_rank ((inv.nodes p nd hp).kids hl) hlo hhi
      obtain ⟨c1, cn, _, _, _, hht, _, _⟩ := hc
      omega
  | succ d ih =>
    intro p nd hp hd hlo hhi fuel hf
    obtain ⟨f, rfl⟩ : ∃ f, fuel = f + 1 := ⟨fuel - 1, by omega⟩
    cases hl : nd.leaf with
    | true => exact ⟨p, nd, loop_leaf hp hl, hp, hl, hlo, hhi⟩
    | false =>
      obtain ⟨c, l, u, hidx, hc, hl1, hu1⟩ := kids_rank ((inv.nodes p nd hp).kids hl) hlo hhi
      obtain ⟨c1, cn, rfl, hc1, _, hht, hlo1, hhi1⟩ := hc
      rw [loop_node hp hl hidx]
      exact ih c1 cn hc1 (by omega) (by rw [hlo1]; exact hl1) (by rw [hhi1]; exact hu1) f
        (by omega)

/-- What the parent of a live node, other than the root, looks like. -/
theorem parent_split {t : BPTree K V} {g : Ghost K} {exc : Option Nat} (inv : InvG t g exc)
    {X : Nat} {xn : Node K V} (hX : t.heap.read X = some xn) (hr : t.root ≠ some X) :
    ∃ Q qn a b ca cb, xn.parent = some Q ∧ t.heap.read Q = some qn ∧ qn.leaf = false ∧
      qn.key = a ++ b ∧ qn.ptr2node = ca ++ some X :: cb ∧ a.length = ca.length ∧
      g.ht Q = g.ht X + 1 ∧ g.lo X = lastOr (g.lo Q) a ∧ g.hi X = headOr b (g.hi Q) := by
  obtain ⟨Q, qn, hpar, hQ, hleaf, hmem⟩ := inv.attached X xn hX hr
  obtain ⟨i, hi⟩ := List.getElem?_of_mem hmem
  have hk := (inv.nodes Q qn hQ).kids hleaf
  have hat := kids_at hk hi
  obtain ⟨c1, cn, hc, hc1, _, hht, hlo, hhi⟩ := hat
  obtain rfl : X = c1 := by simpa using hc
  obtain ⟨h1, h2⟩ := split_at hi
  have hlen := hk.length_eq
  have hil : i < qn.ptr2node.length := (List.getElem?_eq_some.mp hi).1
  refine ⟨Q, qn, qn.key.take i, qn.key.drop i, qn.ptr2node.take i, qn.ptr2node.drop (i + 1),
    hpar, hQ, hleaf, (List.take_append_drop i _).symm, h1, ?_, hht, hlo, hhi⟩
  simp [List.length_take]; omega

/-- The descent from the root passes through every node whose range holds the key. -/
theorem descend_through {t : BPTree K V} {g : Ghost K} {exc : Option Nat} (inv : InvG t g exc)
    (k : K) : ∀ (n X : Nat) (xn : Node K V), t.heap.length ≤ g.ht X + n →
      t.heap.read X = some xn → loLe (g.lo X) k → ltHi k (g.hi X) →
      ∃ r j, t.root = some r ∧ j + g.ht X = g.ht r ∧
        ∀ fuel, keyIndexInLeafLoop t.heap k (fuel + j) r = keyIndexInLeafLoop t.heap k fuel X := by
  intro n
  induction n with
  | zero =>
    intro X xn hn hX _ _
    have := inv.low X xn hX
    omega
  | succ n ih =>
    intro X xn hn hX hlo hhi
    by_cases hr : t.root = some X
    · exact ⟨X, 0, hr, by simp, fun fuel => rfl⟩
    · obtain ⟨Q, qn, a, b, ca, cb, hpar, hQ, hleaf, hkey, hptr, hlen, hht, hloX, hhiX⟩ :=
        parent_split inv hX hr
      have okQ := inv.nodes Q qn hQ
      rw [hloX] at hlo
      rw [hhiX] at hhi
      have hloQ : loLe (g.lo Q) k := by
        apply loLe_of_lastOr (a := a) _ hlo
        intro z hz
        have := okQ.lower z (by rw [hkey]; simp [hz])
        simpa [hleaf] using this
      have hhiQ : ltHi k (g.hi Q) := by
        apply ltHi_of_headOr (b := b) _ hhi
        intro z hz
        exact okQ.upper z (by rw [hkey]; simp [hz])
      have hrk : rank qn.key k = a.length := by
        rw [hkey]
        exact rank_of_bounds (by rw [← hkey]; exact okQ.sorted) hlo hhi
      have hidx : qn.ptr2node[rank qn.key k]? = some (some X) := by
        rw [hrk, hptr]; exact getElem?_mid ca cb (some X) hlen
      obtain ⟨r, j, hroot, hj, hloop⟩ := ih Q qn (by omega) hQ hloQ hhiQ
      refine ⟨r, j + 1, hroot, by omega, fun fuel => ?_⟩
      have := hloop (fuel + 1)
      rw [show fuel + (j + 1) = fuel + 1 + j by omega, this, loop_node hQ hleaf hidx]

/-- The locator on a well-formed tree: it ends in a leaf whose range holds the key. -/
theorem keyIndexInLeaf_spec {t : BPTree K V} {g : Ghost K} {exc : Option Nat}
    (inv : InvG t g exc) (k : K) :
    ∃ L ln, keyIndexInLeaf t k = some (some L, (rank ln.key k : Int) - 1) ∧
      t.heap.read L = some ln ∧ ln.leaf = true ∧ loLe (g.lo L) k ∧ ltHi k (g.hi L) := by
  obtain ⟨r, rn, hroot, hr, _, hlo, hhi⟩ := inv.root
  obtain ⟨L, ln, hloop, hL, hleaf, h1, h2⟩ :=
    descend_total inv k (g.ht r) r rn hr rfl (by rw [hlo]; simp) (by rw [hhi]; simp)
      t.heap.length (inv.low r rn hr)
  refine ⟨L, ln, ?_, hL, hleaf, h1, h2⟩
  simp [keyIndexInLeaf, hroot, hloop, keyIndex_eq]

/-- The locator ends in the one leaf whose range holds the key. -/
theorem keyIndexInLeaf_unique {t : BPTree K V} {g : Ghost K} {exc : Option Nat}
    (inv : InvG t g exc) {k : K} {X : Nat} {xn : Node K V} (hX : t.heap.read X = some xn)
    (hleaf : xn.leaf = true) (hlo : loLe (g.lo X) k) (hhi : ltHi k (g.hi X)) :
    keyIndexInLeaf t k = some (some X, (rank xn.key k : Int) - 1) := by
  obtain ⟨r, j, hroot, hj, hloop⟩ :=
    descend_through inv k t.heap.length X xn (by omega) hX hlo hhi
  obtain ⟨r1, rn, hroot1, hr, _⟩ := inv.root
  obtain rfl : r = r1 := by rw [hroot] at hroot1; simpa using hroot1
  have hlow := inv.low r rn hr
  obtain ⟨f, hf⟩ : ∃ f, t.heap.length = f + 1 + j := ⟨t.heap.length - 1 - j, by omega⟩
  simp only [keyIndexInLeaf, hroot]
  rw [hf, hloop (f + 1), loop_leaf hX hleaf]
  simp [keyIndex_eq]

theorem NodeOK.range_of_mem {g : Ghost K} {h : Heap K V} {p : Nat} {nd : Node K V}
    (ok : NodeOK g h p nd) {k : K} (hk : k ∈ nd.key) : loLe (g.lo p) k ∧ ltHi k (g.hi p) :=
  ⟨ok.lower_loLe hk, ok.upper k hk⟩

/-- A stored pair is found. -/
theorem find_of_contains {t : BPTree K V} {g : Ghost K} {exc : Option Nat} (inv : InvG t g exc)
    {k : K} {v : V} (hc : Contains t k v) : find t k = some (some v) := by
  obtain ⟨X, xn, i, hX, hleaf, hk, hv⟩ := hc
  have ok := inv.nodes X xn hX
  have hmem : k ∈ xn.key := List.getElem?_mem hk
  obtain ⟨hlo, hhi⟩ := ok.range_of_mem hmem
  have hloc := keyIndexInLeaf_unique inv hX hleaf hlo hhi
  have hrk := rank_of_mem ok.sorted hk
  have e : ((rank xn.key k : Int) - 1) = (i : Int) := by rw [hrk]; push_cast; ring
  rw [e] at hloc
  have hne : ¬ ((i : Int) = -1) := by omega
  simp [find, hloc, hne, hX, hk, hv]

/-- A key stored in no leaf is not found. -/
theorem find_of_not_contains {t : BPTree K V} {g : Ghost K} {exc : Option Nat}
    (inv : InvG t g exc) {k : K} (hc : ∀ v, ¬ Contains t k v) : find t k = some none := by
  obtain ⟨L, ln, hloc, hL, hleaf, _, _⟩ := keyIndexInLeaf_spec inv k
  have ok := inv.nodes L ln hL
  by_cases h0 : rank ln.key k = 0
  · simp [find, hloc, h0]
  · obtain ⟨i, hi⟩ : ∃ i, rank ln.key k = i + 1 := ⟨rank ln.key k - 1, by omega⟩
    have e : ((rank ln.key k : Int) - 1) = (i : Int) := by rw [hi]; push_cast; ring
    rw [e] at hloc
    have hne : ¬ ((i : Int) = -1) := by omega
    have hil : i < ln.key.length := by have := rank_le_length ln.key k; omega
    have hvl : i < ln.ptr2val.length := by rw [(ok.leafOK hleaf).2]; exact hil
    have hne2 : ln.key[i] ≠ k := by
      intro heq
      exact hc ln.ptr2val[i] ⟨L, ln, i, hL, hleaf, by rw [← heq]; exact List.getElem?_eq_getElem hil,
        List.getElem?_eq_getElem hvl⟩
    simp [find, hloc, hne, hL, List.getElem?_eq_getElem hil, hne2]

end Descent

end BPlus

namespace BPlus

section Frame

variable {K V : Type} [LinearOrder K]

/-! ### Moving the invariant across a change of the store -/

/-- A node stays well formed when its own fields, its range and what its
children say of themselves stay the same. -/
theorem NodeOK.transfer {g g1 : Ghost K} {h h1 : Heap K V} {p : Nat} {nd nd1 : Node K V}
    (ok : NodeOK g h p nd) (hleaf : nd1.leaf = nd.leaf) (hkey : nd1.key = nd.key)
    (hptr : nd1.ptr2node = nd.ptr2node) (hval : nd1.ptr2val.length = nd.ptr2val.length)
    (hlo : g1.lo p = g.lo p) (hhi : g1.hi p = g.hi p) (hht : g1.ht p = g.ht p)
    (hch : ∀ c cn, nd.leaf = false → some c ∈ nd.ptr2node → h.read c = some cn →
      cn.parent = some p →
      ∃ cn1, h1.read c = some cn1 ∧ cn1.parent = some p ∧ g1.lo c = g.lo c ∧
        g1.hi c = g.hi c ∧ g1.ht c = g.ht c) :
    NodeOK g1 h1 p nd1 := by
  refine ⟨by rw [hkey]; exact ok.sorted, ?_, ?_, ?_, ?_⟩
  · intro k hk
    rw [hkey] at hk
    have := ok.lower k hk
    rw [hleaf, hlo]; exact this
  · intro k hk
    rw [hkey] at hk
    rw [hhi]; exact ok.upper k hk
  · intro hl
    rw [hleaf] at hl
    have := ok.leafOK hl
    rw [hht, hval, hkey]; exact this
  · intro hl
    rw [hleaf] at hl
    rw [hkey, hptr, hlo, hhi]
    refine Kids.imp ?_ (ok.kids hl)
    rintro c l u hmem ⟨c1, cn, rfl, hc1, hpar, hh, hl1, hu1⟩
    obtain ⟨cn1, h1c, h1p, e1, e2, e3⟩ := hch c1 cn hl hmem hc1 hpar
    exact ⟨c1, cn1, rfl, h1c, h1p, by rw [hht, e3]; exact hh, by rw [e1]; exact hl1,
      by rw [e2]; exact hu1⟩

/-- Every child named by a well-formed internal node is live and points back to it. -/
theorem NodeOK.child {g : Ghost K} {h : Heap K V} {p : Nat} {nd : Node K V}
    (ok : NodeOK g h p nd) (hl : nd.leaf = false) {c : Option Nat} (hc : c ∈ nd.ptr2node) :
    ∃ c1 cn, c = some c1 ∧ h.read c1 = some cn ∧ cn.parent = some p ∧ g.ht p = g.ht c1 + 1 := by
  obtain ⟨i, hi⟩ := List.getElem?_of_mem hc
  obtain ⟨c1, cn, h1, h2, h3, h4, _, _⟩ := kids_at (ok.kids hl) hi
  exact ⟨c1, cn, h1, h2, h3, h4⟩

/-- The two cases of `NextOK`. -/
theorem nextOK_iff {g : Ghost K} {h : Heap K V} {p : Nat} {nd : Node K V} :
    NextOK g h p nd ↔ (g.hi p = none → nd.next = none) ∧
      ∀ b, g.hi p = some b →
        ∃ q qn, nd.next = some q ∧ h.read q = some qn ∧ qn.leaf = true ∧ g.lo q = some b := by
  unfold NextOK
  cases g.hi p <;> simp

/-- The invariant moves from `t` to `t1` when the nodes outside the sets `D`
(changed, checked by hand) and `R` (given a new parent in `D`) are untouched. -/
theorem InvG.frame {t t1 : BPTree K V} {g g1 : Ghost K} {exc exc1 : Option Nat}
    (inv : InvG t g exc) (D R : Nat → Prop)
    (hroot : ∃ r rn, t1.root = some r ∧ t1.heap.read r = some rn ∧ rn.parent = none ∧
      g1.lo r = none ∧ g1.hi r = none)
    (hrootD : t1.root = t.root ∨ ∀ r, t.root = some r → D r)
    (hexc : ∀ e, exc = some e → D e ∨ exc1 = some e)
    (hlen : t.heap.length ≤ t1.heap.length)
    (hclean : ∀ p, ¬ D p → ¬ R p → t1.heap.read p = t.heap.read p ∧ g1.lo p = g.lo p ∧
      g1.hi p = g.hi p ∧ g1.ht p = g.ht p)
    (hR : ∀ p, R p → ¬ D p ∧ ∃ nd q qn1, t.heap.read p = some nd ∧
      (∃ q0, nd.parent = some q0 ∧ D q0) ∧
      t1.heap.read p = some { nd with parent := some q } ∧ g1.lo p = g.lo p ∧
      g1.hi p = g.hi p ∧ g1.ht p = g.ht p ∧
      t1.heap.read q = some qn1 ∧ qn1.leaf = false ∧ some p ∈ qn1.ptr2node)
    (hD : ∀ p nd1, D p → t1.heap.read p = some nd1 → NodeOK g1 t1.heap p nd1 ∧
      (t1.root ≠ some p → ∃ q qn, nd1.parent = some q ∧ t1.heap.read q = some qn ∧
        qn.leaf = false ∧ some p ∈ qn.ptr2node) ∧
      (nd1.leaf = false → exc1 ≠ some p → nd1.key ≠ []) ∧ g1.ht p < t1.heap.length)
    (hchild : ∀ c cn q, D c → t.heap.read c = some cn → cn.parent = some q → ¬ D q →
      ∃ cn1, t1.heap.read c = some cn1 ∧ cn1.parent = some q ∧ g1.lo c = g.lo c ∧
        g1.hi c = g.hi c ∧ g1.ht c = g.ht c)
    (hparent : ∀ q qn p, D q → t.heap.read q = some qn → qn.leaf = false → ¬ D p → ¬ R p →
      some p ∈ qn.ptr2node →
      ∃ qn1, t1.heap.read q = some qn1 ∧ qn1.leaf = false ∧ some p ∈ qn1.ptr2node)
    (hDn : ∀ p nd1, D p → t1.heap.read p = some nd1 → nd1.leaf = true → NextOK g1 t1.heap p nd1)
    (hnext : ∀ p nd q qn, ¬ D p → t.heap.read p = some nd → nd.leaf = true →
      nd.next = some q → D q → t.heap.read q = some qn → qn.leaf = true →
      ∃ qn1, t1.heap.read q = some qn1 ∧ qn1.leaf = true ∧ g1.lo q = g.lo q) :
    InvG t1 g1 exc1 := by
  -- what a node outside `D` sees of its children
  have kid : ∀ p nd, ¬ D p → t.heap.read p = some nd → ∀ c cn, nd.leaf = false →
      some c ∈ nd.ptr2node → t.heap.read c = some cn → cn.parent = some p →
      ∃ cn1, t1.heap.read c = some cn1 ∧ cn1.parent = some p ∧ g1.lo c = g.lo c ∧
        g1.hi c = g.hi c ∧ g1.ht c = g.ht c := by
    intro p nd hpD hp c cn _ _ hc hpar
    by_cases hcD : D c
    · exact hchild c cn p hcD hc hpar hpD
    · by_cases hcR : R c
      · obtain ⟨_, nd2, q, qn1, h1, ⟨q0, h2, h3⟩, _⟩ := hR c hcR
        rw [hc] at h1
        obtain rfl : cn = nd2 := by simpa using h1
        rw [hpar] at h2
        obtain rfl : p = q0 := by simpa using h2
        exact absurd h3 hpD
      · obtain ⟨e0, e1, e2, e3⟩ := hclean c hcD hcR
        exact ⟨cn, by rw [e0]; exact hc, hpar, e1, e2, e3⟩
  -- the old record of a node outside `D`
  have old : ∀ p nd1, ¬ D p → t1.heap.read p = some nd1 →
      ∃ nd, t.heap.read p = some nd ∧ nd1.leaf = nd.leaf ∧ nd1.key = nd.key ∧
        nd1.ptr2node = nd.ptr2node ∧ nd1.ptr2val = nd.ptr2val ∧
        g1.lo p = g.lo p ∧ g1.hi p = g.hi p ∧ g1.ht p = g.ht p ∧
        (¬ R p → nd1 = nd) ∧ nd1.next = nd.next := by
    intro p nd1 hpD hp
    by_cases hpR : R p
    · obtain ⟨_, nd, q, qn1, h1, _, h2, e1, e2, e3, _⟩ := hR p hpR
      rw [hp] at h2
      obtain rfl : nd1 = { nd with parent := some q } := by simpa using h2
      exact ⟨nd, h1, rfl, rfl, rfl, rfl, e1, e2, e3, fun h => absurd hpR h, rfl⟩
    · obtain ⟨e0, e1, e2, e3⟩ := hclean p hpD hpR
      exact ⟨nd1, by rw [← e0]; exact hp, rfl, rfl, rfl, rfl, e1, e2, e3, fun _ => rfl, rfl⟩
  -- the new record of a node outside `D`
  have fwd : ∀ q qn, ¬ D q → t.heap.read q = some qn →
      ∃ qn1, t1.heap.read q = some qn1 ∧ qn1.leaf = qn.leaf ∧ g1.lo q = g.lo q := by
    intro q qn hqD hq
    by_cases hqR : R q
    · obtain ⟨_, nd, q2, qn1, h1, _, h2, e1, _⟩ := hR q hqR
      rw [hq] at h1
      obtain rfl : qn = nd := by simpa using h1
      exact ⟨_, h2, rfl, e1⟩
    · obtain ⟨e0, e1, _⟩ := hclean q hqD hqR
      exact ⟨qn, by rw [e0]; exact hq, rfl, e1⟩
  refine ⟨hroot, ?_, ?_, ?_, ?_, ?_⟩
  · intro p nd1 hp
    by_cases hpD : D p
    · exact (hD p nd1 hpD hp).1
    · obtain ⟨nd, h0, e1, e2, e3, e4, e5, e6, e7, _⟩ := old p nd1 hpD hp
      exact (inv.nodes p nd h0).transfer e1 e2 e3 (by rw [e4]) e5 e6 e7 (kid p nd hpD h0)
  · intro p nd1 hp hne
    by_cases hpD : D p
    · exact (hD p nd1 hpD hp).2.1 hne
    · by_cases hpR : R p
      · obtain ⟨_, nd, q, qn1, h1, _, h2, _, _, _, h3, h4, h5⟩ := hR p hpR
        rw [hp] at h2
        obtain rfl : nd1 = { nd with parent := some q } := by simpa using h2
        exact ⟨q, qn1, rfl, h3, h4, h5⟩
      · obtain ⟨e0, _⟩ := hclean p hpD hpR
        rw [e0] at hp
        have hne0 : t.root ≠ some p := by
          rcases hrootD with h | h
          · rw [← h]; exact hne
          · intro hr; exact hpD (h p hr)
        obtain ⟨q, qn, hpar, hq, hql, hmem⟩ := inv.attached p nd1 hp hne0
        by_cases hqD : D q
        · obtain ⟨qn1, a1, a2, a3⟩ := hparent q qn p hqD hq hql hpD hpR hmem
          exact ⟨q, qn1, hpar, a1, a2, a3⟩
        · by_cases hqR : R q
          · obtain ⟨_, nd, q2, qn1, h1, _, h2, _⟩ := hR q hqR
            rw [hq] at h1
            obtain rfl : qn = nd := by simpa using h1
            exact ⟨q, _, hpar, h2, hql, hmem⟩
          · obtain ⟨e0, _⟩ := hclean q hqD hqR
            exact ⟨q, qn, hpar, by rw [e0]; exact hq, hql, hmem⟩
  · intro p nd1 hp hl hne
    by_cases hpD : D p
    · exact (hD p nd1 hpD hp).2.2.1 hl hne
    · obtain ⟨nd, h0, e1, e2, _⟩ := old p nd1 hpD hp
      rw [e2]
      refine inv.nonempty p nd h0 (by rw [← e1]; exact hl) ?_
      intro he
      rcases hexc p he with h | h
      · exact hpD h
      · exact hne h
  · intro p nd1 hp
    by_cases hpD : D p
    · exact (hD p nd1 hpD hp).2.2.2
    · obtain ⟨nd, h0, _, _, _, _, _, _, e7, _⟩ := old p nd1 hpD hp
      have := inv.low p nd h0
      omega
  · intro p nd1 hp hl
    by_cases hpD : D p
    · exact hDn p nd1 hpD hp hl
    · obtain ⟨nd, h0, e1, _, _, _, _, e6, _, _, e9⟩ := old p nd1 hpD hp
      have hl0 : nd.leaf = true := by rw [← e1]; exact hl
      have hc := (nextOK_iff.1 (inv.chain p nd h0 hl0))
      refine nextOK_iff.2 ⟨fun hn => ?_, fun b hb => ?_⟩
      · rw [e9]; exact hc.1 (by rw [← e6]; exact hn)
      · obtain ⟨q, qn, hn, hq, hql, hlo⟩ := hc.2 b (by rw [← e6]; exact hb)
        by_cases hqD : D q
        · obtain ⟨qn1, a1, a2, a3⟩ := hnext p nd q qn hpD h0 hl0 hn hqD hq hql
          exact ⟨q, qn1, by rw [e9]; exact hn, a1, a2, by rw [a3]; exact hlo⟩
        · obtain ⟨qn1, a1, a2, a3⟩ := fwd q qn hqD hq
          exact ⟨q, qn1, by rw [e9]; exact hn, a1, by rw [a2]; exact hql, by rw [a3]; exact hlo⟩

end Frame

end BPlus

namespace BPlus

section LeafOps

variable {K V : Type} [LinearOrder K]

/-! ### Changes confined to one leaf -/

@[simp] theorem Ghost.set_lo (g : Ghost K) (p q : Nat) (lo hi : Option K) (ht : Nat) :
    (g.set p lo hi ht).lo q = if q = p then lo else g.lo q := rfl

@[simp] theorem Ghost.set_hi (g : Ghost K) (p q : Nat) (lo hi : Option K) (ht : Nat) :
    (g.set p lo hi ht).hi q = if q = p then hi else g.hi q := rfl

@[simp] theorem Ghost.set_ht (g : Ghost K) (p q : Nat) (lo hi : Option K) (ht : Nat) :
    (g.set p lo hi ht).ht q = if q = p then ht else g.ht q := rfl

theorem contains_iff_view {t : BPTree K V} {k : K} {v : V} :
    Contains t k v ↔ ∃ (p : Nat) (ks : List K) (vs : List V) (i : Nat),
      leafView t.heap p = some (ks, vs) ∧ ks[i]? = some k ∧ vs[i]? = some v := by
  constructor
  · rintro ⟨p, nd, i, hp, hl, hk, hv⟩
    exact ⟨p, nd.key, nd.ptr2val, i, by simp [leafView, hp, hl], hk, hv⟩
  · rintro ⟨p, ks, vs, i, hview, hk, hv⟩
    unfold leafView at hview
    cases hp : t.heap.read p with
    | none => simp [hp] at hview
    | some nd =>
      simp only [hp] at hview
      by_cases hl : nd.leaf = true
      · simp only [hl, if_true, Option.some.injEq, Prod.mk.injEq] at hview
        obtain ⟨rfl, rfl⟩ := hview
        exact ⟨p, nd, i, hp, hl, hk, hv⟩
      · simp [hl] at hview

/-- Two stores with the same leaves store the same pairs. -/
theorem contains_congr {t t1 : BPTree K V} (h : ∀ p, leafView t1.heap p = leafView t.heap p)
    (k : K) (v : V) : Contains t1 k v ↔ Contains t k v := by
  simp only [contains_iff_view, h]

theorem NodeOK.of_leaf {g : Ghost K} {h h1 : Heap K V} {p : Nat} {nd : Node K V}
    (ok : NodeOK g h p nd) (hl : nd.leaf = true) : NodeOK g h1 p nd :=
  ⟨ok.sorted, ok.lower, ok.upper, ok.leafOK, fun hf => by rw [hl] at hf; cases hf⟩

/-- Replace the record of one leaf by another well-formed leaf record. -/
theorem InvG.update_leaf {t : BPTree K V} {g : Ghost K} {exc : Option Nat} (inv : InvG t g exc)
    {L : Nat} {lf lf1 : Node K V} (hL : t.heap.read L = some lf) (hleaf : lf.leaf = true)
    (hleaf1 : lf1.leaf = true) (hpar : lf1.parent = lf.parent) (hnx : lf1.next = lf.next)
    (ok : NodeOK g t.heap L lf1) :
    InvG { t with heap := t.heap.write L lf1 } g exc := by
  have hrd : ∀ p, (t.heap.write L lf1).read p = if p = L then some lf1 else t.heap.read p := by
    intro p
    rw [Heap.read_write]
    by_cases hp : p = L <;> simp [hp, Heap.read_lt hL]
  apply inv.frame (fun p => p = L) (fun _ => False)
  · obtain ⟨r, rn, h1, h2, h3, h4, h5⟩ := inv.root
    by_cases hr : r = L
    · subst hr
      rw [hL] at h2
      obtain rfl : lf = rn := by simpa using h2
      exact ⟨r, lf1, h1, by simp [hrd], by rw [hpar]; exact h3, h4, h5⟩
    · exact ⟨r, rn, h1, by simp [hrd, hr]; exact h2, h3, h4, h5⟩
  · exact Or.inl rfl
  · intro e he; exact Or.inr he
  · simp
  · intro p hp _
    exact ⟨by simp [hrd, hp], rfl, rfl, rfl⟩
  · intro p hp; exact absurd hp id
  · intro p nd1 hp hrd1
    subst hp
    simp only [hrd, if_true, Option.some.injEq] at hrd1
    subst hrd1
    refine ⟨ok.of_leaf hleaf1, ?_, ?_, ?_⟩
    · intro hne
      obtain ⟨q, qn, a1, a2, a3, a4⟩ := inv.attached p lf hL hne
      have hq : q ≠ p := by
        rintro rfl
        rw [hL] at a2
        obtain rfl : lf = qn := by simpa using a2
        rw [hleaf] at a3; cases a3
      exact ⟨q, qn, by rw [hpar]; exact a1, by simp [hrd, hq]; exact a2, a3, a4⟩
    · intro hf; rw [hleaf1] at hf; cases hf
    · simpa using inv.low p lf hL
  · intro c cn q hc hrc hpar1 _
    subst hc
    rw [hL] at hrc
    obtain rfl : lf = cn := by simpa using hrc
    exact ⟨lf1, by simp [hrd], by rw [hpar]; exact hpar1, rfl, rfl, rfl⟩
  · intro q qn p hq hrq hql _ _ _
    subst hq
    rw [hL] at hrq
    obtain rfl : lf = qn := by simpa using hrq
    rw [hleaf] at hql; cases hql
  · intro p nd1 hp hrd1 _
    subst hp
    simp only [hrd, if_true, Option.some.injEq] at hrd1
    subst hrd1
    have hc := nextOK_iff.1 (inv.chain p lf hL hleaf)
    refine nextOK_iff.2 ⟨fun hn => by rw [hnx]; exact hc.1 hn, fun b hb => ?_⟩
    obtain ⟨q, qn, hn, hq, hql, hlo⟩ := hc.2 b hb
    by_cases hqp : q = p
    · subst hqp
      exact ⟨q, lf1, by rw [hnx]; exact hn, by simp [hrd], hleaf1, hlo⟩
    · exact ⟨q, qn, by rw [hnx]; exact hn, by simp [hrd, hqp]; exact hq, hql, hlo⟩
  · intro p nd q qn _ _ _ _ hq hrq _
    subst hq
    exact ⟨lf1, by simp [hrd], hleaf1, rfl⟩

/-- On a sorted list the keys `<= k` come first and the rank counts them. -/
theorem rank_split {keys : List K} (k : K) (hs : keys.Pairwise (fun p q => p < q)) :
    ∃ a b, keys = a ++ b ∧ a.length = rank keys k ∧ (∀ x ∈ a, x ≤ k) ∧ (∀ x ∈ b, k < x) := by
  induction keys with
  | nil => exact ⟨[], [], rfl, rfl, by simp, by simp⟩
  | cons x xs ih =>
    obtain ⟨hx, hxs⟩ := List.pairwise_cons.mp hs
    by_cases hle : x ≤ k
    · obtain ⟨a, b, h1, h2, h3, h4⟩ := ih hxs
      refine ⟨x :: a, b, by simp [h1], by simp [rank_cons, hle, h2], ?_, h4⟩
      intro y hy
      rcases List.mem_cons.mp hy with rfl | hy
      · exact hle
      · exact h3 y hy
    · refine ⟨[], x :: xs, rfl, by simp [rank_cons, hle], by simp, ?_⟩
      intro y hy
      rcases List.mem_cons.mp hy with rfl | hy
      · exact lt_of_not_le hle
      · exact lt_trans (lt_of_not_le hle) (hx y hy)

end LeafOps

end BPlus

namespace BPlus

section ListFacts

variable {K V : Type} [LinearOrder K]

/-! ### Sorted lists and children lists -/

theorem sorted_insert {a b : List K} {s : K} (hs : (a ++ b).Pairwise (fun p q => p < q))
    (ha : ∀ x ∈ a, x < s) (hb : ∀ x ∈ b, s < x) :
    (a ++ s :: b).Pairwise (fun p q => p < q) := by
  obtain ⟨h1, h2, h3⟩ := List.pairwise_append.mp hs
  refine List.pairwise_append.mpr ⟨h1, List.pairwise_cons.mpr ⟨hb, h2⟩, ?_⟩
  intro x hx y hy
  rcases List.mem_cons.mp hy with rfl | hy
  · exact ha x hx
  · exact h3 x hx y hy

theorem all_lt_of_lastOr {a : List K} {lo : Option K} {s : K}
    (hs : a.Pairwise (fun p q => p < q)) (h : loLt (lastOr lo a) s) : ∀ x ∈ a, x < s := by
  intro x hx
  rcases List.eq_nil_or_concat a with rfl | ⟨a1, z, rfl⟩
  · simp at hx
  · rw [List.concat_eq_append] at h hx hs
    simp only [lastOr_concat, loLt_some] at h
    exact lt_of_le_of_lt (pairwise_le_last hs x hx) h

theorem all_gt_of_headOr {b : List K} {hi : Option K} {s : K}
    (hs : b.Pairwise (fun p q => p < q)) (h : ltHi s (headOr b hi)) : ∀ x ∈ b, s < x := by
  intro x hx
  cases b with
  | nil => simp at hx
  | cons y ys =>
    simp only [headOr_cons, ltHi_some] at h
    rcases List.mem_cons.mp hx with rfl | hx
    · exact h
    · exact lt_trans h ((List.pairwise_cons.mp hs).1 x hx)

theorem loLt_of_lastOr {lo : Option K} {a : List K} {k : K} (ha : ∀ z ∈ a, loLt lo z)
    (h : loLt (lastOr lo a) k) : loLt lo k := by
  rcases List.eq_nil_or_concat a with rfl | ⟨a1, z, rfl⟩
  · simpa using h
  · rw [List.concat_eq_append] at h ha
    simp only [lastOr_concat, loLt_some] at h
    exact (ha z (by simp)).mono_lt (le_of_lt h)

theorem nodup_mid {α : Type} {ca cb : List α} {x : α} (h : (ca ++ x :: cb).Nodup) :
    x ∉ ca ∧ x ∉ cb := by
  rw [List.nodup_append] at h
  obtain ⟨_, h2, h3⟩ := h
  refine ⟨fun hx => h3 hx (by simp), (List.nodup_cons.mp h2).1⟩

/-- The upper ends of the children's ranges are the keys, then the upper end of the node. -/
theorem kids_hi {g : Ghost K} {h : Heap K V} {p : Nat} :
    ∀ {ks : List K} {lo hi : Option K} {cs : List (Option Nat)},
      Kids (ChildOK g h p) lo ks cs hi →
      cs.map (fun c => c.bind g.hi) = ks.map some ++ [hi] := by
  intro ks
  induction ks with
  | nil =>
    rintro lo hi cs ⟨c, rfl, c1, cn, rfl, _, _, _, _, h6⟩
    simp [h6]
  | cons k ks ih =>
    rintro lo hi cs ⟨c, cs1, rfl, ⟨c1, cn, rfl, _, _, _, _, h6⟩, h2⟩
    simp [h6, ih h2]

theorem his_nodup {ks : List K} {hi : Option K} (hs : ks.Pairwise (fun p q => p < q))
    (hu : ∀ k ∈ ks, ltHi k hi) : (ks.map some ++ [hi]).Nodup := by
  rw [List.nodup_append]
  refine ⟨?_, by simp, ?_⟩
  · apply List.Nodup.map (Option.some_injective K)
    exact hs.imp (fun h => ne_of_lt h)
  · intro x hx hy
    simp only [List.mem_singleton] at hy
    subst hy
    obtain ⟨k, hk, rfl⟩ := List.mem_map.mp hx
    have := hu k hk
    simp at this

/-- A well-formed internal node names no child twice. -/
theorem NodeOK.nodup {g : Ghost K} {h : Heap K V} {p : Nat} {nd : Node K V}
    (ok : NodeOK g h p nd) (hl : nd.leaf = false) : nd.ptr2node.Nodup := by
  have h1 := kids_hi (ok.kids hl)
  have h2 := his_nodup ok.sorted ok.upper
  rw [← h1] at h2
  exact List.Nodup.of_map _ h2

/-- Insert a child after the first one of a run. -/
theorem kids_insert_after {P P1 : Option Nat → Option K → Option K → Prop} {lo hi : Option K}
    {b : List K} {c c1 : Option Nat} {cs : List (Option Nat)} {s : K}
    (h : Kids P lo b (c :: cs) hi) (hc : P1 c lo (some s)) (hc1 : P1 c1 (some s) (headOr b hi))
    (hm : ∀ x l u, x ∈ cs → P x l u → P1 x l u) :
    Kids P1 lo (s :: b) (c :: c1 :: cs) hi := by
  refine ⟨c, c1 :: cs, rfl, hc, ?_⟩
  cases b with
  | nil =>
    obtain ⟨c0, heq, _⟩ := h
    obtain ⟨_, rfl⟩ := List.cons.inj heq
    exact ⟨c1, rfl, hc1⟩
  | cons y ys =>
    obtain ⟨c0, cs0, heq, _, hk⟩ := h
    obtain ⟨_, rfl⟩ := List.cons.inj heq
    exact ⟨c1, cs, rfl, hc1, Kids.imp hm hk⟩

@[simp] theorem splitGhost_lo (g : Ghost K) (P N : Nat) (s : K) (q : Nat) :
    (splitGhost g P N s).lo q = if q = N then some s else g.lo q := by
  simp only [splitGhost, Ghost.set_lo]
  by_cases h1 : q = N <;> by_cases h2 : q = P <;> simp [h1, h2]

@[simp] theorem splitGhost_hi (g : Ghost K) (P N : Nat) (s : K) (q : Nat) :
    (splitGhost g P N s).hi q = if q = N then g.hi P else if q = P then some s else g.hi q := by
  simp only [splitGhost, Ghost.set_hi]

@[simp] theorem splitGhost_ht (g : Ghost K) (P N : Nat) (s : K) (q : Nat) :
    (splitGhost g P N s).ht q = if q = N then g.ht P else g.ht q := by
  simp only [splitGhost, Ghost.set_ht]
  by_cases h1 : q = N <;> by_cases h2 : q = P <;> simp [h1, h2]

end ListFacts

end BPlus

namespace BPlus

section AttachParent

variable {K V : Type} [LinearOrder K]

/-! ### A split node and its parent -/

/-- The root has no parent, so a node with a parent is not the root. -/
theorem InvG.not_root_of_parent {t : BPTree K V} {g : Ghost K} {exc : Option Nat}
    (inv : InvG t g exc) {p q : Nat} {nd : Node K V} (hp : t.heap.read p = some nd)
    (hpar : nd.parent = some q) : t.root ≠ some p := by
  intro hr
  obtain ⟨r, rn, h1, h2, h3, _⟩ := inv.root
  rw [h1] at hr
  obtain rfl : r = p := by simpa using hr
  rw [hp] at h2
  obtain rfl : nd = rn := by simpa using h2
  rw [hpar] at h3; cases h3

/-- A node is one level below its parent. -/
theorem InvG.ht_parent {t : BPTree K V} {g : Ghost K} {exc : Option Nat}
    (inv : InvG t g exc) {p q : Nat} {nd : Node K V} (hp : t.heap.read p = some nd)
    (hpar : nd.parent = some q) : g.ht q = g.ht p + 1 := by
  obtain ⟨Q, qn, a, b, ca, cb, h1, _, _, _, _, _, h7, _⟩ :=
    parent_split inv hp (inv.not_root_of_parent hp hpar)
  rw [hpar] at h1
  obtain rfl : q = Q := by simpa using h1
  exact h7

/-- After a split below a parent: with the separator and the new node
inserted into the parent the tree is well formed. -/
theorem attach_parent {t : BPTree K V} {g : Ghost K} (inv : InvG t g none) {P : Nat}
    {pn pn1 nn : Node K V} {h2 : Heap K V} {s : K} {R : Nat → Prop}
    (sp : SplitOK t g P pn h2 pn1 nn s R) (hnr : t.root ≠ some P) :
    ∃ G gn a b ca cb, pn.parent = some G ∧ h2.read G = some gn ∧ gn.leaf = false ∧
      gn.key = a ++ b ∧ gn.ptr2node = ca ++ some P :: cb ∧ a.length = ca.length ∧
      g.ht G = g.ht P + 1 ∧ G < t.heap.length ∧
      InvG { t with heap := h2.write G { gn with key := a ++ s :: b, ptr2node := ca ++ some P :: some t.heap.length :: cb } }
        (splitGhost g P t.heap.length s) none := by
  obtain ⟨G, gn, a, b, ca, cb, hpar, hG, hGleaf, hkey, hptr, hlen, hht, hloP, hhiP⟩ :=
    parent_split inv sp.live hnr
  have okG := inv.nodes G gn hG
  have hPlt : P < t.heap.length := Heap.read_lt sp.live
  have hGlt : G < t.heap.length := Heap.read_lt hG
  have hGP : G ≠ P := by intro h; rw [h] at hht; omega
  have hGN : G ≠ t.heap.length := by omega
  have hPN : P ≠ t.heap.length := by omega
  have hRht : ∀ p, R p → g.ht P = g.ht p + 1 ∧ p < t.heap.length := by
    intro p hp
    obtain ⟨_, _, _, nd, h1, h2, _⟩ := sp.readR p hp
    exact ⟨inv.ht_parent h1 h2, Heap.read_lt h1⟩
  have hRG : ¬ R G := by intro h; have := (hRht G h).1; omega
  have h2G : h2.read G = some gn := by rw [sp.readO G hRG hGP hGN]; exact hG
  have hG2 : G < h2.length := Heap.read_lt h2G
  refine ⟨G, gn, a, b, ca, cb, hpar, h2G, hGleaf, hkey, hptr, hlen, hht, hGlt, ?_⟩
  obtain ⟨G1, hG1⟩ : ∃ G1 : Node K V, G1 = { gn with key := a ++ s :: b, ptr2node := ca ++ some P :: some t.heap.length :: cb } := ⟨_, rfl⟩
  rw [← hG1]
  have hG1k : G1.key = a ++ s :: b := by rw [hG1]
  have hG1p : G1.ptr2node = ca ++ some P :: some t.heap.length :: cb := by rw [hG1]
  have hG1l : G1.leaf = false := by rw [hG1]; exact hGleaf
  have hG1par : G1.parent = gn.parent := by rw [hG1]
  have hrd : ∀ p, (h2.write G G1).read p =
      if p = G then some G1 else h2.read p := by
    intro p
    rw [Heap.read_write]
    by_cases hp : p = G <;> simp [hp, hG2]
  have hnd := okG.nodup hGleaf
  rw [hptr] at hnd
  obtain ⟨hPca, hPcb⟩ := nodup_mid hnd
  -- the children of the parent other than the split node are untouched
  have hsib : ∀ c l u, c ≠ some P → c ∈ gn.ptr2node → ChildOK g t.heap G c l u →
      ChildOK (splitGhost g P t.heap.length s)
        (h2.write G G1) G c l u := by
    rintro c l u hne hmem ⟨c1, cn, rfl, hc1, hcp, hch, hcl, hcu⟩
    have hc1lt : c1 < t.heap.length := Heap.read_lt hc1
    have hc1P : c1 ≠ P := fun e => hne (by rw [e])
    have hc1G : c1 ≠ G := by intro e; rw [e] at hch; omega
    have hc1R : ¬ R c1 := by
      intro hr
      obtain ⟨_, _, _, nd, h1, h2, _⟩ := sp.readR c1 hr
      rw [hc1] at h1
      obtain rfl : cn = nd := by simpa using h1
      rw [hcp] at h2
      exact hGP (by simpa using h2)
    refine ⟨c1, cn, rfl, ?_, hcp, ?_, ?_, ?_⟩
    · rw [hrd, if_neg hc1G, sp.readO c1 hc1R hc1P (by omega)]; exact hc1
    · simp [hGN, show c1 ≠ t.heap.length by omega, hch]
    · simp [show c1 ≠ t.heap.length by omega, hcl]
    · simp [show c1 ≠ t.heap.length by omega, hc1P, hcu]
  have hsa : ∀ x ∈ a, x < s := by
    apply all_lt_of_lastOr ((List.pairwise_append.mp (hkey ▸ okG.sorted)).1)
    rw [← hloP]; exact sp.loS
  have hsb : ∀ x ∈ b, s < x := by
    apply all_gt_of_headOr ((List.pairwise_append.mp (hkey ▸ okG.sorted)).2.1)
    rw [← hhiP]; exact sp.hiS
  have hlowG : ∀ k ∈ gn.key, loLt (g.lo G) k := by
    intro k hk
    have := okG.lower k hk
    simpa [hGleaf] using this
  have okG1 : NodeOK (splitGhost g P t.heap.length s)
      (h2.write G G1) G
      G1 := by
    refine ⟨by rw [hG1k]; exact sorted_insert (hkey ▸ okG.sorted) hsa hsb, ?_, ?_, ?_, ?_⟩
    · intro k hk
      rw [hG1k] at hk
      simp only [hG1l, Bool.false_eq_true, if_false, splitGhost_lo, hGN]
      simp only [List.mem_append, List.mem_cons] at hk
      rcases hk with hk | rfl | hk
      · exact hlowG k (by rw [hkey]; simp [hk])
      · apply loLt_of_lastOr (a := a) (fun z hz => hlowG z (by rw [hkey]; simp [hz]))
        rw [← hloP]; exact sp.loS
      · exact hlowG k (by rw [hkey]; simp [hk])
    · intro k hk
      rw [hG1k] at hk
      simp only [splitGhost_hi, hGN, hGP, if_false]
      simp only [List.mem_append, List.mem_cons] at hk
      rcases hk with hk | rfl | hk
      · exact okG.upper k (by rw [hkey]; simp [hk])
      · apply ltHi_of_headOr (b := b) (fun z hz => okG.upper z (by rw [hkey]; simp [hz]))
        rw [← hhiP]; exact sp.hiS
      · exact okG.upper k (by rw [hkey]; simp [hk])
    · intro hl; rw [hG1l] at hl; cases hl
    · intro _
      rw [hG1k, hG1p]
      simp only [splitGhost_lo, splitGhost_hi, hGN, hGP, if_false]
      have hold := okG.kids hGleaf
      rw [hkey, hptr] at hold
      obtain ⟨hseg, hrest⟩ := (kids_append _ _ _ a ca _ hlen).mp hold
      refine (kids_append _ _ _ a ca _ hlen).mpr ⟨?_, ?_⟩
      · refine SegL.seg_imp ?_ hseg
        intro c l u hmem hc
        exact hsib c l u (fun e => hPca (e ▸ hmem)) (by rw [hptr]; simp [hmem]) hc
      · refine kids_insert_after hrest ?_ ?_ ?_
        · refine ⟨P, pn1, rfl, ?_, by rw [sp.parP]; exact hpar, ?_, ?_, ?_⟩
          · rw [hrd, if_neg hGP.symm]; exact sp.readP
          · simp [hGN, hPN, hht]
          · simp [hPN, hloP]
          · simp [hPN]
        · refine ⟨t.heap.length, nn, rfl, ?_, by rw [sp.parN]; exact hpar, ?_, ?_, ?_⟩
          · rw [hrd, if_neg hGN.symm]; exact sp.readN
          · simp [hGN, hht]
          · simp
          · simp [hhiP]
        · intro c l u hmem hc
          exact hsib c l u (fun e => hPcb (e ▸ hmem)) (by rw [hptr]; simp [hmem]) hc
  -- the two halves keep their shape when the parent is rewritten
  have hhalf : ∀ (p : Nat) (nd : Node K V), (p = P ∨ p = t.heap.length) →
      NodeOK (splitGhost g P t.heap.length s) h2 p nd →
      NodeOK (splitGhost g P t.heap.length s)
        (h2.write G G1) p nd := by
    intro p nd hp ok
    refine ok.transfer rfl rfl rfl rfl rfl rfl rfl ?_
    intro c cn hl hmem hc hcp
    obtain ⟨c1, cn1, e1, e2, _, e4⟩ := ok.child hl hmem
    obtain rfl : c = c1 := by simpa using e1
    have hcG : c ≠ G := by
      intro e
      rw [e] at e4
      rcases hp with rfl | rfl
      · simp [hGN, hPN, hht] at e4
        omega
      · simp [hGN, hht] at e4
        omega
    exact ⟨cn, by rw [hrd, if_neg hcG]; exact hc, hcp, rfl, rfl, rfl⟩
  have hGpar : h2.read G = some gn → True := fun _ => trivial
  apply inv.frame (fun p => p = P ∨ p = t.heap.length ∨ p = G) R
  · obtain ⟨r, rn, h1, h2r, h3, h4, h5⟩ := inv.root
    have hrP : r ≠ P := fun e => hnr (by rw [h1, e])
    have hrN : r ≠ t.heap.length := by have := Heap.read_lt h2r; omega
    by_cases hrG : r = G
    · subst hrG
      rw [hG] at h2r
      obtain rfl : gn = rn := by simpa using h2r
      exact ⟨r, G1, h1, by rw [hrd, if_pos rfl], by rw [hG1par]; exact h3, by simp [hrN, h4],
        by simp [hrN, hrP, h5]⟩
    · have hrR : ¬ R r := by
        intro hr
        obtain ⟨_, _, _, nd, e1, e2, _⟩ := sp.readR r hr
        rw [h2r] at e1
        obtain rfl : rn = nd := by simpa using e1
        rw [h3] at e2; cases e2
      exact ⟨r, rn, h1, by rw [hrd, if_neg hrG, sp.readO r hrR hrP hrN]; exact h2r, h3,
        by simp [hrN, h4], by simp [hrN, hrP, h5]⟩
  · exact Or.inl rfl
  · intro e he; cases he
  · simp [sp.len]
  · intro p hpD hpR
    simp only [not_or] at hpD
    obtain ⟨h1, h2p, h3⟩ := hpD
    exact ⟨by show (h2.write G _).read p = _; rw [hrd, if_neg h3, sp.readO p hpR h1 h2p],
      by simp [h2p], by simp [h2p, h1], by simp [h2p]⟩
  · intro p hp
    obtain ⟨hne, hnl, hmem, nd, e1, e2, e3⟩ := sp.readR p hp
    obtain ⟨hh, hlt⟩ := hRht p hp
    have hpN : p ≠ t.heap.length := by omega
    have hpG : p ≠ G := by intro e; rw [e] at hh; omega
    refine ⟨?_, nd, t.heap.length, nn, e1, ⟨P, e2, Or.inl rfl⟩, ?_, by simp [hpN],
      by simp [hpN, hne], by simp [hpN], ?_, hnl, hmem⟩
    · simp only [not_or]; exact ⟨hne, hpN, hpG⟩
    · show (h2.write G _).read p = _; rw [hrd, if_neg hpG]; exact e3
    · show (h2.write G _).read _ = _; rw [hrd, if_neg hGN.symm]; exact sp.readN
  · intro p nd1 hp hrd1
    change (h2.write G _).read p = some nd1 at hrd1
    have hGG : (h2.write G G1).read G = some
        G1 := by
      rw [hrd, if_pos rfl]
    rcases hp with rfl | rfl | rfl
    · rw [hrd, if_neg hGP.symm, sp.readP] at hrd1
      obtain rfl : pn1 = nd1 := by simpa using hrd1
      refine ⟨hhalf p pn1 (Or.inl rfl) sp.okP, ?_, fun _ _ => sp.neP, ?_⟩
      · intro _
        exact ⟨G, _, by rw [sp.parP]; exact hpar, hGG, hG1l, by rw [hG1p]; simp⟩
      · have := inv.low p pn sp.live
        simp [hPN, sp.len]; omega
    · rw [hrd, if_neg hGN.symm, sp.readN] at hrd1
      obtain rfl : nn = nd1 := by simpa using hrd1
      refine ⟨hhalf _ nn (Or.inr rfl) sp.okN, ?_, fun _ _ => sp.neN, ?_⟩
      · intro _
        exact ⟨G, _, by rw [sp.parN]; exact hpar, hGG, hG1l, by rw [hG1p]; simp⟩
      · have := inv.low P pn sp.live
        simp [sp.len]; omega
    · rw [hGG] at hrd1
      obtain rfl := Option.some.inj hrd1
      refine ⟨okG1, ?_, fun _ _ => by rw [hG1k]; simp, ?_⟩
      · intro hne
        obtain ⟨GG, ggn, b1, b2, b3, b4⟩ := inv.attached p gn hG hne
        have hh := inv.ht_parent hG b1
        have hGGP : GG ≠ P := by intro e; rw [e] at hh; omega
        have hGGN : GG ≠ t.heap.length := by have := Heap.read_lt b2; omega
        have hGGG : GG ≠ p := by intro e; rw [e] at hh; omega
        have hGGR : ¬ R GG := by intro hr; have := (hRht GG hr).1; omega
        exact ⟨GG, ggn, by rw [hG1par]; exact b1,
          by rw [hrd, if_neg hGGG, sp.readO GG hGGR hGGP hGGN]; exact b2, b3, b4⟩
      · have := inv.low p gn hG
        simp [hGN, sp.len]; omega
  · intro c cn q hc hrc hcp hq
    simp only [not_or] at hq
    rcases hc with rfl | rfl | rfl
    · rw [sp.live] at hrc
      obtain rfl : pn = cn := by simpa using hrc
      rw [hpar] at hcp
      exact absurd (by simpa using hcp.symm) hq.2.2
    · rw [Heap.read_length] at hrc; cases hrc
    · rw [hG] at hrc
      obtain rfl : gn = cn := by simpa using hrc
      exact ⟨G1, by show (h2.write c _).read c = _; rw [hrd, if_pos rfl],
        by rw [hG1par]; exact hcp, by simp [hGN], by simp [hGN, hGP], by simp [hGN]⟩
  · intro q qn p hq hrq hql hpD hpR hmem
    simp only [not_or] at hpD
    rcases hq with rfl | rfl | rfl
    · rw [sp.live] at hrq
      obtain rfl : pn = qn := by simpa using hrq
      exact ⟨pn1, by show (h2.write G _).read q = _; rw [hrd, if_neg hGP.symm]; exact sp.readP,
        by rw [sp.leafP]; exact hql, sp.keep p hmem hpR⟩
    · rw [Heap.read_length] at hrq; cases hrq
    · rw [hG] at hrq
      obtain rfl : gn = qn := by simpa using hrq
      refine ⟨G1, by show (h2.write q _).read q = _; rw [hrd, if_pos rfl], hG1l, ?_⟩
      rw [hptr] at hmem
      rw [hG1p]
      simp only [List.mem_append, List.mem_cons] at hmem ⊢
      rcases hmem with h | h | h
      · exact Or.inl h
      · exact Or.inr (Or.inl h)
      · exact Or.inr (Or.inr (Or.inr h))
  · intro p nd1 hp hrd1 hl1
    change (h2.write G _).read p = some nd1 at hrd1
    rcases hp with rfl | rfl | rfl
    · rw [hrd, if_neg hGP.symm, sp.readP] at hrd1
      obtain rfl : pn1 = nd1 := by simpa using hrd1
      have hpl : pn.leaf = true := by rw [← sp.leafP]; exact hl1
      refine nextOK_iff.2 ⟨fun hn => ?_, fun b hb => ?_⟩
      · simp [hPN] at hn
      · simp only [splitGhost_hi, hPN, if_false, if_true, Option.some.injEq] at hb
        subst hb
        exact ⟨t.heap.length, nn, sp.nextP hpl, by rw [hrd, if_neg hGN.symm]; exact sp.readN,
          by rw [sp.leafN]; exact hpl, by simp⟩
    · rw [hrd, if_neg hGN.symm, sp.readN] at hrd1
      obtain rfl : nn = nd1 := by simpa using hrd1
      have hpl : pn.leaf = true := by rw [← sp.leafN]; exact hl1
      have hc := nextOK_iff.1 (inv.chain P pn sp.live hpl)
      refine nextOK_iff.2 ⟨fun hn => ?_, fun b hb => ?_⟩
      · rw [sp.nextN hpl]; exact hc.1 (by simpa using hn)
      · obtain ⟨q, qn, hn, hq, hql, hlo⟩ := hc.2 b (by simpa using hb)
        have hqlt : q < t.heap.length := Heap.read_lt hq
        have hqG : q ≠ G := by
          rintro rfl
          rw [hG] at hq
          obtain rfl : gn = qn := by simpa using hq
          rw [hGleaf] at hql; cases hql
        have hqR : ¬ R q := by
          intro hr
          have := (sp.readR q hr).2.1
          rw [sp.leafN, hpl] at this; cases this
        by_cases hqP : q = P
        · subst hqP
          exact ⟨q, pn1, by rw [sp.nextN hpl]; exact hn,
            by rw [hrd, if_neg hqG]; exact sp.readP, by rw [sp.leafP]; exact hpl,
            by simp [hPN]; exact hlo⟩
        · exact ⟨q, qn, by rw [sp.nextN hpl]; exact hn,
            by rw [hrd, if_neg hqG, sp.readO q hqR hqP (by omega)]; exact hq, hql,
            by simp [show q ≠ t.heap.length by omega]; exact hlo⟩
    · rw [hrd, if_pos rfl] at hrd1
      obtain rfl := Option.some.inj hrd1
      rw [hG1l] at hl1; cases hl1
  · intro p nd q qn _ _ _ _ hq hrq hql
    rcases hq with rfl | rfl | rfl
    · rw [sp.live] at hrq
      obtain rfl : pn = qn := by simpa using hrq
      exact ⟨pn1, by show (h2.write G _).read q = _; rw [hrd, if_neg hGP.symm]; exact sp.readP,
        by rw [sp.leafP]; exact hql, by simp [hPN]⟩
    · rw [Heap.read_length] at hrq; cases hrq
    · rw [hG] at hrq
      obtain rfl : gn = qn := by simpa using hrq
      rw [hGleaf] at hql; cases hql

end AttachParent

end BPlus

namespace BPlus

section AttachRoot

variable {K V : Type} [LinearOrder K]

/-! ### A split root and the new root -/

theorem leafView_write_of_internal {h : Heap K V} {p : Nat} {nd nd1 : Node K V}
    (hp : h.read p = some nd) (hl : nd.leaf = false) (hl1 : nd1.leaf = false) (q : Nat) :
    leafView (h.write p nd1) q = leafView h q := by
  unfold leafView
  rw [Heap.read_write]
  by_cases hq : q = p
  · subst hq; simp [Heap.read_lt hp, hp, hl, hl1]
  · simp [hq]

theorem leafView_write_parent {h : Heap K V} {p : Nat} {nd : Node K V}
    (hp : h.read p = some nd) (par : Option Nat) (q : Nat) :
    leafView (h.write p { nd with parent := par }) q = leafView h q := by
  unfold leafView
  rw [Heap.read_write]
  by_cases hq : q = p
  · subst hq; simp [Heap.read_lt hp, hp]
  · simp [hq]

theorem leafView_alloc_internal {h : Heap K V} {nd : Node K V} (hl : nd.leaf = false) (q : Nat) :
    leafView (h.alloc nd).1 q = leafView h q := by
  unfold leafView
  rw [Heap.read_alloc]
  by_cases hq : q = h.length
  · subst hq; simp [Heap.read_length, hl]
  · simp [hq]

/-- After a split of the root: the new-root block makes the tree well formed. -/
theorem attach_root {t : BPTree K V} {g : Ghost K} (inv : InvG t g none) {P : Nat}
    {pn pn1 nn : Node K V} {h2 : Heap K V} {s : K} {R : Nat → Prop}
    (sp : SplitOK t g P pn h2 pn1 nn s R) (hr : t.root = some P) :
    ∃ t3 g3, newRoot { t with heap := h2 } P t.heap.length s = some t3 ∧ InvG t3 g3 none ∧
      t3.order = t.order ∧ ∀ p, leafView t3.heap p = leafView h2 p := by
  obtain ⟨r, rn, h1, h2r, h3, h4, h5⟩ := inv.root
  obtain rfl : r = P := by rw [hr] at h1; simpa using h1.symm
  rw [sp.live] at h2r
  obtain rfl : pn = rn := by simpa using h2r
  have hPlt : r < t.heap.length := Heap.read_lt sp.live
  have hPN : r ≠ t.heap.length := by omega
  obtain ⟨nr, hnr⟩ : ∃ nr : Node K V, nr = { leaf := false, parent := none, next := none, key := [s], ptr2node := [some r, some t.heap.length], ptr2val := [] } := ⟨_, rfl⟩
  obtain ⟨pn2, hpn2⟩ : ∃ pn2 : Node K V, pn2 = { pn1 with parent := some h2.length } := ⟨_, rfl⟩
  obtain ⟨nn2, hnn2⟩ : ∃ nn2 : Node K V, nn2 = { nn with parent := some h2.length } := ⟨_, rfl⟩
  have hlen2 : h2.length = t.heap.length + 1 := sp.len
  have e1 : (h2.alloc nr).1.read r = some pn1 := by
    rw [Heap.read_alloc, if_neg (by omega)]; exact sp.readP
  have e2 : (((h2.alloc nr).1).write r pn2).read t.heap.length = some nn := by
    rw [Heap.read_write_ne _ (Ne.symm hPN), Heap.read_alloc, if_neg (by omega)]; exact sp.readN
  have hnew : newRoot { t with heap := h2 } r t.heap.length s =
      some { t with root := some h2.length,
                    heap := (((h2.alloc nr).1).write r pn2).write t.heap.length nn2 } := by
    simp only [newRoot]
    rw [← hnr, e1]
    simp only []
    rw [← hpn2, e2]
    simp only []
    rw [← hnn2]
  have hrd : ∀ p, ((((h2.alloc nr).1).write r pn2).write t.heap.length nn2).read p =
      if p = t.heap.length then some nn2 else if p = r then some pn2
      else if p = h2.length then some nr else h2.read p := by
    intro p
    by_cases a1 : p = t.heap.length
    · subst a1; rw [if_pos rfl]; exact Heap.read_write_same e2 nn2
    · rw [Heap.read_write_ne _ a1, if_neg a1]
      by_cases a2 : p = r
      · subst a2; rw [if_pos rfl]; exact Heap.read_write_same e1 pn2
      · rw [Heap.read_write_ne _ a2, if_neg a2, Heap.read_alloc]
  have hnrk : nr.key = [s] := by rw [hnr]
  have hnrp : nr.ptr2node = [some r, some t.heap.length] := by rw [hnr]
  have hnrl : nr.leaf = false := by rw [hnr]
  have hnrpar : nr.parent = none := by rw [hnr]
  refine ⟨_, (splitGhost g r t.heap.length s).set h2.length none none (g.ht r + 1), hnew, ?_, rfl,
    ?_⟩
  swap
  · intro p
    show leafView ((((h2.alloc nr).1).write r pn2).write t.heap.length nn2) p = _
    rw [hnn2, leafView_write_parent e2, hpn2, leafView_write_parent e1,
      leafView_alloc_internal hnrl]
  have hRht : ∀ p, R p → g.ht r = g.ht p + 1 ∧ p < t.heap.length := by
    intro p hp
    obtain ⟨_, _, _, nd, a1, a2, _⟩ := sp.readR p hp
    exact ⟨inv.ht_parent a1 a2, Heap.read_lt a1⟩
  -- the two halves keep their shape under the new root
  have hhalf : ∀ (p : Nat) (nd nd1 : Node K V), (p = r ∨ p = t.heap.length) →
      nd1 = { nd with parent := some h2.length } →
      NodeOK (splitGhost g r t.heap.length s) h2 p nd →
      NodeOK ((splitGhost g r t.heap.length s).set h2.length none none (g.ht r + 1))
        ((((h2.alloc nr).1).write r pn2).write t.heap.length nn2) p nd1 := by
    intro p nd nd1 hp hnd1 ok
    have hpl : p ≠ h2.length := by rcases hp with rfl | rfl <;> omega
    refine ok.transfer (by rw [hnd1]) (by rw [hnd1]) (by rw [hnd1]) (by rw [hnd1])
      (by simp [hpl]) (by simp [hpl]) (by simp [hpl]) ?_
    intro c cn hl hmem hc hcp
    obtain ⟨c1, cn1, a1, a2, _, a4⟩ := ok.child hl hmem
    obtain rfl : c = c1 := by simpa using a1
    have hcl : c < h2.length := Heap.read_lt hc
    have hcl2 : c ≠ h2.length := by omega
    have hcN : c ≠ t.heap.length := by
      intro e
      rw [e] at a4
      rcases hp with rfl | rfl
      · simp [hPN] at a4
      · simp at a4
    have hcr : c ≠ r := by
      intro e
      rw [e] at a4
      rcases hp with rfl | rfl
      · simp [hPN] at a4
      · simp [hPN] at a4
    exact ⟨cn, by rw [hrd, if_neg hcN, if_neg hcr, if_neg hcl2]; exact hc, hcp,
      by simp [hcl2], by simp [hcl2], by simp [hcl2]⟩
  have hN2 : t.heap.length ≠ h2.length := by omega
  have hr2 : r ≠ h2.length := by omega
  apply inv.frame (fun p => p = r ∨ p = t.heap.length ∨ p = h2.length) R
  · refine ⟨h2.length, nr, rfl, ?_, hnrpar, by simp, by simp⟩
    show (Heap.write _ _ _).read _ = _
    rw [hrd, if_neg hN2.symm, if_neg hr2.symm, if_pos rfl]
  · right; intro r1 hr1; rw [hr] at hr1; left; simpa using hr1.symm
  · intro e he; cases he
  · simp [hlen2]; omega
  · intro p hpD hpR
    simp only [not_or] at hpD
    obtain ⟨a1, a2, a3⟩ := hpD
    refine ⟨?_, by simp [a2, a3], by simp [a1, a2, a3], by simp [a2, a3]⟩
    show (Heap.write _ _ _).read _ = _
    rw [hrd, if_neg a2, if_neg a1, if_neg a3, sp.readO p hpR a1 a2]
  · intro p hp
    obtain ⟨hne, hnl, hmem, nd, a1, a2, a3⟩ := sp.readR p hp
    obtain ⟨hh, hlt⟩ := hRht p hp
    have hpN : p ≠ t.heap.length := by omega
    have hp2 : p ≠ h2.length := by omega
    refine ⟨?_, nd, t.heap.length, nn2, a1, ⟨r, a2, Or.inl rfl⟩, ?_, by simp [hpN, hp2],
      by simp [hpN, hp2, hne], by simp [hpN, hp2], ?_, by rw [hnn2]; exact hnl,
      by rw [hnn2]; exact hmem⟩
    · simp only [not_or]; exact ⟨hne, hpN, hp2⟩
    · show (Heap.write _ _ _).read _ = _
      rw [hrd, if_neg hpN, if_neg hne, if_neg hp2]; exact a3
    · show (Heap.write _ _ _).read _ = _
      rw [hrd, if_pos rfl]
  · intro p nd1 hp hrd1
    change (Heap.write _ _ _).read p = some nd1 at hrd1
    have hroot3 : (((((h2.alloc nr).1).write r pn2).write t.heap.length nn2).read h2.length) =
        some nr := by rw [hrd, if_neg hN2.symm, if_neg hr2.symm, if_pos rfl]
    rcases hp with rfl | rfl | rfl
    · rw [hrd, if_neg hPN, if_pos rfl] at hrd1
      obtain rfl : pn2 = nd1 := by simpa using hrd1
      refine ⟨hhalf p pn1 pn2 (Or.inl rfl) hpn2 sp.okP, ?_,
        fun _ _ => by rw [hpn2]; exact sp.neP, ?_⟩
      · intro _
        exact ⟨h2.length, nr, by rw [hpn2], hroot3, hnrl, by rw [hnrp]; simp⟩
      · have := inv.low p pn sp.live
        simp [hPN, hr2]; omega
    · rw [hrd, if_pos rfl] at hrd1
      obtain rfl : nn2 = nd1 := by simpa using hrd1
      refine ⟨hhalf _ nn nn2 (Or.inr rfl) hnn2 sp.okN, ?_,
        fun _ _ => by rw [hnn2]; exact sp.neN, ?_⟩
      · intro _
        exact ⟨h2.length, nr, by rw [hnn2], hroot3, hnrl, by rw [hnrp]; simp⟩
      · have := inv.low r pn sp.live
        simp [hN2]; omega
    · rw [hroot3] at hrd1
      obtain rfl : nr = nd1 := by simpa using hrd1
      refine ⟨?_, fun hne => absurd rfl hne, fun _ _ => by rw [hnrk]; simp, ?_⟩
      · refine ⟨by rw [hnrk]; simp, ?_, ?_, ?_, ?_⟩
        · intro k hk; rw [hnrl]; simp
        · intro k hk; simp
        · intro hl; rw [hnrl] at hl; cases hl
        · intro _
          simp only [Ghost.set_lo, Ghost.set_hi, if_true]
          rw [hnrk, hnrp]
          refine ⟨some r, [some t.heap.length], rfl, ?_, some t.heap.length, rfl, ?_⟩
          · refine ⟨r, pn2, rfl, ?_, by rw [hpn2], by simp [hr2, hPN], by simp [hr2, hPN, h4],
              by simp [hr2, hPN]⟩
            rw [hrd, if_neg hPN, if_pos rfl]
          · refine ⟨t.heap.length, nn2, rfl, ?_, by rw [hnn2], by simp [hN2], by simp [hN2],
              by simp [hN2, h5]⟩
            rw [hrd, if_pos rfl]
      · have := inv.low r pn sp.live
        simp; omega
  · intro c cn q hc hrc hcp hq
    rcases hc with rfl | rfl | rfl
    · rw [sp.live] at hrc
      obtain rfl : pn = cn := by simpa using hrc
      rw [h3] at hcp; cases hcp
    · rw [Heap.read_length] at hrc; cases hrc
    · have : t.heap.read h2.length = none := by
        rw [Heap.read_def, List.getElem?_eq_none (by omega)]; rfl
      rw [this] at hrc; cases hrc
  · intro q qn p hq hrq hql hpD hpR hmem
    rcases hq with rfl | rfl | rfl
    · rw [sp.live] at hrq
      obtain rfl : pn = qn := by simpa using hrq
      refine ⟨pn2, ?_, by rw [hpn2]; show pn1.leaf = false; rw [sp.leafP]; exact hql,
        by rw [hpn2]; exact sp.keep p hmem hpR⟩
      show (Heap.write _ _ _).read _ = _
      rw [hrd, if_neg hPN, if_pos rfl]
    · rw [Heap.read_length] at hrq; cases hrq
    · have : t.heap.read h2.length = none := by
        rw [Heap.read_def, List.getElem?_eq_none (by omega)]; rfl
      rw [this] at hrq; cases hrq
  · intro p nd1 hp hrd1 hl1
    change (Heap.write _ _ _).read p = some nd1 at hrd1
    rcases hp with rfl | rfl | rfl
    · rw [hrd, if_neg hPN, if_pos rfl] at hrd1
      obtain rfl : pn2 = nd1 := by simpa using hrd1
      have hpl : pn.leaf = true := by rw [← sp.leafP, ← hl1, hpn2]
      refine nextOK_iff.2 ⟨fun hn => ?_, fun b hb => ?_⟩
      · simp [hPN, hr2] at hn
      · simp only [Ghost.set_hi, splitGhost_hi, hPN, hr2, if_false, if_true,
          Option.some.injEq] at hb
        subst hb
        exact ⟨t.heap.length, nn2, by rw [hpn2]; exact sp.nextP hpl, by rw [hrd, if_pos rfl],
          by rw [hnn2]; show nn.leaf = true; rw [sp.leafN]; exact hpl, by simp [hN2]⟩
    · rw [hrd, if_pos rfl] at hrd1
      obtain rfl : nn2 = nd1 := by simpa using hrd1
      have hpl : pn.leaf = true := by rw [← sp.leafN, ← hl1, hnn2]
      have hc := nextOK_iff.1 (inv.chain r pn sp.live hpl)
      refine nextOK_iff.2 ⟨fun _ => ?_, fun b hb => ?_⟩
      · rw [hnn2]; show nn.next = none; rw [sp.nextN hpl]; exact hc.1 h5
      · simp [hN2, h5] at hb
    · rw [hrd, if_neg hN2.symm, if_neg hr2.symm, if_pos rfl] at hrd1
      obtain rfl : nr = nd1 := by simpa using hrd1
      rw [hnrl] at hl1; cases hl1
  · intro p nd q qn _ _ _ _ hq hrq hql
    rcases hq with rfl | rfl | rfl
    · rw [sp.live] at hrq
      obtain rfl : pn = qn := by simpa using hrq
      refine ⟨pn2, ?_, by rw [hpn2]; show pn1.leaf = true; rw [sp.leafP]; exact hql,
        by simp [hPN, hr2]⟩
      show (Heap.write _ _ _).read _ = _
      rw [hrd, if_neg hPN, if_pos rfl]
    · rw [Heap.read_length] at hrq; cases hrq
    · have : t.heap.read h2.length = none := by
        rw [Heap.read_def, List.getElem?_eq_none (by omega)]; rfl
      rw [this] at hrq; cases hrq

end AttachRoot

end BPlus

namespace BPlus

section Splits

variable {K V : Type} [LinearOrder K]

/-! ### Stored pairs -/

theorem contains_iff_pairs {t : BPTree K V} {k : K} {v : V} :
    Contains t k v ↔ ∃ p, (k, v) ∈ pairsAt t.heap p := by
  rw [contains_iff_view]
  constructor
  · rintro ⟨p, ks, vs, i, hview, hk, hv⟩
    refine ⟨p, ?_⟩
    simp only [pairsAt, hview]
    exact List.getElem?_mem (List.getElem?_zip_eq_some.mpr ⟨hk, hv⟩)
  · rintro ⟨p, hp⟩
    unfold pairsAt at hp
    cases hview : leafView t.heap p with
    | none => simp [hview] at hp
    | some kv =>
      obtain ⟨ks, vs⟩ := kv
      simp only [hview] at hp
      obtain ⟨i, hi⟩ := List.getElem?_of_mem hp
      obtain ⟨h1, h2⟩ := List.getElem?_zip_eq_some.mp hi
      exact ⟨p, ks, vs, i, hview, h1, h2⟩

theorem SamePairs.contains {t t1 : BPTree K V} (h : SamePairs t.heap t1.heap) (k : K) (v : V) :
    Contains t1 k v ↔ Contains t k v := by
  rw [contains_iff_pairs, contains_iff_pairs]; exact h k v

theorem SamePairs.refl (h : Heap K V) : SamePairs h h := fun _ _ => Iff.rfl

theorem SamePairs.comp {h h1 h2 : Heap K V} (a : SamePairs h h1) (b : SamePairs h1 h2) :
    SamePairs h h2 := fun k v => (b k v).trans (a k v)

theorem SamePairs.of_view {h h1 : Heap K V} (e : ∀ p, leafView h1 p = leafView h p) :
    SamePairs h h1 := by
  intro k v
  simp only [pairsAt, e]

theorem pairsAt_of_leaf {h : Heap K V} {p : Nat} {n : Node K V} (hp : h.read p = some n)
    (hl : n.leaf = true) : pairsAt h p = n.key.zip n.ptr2val := by
  simp [pairsAt, leafView, hp, hl]

theorem pairsAt_of_none {h : Heap K V} {p : Nat} (hp : h.read p = none) : pairsAt h p = [] := by
  simp [pairsAt, leafView, hp]

/-! ### The loop that sets the parent of the children -/

theorem reparent_spec (N : Nat) : ∀ (cs : List (Option Nat)) (h : Heap K V),
    (∀ c ∈ cs, ∃ c1 cn, c = some c1 ∧ h.read c1 = some cn) →
    ∃ h1, reparent N cs h = some h1 ∧ h1.length = h.length ∧
      ∀ q, h1.read q = if some q ∈ cs then
        (h.read q).map (fun n => { n with parent := some N }) else h.read q := by
  intro cs
  induction cs with
  | nil => intro h _; exact ⟨h, rfl, rfl, fun q => by simp⟩
  | cons c cs ih =>
    intro h hall
    obtain ⟨c1, cn, rfl, hc1⟩ := hall c (by simp)
    have hall2 : ∀ c ∈ cs, ∃ c2 cn2, c = some c2 ∧
        (h.write c1 { cn with parent := some N }).read c2 = some cn2 := by
      intro c hc
      obtain ⟨c2, cn2, e, hc2⟩ := hall c (by simp [hc])
      by_cases e2 : c2 = c1
      · exact ⟨c2, _, e, by rw [e2]; exact Heap.read_write_same hc1 _⟩
      · exact ⟨c2, cn2, e, by rw [Heap.read_write_ne _ e2]; exact hc2⟩
    obtain ⟨h1, e1, e2, e3⟩ := ih (h.write c1 { cn with parent := some N }) hall2
    refine ⟨h1, by simp [reparent, hc1, e1], by simp [e2], ?_⟩
    intro q
    rw [e3]
    by_cases hq : q = c1
    · subst hq
      rw [Heap.read_write_same hc1]
      simp [hc1]
    · rw [Heap.read_write_ne _ hq]
      have : (some q = some c1) = False := by simp [hq]
      simp [this]

/-! ### Cutting a node at a key -/

theorem kids_split_key {P : Option Nat → Option K → Option K → Prop} (s : K) (b : List K)
    (cb : List (Option Nat)) (hi : Option K) :
    ∀ (a : List K) (ca : List (Option Nat)) (lo : Option K), ca.length = a.length + 1 →
      (Kids P lo (a ++ s :: b) (ca ++ cb) hi ↔ Kids P lo a ca (some s) ∧ Kids P (some s) b cb hi) := by
  intro a
  induction a with
  | nil =>
    intro ca lo hlen
    obtain ⟨c, rfl⟩ : ∃ c, ca = [c] := by
      cases ca with
      | nil => simp at hlen
      | cons c ca1 =>
        cases ca1 with
        | nil => exact ⟨c, rfl⟩
        | cons _ _ => simp at hlen
    simp only [List.nil_append, Kids, List.singleton_append]
    constructor
    · rintro ⟨c2, cs2, heq, hc, hk⟩
      obtain ⟨rfl, rfl⟩ := List.cons.inj heq
      exact ⟨⟨c, rfl, hc⟩, hk⟩
    · rintro ⟨⟨c2, heq, hc⟩, hk⟩
      obtain ⟨rfl, _⟩ := List.cons.inj heq
      exact ⟨c, cb, rfl, hc, hk⟩
  | cons x xs ih =>
    intro ca lo hlen
    cases ca with
    | nil => simp at hlen
    | cons c ca1 =>
      have hl : ca1.length = xs.length + 1 := by simpa using hlen
      simp only [List.cons_append, Kids]
      constructor
      · rintro ⟨c2, cs2, heq, hc, hk⟩
        obtain ⟨rfl, rfl⟩ := List.cons.inj heq
        obtain ⟨k1, k2⟩ := (ih ca1 (some x) hl).mp hk
        exact ⟨⟨c, ca1, rfl, hc, k1⟩, k2⟩
      · rintro ⟨⟨c2, cs2, heq, hc, k1⟩, k2⟩
        obtain ⟨rfl, rfl⟩ := List.cons.inj heq
        exact ⟨c, ca1 ++ cb, rfl, hc, (ih ca1 (some x) hl).mpr ⟨k1, k2⟩⟩

end Splits

end BPlus

namespace BPlus

section SplitLeaf

variable {K V : Type} [LinearOrder K]

/-! ### Splitting a leaf -/

theorem sorted_mid {a b : List K} {s : K} (hs : (a ++ s :: b).Pairwise (fun p q => p < q)) :
    a.Pairwise (fun p q => p < q) ∧ (s :: b).Pairwise (fun p q => p < q) ∧
      b.Pairwise (fun p q => p < q) ∧ (∀ x ∈ a, x < s) ∧ (∀ x ∈ b, s < x) := by
  obtain ⟨h1, h2, h3⟩ := List.pairwise_append.mp hs
  obtain ⟨h4, h5⟩ := List.pairwise_cons.mp h2
  exact ⟨h1, h2, h5, fun x hx => h3 x hx s (by simp), h4⟩

/-- The function `splitLeaf` on a leaf with at least two keys. -/
theorem splitLeaf_spec {t : BPTree K V} {g : Ghost K} (inv : InvG t g none) {L : Nat}
    {lf : Node K V} (hL : t.heap.read L = some lf) (hleaf : lf.leaf = true)
    (hm : 2 ≤ lf.key.length) :
    ∃ h2 lf2 nl s, splitLeaf t L = some ({ t with heap := h2 }, t.heap.length) ∧
      SplitOK t g L lf h2 lf2 nl s (fun _ => False) ∧ vget nl.key 0 = some s ∧
      SamePairs t.heap h2 := by
  have ok := inv.nodes L lf hL
  obtain ⟨ht0, hvl⟩ := ok.leafOK hleaf
  have hLlt : L < t.heap.length := Heap.read_lt hL
  have hLN : L ≠ t.heap.length := by omega
  obtain ⟨mid, hmid⟩ : ∃ mid, mid = lf.key.length / 2 := ⟨_, rfl⟩
  have hmid1 : 1 ≤ mid := by omega
  have hmid2 : mid < lf.key.length := by omega
  obtain ⟨a, ha⟩ : ∃ a, a = lf.key.take mid := ⟨_, rfl⟩
  obtain ⟨b, hb⟩ : ∃ b, b = lf.key.drop (mid + 1) := ⟨_, rfl⟩
  obtain ⟨s, hs⟩ : ∃ s, s = lf.key[mid] := ⟨_, rfl⟩
  have hdrop : lf.key.drop mid = s :: b := by rw [hs, hb]; exact List.drop_eq_getElem_cons hmid2
  have hkey : lf.key = a ++ s :: b := by rw [ha, ← hdrop]; exact (List.take_append_drop _ _).symm
  have halen : a.length = mid := by rw [ha, List.length_take]; omega
  obtain ⟨sa, ssb, sb, hlt, hgt⟩ := sorted_mid (hkey ▸ ok.sorted)
  obtain ⟨nl, hnl⟩ : ∃ nl : Node K V, nl = { leaf := true, parent := lf.parent, next := lf.next, key := s :: b, ptr2node := [], ptr2val := lf.ptr2val.drop mid } := ⟨_, rfl⟩
  obtain ⟨lf2, hlf2⟩ : ∃ lf2 : Node K V, lf2 = { lf with next := some t.heap.length, key := a, ptr2val := lf.ptr2val.take mid } := ⟨_, rfl⟩
  have hsplit : splitLeaf t L =
      some ({ t with heap := ((t.heap.alloc nl).1).write L lf2 }, t.heap.length) := by
    simp only [splitLeaf, hL, ← hmid, vfrom_natCast _ _ (le_of_lt hmid2),
      vfrom_natCast lf.ptr2val mid (by omega), vtrunc_natCast _ _ (le_of_lt hmid2),
      vtrunc_natCast lf.ptr2val mid (by omega), hdrop, ← ha]
    rw [hnl, hlf2]
  have hLa : (t.heap.alloc nl).1.read L = some lf := by
    rw [Heap.read_alloc, if_neg hLN]; exact hL
  have hrd : ∀ p, (((t.heap.alloc nl).1).write L lf2).read p =
      if p = L then some lf2 else if p = t.heap.length then some nl else t.heap.read p := by
    intro p
    by_cases h1 : p = L
    · subst h1; rw [if_pos rfl]; exact Heap.read_write_same hLa lf2
    · rw [Heap.read_write_ne _ h1, if_neg h1, Heap.read_alloc]
  have hlo0 : loLe (g.lo L) s := ok.lower_loLe (by rw [hkey]; simp)
  have hane : a ≠ [] := by intro e; rw [e] at halen; simp at halen; omega
  refine ⟨_, lf2, nl, s, hsplit, ?_, by rw [hnl]; simp, ?_⟩
  · refine ⟨hL, by simp, by rw [hrd, if_pos rfl], by rw [hrd, if_neg hLN.symm, if_pos rfl],
      fun p hp => absurd hp id, ?_, by rw [hlf2], by rw [hnl], by rw [hlf2],
      by rw [hnl, hleaf], fun _ => by rw [hlf2], fun _ => by rw [hnl],
      ?_, ?_, ?_, ?_, ?_, by rw [hlf2]; exact hane, by rw [hnl]; simp⟩
    · intro p _ h1 h2; rw [hrd, if_neg h1, if_neg h2]
    · intro p hp _; rw [hlf2]; exact hp
    · -- the separator is above the first key
      obtain ⟨x, xs, hx⟩ := List.exists_cons_of_ne_nil hane
      have hx1 : loLe (g.lo L) x := ok.lower_loLe (by rw [hkey, hx]; simp)
      exact hx1.trans_lt (hlt x (by rw [hx]; simp))
    · exact ok.upper s (by rw [hkey]; simp)
    · refine ⟨by rw [hlf2]; exact sa, ?_, ?_, ?_, ?_⟩
      · intro k hk
        rw [hlf2] at hk
        simp only [hlf2, hleaf, if_true, splitGhost_lo, hLN, if_false]
        exact ok.lower_loLe (by rw [hkey]; simp [show k ∈ a from hk])
      · intro k hk
        rw [hlf2] at hk
        simp only [splitGhost_hi, hLN, if_false, if_true, ltHi_some]
        exact hlt k hk
      · intro _
        simp only [splitGhost_ht, hLN, if_false]
        refine ⟨ht0, ?_⟩
        rw [hlf2]
        simp only [List.length_take, halen]
        omega
      · intro hf; rw [hlf2] at hf; simp [hleaf] at hf
    · refine ⟨by rw [hnl]; exact ssb, ?_, ?_, ?_, ?_⟩
      · intro k hk
        rw [hnl] at hk
        simp only [hnl, if_true, splitGhost_lo, loLe_some]
        rcases List.mem_cons.mp hk with rfl | hk
        · exact le_refl _
        · exact le_of_lt (hgt k hk)
      · intro k hk
        rw [hnl] at hk
        simp only [splitGhost_hi, if_true]
        exact ok.upper k (by rw [hkey]; simp only [List.mem_append]; exact Or.inr hk)
      · intro _
        simp only [splitGhost_ht, if_true]
        refine ⟨ht0, ?_⟩
        rw [hnl]
        simp only [List.length_drop, List.length_cons]
        have : lf.key.length = a.length + (b.length + 1) := by rw [hkey]; simp
        omega
      · intro hf; rw [hnl] at hf; cases hf
  · -- the pairs of the leaf are shared out between the two halves
    have pL : pairsAt (((t.heap.alloc nl).1).write L lf2) L = (lf.key.zip lf.ptr2val).take mid := by
      rw [pairsAt_of_leaf (by rw [hrd, if_pos rfl]) (by rw [hlf2]; exact hleaf), hlf2, ha,
        List.zip_eq_zipWith, List.zip_eq_zipWith, List.take_zipWith]
    have pN : pairsAt (((t.heap.alloc nl).1).write L lf2) t.heap.length =
        (lf.key.zip lf.ptr2val).drop mid := by
      rw [pairsAt_of_leaf (by rw [hrd, if_neg hLN.symm, if_pos rfl]) (by rw [hnl]), hnl, ← hdrop,
        List.zip_eq_zipWith, List.zip_eq_zipWith, List.drop_zipWith]
    have pO : ∀ p, p ≠ L → p ≠ t.heap.length →
        pairsAt (((t.heap.alloc nl).1).write L lf2) p = pairsAt t.heap p := by
      intro p h1 h2
      simp only [pairsAt, leafView, hrd, if_neg h1, if_neg h2]
    have p0 : pairsAt t.heap L = lf.key.zip lf.ptr2val := pairsAt_of_leaf hL hleaf
    intro k v
    constructor
    · rintro ⟨p, hp⟩
      by_cases h1 : p = L
      · subst h1; rw [pL] at hp
        exact ⟨p, by rw [p0]; exact List.mem_of_mem_take hp⟩
      · by_cases h2 : p = t.heap.length
        · subst h2; rw [pN] at hp
          exact ⟨L, by rw [p0]; exact List.mem_of_mem_drop hp⟩
        · exact ⟨p, by rw [← pO p h1 h2]; exact hp⟩
    · rintro ⟨p, hp⟩
      by_cases h1 : p = L
      · subst h1
        rw [p0, ← List.take_append_drop mid (lf.key.zip lf.ptr2val)] at hp
        rcases List.mem_append.mp hp with h | h
        · exact ⟨p, by rw [pL]; exact h⟩
        · exact ⟨t.heap.length, by rw [pN]; exact h⟩
      · by_cases h2 : p = t.heap.length
        · subst h2
          rw [pairsAt_of_none (Heap.read_length _)] at hp
          simp at hp
        · exact ⟨p, by rw [pO p h1 h2]; exact hp⟩

end SplitLeaf

end BPlus

namespace BPlus

section SplitNode

variable {K V : Type} [LinearOrder K]

/-! ### Splitting an internal node -/

/-- The function `splitNode` on an internal node with at least three keys. -/
theorem splitNode_spec {t : BPTree K V} {g : Ghost K} (inv : InvG t g none) {Q : Nat}
    {qn : Node K V} (hQ : t.heap.read Q = some qn) (hleaf : qn.leaf = false)
    (hm : 3 ≤ qn.key.length) :
    ∃ h3 q1 nn s R, splitNode t Q = some ({ t with heap := h3 }, t.heap.length, s) ∧
      SplitOK t g Q qn h3 q1 nn s R ∧ ∀ p, leafView h3 p = leafView t.heap p := by
  have ok := inv.nodes Q qn hQ
  have hkids := ok.kids hleaf
  have hplen := hkids.length_eq
  have hQlt : Q < t.heap.length := Heap.read_lt hQ
  have hQN : Q ≠ t.heap.length := by omega
  obtain ⟨j, hj⟩ : ∃ j, j = (qn.key.length + 1) / 2 - 1 := ⟨_, rfl⟩
  have hj1 : 1 ≤ j := by omega
  have hj2 : j + 1 < qn.key.length := by omega
  have hmidI : (((qn.key.length + 1) / 2 : Nat) : Int) - 1 = (j : Int) := by omega
  have hmidI1 : (j : Int) + 1 = ((j + 1 : Nat) : Int) := by push_cast; ring
  obtain ⟨a, ha⟩ : ∃ a, a = qn.key.take j := ⟨_, rfl⟩
  obtain ⟨b, hb⟩ : ∃ b, b = qn.key.drop (j + 1) := ⟨_, rfl⟩
  obtain ⟨s, hs⟩ : ∃ s, s = qn.key[j] := ⟨_, rfl⟩
  obtain ⟨ca, hca⟩ : ∃ ca, ca = qn.ptr2node.take (j + 1) := ⟨_, rfl⟩
  obtain ⟨cb, hcb⟩ : ∃ cb, cb = qn.ptr2node.drop (j + 1) := ⟨_, rfl⟩
  have hdrop : qn.key.drop j = s :: b := by
    rw [hs, hb]; exact List.drop_eq_getElem_cons (by omega)
  have hkey : qn.key = a ++ s :: b := by rw [ha, ← hdrop]; exact (List.take_append_drop _ _).symm
  have hptr : qn.ptr2node = ca ++ cb := by rw [hca, hcb]; exact (List.take_append_drop _ _).symm
  have halen : a.length = j := by rw [ha, List.length_take]; omega
  have hcalen : ca.length = a.length + 1 := by rw [hca, List.length_take, halen]; omega
  obtain ⟨sa, ssb, sb, hlt, hgt⟩ := sorted_mid (hkey ▸ ok.sorted)
  have hane : a ≠ [] := by intro e; rw [e] at halen; simp at halen; omega
  have hbne : b ≠ [] := by
    intro e
    have : qn.key.length = a.length + (b.length + 1) := by rw [hkey]; simp
    rw [e] at this; simp at this; omega
  obtain ⟨kA, kB⟩ := (kids_split_key s b cb (g.hi Q) a ca (g.lo Q) hcalen).mp
    (by rw [← hkey, ← hptr]; exact hkids)
  have hnd := ok.nodup hleaf
  rw [hptr] at hnd
  have hdisj : ∀ c, c ∈ ca → c ∈ cb → False := fun c h1 h2 =>
    (List.nodup_append.mp hnd).2.2 h1 h2
  obtain ⟨nn, hnn⟩ : ∃ nn : Node K V, nn = { leaf := false, parent := qn.parent, next := none, key := b, ptr2node := cb, ptr2val := [] } := ⟨_, rfl⟩
  obtain ⟨q1, hq1⟩ : ∃ q1 : Node K V, q1 = { qn with key := a, ptr2node := ca } := ⟨_, rfl⟩
  have hQa : (t.heap.alloc nn).1.read Q = some qn := by
    rw [Heap.read_alloc, if_neg hQN]; exact hQ
  have hrd2 : ∀ p, (((t.heap.alloc nn).1).write Q q1).read p =
      if p = Q then some q1 else if p = t.heap.length then some nn else t.heap.read p := by
    intro p
    by_cases h1 : p = Q
    · subst h1; rw [if_pos rfl]; exact Heap.read_write_same hQa q1
    · rw [Heap.read_write_ne _ h1, if_neg h1, Heap.read_alloc]
  -- what is known of a child of the node
  have hchild : ∀ c, c ∈ qn.ptr2node → ∃ c1 cn, c = some c1 ∧ t.heap.read c1 = some cn ∧
      cn.parent = some Q ∧ g.ht Q = g.ht c1 + 1 ∧ c1 ≠ Q ∧ c1 ≠ t.heap.length := by
    intro c hc
    obtain ⟨c1, cn, e1, e2, e3, e4⟩ := ok.child hleaf hc
    exact ⟨c1, cn, e1, e2, e3, e4, by intro e; rw [e] at e4; omega,
      by have := Heap.read_lt e2; omega⟩
  obtain ⟨h3, hre, hlen3, hrd3⟩ := reparent_spec t.heap.length cb
    (((t.heap.alloc nn).1).write Q q1) (by
      intro c hc
      obtain ⟨c1, cn, e1, e2, _, _, e5, e6⟩ := hchild c (by rw [hptr]; simp [hc])
      exact ⟨c1, cn, e1, by rw [hrd2, if_neg e5, if_neg e6]; exact e2⟩)
  have hQcb : some Q ∉ cb := by
    intro hc
    obtain ⟨c1, cn, e1, _, _, _, e5, _⟩ := hchild (some Q) (by rw [hptr]; simp [hc])
    exact e5 (by simpa using e1.symm)
  have hNcb : some t.heap.length ∉ cb := by
    intro hc
    obtain ⟨c1, cn, e1, _, _, _, _, e6⟩ := hchild (some t.heap.length) (by rw [hptr]; simp [hc])
    exact e6 (by simpa using e1.symm)
  have hsplit : splitNode t Q = some ({ t with heap := h3 }, t.heap.length, s) := by
    have e1 : vget qn.key (j : Int) = some s := by
      rw [vget_natCast, hs]; exact List.getElem?_eq_getElem (by omega)
    simp only [splitNode, hQ, hmidI, e1, hmidI1, vfrom_natCast _ _ (le_of_lt hj2),
      vfrom_natCast qn.ptr2node (j + 1) (by omega), vtrunc_natCast qn.key j (by omega),
      vtrunc_natCast qn.ptr2node (j + 1) (by omega), ← ha, ← hb, ← hca, ← hcb, ← hnn, ← hq1, hre]
  have rQ : h3.read Q = some q1 := by rw [hrd3, if_neg hQcb, hrd2, if_pos rfl]
  have rN : h3.read t.heap.length = some nn := by
    rw [hrd3, if_neg hNcb, hrd2, if_neg hQN.symm, if_pos rfl]
  have rO : ∀ p, some p ∉ cb → p ≠ Q → p ≠ t.heap.length → h3.read p = t.heap.read p := by
    intro p h1 h2 h3'
    rw [hrd3, if_neg h1, hrd2, if_neg h2, if_neg h3']
  have rR : ∀ p, some p ∈ cb → ∃ nd, t.heap.read p = some nd ∧ nd.parent = some Q ∧
      g.ht Q = g.ht p + 1 ∧ p ≠ Q ∧ p ≠ t.heap.length ∧
      h3.read p = some { nd with parent := some t.heap.length } := by
    intro p hp
    obtain ⟨c1, cn, e1, e2, e3, e4, e5, e6⟩ := hchild (some p) (by rw [hptr]; simp [hp])
    obtain rfl : p = c1 := by simpa using e1
    exact ⟨cn, e2, e3, e4, e5, e6, by rw [hrd3, if_pos hp, hrd2, if_neg e5, if_neg e6, e2]; rfl⟩
  refine ⟨h3, q1, nn, s, fun p => some p ∈ cb, hsplit, ?_, ?_⟩
  · refine ⟨hQ, by rw [hlen3]; simp, rQ, rN, ?_, rO, by rw [hq1], by rw [hnn], by rw [hq1],
      by rw [hnn, hleaf], (fun hl => by rw [hleaf] at hl; cases hl),
      (fun hl => by rw [hleaf] at hl; cases hl),
      ?_, ?_, ?_, ?_, ?_, by rw [hq1]; exact hane, by rw [hnn]; exact hbne⟩
    · intro p hp
      obtain ⟨nd, e1, e2, _, e4, _, e6⟩ := rR p hp
      exact ⟨e4, by rw [hnn], by rw [hnn]; exact hp, nd, e1, e2, e6⟩
    · intro p hp hnR
      rw [hptr] at hp
      rw [hq1]
      rcases List.mem_append.mp hp with h | h
      · exact h
      · exact absurd h hnR
    · have := ok.lower s (by rw [hkey]; simp)
      simpa [hleaf] using this
    · exact ok.upper s (by rw [hkey]; simp)
    · refine ⟨by rw [hq1]; exact sa, ?_, ?_, ?_, ?_⟩
      · intro k hk
        rw [hq1] at hk
        have := ok.lower k (by rw [hkey]; simp [show k ∈ a from hk])
        simpa [hq1, hleaf, hQN] using this
      · intro k hk
        rw [hq1] at hk
        simp only [splitGhost_hi, hQN, if_false, if_true, ltHi_some]
        exact hlt k hk
      · intro hf; rw [hq1] at hf; simp [hleaf] at hf
      · intro _
        simp only [splitGhost_lo, splitGhost_hi, hQN, if_false, if_true]
        rw [hq1]
        refine Kids.imp ?_ kA
        rintro c l u hmem ⟨c1, cn, rfl, hc1, hcp, hch, hcl, hcu⟩
        have hncb : some c1 ∉ cb := fun h => hdisj _ hmem h
        obtain ⟨_, _, e1, _, _, _, e5, e6⟩ := hchild (some c1) (by rw [hptr]; simp [hmem])
        obtain rfl := Option.some.inj e1
        refine ⟨_, cn, rfl, by rw [rO _ hncb e5 e6]; exact hc1, hcp, ?_, ?_, ?_⟩
        · simp [hQN, e6, hch]
        · simp [e6, hcl]
        · simp [e6, e5, hcu]
    · refine ⟨by rw [hnn]; exact sb, ?_, ?_, ?_, ?_⟩
      · intro k hk
        rw [hnn] at hk
        simp only [hnn, Bool.false_eq_true, if_false, splitGhost_lo, if_true, loLt_some]
        exact hgt k hk
      · intro k hk
        rw [hnn] at hk
        simp only [splitGhost_hi, if_true]
        exact ok.upper k (by rw [hkey]; simp [show k ∈ b from hk])
      · intro hf; rw [hnn] at hf; cases hf
      · intro _
        simp only [splitGhost_lo, splitGhost_hi, if_true]
        rw [hnn]
        refine Kids.imp ?_ kB
        rintro c l u hmem ⟨c1, cn, rfl, hc1, hcp, hch, hcl, hcu⟩
        obtain ⟨nd, e1, e2, e3, e4, e5, e6⟩ := rR c1 hmem
        refine ⟨c1, _, rfl, e6, rfl, ?_, ?_, ?_⟩
        · simp [e5, e3]
        · simp [e5, hcl]
        · simp [e5, e4, hcu]
  · intro p
    unfold leafView
    by_cases hp : some p ∈ cb
    · obtain ⟨nd, e1, _, _, _, _, e6⟩ := rR p hp
      rw [e6, e1]
    · by_cases h1 : p = Q
      · subst h1; rw [rQ, hQ, hq1]; simp [hleaf]
      · by_cases h2 : p = t.heap.length
        · subst h2; rw [rN, Heap.read_length, hnn]; simp
        · rw [rO p hp h1 h2]

end SplitNode

end BPlus

namespace BPlus

section CreateIndex

variable {K V : Type} [LinearOrder K]

/-! ### Propagation of the separator -/

/-- No node is higher than the root. -/
theorem InvG.ht_le_root {t : BPTree K V} {g : Ghost K} {exc : Option Nat} (inv : InvG t g exc) :
    ∀ (n X : Nat) (xn : Node K V), t.heap.length ≤ g.ht X + n → t.heap.read X = some xn →
      ∃ r, t.root = some r ∧ g.ht X ≤ g.ht r := by
  intro n
  induction n with
  | zero =>
    intro X xn hn hX
    have := inv.low X xn hX
    omega
  | succ n ih =>
    intro X xn hn hX
    by_cases hr : t.root = some X
    · exact ⟨X, hr, le_refl _⟩
    · obtain ⟨Q, qn, a, b, ca, cb, hpar, hQ, _, _, _, _, hht, _⟩ := parent_split inv hX hr
      obtain ⟨r, h1, h2⟩ := ih Q qn (by omega) hQ
      exact ⟨r, h1, by omega⟩

theorem InvG.ht_le {t : BPTree K V} {g : Ghost K} {exc : Option Nat} (inv : InvG t g exc)
    {X r : Nat} {xn : Node K V} (hX : t.heap.read X = some xn) (hr : t.root = some r) :
    g.ht X ≤ g.ht r := by
  obtain ⟨r1, h1, h2⟩ := inv.ht_le_root t.heap.length X xn (by omega) hX
  rw [hr] at h1
  obtain rfl : r = r1 := by simpa using h1
  exact h2

theorem take_mid {α : Type} (ca cb : List α) (x : α) {n : Nat} (hn : n = ca.length) :
    (ca ++ x :: cb).take (n + 1) = ca ++ [x] ∧ (ca ++ x :: cb).drop (n + 1) = cb := by
  subst hn
  constructor
  · rw [List.take_append_eq_append_take]; simp
  · rw [List.drop_append_eq_append_drop]; simp

theorem take_left_eq {α : Type} (a b : List α) {n : Nat} (hn : n = a.length) :
    (a ++ b).take n = a ∧ (a ++ b).drop n = b := by
  subst hn
  simp

/-- The function `createIndex`, entered after a split below a parent. -/
theorem createIndex_spec : ∀ (fuel : Nat) (t : BPTree K V) (g : Ghost K) (N : Nat) (s : K),
    2 ≤ t.order → Attach t g N s →
    (∀ r nn Q, t.root = some r → t.heap.read N = some nn → nn.parent = some Q →
      g.ht r < fuel + g.ht Q) →
    ∃ t1 g1, createIndex fuel t N s = some t1 ∧ InvG t1 g1 none ∧ t1.order = t.order ∧
      ∀ p, leafView t1.heap p = leafView t.heap p := by
  intro fuel
  induction fuel with
  | zero =>
    intro t g N s _ hat hfuel
    obtain ⟨nn, Q, qn, a, b, ca, cb, P, hN, hpar, hQ, hkey, hptr, hlen, inv⟩ := hat
    obtain ⟨r, rn, h1, h2, _⟩ := inv.root
    have hf := hfuel r nn Q h1 hN hpar
    have hQ1 : (t.heap.write Q { qn with key := a ++ s :: b, ptr2node := ca ++ some P :: some N :: cb }).read Q = some { qn with key := a ++ s :: b, ptr2node := ca ++ some P :: some N :: cb } :=
      Heap.read_write_same hQ _
    have := inv.ht_le hQ1 h1
    omega
  | succ f ih =>
    intro t g N s hord hat hfuel
    obtain ⟨nn, Q, qn, a, b, ca, cb, P, hN, hpar, hQ, hkey, hptr, hlen, inv⟩ := hat
    obtain ⟨q1, hq1⟩ : ∃ q1 : Node K V, q1 = { qn with key := a ++ s :: b, ptr2node := ca ++ some P :: some N :: cb } := ⟨_, rfl⟩
    rw [← hq1] at inv
    have hQ1 : (t.heap.write Q q1).read Q = some q1 := Heap.read_write_same hQ _
    have ok1 := inv.nodes Q q1 hQ1
    have hq1k : q1.key = a ++ s :: b := by rw [hq1]
    have hq1l : q1.leaf = qn.leaf := by rw [hq1]
    obtain ⟨_, _, _, hlt, hgt⟩ := sorted_mid (hq1k ▸ ok1.sorted)
    have hrk : rank qn.key s = a.length := by
      rw [hkey]; exact rank_append a b s (fun x hx => le_of_lt (hlt x hx)) hgt
    have hloc1 : keyIndex qn s + 1 = (a.length : Int) := by rw [keyIndex_add_one, hrk]
    have hloc2 : keyIndex qn s + 2 = ((a.length + 1 : Nat) : Int) := by
      have : keyIndex qn s + 2 = keyIndex qn s + 1 + 1 := by ring
      rw [this, hloc1]; push_cast; ring
    have hk1 : vinsert qn.key (a.length : Int) s = some (a ++ s :: b) := by
      rw [vinsert_natCast _ _ _ (by rw [hkey]; simp), hkey]
      obtain ⟨e1, e2⟩ := take_left_eq a b rfl
      rw [e1, e2]
    have hp1 : vinsert qn.ptr2node ((a.length + 1 : Nat) : Int) (some N) =
        some (ca ++ some P :: some N :: cb) := by
      rw [vinsert_natCast _ _ _ (by rw [hptr]; simp; omega), hptr]
      obtain ⟨e1, e2⟩ := take_mid ca cb (some P) hlen
      rw [e1, e2]; simp
    have hleafQ : qn.leaf = false := by
      -- the parent of a node is internal
      by_contra hl
      have hl1 : q1.leaf = true := by rw [hq1l]; simpa using hl
      have hN1 : (t.heap.write Q q1).read N = some nn := by
        rw [Heap.read_write_ne _ (by
          intro e; rw [e, hQ] at hN
          obtain rfl : qn = nn := by simpa using hN
          have := inv.ht_parent hQ1 (show q1.parent = some Q by rw [hq1]; exact hpar)
          omega)]
        exact hN
      obtain ⟨Q2, qn2, _, _, _, _, h1, h2, h3, _⟩ :=
        parent_split inv hN1 (inv.not_root_of_parent hN1 hpar)
      rw [hpar] at h1
      obtain rfl : Q = Q2 := by simpa using h1
      rw [hQ1] at h2
      obtain rfl : q1 = qn2 := by simpa using h2
      rw [hl1] at h3; cases h3
    simp only [createIndex, hN, hpar, hQ, hloc1, hloc2, hk1, hp1, ← hq1]
    by_cases hbig : (a ++ s :: b).length > t.order
    · rw [if_pos hbig]
      have hm : 3 ≤ q1.key.length := by rw [hq1k]; omega
      have hl1 : q1.leaf = false := by rw [hq1l]; exact hleafQ
      obtain ⟨h3, q2, nn2, s2, R, hsplit, sp, hview⟩ := splitNode_spec inv hQ1 hl1 hm
      rw [hsplit]
      simp only []
      have hview0 : ∀ p, leafView (t.heap.write Q q1) p = leafView t.heap p :=
        leafView_write_of_internal hQ hleafQ hl1
      by_cases hroot : t.root = some Q
      · simp only [hroot, if_true]
        obtain ⟨t3, g3, hnew, inv3, hord3, hview3⟩ := attach_root inv sp hroot
        simp only [Heap.length_write] at hnew
        have e : ({ order := t.order, root := some Q, heap := h3 } : BPTree K V) =
            { order := t.order, root := t.root, heap := h3 } := by rw [hroot]
        simp only [Heap.length_write]
        rw [e, hnew]
        exact ⟨t3, g3, rfl, inv3, hord3, fun p => by rw [hview3, hview, hview0]⟩
      · have hne : ¬ (some Q = t.root) := fun e => hroot e.symm
        simp only [hne, if_false]
        obtain ⟨G, gn, a2, b2, ca2, cb2, hparG, hG, hGl, hk2, hp2, hl2, hhtG, hGlt, inv2⟩ :=
          attach_parent inv sp hroot
        simp only [Heap.length_write] at inv2 hGlt ⊢
        have hat2 : Attach ({ order := t.order, root := t.root, heap := h3 } : BPTree K V)
            (splitGhost g Q t.heap.length s2) t.heap.length s2 := by
          refine ⟨nn2, G, gn, a2, b2, ca2, cb2, Q, ?_, by rw [sp.parN]; exact hparG, hG, hk2, hp2,
            hl2, inv2⟩
          have := sp.readN
          simpa using this
        obtain ⟨t4, g4, hci, inv4, hord4, hview4⟩ :=
          ih { order := t.order, root := t.root, heap := h3 } _ _ _ hord hat2 (by
          intro r nn3 Q3 hr hN3 hpar3
          have hN2 : h3.read t.heap.length = some nn2 := by simpa using sp.readN
          rw [show ({ order := t.order, root := t.root, heap := h3 } : BPTree K V).heap = h3
            from rfl, hN2] at hN3
          obtain rfl : nn2 = nn3 := by simpa using hN3
          rw [sp.parN, hparG] at hpar3
          obtain rfl : G = Q3 := by simpa using hpar3
          have hf := hfuel r nn Q hr hN hpar
          obtain ⟨r1, rn, e1, e2, _⟩ := inv.root
          have hrl : r < t.heap.length := by
            have e3 : t.root = some r := hr
            have e4 : t.root = some r1 := e1
            rw [e3] at e4
            obtain rfl : r = r1 := by simpa using e4
            simpa using Heap.read_lt e2
          simp only [splitGhost_ht, show r ≠ t.heap.length by omega,
            show G ≠ t.heap.length by omega, if_false]
          omega)
        exact ⟨t4, g4, hci, inv4, hord4, fun p => by rw [hview4]; exact (hview p).trans (hview0 p)⟩
    · rw [if_neg hbig]
      exact ⟨_, g, rfl, inv, rfl, leafView_write_of_internal hQ hleafQ (by rw [hq1l]; exact hleafQ)⟩

end CreateIndex

end BPlus

namespace BPlus

section InsertProof

variable {K V : Type} [LinearOrder K]

/-! ### The function `insert` -/

theorem mem_pairsAt {h : Heap K V} {p : Nat} {k : K} {v : V} :
    (k, v) ∈ pairsAt h p ↔
      ∃ nd, h.read p = some nd ∧ nd.leaf = true ∧ (k, v) ∈ nd.key.zip nd.ptr2val := by
  unfold pairsAt leafView
  cases hp : h.read p with
  | none => simp
  | some nd =>
    by_cases hl : nd.leaf = true
    · simp [hl]
    · simp [hl]

theorem pairsAt_write {h : Heap K V} {L : Nat} {lf : Node K V} (hL : h.read L = some lf)
    (lf1 : Node K V) (hl1 : lf1.leaf = true) (p : Nat) :
    pairsAt (h.write L lf1) p = if p = L then lf1.key.zip lf1.ptr2val else pairsAt h p := by
  by_cases hp : p = L
  · subst hp
    rw [if_pos rfl, pairsAt_of_leaf (Heap.read_write_same hL lf1) hl1]
  · rw [if_neg hp]
    simp only [pairsAt, leafView, Heap.read_write_ne _ hp]

/-- The pairs of a tree after one leaf was rewritten. -/
theorem contains_write_leaf {t : BPTree K V} {L : Nat} {lf : Node K V}
    (hL : t.heap.read L = some lf) (lf1 : Node K V) (hl1 : lf1.leaf = true) (k : K) (v : V) :
    Contains { t with heap := t.heap.write L lf1 } k v ↔
      (k, v) ∈ lf1.key.zip lf1.ptr2val ∨ ∃ p, p ≠ L ∧ (k, v) ∈ pairsAt t.heap p := by
  rw [contains_iff_pairs]
  constructor
  · rintro ⟨p, hp⟩
    rw [show ({ t with heap := t.heap.write L lf1 } : BPTree K V).heap = t.heap.write L lf1
      from rfl, pairsAt_write hL lf1 hl1] at hp
    by_cases h : p = L
    · rw [if_pos h] at hp; exact Or.inl hp
    · rw [if_neg h] at hp; exact Or.inr ⟨p, h, hp⟩
  · rintro (h | ⟨p, hne, hp⟩)
    · exact ⟨L, by
        rw [show ({ t with heap := t.heap.write L lf1 } : BPTree K V).heap = t.heap.write L lf1
          from rfl, pairsAt_write hL lf1 hl1, if_pos rfl]; exact h⟩
    · exact ⟨p, by
        rw [show ({ t with heap := t.heap.write L lf1 } : BPTree K V).heap = t.heap.write L lf1
          from rfl, pairsAt_write hL lf1 hl1, if_neg hne]; exact hp⟩

/-- The pairs of a tree, those of one leaf set apart. -/
theorem contains_split_at {t : BPTree K V} {L : Nat} {lf : Node K V}
    (hL : t.heap.read L = some lf) (hl : lf.leaf = true) (k : K) (v : V) :
    Contains t k v ↔
      (k, v) ∈ lf.key.zip lf.ptr2val ∨ ∃ p, p ≠ L ∧ (k, v) ∈ pairsAt t.heap p := by
  rw [contains_iff_pairs]
  constructor
  · rintro ⟨p, hp⟩
    by_cases h : p = L
    · subst h; rw [pairsAt_of_leaf hL hl] at hp; exact Or.inl hp
    · exact Or.inr ⟨p, h, hp⟩
  · rintro (h | ⟨p, _, hp⟩)
    · exact ⟨L, by rw [pairsAt_of_leaf hL hl]; exact h⟩
    · exact ⟨p, hp⟩

/-- A key is stored only in the leaf the locator ends in. -/
theorem pairs_only_in_located {t : BPTree K V} {g : Ghost K} {exc : Option Nat}
    (inv : InvG t g exc) {k : K} {L : Nat} {loc : Int}
    (hloc : keyIndexInLeaf t k = some (some L, loc)) :
    ∀ p v, (k, v) ∈ pairsAt t.heap p → p = L := by
  intro p v hp
  obtain ⟨nd, h1, h2, h3⟩ := mem_pairsAt.mp hp
  have hk : k ∈ nd.key := (List.of_mem_zip h3).1
  obtain ⟨hlo, hhi⟩ := (inv.nodes p nd h1).range_of_mem hk
  have := keyIndexInLeaf_unique inv h1 h2 hlo hhi
  rw [hloc] at this
  simp only [Option.some.injEq, Prod.mk.injEq] at this
  exact this.1.symm

/-- The two outcomes of the locator on a sorted leaf. -/
theorem locate_cases {keys : List K} (k : K) (hs : keys.Pairwise (fun p q => p < q)) :
    (∃ i, rank keys k = i + 1 ∧ keys[i]? = some k) ∨
    (k ∉ keys ∧ (rank keys k = 0 ∨ ∃ i x, rank keys k = i + 1 ∧ keys[i]? = some x ∧ x ≠ k)) := by
  by_cases hk : k ∈ keys
  · obtain ⟨i, hi⟩ := List.getElem?_of_mem hk
    exact Or.inl ⟨i, rank_of_mem hs hi, hi⟩
  · right
    refine ⟨hk, ?_⟩
    by_cases h0 : rank keys k = 0
    · exact Or.inl h0
    · right
      have hle := rank_le_length keys k
      refine ⟨rank keys k - 1, keys[rank keys k - 1], by omega,
        List.getElem?_eq_getElem (by omega), ?_⟩
      intro e
      exact hk (e ▸ List.getElem_mem _)

theorem zip_insert {a b : List K} {va vb : List V} (h : a.length = va.length) (k : K) (v : V) :
    (a ++ k :: b).zip (va ++ v :: vb) = a.zip va ++ (k, v) :: b.zip vb := by
  rw [List.zip_append h]; rfl

/-- The function `insert` on the empty tree. -/
theorem insert_empty (n : Nat) (k : K) (v : V) :
    ∃ t1 g1, insert (BPTree.new n : BPTree K V) k v = some t1 ∧ InvG t1 g1 none ∧
      t1.order = n ∧ ∀ k2 v2, Contains t1 k2 v2 ↔ (k2 = k ∧ v2 = v) := by
  obtain ⟨nr, hnr⟩ : ∃ nr : Node K V, nr = { leaf := true, parent := none, next := none, key := [k], ptr2node := [none], ptr2val := [v] } := ⟨_, rfl⟩
  obtain ⟨h0, hh0⟩ : ∃ h0 : Heap K V, h0 = [some nr] := ⟨_, rfl⟩
  have hrd : ∀ p nd, h0.read p = some nd → p = 0 ∧ nd = nr := by
    intro p nd hp
    rw [hh0, Heap.read_def] at hp
    cases p with
    | zero => simp at hp; exact ⟨rfl, hp.symm⟩
    | succ m => simp at hp
  have hrd0 : h0.read 0 = some nr := by rw [hh0]; rfl
  have hins : insert (BPTree.new n : BPTree K V) k v =
      some { order := n, root := some 0, heap := h0 } := by
    simp only [insert, BPTree.new, ← hnr, hh0]; rfl
  refine ⟨{ order := n, root := some 0, heap := h0 },
    { lo := fun _ => none, hi := fun _ => none, ht := fun _ => 0 }, hins, ?_, rfl, ?_⟩
  · refine ⟨⟨0, nr, rfl, hrd0, by rw [hnr], rfl, rfl⟩, ?_, ?_, ?_, ?_, ?_⟩
    · intro p nd hp
      obtain ⟨rfl, rfl⟩ := hrd p nd hp
      refine ⟨by rw [hnr]; simp, fun k hk => ?_, fun k hk => by simp,
        fun _ => ⟨rfl, by rw [hnr]; rfl⟩, fun hl => by rw [hnr] at hl; cases hl⟩
      rw [hnr]; simp
    · intro p nd hp hne
      obtain ⟨rfl, rfl⟩ := hrd p nd hp
      exact absurd rfl hne
    · intro p nd hp hl
      obtain ⟨rfl, rfl⟩ := hrd p nd hp
      rw [hnr] at hl; cases hl
    · intro p nd hp
      show 0 < h0.length
      rw [hh0]; simp
    · intro p nd hp _
      obtain ⟨rfl, rfl⟩ := hrd p nd hp
      exact nextOK_iff.2 ⟨fun _ => by rw [hnr], fun b hb => by simp at hb⟩
  · intro k2 v2
    rw [contains_iff_pairs]
    constructor
    · rintro ⟨p, hp⟩
      obtain ⟨nd, h1, h2, h3⟩ := mem_pairsAt.mp hp
      obtain ⟨rfl, rfl⟩ := hrd p nd h1
      rw [hnr] at h3
      simpa using h3
    · rintro ⟨rfl, rfl⟩
      exact ⟨0, mem_pairsAt.mpr ⟨nr, hrd0, by rw [hnr], by rw [hnr]; simp⟩⟩

end InsertProof

end BPlus

namespace BPlus

section InsertMain

variable {K V : Type} [LinearOrder K]

theorem mem_zip_iff {ks : List K} {vs : List V} {k : K} {v : V} :
    (k, v) ∈ ks.zip vs ↔ ∃ j : Nat, ks[j]? = some k ∧ vs[j]? = some v := by
  rw [List.mem_iff_getElem?]
  constructor
  · rintro ⟨j, hj⟩
    exact ⟨j, List.getElem?_zip_eq_some.mp hj⟩
  · rintro ⟨j, hj⟩
    exact ⟨j, List.getElem?_zip_eq_some.mpr hj⟩

theorem index_unique {keys : List K} (hs : keys.Pairwise (fun p q => p < q)) {i j : Nat} {k : K}
    (hi : keys[i]? = some k) (hj : keys[j]? = some k) : i = j := by
  have h1 := rank_of_mem hs hi
  have h2 := rank_of_mem hs hj
  omega

/-- The pairs of a leaf after the value at index `i` was overwritten. -/
theorem zip_set {keys : List K} {vals : List V} (hs : keys.Pairwise (fun p q => p < q)) {i : Nat}
    {k : K} (hi : keys[i]? = some k) (hv : i < vals.length) (v : V) (k2 : K) (v2 : V) :
    (k2, v2) ∈ keys.zip (vals.set i v) ↔
      (k2 = k ∧ v2 = v) ∨ (k2 ≠ k ∧ (k2, v2) ∈ keys.zip vals) := by
  rw [mem_zip_iff, mem_zip_iff]
  constructor
  · rintro ⟨j, h1, h2⟩
    by_cases hji : i = j
    · subst hji
      rw [hi] at h1
      rw [List.getElem?_set_self hv] at h2
      left
      exact ⟨by simpa using h1.symm, by simpa using h2.symm⟩
    · rw [List.getElem?_set_ne hji] at h2
      right
      refine ⟨?_, j, h1, h2⟩
      rintro rfl
      exact hji (index_unique hs hi h1)
  · rintro (⟨rfl, rfl⟩ | ⟨hne, j, h1, h2⟩)
    · exact ⟨i, hi, List.getElem?_set_self hv⟩
    · have hji : i ≠ j := by
        rintro rfl
        rw [hi] at h1
        exact hne (by simpa using h1.symm)
      exact ⟨j, h1, by rw [List.getElem?_set_ne hji]; exact h2⟩

/-- The function `insert` on a well-formed tree that is not empty. -/
theorem insert_spec {t : BPTree K V} {g : Ghost K} (inv : InvG t g none) (hord : 2 ≤ t.order)
    (k : K) (v : V) :
    ∃ t1 g1, insert t k v = some t1 ∧ InvG t1 g1 none ∧ t1.order = t.order ∧
      ∀ k2 v2, Contains t1 k2 v2 ↔ (k2 = k ∧ v2 = v) ∨ (k2 ≠ k ∧ Contains t k2 v2) := by
  obtain ⟨r, rn, hroot, hr, _⟩ := inv.root
  obtain ⟨L, ln, hloc, hL, hleaf, hlo, hhi⟩ := keyIndexInLeaf_spec inv k
  have ok := inv.nodes L ln hL
  obtain ⟨ht0, hvl⟩ := ok.leafOK hleaf
  have honly := pairs_only_in_located inv hloc
  rcases locate_cases k ok.sorted with ⟨i, hrk, hki⟩ | ⟨hnot, hmiss⟩
  · -- the key is there: overwrite
    have hil : i < ln.key.length := (List.getElem?_eq_some.mp hki).1
    have hiv : i < ln.ptr2val.length := by omega
    have e : ((rank ln.key k : Int) - 1) = (i : Int) := by rw [hrk]; push_cast; ring
    rw [e] at hloc
    have hne : ¬ ((i : Int) = -1) := by omega
    obtain ⟨lf1, hlf1⟩ : ∃ lf1 : Node K V, lf1 = { ln with ptr2val := ln.ptr2val.set i v } := ⟨_, rfl⟩
    have hins : insert t k v = some { t with heap := t.heap.write L lf1 } := by
      simp [insert, hroot, hloc, hL, hne, hki, vset_natCast _ _ _ hiv, ← hlf1]
    have ok1 : NodeOK g t.heap L lf1 := by
      refine ⟨by rw [hlf1]; exact ok.sorted, ?_, ?_, ?_, ?_⟩
      · intro x hx; rw [hlf1] at hx ⊢; exact ok.lower x hx
      · intro x hx; rw [hlf1] at hx; exact ok.upper x hx
      · intro _; rw [hlf1]; exact ⟨ht0, by simp [hvl]⟩
      · intro hf; rw [hlf1] at hf; simp [hleaf] at hf
    refine ⟨_, g, hins, inv.update_leaf hL hleaf (by rw [hlf1]; exact hleaf) (by rw [hlf1]) (by rw [hlf1]) ok1,
      rfl, ?_⟩
    intro k2 v2
    rw [contains_write_leaf hL lf1 (by rw [hlf1]; exact hleaf), contains_split_at hL hleaf, hlf1]
    simp only []
    rw [zip_set ok.sorted hki hiv]
    constructor
    · rintro ((h | ⟨h1, h2⟩) | ⟨p, hp1, hp2⟩)
      · exact Or.inl h
      · exact Or.inr ⟨h1, Or.inl h2⟩
      · refine Or.inr ⟨?_, Or.inr ⟨p, hp1, hp2⟩⟩
        rintro rfl
        exact hp1 (honly p v2 hp2)
    · rintro (h | ⟨h1, h2 | ⟨p, hp1, hp2⟩⟩)
      · exact Or.inl (Or.inl h)
      · exact Or.inl (Or.inr ⟨h1, h2⟩)
      · exact Or.inr ⟨p, hp1, hp2⟩
  · -- the key is new: insert it after the located index
    obtain ⟨a, b, hkey, hlen, hale, hbgt⟩ := rank_split k ok.sorted
    have halt : ∀ x ∈ a, x < k := by
      intro x hx
      refine lt_of_le_of_ne (hale x hx) ?_
      rintro rfl
      exact hnot (by rw [hkey]; simp [hx])
    obtain ⟨va, hva⟩ : ∃ va, va = ln.ptr2val.take (rank ln.key k) := ⟨_, rfl⟩
    obtain ⟨vb, hvb⟩ : ∃ vb, vb = ln.ptr2val.drop (rank ln.key k) := ⟨_, rfl⟩
    have hrl := rank_le_length ln.key k
    have hval : ln.ptr2val = va ++ vb := by rw [hva, hvb]; exact (List.take_append_drop _ _).symm
    have hvalen : a.length = va.length := by rw [hva, List.length_take, hlen]; omega
    obtain ⟨lf1, hlf1⟩ : ∃ lf1 : Node K V, lf1 = { ln with key := a ++ k :: b, ptr2val := va ++ v :: vb } := ⟨_, rfl⟩
    have hhit : (if ((rank ln.key k : Int) - 1) ≠ -1 then
        (vget ln.key ((rank ln.key k : Int) - 1)).map (fun x => decide (x = k))
        else some false) = some false := by
      rcases hmiss with h0 | ⟨i, x, h1, h2, h3⟩
      · simp [h0]
      · have e : ((rank ln.key k : Int) - 1) = (i : Int) := by rw [h1]; push_cast; ring
        rw [e]
        have hne : ((i : Int) ≠ -1) := by omega
        simp [hne, h2, h3]
    have hk1 : vinsert ln.key ((rank ln.key k : Int) - 1 + 1) k = some (a ++ k :: b) := by
      have e : ((rank ln.key k : Int) - 1 + 1) = ((rank ln.key k : Nat) : Int) := by ring
      rw [e, vinsert_natCast _ _ _ hrl]
      obtain ⟨e1, e2⟩ := take_left_eq a b hlen.symm
      rw [← hkey] at e1 e2
      rw [e1, e2]
    have hv1 : vinsert ln.ptr2val ((rank ln.key k : Int) - 1 + 1) v = some (va ++ v :: vb) := by
      have e : ((rank ln.key k : Int) - 1 + 1) = ((rank ln.key k : Nat) : Int) := by ring
      rw [e, vinsert_natCast _ _ _ (by omega), ← hva, ← hvb]
    have ok1 : NodeOK g t.heap L lf1 := by
      refine ⟨by rw [hlf1]; exact sorted_insert (hkey ▸ ok.sorted) halt hbgt, ?_, ?_, ?_, ?_⟩
      · intro x hx
        rw [hlf1] at hx ⊢
        simp only [hleaf, if_true]
        simp only [List.mem_append, List.mem_cons] at hx
        rcases hx with hx | rfl | hx
        · exact ok.lower_loLe (by rw [hkey]; simp [hx])
        · exact hlo
        · exact ok.lower_loLe (by rw [hkey]; simp [hx])
      · intro x hx
        rw [hlf1] at hx
        simp only [List.mem_append, List.mem_cons] at hx
        rcases hx with hx | rfl | hx
        · exact ok.upper x (by rw [hkey]; simp [hx])
        · exact hhi
        · exact ok.upper x (by rw [hkey]; simp [hx])
      · intro _
        refine ⟨ht0, ?_⟩
        rw [hlf1]
        have : ln.ptr2val.length = ln.key.length := hvl
        rw [hval, hkey] at this
        simp only [List.length_append, List.length_cons] at this ⊢
        omega
      · intro hf; rw [hlf1] at hf; simp [hleaf] at hf
    have inv1 : InvG { t with heap := t.heap.write L lf1 } g none :=
      inv.update_leaf hL hleaf (by rw [hlf1]; exact hleaf) (by rw [hlf1]) (by rw [hlf1]) ok1
    have hcont : ∀ k2 v2, Contains { t with heap := t.heap.write L lf1 } k2 v2 ↔
        (k2 = k ∧ v2 = v) ∨ (k2 ≠ k ∧ Contains t k2 v2) := by
      intro k2 v2
      rw [contains_write_leaf hL lf1 (by rw [hlf1]; exact hleaf), contains_split_at hL hleaf,
        hlf1]
      simp only []
      rw [zip_insert hvalen, hkey, hval, List.zip_append hvalen]
      simp only [List.mem_append, List.mem_cons, Prod.mk.injEq]
      have hnk : ∀ x w, (x, w) ∈ a.zip va ∨ (x, w) ∈ b.zip vb → x ≠ k := by
        rintro x w (h | h) rfl
        · exact absurd (halt x (List.of_mem_zip h).1) (lt_irrefl _)
        · exact absurd (hbgt x (List.of_mem_zip h).1) (lt_irrefl _)
      constructor
      · rintro ((h | h | h) | ⟨p, hp1, hp2⟩)
        · exact Or.inr ⟨hnk k2 v2 (Or.inl h), Or.inl (Or.inl h)⟩
        · exact Or.inl h
        · exact Or.inr ⟨hnk k2 v2 (Or.inr h), Or.inl (Or.inr h)⟩
        · refine Or.inr ⟨?_, Or.inr ⟨p, hp1, hp2⟩⟩
          rintro rfl
          exact hp1 (honly p v2 hp2)
      · rintro (h | ⟨h1, (h2 | h2) | ⟨p, hp1, hp2⟩⟩)
        · exact Or.inl (Or.inr (Or.inl h))
        · exact Or.inl (Or.inl h2)
        · exact Or.inl (Or.inr (Or.inr h2))
        · exact Or.inr ⟨p, hp1, hp2⟩
    have hL1 : (t.heap.write L lf1).read L = some lf1 := Heap.read_write_same hL _
    have hlf1k : lf1.key = a ++ k :: b := by rw [hlf1]
    have hlf1l : lf1.leaf = true := by rw [hlf1]; exact hleaf
    simp only [insert, hroot, hloc, hL, hhit, hk1, hv1, ← hlf1]
    rw [← hroot]
    by_cases hbig : (a ++ k :: b).length > t.order
    · simp only [hbig, if_true, Bool.false_eq_true, if_false]
      obtain ⟨h2, lf2, nl, s, hsplit, sp, hsep, hsame⟩ :=
        splitLeaf_spec inv1 hL1 hlf1l (by rw [hlf1k]; omega)
      rw [hsplit]
      have hN : h2.read t.heap.length = some nl := by simpa using sp.readN
      simp only [Heap.length_write, hN, hsep]
      have hcont2 : ∀ (t3 : BPTree K V), (∀ p, leafView t3.heap p = leafView h2 p) →
          ∀ k2 v2, Contains t3 k2 v2 ↔ (k2 = k ∧ v2 = v) ∨ (k2 ≠ k ∧ Contains t k2 v2) := by
        intro t3 hv3 k2 v2
        rw [← hcont]
        have s1 : SamePairs h2 t3.heap := SamePairs.of_view hv3
        have s2 : SamePairs (t.heap.write L lf1) t3.heap := hsame.comp s1
        rw [contains_iff_pairs, contains_iff_pairs]
        exact s2 k2 v2
      by_cases hrootL : t.root = some L
      · have e : (some L = t.root) := hrootL.symm
        simp only [e, if_true]
        obtain ⟨t3, g3, hnew, inv3, hord3, hview3⟩ := attach_root inv1 sp hrootL
        simp only [Heap.length_write] at hnew
        rw [hnew]
        exact ⟨t3, g3, rfl, inv3, hord3, hcont2 t3 hview3⟩
      · have e : ¬ (some L = t.root) := fun e => hrootL e.symm
        simp only [e, if_false]
        obtain ⟨G, gn, a2, b2, ca2, cb2, hparG, hG, hGl, hk2, hp2, hl2, hhtG, hGlt, inv2⟩ :=
          attach_parent inv1 sp hrootL
        simp only [Heap.length_write] at inv2 hGlt
        have hat2 : Attach ({ order := t.order, root := t.root, heap := h2 } : BPTree K V)
            (splitGhost g L t.heap.length s) t.heap.length s :=
          ⟨nl, G, gn, a2, b2, ca2, cb2, L, hN, by rw [sp.parN]; exact hparG, hG, hk2, hp2, hl2,
            inv2⟩
        obtain ⟨t4, g4, hci, inv4, hord4, hview4⟩ :=
          createIndex_spec h2.length { order := t.order, root := t.root, heap := h2 } _ _ _
            hord hat2 (by
              intro r1 nn3 Q3 hr1 hN3 hpar3
              rw [show ({ order := t.order, root := t.root, heap := h2 } : BPTree K V).heap = h2
                from rfl, hN] at hN3
              obtain rfl : nl = nn3 := by simpa using hN3
              rw [sp.parN, hparG] at hpar3
              obtain rfl : G = Q3 := by simpa using hpar3
              have e3 : t.root = some r1 := hr1
              rw [hroot] at e3
              obtain rfl : r = r1 := by simpa using e3
              have hrl : r < t.heap.length := Heap.read_lt hr
              have hlow := inv.low r rn hr
              have hlen2 : h2.length = t.heap.length + 1 := by simpa using sp.len
              simp only [splitGhost_ht, show r ≠ t.heap.length by omega,
                show G ≠ t.heap.length by omega, if_false]
              omega)
        rw [hci]
        exact ⟨t4, g4, rfl, inv4, hord4, hcont2 t4 hview4⟩
    · simp only [hbig, if_false, Bool.false_eq_true]
      exact ⟨_, g, rfl, inv1, rfl, hcont⟩

end InsertMain

end BPlus

namespace BPlus

section Unique

variable {K V : Type} [LinearOrder K]

theorem lastOr_eq_none {lo : Option K} {a : List K} (h : lastOr lo a = none) :
    a = [] ∧ lo = none := by
  rcases List.eq_nil_or_concat a with rfl | ⟨a1, z, rfl⟩
  · exact ⟨rfl, by simpa using h⟩
  · rw [List.concat_eq_append] at h
    simp at h

/-- The range of a live node is not empty. -/
theorem InvG.range_lt {t : BPTree K V} {g : Ghost K} {exc : Option Nat} (inv : InvG t g exc) :
    ∀ (n X : Nat) (xn : Node K V), t.heap.length ≤ g.ht X + n → t.heap.read X = some xn →
      ∀ a b, g.lo X = some a → g.hi X = some b → a < b := by
  intro n
  induction n with
  | zero =>
    intro X xn hn hX
    have := inv.low X xn hX
    omega
  | succ n ih =>
    intro X xn hn hX a b hlo hhi
    by_cases hr : t.root = some X
    · obtain ⟨r, rn, h1, _, _, h4, _⟩ := inv.root
      rw [h1] at hr
      obtain rfl : r = X := by simpa using hr
      rw [h4] at hlo; cases hlo
    · obtain ⟨Q, qn, ka, kb, ca, cb, hpar, hQ, hql, hkey, hptr, hlen, hht, hloX, hhiX⟩ :=
        parent_split inv hX hr
      have okQ := inv.nodes Q qn hQ
      have hsorted := okQ.sorted
      rw [hkey] at hsorted
      rcases List.eq_nil_or_concat ka with rfl | ⟨a1, z, rfl⟩
      · simp only [lastOr_nil] at hloX
        cases kb with
        | nil =>
          simp only [headOr_nil] at hhiX
          exact ih Q qn (by omega) hQ a b (by rw [← hloX]; exact hlo) (by rw [← hhiX]; exact hhi)
        | cons y ys =>
          simp only [headOr_cons] at hhiX
          rw [hhiX] at hhi
          obtain rfl : y = b := by simpa using hhi
          have := okQ.lower y (by rw [hkey]; simp)
          rw [hql] at this
          simp only [Bool.false_eq_true, if_false] at this
          rw [← hloX, hlo] at this
          simpa using this
      · rw [List.concat_eq_append] at hloX hsorted hkey
        simp only [lastOr_concat] at hloX
        rw [hloX] at hlo
        obtain rfl : z = a := by simpa using hlo
        cases kb with
        | nil =>
          simp only [headOr_nil] at hhiX
          have := okQ.upper z (by rw [hkey]; simp)
          rw [← hhiX, hhi] at this
          simpa using this
        | cons y ys =>
          simp only [headOr_cons] at hhiX
          rw [hhiX] at hhi
          obtain rfl : y = b := by simpa using hhi
          exact (List.pairwise_append.mp hsorted).2.2 z (by simp) y (by simp)

/-- A key at the lower end of the range of a live node is in the range. -/
theorem InvG.lo_in_range {t : BPTree K V} {g : Ghost K} {exc : Option Nat} (inv : InvG t g exc)
    {X : Nat} {xn : Node K V} (hX : t.heap.read X = some xn) {a : K} (hlo : g.lo X = some a) :
    ltHi a (g.hi X) := by
  cases hhi : g.hi X with
  | none => trivial
  | some b =>
    have hlow := inv.low X xn hX
    exact inv.range_lt t.heap.length X xn (by omega) hX a b hlo hhi

/-- On each level one node only has a range without a lower end. -/
theorem InvG.leftmost_unique {t : BPTree K V} {g : Ghost K} {exc : Option Nat}
    (inv : InvG t g exc) :
    ∀ (n X Y : Nat) (xn yn : Node K V), t.heap.length ≤ g.ht X + n → t.heap.read X = some xn →
      t.heap.read Y = some yn → g.ht X = g.ht Y → g.lo X = none → g.lo Y = none → X = Y := by
  intro n
  induction n with
  | zero =>
    intro X Y xn yn hn hX
    have := inv.low X xn hX
    omega
  | succ n ih =>
    intro X Y xn yn hn hX hY hht hloX hloY
    by_cases hrX : t.root = some X
    · by_cases hrY : t.root = some Y
      · rw [hrX] at hrY; simpa using hrY
      · obtain ⟨Q, qn, _, _, _, _, _, hQ, _, _, _, _, h7, _⟩ := parent_split inv hY hrY
        have := inv.ht_le hQ hrX
        omega
    · by_cases hrY : t.root = some Y
      · obtain ⟨Q, qn, _, _, _, _, _, hQ, _, _, _, _, h7, _⟩ := parent_split inv hX hrX
        have := inv.ht_le hQ hrY
        omega
      · obtain ⟨Q, qn, ka, kb, ca, cb, _, hQ, _, _, hptr, hlen, h7, h8, _⟩ :=
          parent_split inv hX hrX
        obtain ⟨Q1, qn1, ka1, kb1, ca1, cb1, _, hQ1, _, _, hptr1, hlen1, h71, h81, _⟩ :=
          parent_split inv hY hrY
        rw [hloX] at h8
        rw [hloY] at h81
        obtain ⟨rfl, e1⟩ := lastOr_eq_none h8.symm
        obtain ⟨rfl, e2⟩ := lastOr_eq_none h81.symm
        obtain rfl : ca = [] := List.eq_nil_of_length_eq_zero hlen.symm
        obtain rfl : ca1 = [] := List.eq_nil_of_length_eq_zero hlen1.symm
        obtain rfl : Q = Q1 := ih Q Q1 qn qn1 (by omega) hQ hQ1 (by omega) e1 e2
        rw [hQ] at hQ1
        obtain rfl : qn = qn1 := by simpa using hQ1
        rw [hptr] at hptr1
        simp only [List.nil_append, List.cons.injEq, Option.some.injEq] at hptr1
        exact hptr1.1

/-- Two leaves whose ranges begin at the same place are one leaf. -/
theorem InvG.lo_unique {t : BPTree K V} {g : Ghost K} {exc : Option Nat} (inv : InvG t g exc)
    {X Y : Nat} {xn yn : Node K V} (hX : t.heap.read X = some xn) (hY : t.heap.read Y = some yn)
    (hxl : xn.leaf = true) (hyl : yn.leaf = true) (h : g.lo X = g.lo Y) : X = Y := by
  cases hlo : g.lo X with
  | none =>
    have h1 := ((inv.nodes X xn hX).leafOK hxl).1
    have h2 := ((inv.nodes Y yn hY).leafOK hyl).1
    have hlow := inv.low X xn hX
    exact inv.leftmost_unique t.heap.length X Y xn yn (by omega) hX hY (by omega) hlo
      (by rw [← h]; exact hlo)
  | some a =>
    have e1 := keyIndexInLeaf_unique inv hX hxl (k := a) (by rw [hlo]; exact le_refl a)
      (inv.lo_in_range hX hlo)
    have e2 := keyIndexInLeaf_unique inv hY hyl (k := a) (by rw [← h, hlo]; exact le_refl a)
      (inv.lo_in_range hY (by rw [← h]; exact hlo))
    rw [e1] at e2
    simp only [Option.some.injEq, Prod.mk.injEq] at e2
    exact e2.1

/-- Two leaves whose ranges end at the same key are one leaf. -/
theorem InvG.hi_unique {t : BPTree K V} {g : Ghost K} {exc : Option Nat} (inv : InvG t g exc)
    {X Y : Nat} {xn yn : Node K V} (hX : t.heap.read X = some xn) (hY : t.heap.read Y = some yn)
    (hxl : xn.leaf = true) (hyl : yn.leaf = true) {b : K} (hb : g.hi X = some b)
    (h : g.hi X = g.hi Y) : X = Y := by
  have hb1 : g.hi Y = some b := by rw [← h]; exact hb
  have hlow := inv.low X xn hX
  have hlow1 := inv.low Y yn hY
  have key : ∀ x, loLe (g.lo X) x → loLe (g.lo Y) x → x < b → X = Y := by
    intro x h1 h2 h3
    have e1 := keyIndexInLeaf_unique inv hX hxl (k := x) h1 (by rw [hb]; exact h3)
    have e2 := keyIndexInLeaf_unique inv hY hyl (k := x) h2 (by rw [hb1]; exact h3)
    rw [e1] at e2
    simp only [Option.some.injEq, Prod.mk.injEq] at e2
    exact e2.1
  cases hlo : g.lo X with
  | none =>
    cases hlo1 : g.lo Y with
    | none =>
      have h1 := ((inv.nodes X xn hX).leafOK hxl).1
      have h2 := ((inv.nodes Y yn hY).leafOK hyl).1
      exact inv.leftmost_unique t.heap.length X Y xn yn (by omega) hX hY (by omega) hlo hlo1
    | some a1 =>
      exact key a1 (by rw [hlo]; trivial) (by rw [hlo1]; exact le_refl a1)
        (inv.range_lt t.heap.length Y yn (by omega) hY a1 b hlo1 hb1)
  | some a =>
    have ha := inv.range_lt t.heap.length X xn (by omega) hX a b hlo hb
    cases hlo1 : g.lo Y with
    | none => exact key a (by rw [hlo]; exact le_refl a) (by rw [hlo1]; trivial) ha
    | some a1 =>
      have ha1 := inv.range_lt t.heap.length Y yn (by omega) hY a1 b hlo1 hb1
      exact key (max a a1) (by rw [hlo]; exact le_max_left a a1)
        (by rw [hlo1]; exact le_max_right a a1) (max_lt ha ha1)

/-- A node of height `0` is a leaf. -/
theorem InvG.leaf_of_ht {t : BPTree K V} {g : Ghost K} {exc : Option Nat} (inv : InvG t g exc)
    {X : Nat} {xn : Node K V} (hX : t.heap.read X = some xn) (h : g.ht X = 0) :
    xn.leaf = true := by
  by_contra hl
  have hl : xn.leaf = false := by simpa using hl
  have ok := inv.nodes X xn hX
  have hk := ok.kids hl
  have : ∃ c, c ∈ xn.ptr2node := by
    cases hkey : xn.key with
    | nil =>
      rw [hkey] at hk
      obtain ⟨c, e, _⟩ := hk
      exact ⟨c, by rw [e]; simp⟩
    | cons y ys =>
      rw [hkey] at hk
      obtain ⟨c, cs, e, _⟩ := hk
      exact ⟨c, by rw [e]; simp⟩
  obtain ⟨c, hc⟩ := this
  obtain ⟨c1, cn, _, _, _, h4⟩ := ok.child hl hc
  omega

end Unique

end BPlus

namespace BPlus

section MergeGeneric

variable {K V : Type} [LinearOrder K]

/-! ### Two neighbouring children -/

@[simp] theorem mergeGhost_lo (g : Ghost K) (A B : Nat) (q : Nat) :
    (mergeGhost g A B).lo q = g.lo q := by
  simp only [mergeGhost, Ghost.set_lo]
  by_cases h : q = A <;> simp [h]

@[simp] theorem mergeGhost_hi (g : Ghost K) (A B : Nat) (q : Nat) :
    (mergeGhost g A B).hi q = if q = A then g.hi B else g.hi q := by
  simp only [mergeGhost, Ghost.set_hi]

@[simp] theorem mergeGhost_ht (g : Ghost K) (A B : Nat) (q : Nat) :
    (mergeGhost g A B).ht q = g.ht q := by
  simp only [mergeGhost, Ghost.set_ht]
  by_cases h : q = A <;> simp [h]

/-- Replace the first child of a run. -/
theorem kids_replace_head {P P1 : Option Nat → Option K → Option K → Prop}
    {lo lo1 hi : Option K} {b : List K} {c c1 : Option Nat} {cs : List (Option Nat)}
    (h : Kids P lo b (c :: cs) hi) (hc1 : P1 c1 lo1 (headOr b hi))
    (hm : ∀ x l u, x ∈ cs → P x l u → P1 x l u) : Kids P1 lo1 b (c1 :: cs) hi := by
  cases b with
  | nil =>
    obtain ⟨c0, heq, _⟩ := h
    obtain ⟨_, rfl⟩ := List.cons.inj heq
    exact ⟨c1, rfl, hc1⟩
  | cons y ys =>
    obtain ⟨c0, cs0, heq, _, hk⟩ := h
    obtain ⟨_, rfl⟩ := List.cons.inj heq
    exact ⟨c1, cs, rfl, hc1, Kids.imp hm hk⟩

/-- What the invariant says of two neighbouring children `A` and `B` of `Q`. -/
theorem pair_facts {t : BPTree K V} {g : Ghost K} {exc : Option Nat} (inv : InvG t g exc)
    {Q A B : Nat} {qn : Node K V} {a b : List K} {m : K} {ca cb : List (Option Nat)}
    (hQ : t.heap.read Q = some qn) (hl : qn.leaf = false) (hkey : qn.key = a ++ m :: b)
    (hptr : qn.ptr2node = ca ++ some A :: some B :: cb) (hlen : a.length = ca.length) :
    (∃ an, t.heap.read A = some an ∧ an.parent = some Q) ∧
    (∃ bn, t.heap.read B = some bn ∧ bn.parent = some Q) ∧
    g.ht Q = g.ht A + 1 ∧ g.ht Q = g.ht B + 1 ∧
    g.lo A = lastOr (g.lo Q) a ∧ g.hi A = some m ∧ g.lo B = some m ∧
    g.hi B = headOr b (g.hi Q) ∧
    A ≠ B ∧ some A ∉ ca ∧ some A ∉ cb ∧ some B ∉ ca ∧ some B ∉ cb ∧
    SegL (ChildOK g t.heap Q) (g.lo Q) a ca ∧
    Kids (ChildOK g t.heap Q) (some m) b (some B :: cb) (g.hi Q) := by
  have ok := inv.nodes Q qn hQ
  have hk := ok.kids hl
  rw [hkey, hptr] at hk
  obtain ⟨hseg, hrest⟩ := (kids_append _ _ _ a ca _ hlen).mp hk
  obtain ⟨c0, cs0, heq, hA, hrest2⟩ := hrest
  obtain ⟨rfl, rfl⟩ := List.cons.inj heq
  have hB := kids_head hrest2
  obtain ⟨A1, an, eA, hAr, hAp, hAh, hAlo, hAhi⟩ := hA
  obtain rfl : A = A1 := by simpa using eA
  obtain ⟨B1, bn, eB, hBr, hBp, hBh, hBlo, hBhi⟩ := hB
  obtain rfl : B = B1 := by simpa using eB
  have hnd := ok.nodup hl
  rw [hptr] at hnd
  obtain ⟨hAca, hAcb0⟩ := nodup_mid hnd
  have hnd2 : (some B :: cb).Nodup := (List.nodup_cons.mp (List.nodup_append.mp hnd).2.1).2
  have hBcb : some B ∉ cb := (List.nodup_cons.mp hnd2).1
  have hAB : A ≠ B := by
    intro e; apply hAcb0; rw [e]; simp
  have hAcb : some A ∉ cb := fun h => hAcb0 (by simp [h])
  have hBca : some B ∉ ca := by
    intro h
    exact (List.nodup_append.mp hnd).2.2 h (by simp)
  exact ⟨⟨an, hAr, hAp⟩, ⟨bn, hBr, hBp⟩, hAh, hBh, hAlo, hAhi, hBlo, hBhi, hAB, hAca, hAcb,
    hBca, hBcb, hseg, hrest2⟩

/-- After a merge of two neighbours the tree is well formed, except that the
parent may have lost its last key. -/
theorem merge_generic {t : BPTree K V} {g : Ghost K} {exc : Option Nat} (inv : InvG t g exc)
    {Q A B : Nat} {qn an bn an1 : Node K V} {a b : List K} {m : K} {ca cb : List (Option Nat)}
    {h2 : Heap K V} {R : Nat → Prop} (hexc : ∀ e, exc = some e → e = A ∨ e = B)
    (mo : MergeOK t g Q A B qn an bn a b m ca cb h2 an1 R) :
    InvG { t with heap := h2 } (mergeGhost g A B) (some Q) := by
  obtain ⟨⟨an0, hA0, hAp⟩, ⟨bn0, hB0, hBp⟩, hAh, hBh, hAlo, hAhi, hBlo, hBhi, hAB, hAca, hAcb,
    hBca, hBcb, hseg, hrest⟩ := pair_facts inv mo.liveQ mo.leafQ mo.keyQ mo.ptrQ mo.lenQ
  rw [mo.liveA] at hA0
  obtain rfl : an = an0 := by simpa using hA0
  rw [mo.liveB] at hB0
  obtain rfl : bn = bn0 := by simpa using hB0
  have okQ := inv.nodes Q qn mo.liveQ
  have hQA : Q ≠ A := by intro e; rw [e] at hAh; omega
  have hQB : Q ≠ B := by intro e; rw [e] at hBh; omega
  obtain ⟨Q1, hQ1⟩ : ∃ Q1 : Node K V, Q1 = { qn with key := a ++ b, ptr2node := ca ++ some A :: cb } := ⟨_, rfl⟩
  have hrQ : h2.read Q = some Q1 := by rw [hQ1]; exact mo.readQ
  have hQ1k : Q1.key = a ++ b := by rw [hQ1]
  have hQ1p : Q1.ptr2node = ca ++ some A :: cb := by rw [hQ1]
  have hQ1l : Q1.leaf = false := by rw [hQ1]; exact mo.leafQ
  have hQ1par : Q1.parent = qn.parent := by rw [hQ1]
  have hRfacts : ∀ p, R p → ∃ nd, t.heap.read p = some nd ∧ nd.parent = some B ∧
      g.ht B = g.ht p + 1 ∧ p ≠ A ∧ p ≠ B ∧ p ≠ Q ∧
      h2.read p = some { nd with parent := some A } := by
    intro p hp
    obtain ⟨_, _, nd, e1, e2, e3⟩ := mo.readR p hp
    have hh := inv.ht_parent e1 e2
    exact ⟨nd, e1, e2, hh, by intro e; rw [e] at hh; omega, by intro e; rw [e] at hh; omega,
      by intro e; rw [e] at hh; omega, e3⟩
  -- the other children of the parent are untouched
  have hsib : ∀ c l u, c ≠ some A → c ≠ some B → c ∈ qn.ptr2node → ChildOK g t.heap Q c l u →
      ChildOK (mergeGhost g A B) h2 Q c l u := by
    rintro c l u hneA hneB hmem ⟨c1, cn, rfl, hc1, hcp, hch, hcl, hcu⟩
    have hc1A : c1 ≠ A := fun e => hneA (by rw [e])
    have hc1B : c1 ≠ B := fun e => hneB (by rw [e])
    have hc1Q : c1 ≠ Q := by intro e; rw [e] at hch; omega
    have hc1R : ¬ R c1 := by
      intro hr
      obtain ⟨nd, e1, e2, _⟩ := hRfacts c1 hr
      rw [hc1] at e1
      obtain rfl : cn = nd := by simpa using e1
      rw [hcp] at e2
      exact hQB (by simpa using e2)
    exact ⟨c1, cn, rfl, by rw [mo.readO c1 hc1R hc1A hc1B hc1Q]; exact hc1, hcp, by simp [hch],
      by simp [hcl], by simp [hc1A, hcu]⟩
  have hlowQ : ∀ k ∈ qn.key, loLt (g.lo Q) k := by
    intro k hk
    have := okQ.lower k hk
    simpa [mo.leafQ] using this
  have hsub : ∀ k, k ∈ a ++ b → k ∈ qn.key := by
    intro k hk
    rw [mo.keyQ]
    simp only [List.mem_append, List.mem_cons] at hk ⊢
    rcases hk with h | h
    · exact Or.inl h
    · exact Or.inr (Or.inr h)
  have okQ1 : NodeOK (mergeGhost g A B) h2 Q Q1 := by
    refine ⟨?_, ?_, ?_, ?_, ?_⟩
    · rw [hQ1k]
      have hs := okQ.sorted
      rw [mo.keyQ] at hs
      obtain ⟨s1, s2, s3⟩ := List.pairwise_append.mp hs
      refine List.pairwise_append.mpr ⟨s1, (List.pairwise_cons.mp s2).2, ?_⟩
      intro x hx y hy
      exact s3 x hx y (by simp [hy])
    · intro k hk
      rw [hQ1k] at hk
      simp only [hQ1l, Bool.false_eq_true, if_false, mergeGhost_lo]
      exact hlowQ k (hsub k hk)
    · intro k hk
      rw [hQ1k] at hk
      simp only [mergeGhost_hi, hQA, if_false]
      exact okQ.upper k (hsub k hk)
    · intro hl; rw [hQ1l] at hl; cases hl
    · intro _
      rw [hQ1k, hQ1p]
      simp only [mergeGhost_lo, mergeGhost_hi, hQA, if_false]
      refine (kids_append _ _ _ a ca _ mo.lenQ).mpr ⟨?_, ?_⟩
      · refine SegL.seg_imp ?_ hseg
        intro c l u hmem hc
        exact hsib c l u (fun e => hAca (e ▸ hmem)) (fun e => hBca (e ▸ hmem))
          (by rw [mo.ptrQ]; simp [hmem]) hc
      · refine kids_replace_head hrest ?_ ?_
        · exact ⟨A, an1, rfl, mo.readA, by rw [mo.parA]; exact hAp, by simp [hAh],
            by simp [hAlo], by simp [hBhi]⟩
        · intro c l u hmem hc
          exact hsib c l u (fun e => hAcb (e ▸ hmem)) (fun e => hBcb (e ▸ hmem))
            (by rw [mo.ptrQ]; simp [hmem]) hc
  apply inv.frame (fun p => p = A ∨ p = B ∨ p = Q) R
  · obtain ⟨r, rn, h1, h2r, h3, h4, h5⟩ := inv.root
    have hrA : r ≠ A := by
      intro e; rw [e, mo.liveA] at h2r
      obtain rfl : an = rn := by simpa using h2r
      rw [hAp] at h3; cases h3
    have hrB : r ≠ B := by
      intro e; rw [e, mo.liveB] at h2r
      obtain rfl : bn = rn := by simpa using h2r
      rw [hBp] at h3; cases h3
    by_cases hrQ1 : r = Q
    · subst hrQ1
      rw [mo.liveQ] at h2r
      obtain rfl : qn = rn := by simpa using h2r
      exact ⟨r, Q1, h1, hrQ, by rw [hQ1par]; exact h3, by simp [h4], by simp [hrA, h5]⟩
    · have hrR : ¬ R r := by
        intro hr
        obtain ⟨nd, e1, e2, _⟩ := hRfacts r hr
        rw [h2r] at e1
        obtain rfl : rn = nd := by simpa using e1
        rw [h3] at e2; cases e2
      exact ⟨r, rn, h1, by show h2.read r = _; rw [mo.readO r hrR hrA hrB hrQ1]; exact h2r, h3,
        by simp [h4], by simp [hrA, h5]⟩
  · exact Or.inl rfl
  · intro e he
    rcases hexc e he with h | h
    · exact Or.inl (Or.inl h)
    · exact Or.inl (Or.inr (Or.inl h))
  · show t.heap.length ≤ h2.length
    rw [mo.len]
  · intro p hpD hpR
    simp only [not_or] at hpD
    obtain ⟨h1, h2p, h3⟩ := hpD
    exact ⟨mo.readO p hpR h1 h2p h3, by simp, by simp [h1], by simp⟩
  · intro p hp
    obtain ⟨hnl, hmem, _⟩ := mo.readR p hp
    obtain ⟨nd, e1, e2, e3, e4, e5, e6, e7⟩ := hRfacts p hp
    refine ⟨?_, nd, A, an1, e1, ⟨B, e2, Or.inr (Or.inl rfl)⟩, e7, by simp, by simp [e4], by simp,
      mo.readA, hnl, hmem⟩
    simp only [not_or]; exact ⟨e4, e5, e6⟩
  · intro p nd1 hp hrd1
    change h2.read p = some nd1 at hrd1
    rcases hp with rfl | rfl | rfl
    · rw [mo.readA] at hrd1
      obtain rfl : an1 = nd1 := by simpa using hrd1
      refine ⟨mo.okA, ?_, fun hl _ => mo.neA hl, ?_⟩
      · intro _
        exact ⟨Q, Q1, by rw [mo.parA]; exact hAp, hrQ, hQ1l, by rw [hQ1p]; simp⟩
      · have := inv.low p an mo.liveA
        show (mergeGhost g p B).ht p < h2.length
        rw [mo.len]; simpa using this
    · rw [mo.readB] at hrd1; cases hrd1
    · rw [hrQ] at hrd1
      obtain rfl : Q1 = nd1 := by simpa using hrd1
      refine ⟨okQ1, ?_, fun _ hne => absurd rfl hne, ?_⟩
      · intro hne
        obtain ⟨GG, ggn, b1, b2, b3, b4⟩ := inv.attached p qn mo.liveQ hne
        have hh := inv.ht_parent mo.liveQ b1
        have hGGA : GG ≠ A := by intro e; rw [e] at hh; omega
        have hGGB : GG ≠ B := by intro e; rw [e] at hh; omega
        have hGGQ : GG ≠ p := by intro e; rw [e] at hh; omega
        have hGGR : ¬ R GG := by
          intro hr
          obtain ⟨_, _, _, e3, _⟩ := hRfacts GG hr
          omega
        exact ⟨GG, ggn, by rw [hQ1par]; exact b1,
          by show h2.read GG = _; rw [mo.readO GG hGGR hGGA hGGB hGGQ]; exact b2, b3, b4⟩
      · have := inv.low p qn mo.liveQ
        show (mergeGhost g A B).ht p < h2.length
        rw [mo.len]; simpa using this
  · intro c cn q hc hrc hcp hq
    simp only [not_or] at hq
    rcases hc with rfl | rfl | rfl
    · rw [mo.liveA] at hrc
      obtain rfl : an = cn := by simpa using hrc
      rw [hAp] at hcp
      exact absurd (by simpa using hcp.symm) hq.2.2
    · rw [mo.liveB] at hrc
      obtain rfl : bn = cn := by simpa using hrc
      rw [hBp] at hcp
      exact absurd (by simpa using hcp.symm) hq.2.2
    · rw [mo.liveQ] at hrc
      obtain rfl : qn = cn := by simpa using hrc
      exact ⟨Q1, hrQ, by rw [hQ1par]; exact hcp, by simp, by simp [hQA], by simp⟩
  · intro q qn2 p hq hrq hql hpD hpR hmem
    simp only [not_or] at hpD
    rcases hq with rfl | rfl | rfl
    · rw [mo.liveA] at hrq
      obtain rfl : an = qn2 := by simpa using hrq
      exact ⟨an1, mo.readA, by rw [mo.leafA]; exact hql, mo.keep p hmem⟩
    · rw [mo.liveB] at hrq
      obtain rfl : bn = qn2 := by simpa using hrq
      exact absurd (mo.allR p hql hmem) hpR
    · rw [mo.liveQ] at hrq
      obtain rfl : qn = qn2 := by simpa using hrq
      refine ⟨Q1, hrQ, hQ1l, ?_⟩
      rw [mo.ptrQ] at hmem
      rw [hQ1p]
      simp only [List.mem_append, List.mem_cons, Option.some.injEq] at hmem ⊢
      rcases hmem with h | h | h | h
      · exact Or.inl h
      · exact Or.inr (Or.inl h)
      · exact absurd h hpD.2.1
      · exact Or.inr (Or.inr h)
  · intro p nd1 hp hrd1 hl1
    change h2.read p = some nd1 at hrd1
    rcases hp with hp | hp | hp
    · subst hp
      rw [mo.readA] at hrd1
      obtain rfl : an1 = nd1 := by simpa using hrd1
      have hal : an.leaf = true := by rw [← mo.leafA]; exact hl1
      have hbl : bn.leaf = true := by rw [mo.leafB]; exact hal
      have hc := nextOK_iff.1 (inv.chain B bn mo.liveB hbl)
      refine nextOK_iff.2 ⟨fun hn => ?_, fun b2 hb2 => ?_⟩
      · rw [mo.nextA hal]; exact hc.1 (by simpa using hn)
      · have hb3 : g.hi B = some b2 := by simpa using hb2
        obtain ⟨q, qn2, hn, hq, hql, hlo⟩ := hc.2 b2 hb3
        have hqB : q ≠ B := by
          intro e
          rw [e, hBlo] at hlo
          have := inv.lo_in_range mo.liveB hBlo
          rw [hb3] at this
          simp only [Option.some.injEq] at hlo
          rw [hlo] at this
          exact lt_irrefl _ this
        have hqQ : q ≠ Q := by
          intro e
          rw [e, mo.liveQ] at hq
          obtain rfl : qn = qn2 := by simpa using hq
          rw [mo.leafQ] at hql; cases hql
        have hqR : ¬ R q := by
          intro hr
          have := (mo.readR q hr).1
          rw [hl1] at this; cases this
        by_cases hqA : q = p
        · subst hqA
          exact ⟨q, an1, by rw [mo.nextA hal]; exact hn, mo.readA, hl1, by simp; exact hlo⟩
        · exact ⟨q, qn2, by rw [mo.nextA hal]; exact hn,
            by show h2.read q = _; rw [mo.readO q hqR hqA hqB hqQ]; exact hq, hql,
            by simp; exact hlo⟩
    · subst hp
      rw [mo.readB] at hrd1; cases hrd1
    · subst hp
      rw [hrQ] at hrd1
      obtain rfl : Q1 = nd1 := by simpa using hrd1
      rw [hQ1l] at hl1; cases hl1
  · intro p nd q qn2 hpD hp hpl hnx hq hrq hql
    simp only [not_or] at hpD
    rcases hq with hq | hq | hq
    · subst hq
      rw [mo.liveA] at hrq
      obtain rfl : an = qn2 := by simpa using hrq
      exact ⟨an1, mo.readA, by rw [mo.leafA]; exact hql, by simp⟩
    · subst hq
      rw [mo.liveB] at hrq
      obtain rfl : bn = qn2 := by simpa using hrq
      exfalso
      have hc := nextOK_iff.1 (inv.chain p nd hp hpl)
      cases hhi : g.hi p with
      | none =>
        have := hc.1 hhi
        rw [hnx] at this; cases this
      | some b2 =>
        obtain ⟨q1, qn1, e1, e2, e3, e4⟩ := hc.2 b2 hhi
        rw [hnx] at e1
        obtain rfl : q = q1 := by simpa using e1
        rw [hBlo] at e4
        obtain rfl : m = b2 := by simpa using e4
        exact hpD.1 (inv.hi_unique hp mo.liveA hpl (by rw [← mo.leafB]; exact hql) hhi
          (by rw [hhi, hAhi]))
    · subst hq
      rw [mo.liveQ] at hrq
      obtain rfl : qn = qn2 := by simpa using hrq
      rw [mo.leafQ] at hql; cases hql

end MergeGeneric

end BPlus

namespace BPlus

section BorrowGeneric

variable {K V : Type} [LinearOrder K]

@[simp] theorem borrowGhost_lo (g : Ghost K) (A B : Nat) (m1 : K) (q : Nat) :
    (borrowGhost g A B m1).lo q = if q = B then some m1 else g.lo q := by
  simp only [borrowGhost, Ghost.set_lo]
  by_cases h1 : q = B <;> by_cases h2 : q = A <;> simp [h1, h2]

@[simp] theorem borrowGhost_hi (g : Ghost K) (A B : Nat) (m1 : K) (q : Nat) :
    (borrowGhost g A B m1).hi q =
      if q = B then g.hi B else if q = A then some m1 else g.hi q := by
  simp only [borrowGhost, Ghost.set_hi]

@[simp] theorem borrowGhost_ht (g : Ghost K) (A B : Nat) (m1 : K) (q : Nat) :
    (borrowGhost g A B m1).ht q = g.ht q := by
  simp only [borrowGhost, Ghost.set_ht]
  by_cases h1 : q = B
  · subst h1; simp
  · by_cases h2 : q = A
    · subst h2; simp [h1]
    · simp [h1, h2]

/-- After an entry moved between two neighbours the tree is well formed. -/
theorem borrow_generic {t : BPTree K V} {g : Ghost K} {exc : Option Nat} (inv : InvG t g exc)
    {Q A B X : Nat} {qn an bn an1 bn1 : Node K V} {a b : List K} {m m1 : K}
    {ca cb : List (Option Nat)} {h2 : Heap K V} {R : Nat → Prop}
    (hexc : ∀ e, exc = some e → e = A ∨ e = B)
    (bo : BorrowOK t g Q A B qn an bn a b m m1 ca cb h2 an1 bn1 R X) :
    InvG { t with heap := h2 } (borrowGhost g A B m1) none := by
  obtain ⟨⟨an0, hA0, hAp⟩, ⟨bn0, hB0, hBp⟩, hAh, hBh, hAlo, hAhi, hBlo, hBhi, hAB, hAca, hAcb,
    hBca, hBcb, hseg, hrest⟩ := pair_facts inv bo.liveQ bo.leafQ bo.keyQ bo.ptrQ bo.lenQ
  rw [bo.liveA] at hA0
  obtain rfl : an = an0 := by simpa using hA0
  rw [bo.liveB] at hB0
  obtain rfl : bn = bn0 := by simpa using hB0
  have okQ := inv.nodes Q qn bo.liveQ
  have hQA : Q ≠ A := by intro e; rw [e] at hAh; omega
  have hQB : Q ≠ B := by intro e; rw [e] at hBh; omega
  obtain ⟨Q1, hQ1⟩ : ∃ Q1 : Node K V, Q1 = { qn with key := a ++ m1 :: b } := ⟨_, rfl⟩
  have hrQ : h2.read Q = some Q1 := by rw [hQ1]; exact bo.readQ
  have hQ1k : Q1.key = a ++ m1 :: b := by rw [hQ1]
  have hQ1p : Q1.ptr2node = ca ++ some A :: some B :: cb := by rw [hQ1]; exact bo.ptrQ
  have hQ1l : Q1.leaf = false := by rw [hQ1]; exact bo.leafQ
  have hQ1par : Q1.parent = qn.parent := by rw [hQ1]
  have hRfacts : ∀ p, R p → ∃ nd, t.heap.read p = some nd ∧
      (nd.parent = some A ∨ nd.parent = some B) ∧
      g.ht A = g.ht p + 1 ∧ p ≠ A ∧ p ≠ B ∧ p ≠ Q ∧
      h2.read p = some { nd with parent := some X } := by
    intro p hp
    obtain ⟨_, nd, e1, e2, e3⟩ := bo.readR p hp
    have hh : g.ht A = g.ht p + 1 := by
      rcases e2 with e2 | e2
      · exact inv.ht_parent e1 e2
      · have := inv.ht_parent e1 e2; omega
    exact ⟨nd, e1, e2, hh, by intro e; rw [e] at hh; omega, by intro e; rw [e] at hh; omega,
      by intro e; rw [e] at hh; omega, e3⟩
  have hsib : ∀ c l u, c ≠ some A → c ≠ some B → c ∈ qn.ptr2node → ChildOK g t.heap Q c l u →
      ChildOK (borrowGhost g A B m1) h2 Q c l u := by
    rintro c l u hneA hneB hmem ⟨c1, cn, rfl, hc1, hcp, hch, hcl, hcu⟩
    have hc1A : c1 ≠ A := fun e => hneA (by rw [e])
    have hc1B : c1 ≠ B := fun e => hneB (by rw [e])
    have hc1Q : c1 ≠ Q := by intro e; rw [e] at hch; omega
    have hc1R : ¬ R c1 := by
      intro hr
      obtain ⟨nd, e1, e2, _⟩ := hRfacts c1 hr
      rw [hc1] at e1
      obtain rfl : cn = nd := by simpa using e1
      rw [hcp] at e2
      rcases e2 with e2 | e2
      · exact hQA (by simpa using e2)
      · exact hQB (by simpa using e2)
    exact ⟨c1, cn, rfl, by rw [bo.readO c1 hc1R hc1A hc1B hc1Q]; exact hc1, hcp, by simp [hch],
      by simp [hc1B, hcl], by simp [hc1A, hc1B, hcu]⟩
  have hlowQ : ∀ k ∈ qn.key, loLt (g.lo Q) k := by
    intro k hk
    have := okQ.lower k hk
    simpa [bo.leafQ] using this
  have hs := okQ.sorted
  rw [bo.keyQ] at hs
  obtain ⟨sa, _, sb, _, _⟩ := sorted_mid hs
  have hsa : ∀ x ∈ a, x < m1 := by
    apply all_lt_of_lastOr sa
    rw [← hAlo]; exact bo.loM
  have hsb : ∀ x ∈ b, m1 < x := by
    apply all_gt_of_headOr sb
    rw [← hBhi]; exact bo.hiM
  have hab : (a ++ b).Pairwise (fun p q => p < q) := by
    obtain ⟨s1, s2, s3⟩ := List.pairwise_append.mp hs
    refine List.pairwise_append.mpr ⟨s1, (List.pairwise_cons.mp s2).2, ?_⟩
    intro x hx y hy
    exact s3 x hx y (by simp [hy])
  have okQ1 : NodeOK (borrowGhost g A B m1) h2 Q Q1 := by
    refine ⟨by rw [hQ1k]; exact sorted_insert hab hsa hsb, ?_, ?_, ?_, ?_⟩
    · intro k hk
      rw [hQ1k] at hk
      simp only [hQ1l, Bool.false_eq_true, if_false, borrowGhost_lo, hQB]
      simp only [List.mem_append, List.mem_cons] at hk
      rcases hk with hk | rfl | hk
      · exact hlowQ k (by rw [bo.keyQ]; simp [hk])
      · apply loLt_of_lastOr (a := a) (fun z hz => hlowQ z (by rw [bo.keyQ]; simp [hz]))
        rw [← hAlo]; exact bo.loM
      · exact hlowQ k (by rw [bo.keyQ]; simp [hk])
    · intro k hk
      rw [hQ1k] at hk
      simp only [borrowGhost_hi, hQA, hQB, if_false]
      simp only [List.mem_append, List.mem_cons] at hk
      rcases hk with hk | rfl | hk
      · exact okQ.upper k (by rw [bo.keyQ]; simp [hk])
      · apply ltHi_of_headOr (b := b) (fun z hz => okQ.upper z (by rw [bo.keyQ]; simp [hz]))
        rw [← hBhi]; exact bo.hiM
      · exact okQ.upper k (by rw [bo.keyQ]; simp [hk])
    · intro hl; rw [hQ1l] at hl; cases hl
    · intro _
      rw [hQ1k, hQ1p]
      simp only [borrowGhost_lo, borrowGhost_hi, hQA, hQB, if_false]
      refine (kids_append _ _ _ a ca _ bo.lenQ).mpr ⟨?_, ?_⟩
      · refine SegL.seg_imp ?_ hseg
        intro c l u hmem hc
        exact hsib c l u (fun e => hAca (e ▸ hmem)) (fun e => hBca (e ▸ hmem))
          (by rw [bo.ptrQ]; simp [hmem]) hc
      · refine ⟨some A, some B :: cb, rfl, ?_, ?_⟩
        · exact ⟨A, an1, rfl, bo.readA, by rw [bo.parA]; exact hAp, by simp [hAh],
            by simp [hAB, hAlo], by simp [hAB]⟩
        · refine kids_replace_head hrest ?_ ?_
          · exact ⟨B, bn1, rfl, bo.readB, by rw [bo.parB]; exact hBp, by simp [hBh],
              by simp, by simp [hBhi]⟩
          · intro c l u hmem hc
            exact hsib c l u (fun e => hAcb (e ▸ hmem)) (fun e => hBcb (e ▸ hmem))
              (by rw [bo.ptrQ]; simp [hmem]) hc
  apply inv.frame (fun p => p = A ∨ p = B ∨ p = Q) R
  · obtain ⟨r, rn, h1, h2r, h3, h4, h5⟩ := inv.root
    have hrA : r ≠ A := by
      intro e; rw [e, bo.liveA] at h2r
      obtain rfl : an = rn := by simpa using h2r
      rw [hAp] at h3; cases h3
    have hrB : r ≠ B := by
      intro e; rw [e, bo.liveB] at h2r
      obtain rfl : bn = rn := by simpa using h2r
      rw [hBp] at h3; cases h3
    by_cases hrQ1 : r = Q
    · subst hrQ1
      rw [bo.liveQ] at h2r
      obtain rfl : qn = rn := by simpa using h2r
      exact ⟨r, Q1, h1, hrQ, by rw [hQ1par]; exact h3, by simp [hrB, h4], by simp [hrA, hrB, h5]⟩
    · have hrR : ¬ R r := by
        intro hr
        obtain ⟨nd, e1, e2, _⟩ := hRfacts r hr
        rw [h2r] at e1
        obtain rfl : rn = nd := by simpa using e1
        rw [h3] at e2
        rcases e2 with e2 | e2 <;> cases e2
      exact ⟨r, rn, h1, by show h2.read r = _; rw [bo.readO r hrR hrA hrB hrQ1]; exact h2r, h3,
        by simp [hrB, h4], by simp [hrA, hrB, h5]⟩
  · exact Or.inl rfl
  · intro e he
    rcases hexc e he with h | h
    · exact Or.inl (Or.inl h)
    · exact Or.inl (Or.inr (Or.inl h))
  · show t.heap.length ≤ h2.length
    rw [bo.len]
  · intro p hpD hpR
    simp only [not_or] at hpD
    obtain ⟨h1, h2p, h3⟩ := hpD
    exact ⟨bo.readO p hpR h1 h2p h3, by simp [h2p], by simp [h1, h2p], by simp⟩
  · intro p hp
    obtain ⟨⟨xn1, hx1, hx2, hx3⟩, _⟩ := bo.readR p hp
    obtain ⟨nd, e1, e2, e3, e4, e5, e6, e7⟩ := hRfacts p hp
    refine ⟨?_, nd, X, xn1, e1, ?_, e7, by simp [e5], by simp [e4, e5], by simp, hx1, hx2, hx3⟩
    · simp only [not_or]; exact ⟨e4, e5, e6⟩
    · rcases e2 with e2 | e2
      · exact ⟨A, e2, Or.inl rfl⟩
      · exact ⟨B, e2, Or.inr (Or.inl rfl)⟩
  · intro p nd1 hp hrd1
    change h2.read p = some nd1 at hrd1
    rcases hp with rfl | rfl | rfl
    · rw [bo.readA] at hrd1
      obtain rfl : an1 = nd1 := by simpa using hrd1
      refine ⟨bo.okA, ?_, fun hl _ => bo.neA hl, ?_⟩
      · intro _
        exact ⟨Q, Q1, by rw [bo.parA]; exact hAp, hrQ, hQ1l, by rw [hQ1p]; simp⟩
      · have := inv.low p an bo.liveA
        show (borrowGhost g p B m1).ht p < h2.length
        rw [bo.len]; simpa using this
    · rw [bo.readB] at hrd1
      obtain rfl : bn1 = nd1 := by simpa using hrd1
      refine ⟨bo.okB, ?_, fun hl _ => bo.neB hl, ?_⟩
      · intro _
        exact ⟨Q, Q1, by rw [bo.parB]; exact hBp, hrQ, hQ1l, by rw [hQ1p]; simp⟩
      · have := inv.low p bn bo.liveB
        show (borrowGhost g A p m1).ht p < h2.length
        rw [bo.len]; simpa using this
    · rw [hrQ] at hrd1
      obtain rfl : Q1 = nd1 := by simpa using hrd1
      refine ⟨okQ1, ?_, fun _ _ => by rw [hQ1k]; simp, ?_⟩
      · intro hne
        obtain ⟨GG, ggn, b1, b2, b3, b4⟩ := inv.attached p qn bo.liveQ hne
        have hh := inv.ht_parent bo.liveQ b1
        have hGGA : GG ≠ A := by intro e; rw [e] at hh; omega
        have hGGB : GG ≠ B := by intro e; rw [e] at hh; omega
        have hGGQ : GG ≠ p := by intro e; rw [e] at hh; omega
        have hGGR : ¬ R GG := by
          intro hr
          obtain ⟨_, _, _, e3, _⟩ := hRfacts GG hr
          omega
        exact ⟨GG, ggn, by rw [hQ1par]; exact b1,
          by show h2.read GG = _; rw [bo.readO GG hGGR hGGA hGGB hGGQ]; exact b2, b3, b4⟩
      · have := inv.low p qn bo.liveQ
        show (borrowGhost g A B m1).ht p < h2.length
        rw [bo.len]; simpa using this
  · intro c cn q hc hrc hcp hq
    simp only [not_or] at hq
    rcases hc with rfl | rfl | rfl
    · rw [bo.liveA] at hrc
      obtain rfl : an = cn := by simpa using hrc
      rw [hAp] at hcp
      exact absurd (by simpa using hcp.symm) hq.2.2
    · rw [bo.liveB] at hrc
      obtain rfl : bn = cn := by simpa using hrc
      rw [hBp] at hcp
      exact absurd (by simpa using hcp.symm) hq.2.2
    · rw [bo.liveQ] at hrc
      obtain rfl : qn = cn := by simpa using hrc
      exact ⟨Q1, hrQ, by rw [hQ1par]; exact hcp, by simp [hQB], by simp [hQA, hQB], by simp⟩
  · intro q qn2 p hq hrq hql hpD hpR hmem
    simp only [not_or] at hpD
    rcases hq with rfl | rfl | rfl
    · rw [bo.liveA] at hrq
      obtain rfl : an = qn2 := by simpa using hrq
      exact ⟨an1, bo.readA, by rw [bo.leafA]; exact hql, bo.keepA p hmem hpR⟩
    · rw [bo.liveB] at hrq
      obtain rfl : bn = qn2 := by simpa using hrq
      exact ⟨bn1, bo.readB, by rw [bo.leafB]; exact hql, bo.keepB p hmem hpR⟩
    · rw [bo.liveQ] at hrq
      obtain rfl : qn = qn2 := by simpa using hrq
      exact ⟨Q1, hrQ, hQ1l, by rw [hQ1p, ← bo.ptrQ]; exact hmem⟩
  · intro p nd1 hp hrd1 hl1
    change h2.read p = some nd1 at hrd1
    rcases hp with hp | hp | hp
    · subst hp
      rw [bo.readA] at hrd1
      obtain rfl : an1 = nd1 := by simpa using hrd1
      have hal : an.leaf = true := by rw [← bo.leafA]; exact hl1
      have hbl : bn.leaf = true := by
        have := ((inv.nodes p an bo.liveA).leafOK hal).1
        exact inv.leaf_of_ht bo.liveB (by omega)
      have hc := nextOK_iff.1 (inv.chain p an bo.liveA hal)
      obtain ⟨q, qn2, hn, hq, hql, hlo⟩ := hc.2 m hAhi
      obtain rfl : q = B := inv.lo_unique hq bo.liveB hql hbl (by rw [hlo, hBlo])
      refine nextOK_iff.2 ⟨fun hn1 => ?_, fun b2 hb2 => ?_⟩
      · simp [hAB] at hn1
      · have hb3 : m1 = b2 := by simpa [hAB] using hb2
        subst hb3
        exact ⟨q, bn1, by rw [bo.nextA]; exact hn, bo.readB, by rw [bo.leafB]; exact hbl,
          by simp⟩
    · subst hp
      rw [bo.readB] at hrd1
      obtain rfl : bn1 = nd1 := by simpa using hrd1
      have hbl : bn.leaf = true := by rw [← bo.leafB]; exact hl1
      have hb0 := ((inv.nodes p bn bo.liveB).leafOK hbl).1
      have hal : an.leaf = true := inv.leaf_of_ht bo.liveA (by omega)
      have hc := nextOK_iff.1 (inv.chain p bn bo.liveB hbl)
      refine nextOK_iff.2 ⟨fun hn => ?_, fun b2 hb2 => ?_⟩
      · rw [bo.nextB]; exact hc.1 (by simpa using hn)
      · have hb3 : g.hi p = some b2 := by simpa using hb2
        obtain ⟨q, qn2, hn, hq, hql, hlo⟩ := hc.2 b2 hb3
        have hqB : q ≠ p := by
          intro e
          rw [e, hBlo] at hlo
          have := inv.lo_in_range bo.liveB hBlo
          rw [hb3] at this
          simp only [Option.some.injEq] at hlo
          rw [hlo] at this
          exact lt_irrefl _ this
        have hqQ : q ≠ Q := by
          intro e
          rw [e, bo.liveQ] at hq
          obtain rfl : qn = qn2 := by simpa using hq
          rw [bo.leafQ] at hql; cases hql
        have hqR : ¬ R q := by
          intro hr
          obtain ⟨_, _, _, e3, _⟩ := hRfacts q hr
          omega
        by_cases hqA : q = A
        · subst hqA
          exact ⟨q, an1, by rw [bo.nextB]; exact hn, bo.readA, by rw [bo.leafA]; exact hal,
            by simp [hAB]; exact hlo⟩
        · exact ⟨q, qn2, by rw [bo.nextB]; exact hn,
            by show h2.read q = _; rw [bo.readO q hqR hqA hqB hqQ]; exact hq, hql,
            by simp [hqB]; exact hlo⟩
    · subst hp
      rw [hrQ] at hrd1
      obtain rfl : Q1 = nd1 := by simpa using hrd1
      rw [hQ1l] at hl1; cases hl1
  · intro p nd q qn2 hpD hp hpl hnx hq hrq hql
    simp only [not_or] at hpD
    rcases hq with hq | hq | hq
    · subst hq
      rw [bo.liveA] at hrq
      obtain rfl : an = qn2 := by simpa using hrq
      exact ⟨an1, bo.readA, by rw [bo.leafA]; exact hql, by simp [hAB]⟩
    · subst hq
      rw [bo.liveB] at hrq
      obtain rfl : bn = qn2 := by simpa using hrq
      exfalso
      have hb0 := ((inv.nodes q bn bo.liveB).leafOK hql).1
      have hal : an.leaf = true := inv.leaf_of_ht bo.liveA (by omega)
      have hc := nextOK_iff.1 (inv.chain p nd hp hpl)
      cases hhi : g.hi p with
      | none =>
        have := hc.1 hhi
        rw [hnx] at this; cases this
      | some b2 =>
        obtain ⟨q1, qn1, e1, e2, e3, e4⟩ := hc.2 b2 hhi
        rw [hnx] at e1
        obtain rfl : q = q1 := by simpa using e1
        rw [hBlo] at e4
        obtain rfl : m = b2 := by simpa using e4
        exact hpD.1 (inv.hi_unique hp bo.liveA hpl hal hhi (by rw [hhi, hAhi]))
    · subst hq
      rw [bo.liveQ] at hrq
      obtain rfl : qn = qn2 := by simpa using hrq
      rw [bo.leafQ] at hql; cases hql

end BorrowGeneric

end BPlus

namespace BPlus

section EraseBasics

variable {K V : Type} [LinearOrder K]

/-! ### Positions in the parent -/

theorem childIndex_mid {ca cb : List (Option Nat)} {X : Nat} (h : some X ∉ ca) :
    childIndex (ca ++ some X :: cb) X = (ca.length : Int) := by
  have key : ∀ (l : List (Option Nat)), some X ∉ l →
      (l ++ some X :: cb).indexOf (some X) = l.length := by
    intro l
    induction l with
    | nil => intro _; simp [List.indexOf, List.findIdx_cons]
    | cons y ys ih =>
      intro hy
      have h1 : y ≠ some X := fun e => hy (by simp [e])
      have h2 : some X ∉ ys := fun e => hy (by simp [e])
      have := ih h2
      simp only [List.indexOf] at this ⊢
      simp only [List.cons_append, List.findIdx_cons, List.length_cons]
      have h3 : (y == some X) = false := by simpa using h1
      rw [h3]
      simp only [cond_false]
      omega
  unfold childIndex
  rw [key ca h]
  simp

theorem sizeT_lt_iff {i len : Nat} (h : i < len) :
    sizeT (i : Int) < sizeT ((len : Int) - 1) ↔ i + 1 < len := by
  unfold sizeT
  split_ifs <;> omega

theorem vget_at {α : Type} (a b : List α) (x : α) {i : Int} (hi : i = (a.length : Int)) :
    vget (a ++ x :: b) i = some x := by
  subst hi
  rw [vget_natCast]
  exact getElem?_mid _ _ _ rfl

theorem vget_at_succ {α : Type} (a b : List α) (x y : α) {i : Int}
    (hi : i = (a.length : Int) + 1) : vget (a ++ x :: y :: b) i = some y := by
  have : i = ((a ++ [x]).length : Int) := by simp [hi]
  have e : a ++ x :: y :: b = (a ++ [x]) ++ y :: b := by simp
  rw [e]
  exact vget_at _ _ _ this

theorem vset_at {α : Type} (a b : List α) (x y : α) {i : Int} (hi : i = (a.length : Int)) :
    vset (a ++ x :: b) i y = some (a ++ y :: b) := by
  subst hi
  rw [vset_natCast _ _ _ (by simp)]
  simp

theorem verase_at {α : Type} (a b : List α) (x : α) {i : Int} (hi : i = (a.length : Int)) :
    verase (a ++ x :: b) i = some (a ++ b) := by
  subst hi
  rw [verase_natCast _ _ (by simp)]
  simp

theorem verase_at_succ {α : Type} (a b : List α) (x y : α) {i : Int}
    (hi : i = (a.length : Int) + 1) : verase (a ++ x :: y :: b) i = some (a ++ x :: b) := by
  have : i = ((a ++ [x]).length : Int) := by simp [hi]
  have e : a ++ x :: y :: b = (a ++ [x]) ++ y :: b := by simp
  rw [e, verase_at _ _ _ this]
  simp

theorem canLend_eq {t : BPTree K V} {ptrs : List (Option Nat)} {i : Int} {S : Nat}
    {sn : Node K V} (h1 : vget ptrs i = some (some S)) (h2 : t.heap.read S = some sn) :
    canLend t ptrs i = some (decide (sn.key.length > (t.order + 1) / 2)) := by
  simp [canLend, h1, h2]

/-! ### Heights and leaves -/

theorem NodeOK.ht_pos {g : Ghost K} {h : Heap K V} {p : Nat} {nd : Node K V}
    (ok : NodeOK g h p nd) (hl : nd.leaf = false) : 1 ≤ g.ht p := by
  have hk := ok.kids hl
  cases hkey : nd.key with
  | nil =>
    rw [hkey] at hk
    obtain ⟨c, _, c1, cn, _, _, _, hh, _⟩ := hk
    omega
  | cons x xs =>
    rw [hkey] at hk
    obtain ⟨c, cs, _, ⟨c1, cn, _, _, _, hh, _⟩, _⟩ := hk
    omega

theorem NodeOK.leaf_iff {g : Ghost K} {h : Heap K V} {p : Nat} {nd : Node K V}
    (ok : NodeOK g h p nd) : nd.leaf = true ↔ g.ht p = 0 := by
  constructor
  · intro hl; exact (ok.leafOK hl).1
  · intro h0
    cases hl : nd.leaf with
    | true => rfl
    | false => have := ok.ht_pos hl; omega

theorem lastOr_lt {lo : Option K} {a b : List K} {m : K}
    (hs : (a ++ m :: b).Pairwise (fun p q => p < q)) (h : loLt lo m) : loLt (lastOr lo a) m := by
  rcases List.eq_nil_or_concat a with rfl | ⟨a1, z, rfl⟩
  · simpa using h
  · rw [List.concat_eq_append] at hs ⊢
    simp only [lastOr_concat, loLt_some]
    exact (sorted_mid hs).2.2.2.1 z (by simp)

theorem lt_headOr {hi : Option K} {a b : List K} {m : K}
    (hs : (a ++ m :: b).Pairwise (fun p q => p < q)) (h : ltHi m hi) : ltHi m (headOr b hi) := by
  cases b with
  | nil => simpa using h
  | cons y ys =>
    simp only [headOr_cons, ltHi_some]
    exact (sorted_mid hs).2.2.2.2 y (by simp)

/-! ### The neighbours of a child -/

/-- A child that is not the first one has a left neighbour. -/
theorem left_pair {t : BPTree K V} {g : Ghost K} {exc : Option Nat} (inv : InvG t g exc)
    {Q X : Nat} {qn : Node K V} {a b : List K} {ca cb : List (Option Nat)}
    (hQ : t.heap.read Q = some qn) (hl : qn.leaf = false) (hkey : qn.key = a ++ b)
    (hptr : qn.ptr2node = ca ++ some X :: cb) (hlen : a.length = ca.length) (hne : ca ≠ []) :
    ∃ L a1 m ca1, a = a1 ++ [m] ∧ ca = ca1 ++ [some L] ∧ a1.length = ca1.length ∧
      qn.key = a1 ++ m :: b ∧ qn.ptr2node = ca1 ++ some L :: some X :: cb := by
  rcases List.eq_nil_or_concat ca with rfl | ⟨ca1, c, rfl⟩
  · exact absurd rfl hne
  rcases List.eq_nil_or_concat a with rfl | ⟨a1, m, rfl⟩
  · simp at hlen
  simp only [List.concat_eq_append] at hlen hptr hkey ⊢
  have hlen1 : a1.length = ca1.length := by simpa using hlen
  have hk := (inv.nodes Q qn hQ).kids hl
  have hget : qn.ptr2node[ca1.length]? = some c := by
    rw [hptr, List.append_assoc]
    exact getElem?_mid _ _ _ rfl
  obtain ⟨L, _, rfl, _⟩ := kids_at hk hget
  exact ⟨L, a1, m, ca1, rfl, rfl, hlen1, by rw [hkey]; simp, by rw [hptr]; simp⟩

/-- A child that is not the last one has a right neighbour. -/
theorem right_pair {t : BPTree K V} {g : Ghost K} {exc : Option Nat} (inv : InvG t g exc)
    {Q X : Nat} {qn : Node K V} {a b : List K} {ca cb : List (Option Nat)}
    (hQ : t.heap.read Q = some qn) (hl : qn.leaf = false) (hkey : qn.key = a ++ b)
    (hptr : qn.ptr2node = ca ++ some X :: cb) (hlen : a.length = ca.length) (hne : cb ≠ []) :
    ∃ R m b1 cb1, b = m :: b1 ∧ cb = some R :: cb1 := by
  have hk := (inv.nodes Q qn hQ).kids hl
  rw [hkey, hptr] at hk
  obtain ⟨_, hrest⟩ := (kids_append _ _ _ a ca _ hlen).mp hk
  cases b with
  | nil =>
    obtain ⟨c, heq, _⟩ := hrest
    obtain ⟨_, rfl⟩ := List.cons.inj heq
    exact absurd rfl hne
  | cons m b1 =>
    obtain ⟨c, cs, heq, _, hk2⟩ := hrest
    obtain ⟨_, rfl⟩ := List.cons.inj heq
    cases cb with
    | nil => exact absurd rfl hne
    | cons c2 cb1 =>
      obtain ⟨R, _, rfl, _⟩ := kids_head hk2
      exact ⟨R, m, b1, cb1, rfl, rfl⟩

/-- An only child has a parent without keys. -/
theorem only_child {t : BPTree K V} {g : Ghost K} {exc : Option Nat} (inv : InvG t g exc)
    {Q X : Nat} {qn : Node K V} {cb : List (Option Nat)}
    (hQ : t.heap.read Q = some qn) (hl : qn.leaf = false)
    (hptr : qn.ptr2node = some X :: cb) (hne : qn.key ≠ []) : cb ≠ [] := by
  have hk := ((inv.nodes Q qn hQ).kids hl).length_eq
  rw [hptr] at hk
  intro e
  rw [e] at hk
  simp only [List.length_singleton] at hk
  exact hne (List.length_eq_zero.mp (by omega))

/-! ### Pairs after two leaves exchanged entries -/

theorem SamePairs.of_two {h h1 : Heap K V} (A B : Nat)
    (ho : ∀ p, p ≠ A → p ≠ B → pairsAt h1 p = pairsAt h p)
    (hab : ∀ kv, (kv ∈ pairsAt h1 A ∨ kv ∈ pairsAt h1 B) ↔ (kv ∈ pairsAt h A ∨ kv ∈ pairsAt h B)) :
    SamePairs h h1 := by
  intro k v
  constructor
  · rintro ⟨p, hp⟩
    by_cases hA : p = A
    · subst hA
      rcases (hab (k, v)).mp (Or.inl hp) with h2 | h2
      · exact ⟨_, h2⟩
      · exact ⟨_, h2⟩
    by_cases hB : p = B
    · subst hB
      rcases (hab (k, v)).mp (Or.inr hp) with h2 | h2
      · exact ⟨_, h2⟩
      · exact ⟨_, h2⟩
    exact ⟨p, by rw [← ho p hA hB]; exact hp⟩
  · rintro ⟨p, hp⟩
    by_cases hA : p = A
    · subst hA
      rcases (hab (k, v)).mpr (Or.inl hp) with h2 | h2
      · exact ⟨_, h2⟩
      · exact ⟨_, h2⟩
    by_cases hB : p = B
    · subst hB
      rcases (hab (k, v)).mpr (Or.inr hp) with h2 | h2
      · exact ⟨_, h2⟩
      · exact ⟨_, h2⟩
    exact ⟨p, by rw [ho p hA hB]; exact hp⟩

theorem pairsAt_of_internal {h : Heap K V} {p : Nat} {n : Node K V} (hp : h.read p = some n)
    (hl : n.leaf = false) : pairsAt h p = [] := by
  simp [pairsAt, leafView, hp, hl]

/-- Join the children of two neighbours around their separator. -/
theorem kids_join {P : Option Nat → Option K → Option K → Prop} {lo hi : Option K} {m : K}
    {k1 k2 : List K} {c1 c2 : List (Option Nat)} (h1 : Kids P lo k1 c1 (some m))
    (h2 : Kids P (some m) k2 c2 hi) : Kids P lo (k1 ++ m :: k2) (c1 ++ c2) hi :=
  (kids_split_key m k2 c2 hi k1 c1 lo h1.length_eq).mpr ⟨h1, h2⟩

end EraseBasics

end BPlus

namespace BPlus

section Merges

variable {K V : Type} [LinearOrder K]

/-- Every child of a well-formed node is live and one level below it. -/
theorem kids_mem {g : Ghost K} {h : Heap K V} {p : Nat} :
    ∀ {ks : List K} {lo hi : Option K} {cs : List (Option Nat)},
      Kids (ChildOK g h p) lo ks cs hi → ∀ c ∈ cs,
      ∃ c1 cn, c = some c1 ∧ h.read c1 = some cn ∧ cn.parent = some p ∧ g.ht p = g.ht c1 + 1 := by
  intro ks
  induction ks with
  | nil =>
    intro lo hi cs hk c hc
    obtain ⟨c0, rfl, c1, cn, e1, e2, e3, e4, _⟩ := hk
    simp only [List.mem_singleton] at hc
    subst hc
    exact ⟨c1, cn, e1, e2, e3, e4⟩
  | cons x xs ih =>
    intro lo hi cs hk c hc
    obtain ⟨c0, cs1, rfl, ⟨c1, cn, e1, e2, e3, e4, _⟩, hrest⟩ := hk
    rcases List.mem_cons.mp hc with rfl | hc
    · exact ⟨c1, cn, e1, e2, e3, e4⟩
    · exact ih hrest c hc

/-- The merge of a leaf with its right neighbour. -/
theorem leafMergeRight_spec {t : BPTree K V} {g : Ghost K} (inv : InvG t g none)
    {Q A B : Nat} {qn an : Node K V} {a b : List K} {m : K} {ca cb : List (Option Nat)}
    (hQ : t.heap.read Q = some qn) (hl : qn.leaf = false) (hkey : qn.key = a ++ m :: b)
    (hptr : qn.ptr2node = ca ++ some A :: some B :: cb) (hlen : a.length = ca.length)
    (hA : t.heap.read A = some an) (hAl : an.leaf = true) {i : Int}
    (hi : i = (ca.length : Int)) :
    ∃ t1, leafMergeRight t A Q i = some t1 ∧ InvG t1 (mergeGhost g A B) (some Q) ∧
      t1.root = t.root ∧ t1.order = t.order ∧ t1.heap.length = t.heap.length ∧
      SamePairs t.heap t1.heap ∧
      t1.heap.read Q = some { qn with key := a ++ b, ptr2node := ca ++ some A :: cb } := by
  obtain ⟨⟨an0, hA0, hAp⟩, ⟨bn, hB, hBp⟩, hAh, hBh, hAlo, hAhi, hBlo, hBhi, hAB, hAca, hAcb,
    hBca, hBcb, hseg, hrest⟩ := pair_facts inv hQ hl hkey hptr hlen
  rw [hA] at hA0
  obtain rfl : an = an0 := by simpa using hA0
  have okA := inv.nodes A an hA
  have okB := inv.nodes B bn hB
  have okQ := inv.nodes Q qn hQ
  obtain ⟨hA0, hAv⟩ := okA.leafOK hAl
  have hBl : bn.leaf = true := okB.leaf_iff.mpr (by omega)
  obtain ⟨hB0, hBv⟩ := okB.leafOK hBl
  have hQA : Q ≠ A := by intro e; rw [e] at hAh; omega
  have hQB : Q ≠ B := by intro e; rw [e] at hBh; omega
  obtain ⟨an1, han1⟩ : ∃ an1 : Node K V, an1 = { an with key := an.key ++ bn.key, ptr2val := an.ptr2val ++ bn.ptr2val, next := bn.next } := ⟨_, rfl⟩
  obtain ⟨qn1, hqn1⟩ : ∃ qn1 : Node K V, qn1 = { qn with key := a ++ b, ptr2node := ca ++ some A :: cb } := ⟨_, rfl⟩
  have hi1 : i + 1 = (ca.length : Int) + 1 := by omega
  have hi2 : i = (a.length : Int) := by omega
  have hrun : leafMergeRight t A Q i =
      some { t with heap := ((t.heap.write A an1).write Q qn1).free B } := by
    simp only [leafMergeRight, hA, hQ, hptr, vget_at_succ ca cb (some A) (some B) hi1, hB,
      Heap.read_write_ne _ hQA, hkey, verase_at a b m hi2,
      verase_at_succ ca cb (some A) (some B) hi1]
    rw [han1, hqn1]
  have hQ1 : (t.heap.write A an1).read Q = some qn := by
    rw [Heap.read_write_ne _ hQA]; exact hQ
  have hrd : ∀ p, (((t.heap.write A an1).write Q qn1).free B).read p =
      if p = B then none else if p = Q then some qn1 else if p = A then some an1
      else t.heap.read p := by
    intro p
    rw [Heap.read_free]
    by_cases h1 : p = B
    · rw [if_pos h1, if_pos h1]
    rw [if_neg h1, if_neg h1]
    by_cases h2 : p = Q
    · subst h2; rw [if_pos rfl]; exact Heap.read_write_same hQ1 _
    rw [if_neg h2, Heap.read_write_ne _ h2]
    by_cases h3 : p = A
    · subst h3; rw [if_pos rfl]; exact Heap.read_write_same hA _
    rw [if_neg h3, Heap.read_write_ne _ h3]
  have hs := okQ.sorted
  rw [hkey] at hs
  have hQm : loLt (g.lo Q) m := by
    have := okQ.lower m (by rw [hkey]; simp)
    simpa [hl] using this
  have hloM : loLt (g.lo A) m := by rw [hAlo]; exact lastOr_lt hs hQm
  have hhiM : ltHi m (g.hi B) := by
    rw [hBhi]; exact lt_headOr hs (okQ.upper m (by rw [hkey]; simp))
  have hAm : ∀ x ∈ an.key, x < m := by
    intro x hx
    have := okA.upper x hx
    rw [hAhi] at this
    simpa using this
  have hBm : ∀ x ∈ bn.key, m ≤ x := by
    intro x hx
    have := okB.lower_loLe hx
    rw [hBlo] at this
    simpa using this
  have ok1 : NodeOK (mergeGhost g A B) (((t.heap.write A an1).write Q qn1).free B) A an1 := by
    refine ⟨?_, ?_, ?_, ?_, ?_⟩
    · rw [han1]
      exact List.pairwise_append.mpr ⟨okA.sorted, okB.sorted,
        fun x hx y hy => lt_of_lt_of_le (hAm x hx) (hBm y hy)⟩
    · intro k hk
      rw [han1] at hk
      simp only [han1, hAl, if_true, mergeGhost_lo]
      rcases List.mem_append.mp hk with hk | hk
      · exact okA.lower_loLe hk
      · exact (hloM.mono_lt (hBm k hk)).loLe
    · intro k hk
      rw [han1] at hk
      simp only [mergeGhost_hi, if_true]
      rcases List.mem_append.mp hk with hk | hk
      · exact ltHi.anti (le_of_lt (hAm k hk)) hhiM
      · exact okB.upper k hk
    · intro _
      refine ⟨by simp [hA0], ?_⟩
      rw [han1]
      simp only [List.length_append]
      omega
    · intro hf
      rw [han1] at hf
      rw [hAl] at hf
      cases hf
  have mo : MergeOK t g Q A B qn an bn a b m ca cb
      (((t.heap.write A an1).write Q qn1).free B) an1 (fun _ => False) := by
    refine ⟨hQ, hl, hkey, hptr, hlen, hA, hB, by simp, ?_, ?_, ?_, fun p hp => absurd hp id, ?_,
      ?_, by rw [han1], by rw [han1], by rw [hBl, hAl], fun _ => by rw [han1], ?_, ok1, ?_⟩
    · rw [hrd, if_neg hAB, if_neg (Ne.symm hQA), if_pos rfl]
    · rw [hrd, if_pos rfl]
    · rw [hrd, if_neg hQB, if_pos rfl, hqn1]
    · intro p _ h1 h2 h3
      rw [hrd, if_neg h2, if_neg h3, if_neg h1]
    · intro p hf
      rw [hBl] at hf
      cases hf
    · intro p hp
      rw [han1]
      exact hp
    · intro hf
      rw [han1] at hf
      rw [hAl] at hf
      cases hf
  refine ⟨_, hrun, merge_generic inv (by simp) mo, rfl, rfl, by simp, ?_, ?_⟩
  · apply SamePairs.of_two A B
    · intro p h1 h2
      by_cases h3 : p = Q
      · subst h3
        rw [pairsAt_of_internal hQ hl]
        exact pairsAt_of_internal (n := qn1) (by rw [hrd, if_neg h2, if_pos rfl])
          (by rw [hqn1]; exact hl)
      · simp only [pairsAt, leafView, hrd, if_neg h1, if_neg h2, if_neg h3]
    · intro kv
      have e1 : pairsAt (((t.heap.write A an1).write Q qn1).free B) A =
          an.key.zip an.ptr2val ++ bn.key.zip bn.ptr2val := by
        rw [pairsAt_of_leaf (n := an1)
          (by rw [hrd, if_neg hAB, if_neg (Ne.symm hQA), if_pos rfl]) (by rw [han1]; exact hAl)]
        rw [han1]
        exact List.zip_append hAv.symm
      have e2 : pairsAt (((t.heap.write A an1).write Q qn1).free B) B = [] :=
        pairsAt_of_none (by rw [hrd, if_pos rfl])
      rw [e1, e2, pairsAt_of_leaf hA hAl, pairsAt_of_leaf hB hBl]
      simp
  · show (((t.heap.write A an1).write Q qn1).free B).read Q = _
    rw [hrd, if_neg hQB, if_pos rfl, hqn1]

end Merges

end BPlus

namespace BPlus

section NodeMerge

variable {K V : Type} [LinearOrder K]

/-- The merge of an internal node with its right neighbour. -/
theorem nodeMergeRight_spec {t : BPTree K V} {g : Ghost K} {exc : Option Nat}
    (inv : InvG t g exc)
    {Q A B : Nat} {qn an : Node K V} {a b : List K} {m : K} {ca cb : List (Option Nat)}
    (hexc : ∀ e, exc = some e → e = A ∨ e = B)
    (hQ : t.heap.read Q = some qn) (hl : qn.leaf = false) (hkey : qn.key = a ++ m :: b)
    (hptr : qn.ptr2node = ca ++ some A :: some B :: cb) (hlen : a.length = ca.length)
    (hA : t.heap.read A = some an) (hAl : an.leaf = false) {i : Int}
    (hi : i = (ca.length : Int)) :
    ∃ t1, nodeMergeRight t A Q i = some t1 ∧ InvG t1 (mergeGhost g A B) (some Q) ∧
      t1.root = t.root ∧ t1.order = t.order ∧ t1.heap.length = t.heap.length ∧
      (∀ p, leafView t1.heap p = leafView t.heap p) ∧
      t1.heap.read Q = some { qn with key := a ++ b, ptr2node := ca ++ some A :: cb } := by
  obtain ⟨⟨an0, hA0, hAp⟩, ⟨bn, hB, hBp⟩, hAh, hBh, hAlo, hAhi, hBlo, hBhi, hAB, hAca, hAcb,
    hBca, hBcb, hseg, hrest⟩ := pair_facts inv hQ hl hkey hptr hlen
  rw [hA] at hA0
  obtain rfl : an = an0 := by simpa using hA0
  have okA := inv.nodes A an hA
  have okB := inv.nodes B bn hB
  have okQ := inv.nodes Q qn hQ
  have hA1 := okA.ht_pos hAl
  have hBl : bn.leaf = false := by
    cases hb : bn.leaf with
    | false => rfl
    | true => have := okB.leaf_iff.mp hb; omega
  have hQA : Q ≠ A := by intro e; rw [e] at hAh; omega
  have hQB : Q ≠ B := by intro e; rw [e] at hBh; omega
  have kA := okA.kids hAl
  have kB := okB.kids hBl
  rw [hAhi] at kA
  rw [hBlo] at kB
  obtain ⟨an1, han1⟩ : ∃ an1 : Node K V, an1 = { an with key := an.key ++ [m] ++ bn.key, ptr2node := an.ptr2node ++ bn.ptr2node } := ⟨_, rfl⟩
  obtain ⟨qn1, hqn1⟩ : ∃ qn1 : Node K V, qn1 = { qn with key := a ++ b, ptr2node := ca ++ some A :: cb } := ⟨_, rfl⟩
  have hi1 : i + 1 = (ca.length : Int) + 1 := by omega
  have hi2 : i = (a.length : Int) := by omega
  -- the children of `B`
  have hBkids : ∀ c ∈ bn.ptr2node, ∃ c1 cn, c = some c1 ∧ t.heap.read c1 = some cn ∧
      cn.parent = some B ∧ g.ht B = g.ht c1 + 1 := kids_mem kB
  have hB1 : (t.heap.write A an1).read B = some bn := by
    rw [Heap.read_write_ne _ (Ne.symm hAB)]; exact hB
  obtain ⟨h2, hrep, hlen2, hrd2⟩ := reparent_spec (K := K) (V := V) A bn.ptr2node
    (t.heap.write A an1) (by
      intro c hc
      obtain ⟨c1, cn, e1, e2, e3, e4⟩ := hBkids c hc
      have : c1 ≠ A := by intro e; rw [e] at e4; omega
      exact ⟨c1, cn, e1, by rw [Heap.read_write_ne _ this]; exact e2⟩)
  have hQnot : some Q ∉ bn.ptr2node := by
    intro hc
    obtain ⟨c1, cn, e1, e2, e3, e4⟩ := hBkids _ hc
    obtain rfl : Q = c1 := by simpa using e1
    omega
  have hAnot : some A ∉ bn.ptr2node := by
    intro hc
    obtain ⟨c1, cn, e1, e2, e3, e4⟩ := hBkids _ hc
    obtain rfl : A = c1 := by simpa using e1
    omega
  have hBnot : some B ∉ bn.ptr2node := by
    intro hc
    obtain ⟨c1, cn, e1, e2, e3, e4⟩ := hBkids _ hc
    obtain rfl : B = c1 := by simpa using e1
    omega
  have hQ2 : h2.read Q = some qn := by
    rw [hrd2, if_neg hQnot, Heap.read_write_ne _ hQA]; exact hQ
  have hrun : nodeMergeRight t A Q i = some { t with heap := (h2.write Q qn1).free B } := by
    simp only [nodeMergeRight, hA, hQ, hptr, vget_at_succ ca cb (some A) (some B) hi1, hB,
      hkey, vget_at a b m hi2]
    rw [← han1]
    simp only [hB1, hrep, hQ2, hptr, hkey, verase_at a b m hi2,
      verase_at_succ ca cb (some A) (some B) hi1]
    rw [hqn1]
  have hrd : ∀ p, ((h2.write Q qn1).free B).read p =
      if p = B then none else if p = Q then some qn1
      else if some p ∈ bn.ptr2node then
        (t.heap.read p).map (fun n => { n with parent := some A })
      else if p = A then some an1 else t.heap.read p := by
    intro p
    rw [Heap.read_free]
    by_cases h1 : p = B
    · rw [if_pos h1, if_pos h1]
    rw [if_neg h1, if_neg h1]
    by_cases h2q : p = Q
    · subst h2q; rw [if_pos rfl]; exact Heap.read_write_same hQ2 _
    rw [if_neg h2q, Heap.read_write_ne _ h2q, hrd2]
    by_cases h3 : some p ∈ bn.ptr2node
    · rw [if_pos h3, if_pos h3]
      have : p ≠ A := fun e => hAnot (e ▸ h3)
      rw [Heap.read_write_ne _ this]
    rw [if_neg h3, if_neg h3]
    by_cases h4 : p = A
    · subst h4; rw [if_pos rfl]; exact Heap.read_write_same hA _
    rw [if_neg h4, Heap.read_write_ne _ h4]
  have hrdA : ((h2.write Q qn1).free B).read A = some an1 := by
    rw [hrd, if_neg hAB, if_neg (Ne.symm hQA), if_neg hAnot, if_pos rfl]
  have hs := okQ.sorted
  rw [hkey] at hs
  have hQm : loLt (g.lo Q) m := by
    have := okQ.lower m (by rw [hkey]; simp)
    simpa [hl] using this
  have hloM : loLt (g.lo A) m := by rw [hAlo]; exact lastOr_lt hs hQm
  have hhiM : ltHi m (g.hi B) := by
    rw [hBhi]; exact lt_headOr hs (okQ.upper m (by rw [hkey]; simp))
  have hAm : ∀ x ∈ an.key, x < m := by
    intro x hx
    have := okA.upper x hx
    rw [hAhi] at this
    simpa using this
  have hBm : ∀ x ∈ bn.key, m < x := by
    intro x hx
    have := okB.lower x hx
    rw [hBlo] at this
    simpa [hBl] using this
  have han1k : an1.key = an.key ++ m :: bn.key := by rw [han1]; simp
  have ok1 : NodeOK (mergeGhost g A B) ((h2.write Q qn1).free B) A an1 := by
    refine ⟨?_, ?_, ?_, ?_, ?_⟩
    · rw [han1k]
      exact List.pairwise_append.mpr ⟨okA.sorted,
        List.pairwise_cons.mpr ⟨hBm, okB.sorted⟩, fun x hx y hy => by
          rcases List.mem_cons.mp hy with rfl | hy
          · exact hAm x hx
          · exact lt_trans (hAm x hx) (hBm y hy)⟩
    · intro k hk
      rw [han1k] at hk
      have hl1 : an1.leaf = false := by rw [han1]; exact hAl
      simp only [hl1, Bool.false_eq_true, if_false, mergeGhost_lo]
      simp only [List.mem_append, List.mem_cons] at hk
      rcases hk with hk | rfl | hk
      · have := okA.lower k hk
        simpa [hAl] using this
      · exact hloM
      · exact hloM.mono_lt (le_of_lt (hBm k hk))
    · intro k hk
      rw [han1k] at hk
      simp only [mergeGhost_hi, if_true]
      simp only [List.mem_append, List.mem_cons] at hk
      rcases hk with hk | rfl | hk
      · exact ltHi.anti (le_of_lt (hAm k hk)) hhiM
      · exact hhiM
      · exact okB.upper k hk
    · intro hf
      rw [han1] at hf
      rw [hAl] at hf
      cases hf
    · intro _
      rw [han1k]
      have hp : an1.ptr2node = an.ptr2node ++ bn.ptr2node := by rw [han1]
      rw [hp]
      simp only [mergeGhost_lo, mergeGhost_hi, if_true]
      refine kids_join (Kids.imp ?_ kA) (Kids.imp ?_ kB)
      · rintro c l u hmem ⟨c1, cn, rfl, e2, e3, e4, e5, e6⟩
        have n1 : c1 ≠ B := by intro e; rw [e] at e4; omega
        have n2 : c1 ≠ Q := by intro e; rw [e] at e4; omega
        have n3 : c1 ≠ A := by intro e; rw [e] at e4; omega
        have n4 : some c1 ∉ bn.ptr2node := by
          intro hc
          obtain ⟨c2, cn2, f1, f2, f3, f4⟩ := hBkids _ hc
          obtain rfl : c1 = c2 := by simpa using f1
          rw [e2] at f2
          obtain rfl : cn = cn2 := by simpa using f2
          rw [e3] at f3
          exact hAB (by simpa using f3)
        exact ⟨c1, cn, rfl, by rw [hrd, if_neg n1, if_neg n2, if_neg n4, if_neg n3]; exact e2,
          e3, by simpa using e4, by simpa using e5, by simp [n3, e6]⟩
      · rintro c l u hmem ⟨c1, cn, rfl, e2, e3, e4, e5, e6⟩
        have n1 : c1 ≠ B := by intro e; rw [e] at e4; omega
        have n2 : c1 ≠ Q := by intro e; rw [e] at e4; omega
        have n3 : c1 ≠ A := by intro e; rw [e] at e4; omega
        exact ⟨c1, { cn with parent := some A }, rfl,
          by rw [hrd, if_neg n1, if_neg n2, if_pos hmem, e2]; rfl,
          rfl, by simp only [mergeGhost_ht]; omega, by simpa using e5, by simp [n3, e6]⟩
  have mo : MergeOK t g Q A B qn an bn a b m ca cb ((h2.write Q qn1).free B) an1
      (fun p => some p ∈ bn.ptr2node) := by
    refine ⟨hQ, hl, hkey, hptr, hlen, hA, hB, by simp [hlen2], hrdA, ?_, ?_, ?_, ?_,
      fun p _ hp => hp, by rw [han1], by rw [han1], by rw [hBl, hAl],
      (fun h => by rw [hAl] at h; cases h), ?_, ok1, ?_⟩
    · rw [hrd, if_pos rfl]
    · rw [hrd, if_neg hQB, if_pos rfl, hqn1]
    · intro p hp
      obtain ⟨c1, cn, e1, e2, e3, e4⟩ := hBkids _ hp
      obtain rfl : p = c1 := by simpa using e1
      have n1 : p ≠ B := by intro e; rw [e] at e4; omega
      have n2 : p ≠ Q := by intro e; rw [e] at e4; omega
      refine ⟨by rw [han1]; exact hAl, by rw [han1]; simp [hp], cn, e2, e3, ?_⟩
      rw [hrd, if_neg n1, if_neg n2, if_pos hp, e2]
      rfl
    · intro p h1 h2 h3 h4
      rw [hrd, if_neg h3, if_neg h4, if_neg h1, if_neg h2]
    · intro p hp
      rw [han1]
      simp [hp]
    · intro _
      rw [han1k]
      simp
  refine ⟨_, hrun, merge_generic inv hexc mo, rfl, rfl, by simp [hlen2], ?_, ?_⟩
  · intro p
    show leafView ((h2.write Q qn1).free B) p = leafView t.heap p
    simp only [leafView, hrd]
    by_cases h1 : p = B
    · subst h1; simp [hB, hBl]
    rw [if_neg h1]
    by_cases h2q : p = Q
    · subst h2q; simp [hQ, hl, hqn1]
    rw [if_neg h2q]
    by_cases h3 : some p ∈ bn.ptr2node
    · rw [if_pos h3]
      obtain ⟨c1, cn, e1, e2, e3, e4⟩ := hBkids _ h3
      obtain rfl : p = c1 := by simpa using e1
      simp [e2]
    rw [if_neg h3]
    by_cases h4 : p = A
    · subst h4; simp [hA, hAl, han1]
    rw [if_neg h4]
  · show ((h2.write Q qn1).free B).read Q = _
    rw [hrd, if_neg hQB, if_pos rfl, hqn1]

end NodeMerge

end BPlus

namespace BPlus

section LeafBorrow

variable {K V : Type} [LinearOrder K]

theorem leafMergeLeft_eq {t : BPTree K V} {Q A B : Nat} {qn an bn : Node K V} {i : Int}
    (hB : t.heap.read B = some bn) (hQ : t.heap.read Q = some qn) (hA : t.heap.read A = some an)
    (h1 : vget qn.ptr2node (i - 1) = some (some A)) (h2 : vget qn.ptr2node i = some (some B)) :
    leafMergeLeft t B Q i = leafMergeRight t A Q (i - 1) := by
  simp only [leafMergeLeft, leafMergeRight, hB, hQ, hA, h1, sub_add_cancel, h2]

theorem nodeMergeLeft_eq {t : BPTree K V} {Q A B : Nat} {qn an bn : Node K V} {i : Int}
    (hB : t.heap.read B = some bn) (hQ : t.heap.read Q = some qn) (hA : t.heap.read A = some an)
    (h1 : vget qn.ptr2node (i - 1) = some (some A)) (h2 : vget qn.ptr2node i = some (some B)) :
    nodeMergeLeft t B Q i = nodeMergeRight t A Q (i - 1) := by
  simp only [nodeMergeLeft, nodeMergeRight, hB, hQ, hA, h1, sub_add_cancel, h2]

theorem vpop_concat {α : Type} (l : List α) (x : α) : vpop (l ++ [x]) = some l := by
  simp [vpop]

theorem split_last {α : Type} {l : List α} (h : l ≠ []) : ∃ l1 x, l = l1 ++ [x] := by
  rcases List.eq_nil_or_concat l with rfl | ⟨l1, x, rfl⟩
  · exact absurd rfl h
  · exact ⟨l1, x, by simp⟩

/-- A leaf takes the last entry of its left neighbour. -/
theorem leafBorrowLeft_spec {t : BPTree K V} {g : Ghost K} (inv : InvG t g none)
    {Q A B : Nat} {qn an : Node K V} {a b : List K} {m : K} {ca cb : List (Option Nat)}
    (hQ : t.heap.read Q = some qn) (hl : qn.leaf = false) (hkey : qn.key = a ++ m :: b)
    (hptr : qn.ptr2node = ca ++ some A :: some B :: cb) (hlen : a.length = ca.length)
    (hA : t.heap.read A = some an) (hAl : an.leaf = true) (hA2 : 2 ≤ an.key.length) {i : Int}
    (hi : i = (ca.length : Int) + 1) :
    ∃ t1 g1, leafBorrowLeft t B Q i = some t1 ∧ InvG t1 g1 none ∧
      t1.root = t.root ∧ t1.order = t.order ∧ SamePairs t.heap t1.heap ∧
      ∀ p, g1.ht p = g.ht p := by
  obtain ⟨⟨an0, hA0, hAp⟩, ⟨bn, hB, hBp⟩, hAh, hBh, hAlo, hAhi, hBlo, hBhi, hAB, hAca, hAcb,
    hBca, hBcb, hseg, hrest⟩ := pair_facts inv hQ hl hkey hptr hlen
  rw [hA] at hA0
  obtain rfl : an = an0 := by simpa using hA0
  have okA := inv.nodes A an hA
  have okB := inv.nodes B bn hB
  have okQ := inv.nodes Q qn hQ
  obtain ⟨hA0, hAv⟩ := okA.leafOK hAl
  have hBl : bn.leaf = true := okB.leaf_iff.mpr (by omega)
  obtain ⟨hB0, hBv⟩ := okB.leafOK hBl
  have hQA : Q ≠ A := by intro e; rw [e] at hAh; omega
  have hQB : Q ≠ B := by intro e; rw [e] at hBh; omega
  obtain ⟨ka, k, hka⟩ := split_last (l := an.key) (by intro e; rw [e] at hA2; simp at hA2)
  obtain ⟨va, v, hva⟩ := split_last (l := an.ptr2val)
    (by intro e; rw [e] at hAv; simp at hAv; omega)
  have hlv : va.length = ka.length := by
    rw [hka, hva] at hAv
    simpa using hAv
  have hka2 : ka ≠ [] := by
    intro e; rw [hka, e] at hA2; simp at hA2
  obtain ⟨an1, han1⟩ : ∃ an1 : Node K V, an1 = { an with key := ka, ptr2val := va } := ⟨_, rfl⟩
  obtain ⟨bn1, hbn1⟩ : ∃ bn1 : Node K V, bn1 = { bn with key := k :: bn.key, ptr2val := v :: bn.ptr2val } := ⟨_, rfl⟩
  obtain ⟨qn1, hqn1⟩ : ∃ qn1 : Node K V, qn1 = { qn with key := a ++ k :: b } := ⟨_, rfl⟩
  have hi1 : i - 1 = (ca.length : Int) := by omega
  have hi2 : i - 1 = (a.length : Int) := by omega
  have r1 : (t.heap.write B bn1).read A = some an := by
    rw [Heap.read_write_ne _ hAB]; exact hA
  have r2 : ((t.heap.write B bn1).write A an1).read B = some bn1 := by
    rw [Heap.read_write_ne _ (Ne.symm hAB)]; exact Heap.read_write_same hB _
  have r3 : ((t.heap.write B bn1).write A an1).read Q = some qn := by
    rw [Heap.read_write_ne _ hQA, Heap.read_write_ne _ hQB]; exact hQ
  have hrun : leafBorrowLeft t B Q i =
      some { t with heap := ((t.heap.write B bn1).write A an1).write Q qn1 } := by
    simp only [leafBorrowLeft, hB, hQ, hptr, vget_at ca _ (some A) hi1, hA, hka, hva,
      List.getLast?_concat]
    rw [← hbn1]
    simp only [r1, hka, hva, vpop_concat]
    rw [← han1]
    simp only [r2, r3]
    rw [hbn1]
    simp only [vget_zero, List.getElem?_cons_zero, hkey, vset_at a b m k hi2]
    try rw [hqn1]
  have hrd : ∀ p, (((t.heap.write B bn1).write A an1).write Q qn1).read p =
      if p = Q then some qn1 else if p = A then some an1 else if p = B then some bn1
      else t.heap.read p := by
    intro p
    by_cases h1 : p = Q
    · subst h1; rw [if_pos rfl]; exact Heap.read_write_same r3 _
    rw [if_neg h1, Heap.read_write_ne _ h1]
    by_cases h2 : p = A
    · subst h2; rw [if_pos rfl]; exact Heap.read_write_same r1 _
    rw [if_neg h2, Heap.read_write_ne _ h2]
    by_cases h3 : p = B
    · subst h3; rw [if_pos rfl]; exact Heap.read_write_same hB _
    rw [if_neg h3, Heap.read_write_ne _ h3]
  have hs := okQ.sorted
  rw [hkey] at hs
  have hQm : loLt (g.lo Q) m := by
    have := okQ.lower m (by rw [hkey]; simp)
    simpa [hl] using this
  have hloM : loLt (g.lo A) m := by rw [hAlo]; exact lastOr_lt hs hQm
  have hhiM : ltHi m (g.hi B) := by
    rw [hBhi]; exact lt_headOr hs (okQ.upper m (by rw [hkey]; simp))
  have hAm : ∀ x ∈ an.key, x < m := by
    intro x hx
    have := okA.upper x hx
    rw [hAhi] at this
    simpa using this
  have hBm : ∀ x ∈ bn.key, m ≤ x := by
    intro x hx
    have := okB.lower_loLe hx
    rw [hBlo] at this
    simpa using this
  have hsA := okA.sorted
  rw [hka] at hsA
  have hkak : ∀ x ∈ ka, x < k := by
    intro x hx
    exact (List.pairwise_append.mp hsA).2.2 x hx k (by simp)
  have hkm : k < m := hAm k (by rw [hka]; simp)
  have hlok : loLt (g.lo A) k := by
    obtain ⟨x, xs, hx⟩ := List.exists_cons_of_ne_nil hka2
    have h1 : loLe (g.lo A) x := okA.lower_loLe (by rw [hka, hx]; simp)
    exact h1.trans_lt (hkak x (by rw [hx]; simp))
  have bo : BorrowOK t g Q A B qn an bn a b m k ca cb
      (((t.heap.write B bn1).write A an1).write Q qn1) an1 bn1 (fun _ => False) B := by
    refine ⟨hQ, hl, hkey, hptr, hlen, hA, hB, by simp, ?_, ?_, ?_, fun p hp => absurd hp id, ?_,
      by rw [han1], by rw [hbn1], by rw [han1], by rw [hbn1], by rw [han1], by rw [hbn1],
      ?_, ?_, hlok,
      ltHi.anti (le_of_lt hkm) hhiM, ?_, ?_, ?_, ?_⟩
    · rw [hrd, if_neg (Ne.symm hQA), if_pos rfl]
    · rw [hrd, if_neg (Ne.symm hQB), if_neg (Ne.symm hAB), if_pos rfl]
    · rw [hrd, if_pos rfl, hqn1]
    · intro p _ h1 h2 h3
      rw [hrd, if_neg h3, if_neg h1, if_neg h2]
    · intro p hp _; rw [han1]; exact hp
    · intro p hp _; rw [hbn1]; exact hp
    · -- the lender
      refine ⟨?_, ?_, ?_, ?_, ?_⟩
      · rw [han1]; exact (List.pairwise_append.mp hsA).1
      · intro x hx
        rw [han1] at hx
        simp only [han1, hAl, if_true, borrowGhost_lo, hAB, if_false]
        exact okA.lower_loLe (by rw [hka]; simp [show x ∈ ka from hx])
      · intro x hx
        rw [han1] at hx
        simp only [borrowGhost_hi, hAB, if_false, if_true, ltHi_some]
        exact hkak x hx
      · intro _
        refine ⟨by simp [hA0], ?_⟩
        rw [han1]; exact hlv
      · intro hf; rw [han1] at hf; rw [hAl] at hf; cases hf
    · -- the receiver
      refine ⟨?_, ?_, ?_, ?_, ?_⟩
      · rw [hbn1]
        exact List.pairwise_cons.mpr ⟨fun x hx => lt_of_lt_of_le hkm (hBm x hx), okB.sorted⟩
      · intro x hx
        rw [hbn1] at hx
        simp only [hbn1, hBl, if_true, borrowGhost_lo, loLe_some]
        rcases List.mem_cons.mp hx with rfl | hx
        · exact le_refl _
        · exact le_of_lt (lt_of_lt_of_le hkm (hBm x hx))
      · intro x hx
        rw [hbn1] at hx
        simp only [borrowGhost_hi, if_true]
        rcases List.mem_cons.mp hx with rfl | hx
        · exact ltHi.anti (le_of_lt hkm) hhiM
        · exact okB.upper x hx
      · intro _
        refine ⟨by simp [hB0], ?_⟩
        rw [hbn1]; simp [hBv]
      · intro hf; rw [hbn1] at hf; rw [hBl] at hf; cases hf
    · intro hf; rw [han1] at hf; rw [hAl] at hf; cases hf
    · intro hf; rw [hbn1] at hf; rw [hBl] at hf; cases hf
  refine ⟨_, _, hrun, borrow_generic inv (by simp) bo, rfl, rfl, ?_, fun p => by simp⟩
  apply SamePairs.of_two A B
  · intro p h1 h2
    by_cases h3 : p = Q
    · subst h3
      rw [pairsAt_of_internal hQ hl]
      exact pairsAt_of_internal (n := qn1) (by rw [hrd, if_pos rfl]) (by rw [hqn1]; exact hl)
    · simp only [pairsAt, leafView, hrd, if_neg h1, if_neg h2, if_neg h3]
  · intro kv
    have e1 : pairsAt (((t.heap.write B bn1).write A an1).write Q qn1) A = ka.zip va := by
      rw [pairsAt_of_leaf (n := an1) (by rw [hrd, if_neg (Ne.symm hQA), if_pos rfl])
        (by rw [han1]; exact hAl)]
      rw [han1]
    have e2 : pairsAt (((t.heap.write B bn1).write A an1).write Q qn1) B =
        (k, v) :: bn.key.zip bn.ptr2val := by
      rw [pairsAt_of_leaf (n := bn1)
        (by rw [hrd, if_neg (Ne.symm hQB), if_neg (Ne.symm hAB), if_pos rfl])
        (by rw [hbn1]; exact hBl)]
      rw [hbn1]
      rfl
    have e3 : an.key.zip an.ptr2val = ka.zip va ++ [(k, v)] := by
      rw [hka, hva, List.zip_append hlv.symm]
      rfl
    rw [e1, e2, pairsAt_of_leaf hA hAl, pairsAt_of_leaf hB hBl, e3]
    simp only [List.mem_append, List.mem_cons, List.mem_singleton, List.not_mem_nil, or_false]
    tauto

end LeafBorrow

end BPlus

namespace BPlus

section LeafBorrowRight

variable {K V : Type} [LinearOrder K]

theorem verase_zero_cons {α : Type} (x : α) (l : List α) : verase (x :: l) 0 = some l := by
  simp [verase]

/-- A leaf takes the first entry of its right neighbour. -/
theorem leafBorrowRight_spec {t : BPTree K V} {g : Ghost K} (inv : InvG t g none)
    {Q A B : Nat} {qn an bn : Node K V} {a b : List K} {m : K} {ca cb : List (Option Nat)}
    (hQ : t.heap.read Q = some qn) (hl : qn.leaf = false) (hkey : qn.key = a ++ m :: b)
    (hptr : qn.ptr2node = ca ++ some A :: some B :: cb) (hlen : a.length = ca.length)
    (hA : t.heap.read A = some an) (hAl : an.leaf = true)
    (hB : t.heap.read B = some bn) (hB2 : 2 ≤ bn.key.length) {i : Int}
    (hi : i = (ca.length : Int)) :
    ∃ t1 g1, leafBorrowRight t A Q i = some t1 ∧ InvG t1 g1 none ∧
      t1.root = t.root ∧ t1.order = t.order ∧ SamePairs t.heap t1.heap ∧
      ∀ p, g1.ht p = g.ht p := by
  obtain ⟨⟨an0, hA0, hAp⟩, ⟨bn0, hB0, hBp⟩, hAh, hBh, hAlo, hAhi, hBlo, hBhi, hAB, hAca, hAcb,
    hBca, hBcb, hseg, hrest⟩ := pair_facts inv hQ hl hkey hptr hlen
  rw [hA] at hA0
  obtain rfl : an = an0 := by simpa using hA0
  rw [hB] at hB0
  obtain rfl : bn = bn0 := by simpa using hB0
  have okA := inv.nodes A an hA
  have okB := inv.nodes B bn hB
  have okQ := inv.nodes Q qn hQ
  obtain ⟨hA0, hAv⟩ := okA.leafOK hAl
  have hBl : bn.leaf = true := okB.leaf_iff.mpr (by omega)
  obtain ⟨hB0, hBv⟩ := okB.leafOK hBl
  have hQA : Q ≠ A := by intro e; rw [e] at hAh; omega
  have hQB : Q ≠ B := by intro e; rw [e] at hBh; omega
  obtain ⟨k, k2, kb, hkb⟩ : ∃ k k2 kb, bn.key = k :: k2 :: kb := by
    cases hk : bn.key with
    | nil => rw [hk] at hB2; simp at hB2
    | cons x xs =>
      cases xs with
      | nil => rw [hk] at hB2; simp at hB2
      | cons y ys => exact ⟨x, y, ys, rfl⟩
  obtain ⟨v, vb, hvb⟩ : ∃ v vb, bn.ptr2val = v :: vb := by
    cases hv : bn.ptr2val with
    | nil => rw [hv, hkb] at hBv; simp at hBv
    | cons x xs => exact ⟨x, xs, rfl⟩
  have hlv : vb.length = (k2 :: kb).length := by
    rw [hkb, hvb] at hBv
    simpa using hBv
  obtain ⟨an1, han1⟩ : ∃ an1 : Node K V, an1 = { an with key := an.key ++ [k], ptr2val := an.ptr2val ++ [v] } := ⟨_, rfl⟩
  obtain ⟨bn1, hbn1⟩ : ∃ bn1 : Node K V, bn1 = { bn with key := k2 :: kb, ptr2val := vb } := ⟨_, rfl⟩
  obtain ⟨qn1, hqn1⟩ : ∃ qn1 : Node K V, qn1 = { qn with key := a ++ k2 :: b } := ⟨_, rfl⟩
  have hi1 : i + 1 = (ca.length : Int) + 1 := by omega
  have hi2 : i = (a.length : Int) := by omega
  have r1 : (t.heap.write A an1).read B = some bn := by
    rw [Heap.read_write_ne _ (Ne.symm hAB)]; exact hB
  have r2 : ((t.heap.write A an1).write B bn1).read B = some bn1 := Heap.read_write_same r1 _
  have r3 : ((t.heap.write A an1).write B bn1).read Q = some qn := by
    rw [Heap.read_write_ne _ hQB, Heap.read_write_ne _ hQA]; exact hQ
  have hrun : leafBorrowRight t A Q i =
      some { t with heap := ((t.heap.write A an1).write B bn1).write Q qn1 } := by
    simp only [leafBorrowRight, hA, hQ, hptr, vget_at_succ ca cb (some A) (some B) hi1, hB, hkb,
      hvb, List.head?_cons]
    rw [← han1]
    simp only [r1, hkb, hvb, verase_zero_cons]
    rw [← hbn1]
    simp only [r2, r3]
    rw [hbn1]
    simp only [vget_zero, List.getElem?_cons_zero, hkey, vset_at a b m k2 hi2]
    try rw [hqn1]
  have hrd : ∀ p, (((t.heap.write A an1).write B bn1).write Q qn1).read p =
      if p = Q then some qn1 else if p = B then some bn1 else if p = A then some an1
      else t.heap.read p := by
    intro p
    by_cases h1 : p = Q
    · subst h1; rw [if_pos rfl]; exact Heap.read_write_same r3 _
    rw [if_neg h1, Heap.read_write_ne _ h1]
    by_cases h2 : p = B
    · subst h2; rw [if_pos rfl]; exact Heap.read_write_same r1 _
    rw [if_neg h2, Heap.read_write_ne _ h2]
    by_cases h3 : p = A
    · subst h3; rw [if_pos rfl]; exact Heap.read_write_same hA _
    rw [if_neg h3, Heap.read_write_ne _ h3]
  have hs := okQ.sorted
  rw [hkey] at hs
  have hQm : loLt (g.lo Q) m := by
    have := okQ.lower m (by rw [hkey]; simp)
    simpa [hl] using this
  have hloM : loLt (g.lo A) m := by rw [hAlo]; exact lastOr_lt hs hQm
  have hAm : ∀ x ∈ an.key, x < m := by
    intro x hx
    have := okA.upper x hx
    rw [hAhi] at this
    simpa using this
  have hBm : ∀ x ∈ bn.key, m ≤ x := by
    intro x hx
    have := okB.lower_loLe hx
    rw [hBlo] at this
    simpa using this
  have hsB := okB.sorted
  rw [hkb] at hsB
  obtain ⟨hk1, hsB2⟩ := List.pairwise_cons.mp hsB
  obtain ⟨hk2, hsB3⟩ := List.pairwise_cons.mp hsB2
  have hmk : m ≤ k := hBm k (by rw [hkb]; simp)
  have hkk2 : k < k2 := hk1 k2 (by simp)
  have bo : BorrowOK t g Q A B qn an bn a b m k2 ca cb
      (((t.heap.write A an1).write B bn1).write Q qn1) an1 bn1 (fun _ => False) A := by
    refine ⟨hQ, hl, hkey, hptr, hlen, hA, hB, by simp, ?_, ?_, ?_, fun p hp => absurd hp id, ?_,
      by rw [han1], by rw [hbn1], by rw [han1], by rw [hbn1], by rw [han1], by rw [hbn1],
      ?_, ?_,
      hloM.mono_lt (le_of_lt (lt_of_le_of_lt hmk hkk2)),
      okB.upper k2 (by rw [hkb]; simp), ?_, ?_, ?_, ?_⟩
    · rw [hrd, if_neg (Ne.symm hQA), if_neg hAB, if_pos rfl]
    · rw [hrd, if_neg (Ne.symm hQB), if_pos rfl]
    · rw [hrd, if_pos rfl, hqn1]
    · intro p _ h1 h2 h3
      rw [hrd, if_neg h3, if_neg h2, if_neg h1]
    · intro p hp _; rw [han1]; exact hp
    · intro p hp _; rw [hbn1]; exact hp
    · -- the receiver
      refine ⟨?_, ?_, ?_, ?_, ?_⟩
      · rw [han1]
        exact List.pairwise_append.mpr ⟨okA.sorted, by simp, fun x hx y hy => by
          simp only [List.mem_singleton] at hy
          subst hy
          exact lt_of_lt_of_le (hAm x hx) hmk⟩
      · intro x hx
        rw [han1] at hx
        simp only [han1, hAl, if_true, borrowGhost_lo, hAB, if_false]
        rcases List.mem_append.mp hx with hx | hx
        · exact okA.lower_loLe hx
        · simp only [List.mem_singleton] at hx
          subst hx
          exact (hloM.mono_lt hmk).loLe
      · intro x hx
        rw [han1] at hx
        simp only [borrowGhost_hi, hAB, if_false, if_true, ltHi_some]
        rcases List.mem_append.mp hx with hx | hx
        · exact lt_trans (lt_of_lt_of_le (hAm x hx) hmk) hkk2
        · simp only [List.mem_singleton] at hx
          subst hx
          exact hkk2
      · intro _
        refine ⟨by simp [hA0], ?_⟩
        rw [han1]; simp [hAv]
      · intro hf; rw [han1] at hf; rw [hAl] at hf; cases hf
    · -- the lender
      refine ⟨?_, ?_, ?_, ?_, ?_⟩
      · rw [hbn1]; exact hsB2
      · intro x hx
        rw [hbn1] at hx
        simp only [hbn1, hBl, if_true, borrowGhost_lo, loLe_some]
        rcases List.mem_cons.mp hx with rfl | hx
        · exact le_refl _
        · exact le_of_lt (hk2 x hx)
      · intro x hx
        rw [hbn1] at hx
        simp only [borrowGhost_hi, if_true]
        exact okB.upper x (by rw [hkb]; exact List.mem_cons_of_mem _ hx)
      · intro _
        refine ⟨by simp [hB0], ?_⟩
        rw [hbn1]; exact hlv
      · intro hf; rw [hbn1] at hf; rw [hBl] at hf; cases hf
    · intro hf; rw [han1] at hf; rw [hAl] at hf; cases hf
    · intro hf; rw [hbn1] at hf; rw [hBl] at hf; cases hf
  refine ⟨_, _, hrun, borrow_generic inv (by simp) bo, rfl, rfl, ?_, fun p => by simp⟩
  apply SamePairs.of_two A B
  · intro p h1 h2
    by_cases h3 : p = Q
    · subst h3
      rw [pairsAt_of_internal hQ hl]
      exact pairsAt_of_internal (n := qn1) (by rw [hrd, if_pos rfl]) (by rw [hqn1]; exact hl)
    · simp only [pairsAt, leafView, hrd, if_neg h1, if_neg h2, if_neg h3]
  · intro kv
    have e1 : pairsAt (((t.heap.write A an1).write B bn1).write Q qn1) A =
        an.key.zip an.ptr2val ++ [(k, v)] := by
      rw [pairsAt_of_leaf (n := an1)
        (by rw [hrd, if_neg (Ne.symm hQA), if_neg hAB, if_pos rfl]) (by rw [han1]; exact hAl)]
      rw [han1]
      show (an.key ++ [k]).zip (an.ptr2val ++ [v]) = _
      rw [List.zip_append hAv.symm]
      rfl
    have e2 : pairsAt (((t.heap.write A an1).write B bn1).write Q qn1) B =
        (k2 :: kb).zip vb := by
      rw [pairsAt_of_leaf (n := bn1) (by rw [hrd, if_neg (Ne.symm hQB), if_pos rfl])
        (by rw [hbn1]; exact hBl)]
      rw [hbn1]
    have e3 : bn.key.zip bn.ptr2val = (k, v) :: (k2 :: kb).zip vb := by
      rw [hkb, hvb]
      rfl
    rw [e1, e2, pairsAt_of_leaf hA hAl, pairsAt_of_leaf hB hBl, e3]
    simp only [List.mem_append, List.mem_cons, List.mem_singleton, List.not_mem_nil, or_false]
    tauto

end LeafBorrowRight

end BPlus

namespace BPlus

section NodeBorrowLeft

variable {K V : Type} [LinearOrder K]

/-- An internal node takes the last child of its left neighbour. -/
theorem nodeBorrowLeft_spec {t : BPTree K V} {g : Ghost K} {exc : Option Nat}
    (inv : InvG t g exc)
    {Q A B : Nat} {qn an : Node K V} {a b : List K} {m : K} {ca cb : List (Option Nat)}
    (hexc : ∀ e, exc = some e → e = A ∨ e = B)
    (hQ : t.heap.read Q = some qn) (hl : qn.leaf = false) (hkey : qn.key = a ++ m :: b)
    (hptr : qn.ptr2node = ca ++ some A :: some B :: cb) (hlen : a.length = ca.length)
    (hA : t.heap.read A = some an) (hAl : an.leaf = false) (hA2 : 2 ≤ an.key.length) {i : Int}
    (hi : i = (ca.length : Int) + 1) :
    ∃ t1 g1, nodeBorrowLeft t B Q i = some t1 ∧ InvG t1 g1 none ∧
      t1.root = t.root ∧ t1.order = t.order ∧
      (∀ p, leafView t1.heap p = leafView t.heap p) ∧ ∀ p, g1.ht p = g.ht p := by
  obtain ⟨⟨an0, hA0, hAp⟩, ⟨bn, hB, hBp⟩, hAh, hBh, hAlo, hAhi, hBlo, hBhi, hAB, hAca, hAcb,
    hBca, hBcb, hseg, hrest⟩ := pair_facts inv hQ hl hkey hptr hlen
  rw [hA] at hA0
  obtain rfl : an = an0 := by simpa using hA0
  have okA := inv.nodes A an hA
  have okB := inv.nodes B bn hB
  have okQ := inv.nodes Q qn hQ
  have hA1 := okA.ht_pos hAl
  have hBl : bn.leaf = false := by
    cases hb : bn.leaf with
    | false => rfl
    | true => have := okB.leaf_iff.mp hb; omega
  have hQA : Q ≠ A := by intro e; rw [e] at hAh; omega
  have hQB : Q ≠ B := by intro e; rw [e] at hBh; omega
  have kA := okA.kids hAl
  have kB := okB.kids hBl
  rw [hAhi] at kA
  rw [hBlo] at kB
  obtain ⟨ka, up, hka⟩ := split_last (l := an.key) (by intro e; rw [e] at hA2; simp at hA2)
  have hplen := kA.length_eq
  obtain ⟨pa, c0, hpa⟩ := split_last (l := an.ptr2node)
    (by intro e; rw [e] at hplen; simp at hplen)
  have hka2 : ka ≠ [] := by
    intro e; rw [hka, e] at hA2; simp at hA2
  have hpl : pa.length = ka.length + 1 := by
    rw [hka, hpa] at hplen
    simpa using hplen
  rw [hka, hpa] at kA
  have kA2 := (kids_split_key up [] [c0] (some m) ka pa (g.lo A) hpl).mp kA
  obtain ⟨kA3, c1, hc1, c, cn, rfl, hc, hcp, hch, hclo, hchi⟩ := kA2
  obtain rfl : c0 = some c := by simpa using hc1
  have hnd := okA.nodup hAl
  rw [hpa] at hnd
  have hcpa : some c ∉ pa := by
    intro h
    exact (List.nodup_append.mp hnd).2.2 h (by simp)
  have hcA : c ≠ A := by intro e; rw [e] at hch; omega
  have hcB : c ≠ B := by intro e; rw [e] at hch; omega
  have hcQ : c ≠ Q := by intro e; rw [e] at hch; omega
  obtain ⟨an1, han1⟩ : ∃ an1 : Node K V, an1 = { an with key := ka, ptr2node := pa } := ⟨_, rfl⟩
  obtain ⟨bn1, hbn1⟩ : ∃ bn1 : Node K V, bn1 = { bn with key := m :: bn.key, ptr2node := some c :: bn.ptr2node } := ⟨_, rfl⟩
  obtain ⟨qn1, hqn1⟩ : ∃ qn1 : Node K V, qn1 = { qn with key := a ++ up :: b } := ⟨_, rfl⟩
  obtain ⟨cn1, hcn1⟩ : ∃ cn1 : Node K V, cn1 = { cn with parent := some B } := ⟨_, rfl⟩
  have hi1 : i - 1 = (ca.length : Int) := by omega
  have hi2 : i - 1 = (a.length : Int) := by omega
  have r1 : (t.heap.write B bn1).read c = some cn := by
    rw [Heap.read_write_ne _ hcB]; exact hc
  have r2 : ((t.heap.write B bn1).write c cn1).read A = some an := by
    rw [Heap.read_write_ne _ (Ne.symm hcA), Heap.read_write_ne _ hAB]; exact hA
  have r3 : ((t.heap.write B bn1).write c cn1).read Q = some qn := by
    rw [Heap.read_write_ne _ (Ne.symm hcQ), Heap.read_write_ne _ hQB]; exact hQ
  have r4 : (((t.heap.write B bn1).write c cn1).write Q qn1).read A = some an := by
    rw [Heap.read_write_ne _ (Ne.symm hQA)]; exact r2
  have hrun : nodeBorrowLeft t B Q i =
      some { t with heap := (((t.heap.write B bn1).write c cn1).write Q qn1).write A an1 } := by
    simp only [nodeBorrowLeft, hB, hQ, hptr, vget_at ca _ (some A) hi1, hA, hkey,
      vget_at a b m hi2, hpa, List.getLast?_concat]
    rw [← hbn1]
    simp only [r1]
    rw [← hcn1]
    simp only [r2, r3, hka, List.getLast?_concat, hkey, vset_at a b m up hi2]
    rw [← hqn1]
    simp only [r4, hka, hpa, vpop_concat]
    try rw [han1]
  have hrd : ∀ p, ((((t.heap.write B bn1).write c cn1).write Q qn1).write A an1).read p =
      if p = A then some an1 else if p = Q then some qn1 else if p = c then some cn1
      else if p = B then some bn1 else t.heap.read p := by
    intro p
    by_cases h1 : p = A
    · subst h1; rw [if_pos rfl]; exact Heap.read_write_same r4 _
    rw [if_neg h1, Heap.read_write_ne _ h1]
    by_cases h2 : p = Q
    · subst h2; rw [if_pos rfl]; exact Heap.read_write_same r3 _
    rw [if_neg h2, Heap.read_write_ne _ h2]
    by_cases h3 : p = c
    · subst h3; rw [if_pos rfl]; exact Heap.read_write_same r1 _
    rw [if_neg h3, Heap.read_write_ne _ h3]
    by_cases h4 : p = B
    · subst h4; rw [if_pos rfl]; exact Heap.read_write_same hB _
    rw [if_neg h4, Heap.read_write_ne _ h4]
  have hrdB : ((((t.heap.write B bn1).write c cn1).write Q qn1).write A an1).read B =
      some bn1 := by
    rw [hrd, if_neg (Ne.symm hAB), if_neg (Ne.symm hQB), if_neg (Ne.symm hcB), if_pos rfl]
  have hrdc : ((((t.heap.write B bn1).write c cn1).write Q qn1).write A an1).read c =
      some cn1 := by
    rw [hrd, if_neg hcA, if_neg hcQ, if_pos rfl]
  have hs := okQ.sorted
  rw [hkey] at hs
  have hQm : loLt (g.lo Q) m := by
    have := okQ.lower m (by rw [hkey]; simp)
    simpa [hl] using this
  have hhiM : ltHi m (g.hi B) := by
    rw [hBhi]; exact lt_headOr hs (okQ.upper m (by rw [hkey]; simp))
  have hAm : ∀ x ∈ an.key, x < m := by
    intro x hx
    have := okA.upper x hx
    rw [hAhi] at this
    simpa using this
  have hBm : ∀ x ∈ bn.key, m < x := by
    intro x hx
    have := okB.lower x hx
    rw [hBlo] at this
    simpa [hBl] using this
  have hAlow : ∀ x ∈ an.key, loLt (g.lo A) x := by
    intro x hx
    have := okA.lower x hx
    simpa [hAl] using this
  have hsA := okA.sorted
  rw [hka] at hsA
  have hkak : ∀ x ∈ ka, x < up := by
    intro x hx
    exact (List.pairwise_append.mp hsA).2.2 x hx up (by simp)
  have hum : up < m := hAm up (by rw [hka]; simp)
  have bo : BorrowOK t g Q A B qn an bn a b m up ca cb
      ((((t.heap.write B bn1).write c cn1).write Q qn1).write A an1) an1 bn1
      (fun p => p = c) B := by
    refine ⟨hQ, hl, hkey, hptr, hlen, hA, hB, by simp, ?_, hrdB, ?_, ?_, ?_,
      by rw [han1], by rw [hbn1], by rw [han1], by rw [hbn1], by rw [han1], by rw [hbn1],
      ?_, ?_,
      hAlow up (by rw [hka]; simp), ltHi.anti (le_of_lt hum) hhiM, ?_, ?_, ?_, ?_⟩
    · rw [hrd, if_pos rfl]
    · rw [hrd, if_neg hQA, if_pos rfl, hqn1]
    · intro p hp
      subst hp
      refine ⟨⟨bn1, hrdB, by rw [hbn1]; exact hBl, by rw [hbn1]; simp⟩, cn, hc, Or.inl hcp, ?_⟩
      rw [hrdc, hcn1]
    · intro p h1 h2 h3 h4
      rw [hrd, if_neg h2, if_neg h4, if_neg h1, if_neg h3]
    · intro p hp hne
      rw [han1]
      rw [hpa] at hp
      rcases List.mem_append.mp hp with hp | hp
      · exact hp
      · simp only [List.mem_singleton, Option.some.injEq] at hp
        exact absurd hp hne
    · intro p hp _
      rw [hbn1]
      exact List.mem_cons_of_mem _ hp
    · -- the lender
      refine ⟨?_, ?_, ?_, ?_, ?_⟩
      · rw [han1]; exact (List.pairwise_append.mp hsA).1
      · intro x hx
        rw [han1] at hx
        have hl1 : an1.leaf = false := by rw [han1]; exact hAl
        simp only [hl1, Bool.false_eq_true, if_false, borrowGhost_lo, hAB]
        exact hAlow x (by rw [hka]; simp [show x ∈ ka from hx])
      · intro x hx
        rw [han1] at hx
        simp only [borrowGhost_hi, hAB, if_false, if_true, ltHi_some]
        exact hkak x hx
      · intro hf; rw [han1] at hf; rw [hAl] at hf; cases hf
      · intro _
        have e1 : an1.key = ka := by rw [han1]
        have e2 : an1.ptr2node = pa := by rw [han1]
        rw [e1, e2]
        simp only [borrowGhost_lo, borrowGhost_hi, hAB, if_false, if_true]
        refine Kids.imp ?_ kA3
        rintro x l u hmem ⟨x1, xn, rfl, f2, f3, f4, f5, f6⟩
        have n1 : x1 ≠ A := by intro e; rw [e] at f4; omega
        have n2 : x1 ≠ Q := by intro e; rw [e] at f4; omega
        have n3 : x1 ≠ c := fun e => hcpa (e ▸ hmem)
        have n4 : x1 ≠ B := by intro e; rw [e] at f4; omega
        exact ⟨x1, xn, rfl, by rw [hrd, if_neg n1, if_neg n2, if_neg n3, if_neg n4]; exact f2,
          f3, by simpa using f4, by simp [n4, f5], by simp [n1, n4, f6]⟩
    · -- the receiver
      refine ⟨?_, ?_, ?_, ?_, ?_⟩
      · rw [hbn1]
        exact List.pairwise_cons.mpr ⟨hBm, okB.sorted⟩
      · intro x hx
        rw [hbn1] at hx
        have hl1 : bn1.leaf = false := by rw [hbn1]; exact hBl
        simp only [hl1, Bool.false_eq_true, if_false, borrowGhost_lo, if_true, loLt_some]
        rcases List.mem_cons.mp hx with rfl | hx
        · exact hum
        · exact lt_trans hum (hBm x hx)
      · intro x hx
        rw [hbn1] at hx
        simp only [borrowGhost_hi, if_true]
        rcases List.mem_cons.mp hx with rfl | hx
        · exact hhiM
        · exact okB.upper x hx
      · intro hf; rw [hbn1] at hf; rw [hBl] at hf; cases hf
      · intro _
        have e1 : bn1.key = m :: bn.key := by rw [hbn1]
        have e2 : bn1.ptr2node = some c :: bn.ptr2node := by rw [hbn1]
        rw [e1, e2]
        simp only [borrowGhost_lo, borrowGhost_hi, if_true]
        refine ⟨some c, bn.ptr2node, rfl, ?_, Kids.imp ?_ kB⟩
        · exact ⟨c, cn1, rfl, hrdc, by rw [hcn1], by simp only [borrowGhost_ht]; omega,
            by simp [hcB, hclo], by simp [hcA, hcB, hchi]⟩
        · rintro x l u hmem ⟨x1, xn, rfl, f2, f3, f4, f5, f6⟩
          have n1 : x1 ≠ A := by intro e; rw [e] at f4; omega
          have n2 : x1 ≠ Q := by intro e; rw [e] at f4; omega
          have n3 : x1 ≠ c := by
            intro e
            rw [e, hc] at f2
            obtain rfl : cn = xn := by simpa using f2
            rw [hcp] at f3
            exact hAB (by simpa using f3)
          have n4 : x1 ≠ B := by intro e; rw [e] at f4; omega
          exact ⟨x1, xn, rfl, by rw [hrd, if_neg n1, if_neg n2, if_neg n3, if_neg n4]; exact f2,
            f3, by simpa using f4, by simp [n4, f5], by simp [n1, n4, f6]⟩
    · intro _; rw [han1]; exact hka2
    · intro _; rw [hbn1]; simp
  refine ⟨_, _, hrun, borrow_generic inv hexc bo, rfl, rfl, ?_, fun p => by simp⟩
  intro p
  show leafView ((((t.heap.write B bn1).write c cn1).write Q qn1).write A an1) p =
    leafView t.heap p
  simp only [leafView, hrd]
  by_cases h1 : p = A
  · subst h1; simp [hA, hAl, han1]
  rw [if_neg h1]
  by_cases h2 : p = Q
  · subst h2; simp [hQ, hl, hqn1]
  rw [if_neg h2]
  by_cases h3 : p = c
  · subst h3; simp [hc, hcn1]
  rw [if_neg h3]
  by_cases h4 : p = B
  · subst h4; simp [hB, hBl, hbn1]
  rw [if_neg h4]

end NodeBorrowLeft

end BPlus

namespace BPlus

section NodeBorrowRight

variable {K V : Type} [LinearOrder K]

/-- An internal node takes the first child of its right neighbour. -/
theorem nodeBorrowRight_spec {t : BPTree K V} {g : Ghost K} {exc : Option Nat}
    (inv : InvG t g exc)
    {Q A B : Nat} {qn an bn : Node K V} {a b : List K} {m : K} {ca cb : List (Option Nat)}
    (hexc : ∀ e, exc = some e → e = A ∨ e = B)
    (hQ : t.heap.read Q = some qn) (hl : qn.leaf = false) (hkey : qn.key = a ++ m :: b)
    (hptr : qn.ptr2node = ca ++ some A :: some B :: cb) (hlen : a.length = ca.length)
    (hA : t.heap.read A = some an) (hAl : an.leaf = false)
    (hB : t.heap.read B = some bn) (hB2 : 2 ≤ bn.key.length) {i : Int}
    (hi : i = (ca.length : Int)) :
    ∃ t1 g1, nodeBorrowRight t A Q i = some t1 ∧ InvG t1 g1 none ∧
      t1.root = t.root ∧ t1.order = t.order ∧
      (∀ p, leafView t1.heap p = leafView t.heap p) ∧ ∀ p, g1.ht p = g.ht p := by
  obtain ⟨⟨an0, hA0, hAp⟩, ⟨bn0, hB0, hBp⟩, hAh, hBh, hAlo, hAhi, hBlo, hBhi, hAB, hAca, hAcb,
    hBca, hBcb, hseg, hrest⟩ := pair_facts inv hQ hl hkey hptr hlen
  rw [hA] at hA0
  obtain rfl : an = an0 := by simpa using hA0
  rw [hB] at hB0
  obtain rfl : bn = bn0 := by simpa using hB0
  have okA := inv.nodes A an hA
  have okB := inv.nodes B bn hB
  have okQ := inv.nodes Q qn hQ
  have hA1 := okA.ht_pos hAl
  have hBl : bn.leaf = false := by
    cases hb : bn.leaf with
    | false => rfl
    | true => have := okB.leaf_iff.mp hb; omega
  have hQA : Q ≠ A := by intro e; rw [e] at hAh; omega
  have hQB : Q ≠ B := by intro e; rw [e] at hBh; omega
  have kA := okA.kids hAl
  have kB := okB.kids hBl
  rw [hAhi] at kA
  rw [hBlo] at kB
  obtain ⟨up, kb, hkb⟩ : ∃ up kb, bn.key = up :: kb := by
    cases hk : bn.key with
    | nil => rw [hk] at hB2; simp at hB2
    | cons x xs => exact ⟨x, xs, rfl⟩
  have hkb2 : kb ≠ [] := by
    intro e; rw [hkb, e] at hB2; simp at hB2
  rw [hkb] at kB
  obtain ⟨c0, pb, hpb, ⟨c, cn, rfl, hc, hcp, hch, hclo, hchi⟩, kB3⟩ := kB
  have hnd := okB.nodup hBl
  rw [hpb] at hnd
  have hcpb : some c ∉ pb := (List.nodup_cons.mp hnd).1
  have hcA : c ≠ A := by intro e; rw [e] at hch; omega
  have hcB : c ≠ B := by intro e; rw [e] at hch; omega
  have hcQ : c ≠ Q := by intro e; rw [e] at hch; omega
  obtain ⟨an1, han1⟩ : ∃ an1 : Node K V, an1 = { an with key := an.key ++ [m], ptr2node := an.ptr2node ++ [some c] } := ⟨_, rfl⟩
  obtain ⟨bn1, hbn1⟩ : ∃ bn1 : Node K V, bn1 = { bn with key := kb, ptr2node := pb } := ⟨_, rfl⟩
  obtain ⟨qn1, hqn1⟩ : ∃ qn1 : Node K V, qn1 = { qn with key := a ++ up :: b } := ⟨_, rfl⟩
  obtain ⟨cn1, hcn1⟩ : ∃ cn1 : Node K V, cn1 = { cn with parent := some A } := ⟨_, rfl⟩
  have hi1 : i + 1 = (ca.length : Int) + 1 := by omega
  have hi2 : i = (a.length : Int) := by omega
  have r1 : (t.heap.write A an1).read c = some cn := by
    rw [Heap.read_write_ne _ hcA]; exact hc
  have r2 : ((t.heap.write A an1).write c cn1).read B = some bn := by
    rw [Heap.read_write_ne _ (Ne.symm hcB), Heap.read_write_ne _ (Ne.symm hAB)]; exact hB
  have r3 : ((t.heap.write A an1).write c cn1).read Q = some qn := by
    rw [Heap.read_write_ne _ (Ne.symm hcQ), Heap.read_write_ne _ hQA]; exact hQ
  have r4 : (((t.heap.write A an1).write c cn1).write Q qn1).read B = some bn := by
    rw [Heap.read_write_ne _ (Ne.symm hQB)]; exact r2
  have hrun : nodeBorrowRight t A Q i =
      some { t with heap := (((t.heap.write A an1).write c cn1).write Q qn1).write B bn1 } := by
    simp only [nodeBorrowRight, hA, hQ, hptr, vget_at_succ ca cb (some A) (some B) hi1, hB, hkey,
      vget_at a b m hi2, hpb, List.head?_cons]
    rw [← han1]
    simp only [r1]
    rw [← hcn1]
    simp only [r2, r3, hkb, List.head?_cons, hkey, vset_at a b m up hi2]
    rw [← hqn1]
    simp only [r4, hkb, hpb, verase_zero_cons]
    try rw [hbn1]
  have hrd : ∀ p, ((((t.heap.write A an1).write c cn1).write Q qn1).write B bn1).read p =
      if p = B then some bn1 else if p = Q then some qn1 else if p = c then some cn1
      else if p = A then some an1 else t.heap.read p := by
    intro p
    by_cases h1 : p = B
    · subst h1; rw [if_pos rfl]; exact Heap.read_write_same r4 _
    rw [if_neg h1, Heap.read_write_ne _ h1]
    by_cases h2 : p = Q
    · subst h2; rw [if_pos rfl]; exact Heap.read_write_same r3 _
    rw [if_neg h2, Heap.read_write_ne _ h2]
    by_cases h3 : p = c
    · subst h3; rw [if_pos rfl]; exact Heap.read_write_same r1 _
    rw [if_neg h3, Heap.read_write_ne _ h3]
    by_cases h4 : p = A
    · subst h4; rw [if_pos rfl]; exact Heap.read_write_same hA _
    rw [if_neg h4, Heap.read_write_ne _ h4]
  have hrdA : ((((t.heap.write A an1).write c cn1).write Q qn1).write B bn1).read A =
      some an1 := by
    rw [hrd, if_neg hAB, if_neg (Ne.symm hQA), if_neg (Ne.symm hcA), if_pos rfl]
  have hrdc : ((((t.heap.write A an1).write c cn1).write Q qn1).write B bn1).read c =
      some cn1 := by
    rw [hrd, if_neg hcB, if_neg hcQ, if_pos rfl]
  have hs := okQ.sorted
  rw [hkey] at hs
  have hQm : loLt (g.lo Q) m := by
    have := okQ.lower m (by rw [hkey]; simp)
    simpa [hl] using this
  have hloM : loLt (g.lo A) m := by rw [hAlo]; exact lastOr_lt hs hQm
  have hAm : ∀ x ∈ an.key, x < m := by
    intro x hx
    have := okA.upper x hx
    rw [hAhi] at this
    simpa using this
  have hBm : ∀ x ∈ bn.key, m < x := by
    intro x hx
    have := okB.lower x hx
    rw [hBlo] at this
    simpa [hBl] using this
  have hAlow : ∀ x ∈ an.key, loLt (g.lo A) x := by
    intro x hx
    have := okA.lower x hx
    simpa [hAl] using this
  have hsB := okB.sorted
  rw [hkb] at hsB
  obtain ⟨hk1, hsB2⟩ := List.pairwise_cons.mp hsB
  have hmu : m < up := hBm up (by rw [hkb]; simp)
  have bo : BorrowOK t g Q A B qn an bn a b m up ca cb
      ((((t.heap.write A an1).write c cn1).write Q qn1).write B bn1) an1 bn1
      (fun p => p = c) A := by
    refine ⟨hQ, hl, hkey, hptr, hlen, hA, hB, by simp, hrdA, ?_, ?_, ?_, ?_,
      by rw [han1], by rw [hbn1], by rw [han1], by rw [hbn1], by rw [han1], by rw [hbn1],
      ?_, ?_,
      hloM.mono_lt (le_of_lt hmu), okB.upper up (by rw [hkb]; simp), ?_, ?_, ?_, ?_⟩
    · rw [hrd, if_pos rfl]
    · rw [hrd, if_neg hQB, if_pos rfl, hqn1]
    · intro p hp
      subst hp
      refine ⟨⟨an1, hrdA, by rw [han1]; exact hAl, by rw [han1]; simp⟩, cn, hc, Or.inr hcp, ?_⟩
      rw [hrdc, hcn1]
    · intro p h1 h2 h3 h4
      rw [hrd, if_neg h3, if_neg h4, if_neg h1, if_neg h2]
    · intro p hp _
      rw [han1]
      exact List.mem_append_left _ hp
    · intro p hp hne
      rw [hbn1]
      rw [hpb] at hp
      rcases List.mem_cons.mp hp with hp | hp
      · simp only [Option.some.injEq] at hp
        exact absurd hp hne
      · exact hp
    · -- the receiver
      refine ⟨?_, ?_, ?_, ?_, ?_⟩
      · rw [han1]
        exact List.pairwise_append.mpr ⟨okA.sorted, by simp, fun x hx y hy => by
          simp only [List.mem_singleton] at hy
          subst hy
          exact hAm x hx⟩
      · intro x hx
        rw [han1] at hx
        have hl1 : an1.leaf = false := by rw [han1]; exact hAl
        simp only [hl1, Bool.false_eq_true, if_false, borrowGhost_lo, hAB]
        rcases List.mem_append.mp hx with hx | hx
        · exact hAlow x hx
        · simp only [List.mem_singleton] at hx
          subst hx
          exact hloM
      · intro x hx
        rw [han1] at hx
        simp only [borrowGhost_hi, hAB, if_false, if_true, ltHi_some]
        rcases List.mem_append.mp hx with hx | hx
        · exact lt_trans (hAm x hx) hmu
        · simp only [List.mem_singleton] at hx
          subst hx
          exact hmu
      · intro hf; rw [han1] at hf; rw [hAl] at hf; cases hf
      · intro _
        have e1 : an1.key = an.key ++ m :: [] := by rw [han1]
        have e2 : an1.ptr2node = an.ptr2node ++ [some c] := by rw [han1]
        rw [e1, e2]
        simp only [borrowGhost_lo, borrowGhost_hi, hAB, if_false, if_true]
        refine kids_join (Kids.imp ?_ kA) ⟨some c, rfl, ?_⟩
        · rintro x l u hmem ⟨x1, xn, rfl, f2, f3, f4, f5, f6⟩
          have n1 : x1 ≠ A := by intro e; rw [e] at f4; omega
          have n2 : x1 ≠ Q := by intro e; rw [e] at f4; omega
          have n3 : x1 ≠ c := by
            intro e
            rw [e, hc] at f2
            obtain rfl : cn = xn := by simpa using f2
            rw [hcp] at f3
            exact hAB (by simpa using f3.symm)
          have n4 : x1 ≠ B := by intro e; rw [e] at f4; omega
          exact ⟨x1, xn, rfl, by rw [hrd, if_neg n4, if_neg n2, if_neg n3, if_neg n1]; exact f2,
            f3, by simpa using f4, by simp [n4, f5], by simp [n1, n4, f6]⟩
        · exact ⟨c, cn1, rfl, hrdc, by rw [hcn1], by simp only [borrowGhost_ht]; omega,
            by simp [hcB, hclo], by simp [hcA, hcB, hchi]⟩
    · -- the lender
      refine ⟨?_, ?_, ?_, ?_, ?_⟩
      · rw [hbn1]; exact hsB2
      · intro x hx
        rw [hbn1] at hx
        have hl1 : bn1.leaf = false := by rw [hbn1]; exact hBl
        simp only [hl1, Bool.false_eq_true, if_false, borrowGhost_lo, if_true, loLt_some]
        exact hk1 x hx
      · intro x hx
        rw [hbn1] at hx
        simp only [borrowGhost_hi, if_true]
        exact okB.upper x (by rw [hkb]; exact List.mem_cons_of_mem _ hx)
      · intro hf; rw [hbn1] at hf; rw [hBl] at hf; cases hf
      · intro _
        have e1 : bn1.key = kb := by rw [hbn1]
        have e2 : bn1.ptr2node = pb := by rw [hbn1]
        rw [e1, e2]
        simp only [borrowGhost_lo, borrowGhost_hi, if_true]
        refine Kids.imp ?_ kB3
        rintro x l u hmem ⟨x1, xn, rfl, f2, f3, f4, f5, f6⟩
        have n1 : x1 ≠ A := by intro e; rw [e] at f4; omega
        have n2 : x1 ≠ Q := by intro e; rw [e] at f4; omega
        have n3 : x1 ≠ c := fun e => hcpb (e ▸ hmem)
        have n4 : x1 ≠ B := by intro e; rw [e] at f4; omega
        exact ⟨x1, xn, rfl, by rw [hrd, if_neg n4, if_neg n2, if_neg n3, if_neg n1]; exact f2,
          f3, by simpa using f4, by simp [n4, f5], by simp [n1, n4, f6]⟩
    · intro _; rw [han1]; simp
    · intro _; rw [hbn1]; exact hkb2
  refine ⟨_, _, hrun, borrow_generic inv hexc bo, rfl, rfl, ?_, fun p => by simp⟩
  intro p
  show leafView ((((t.heap.write A an1).write c cn1).write Q qn1).write B bn1) p =
    leafView t.heap p
  simp only [leafView, hrd]
  by_cases h1 : p = B
  · subst h1; simp [hB, hBl, hbn1]
  rw [if_neg h1]
  by_cases h2 : p = Q
  · subst h2; simp [hQ, hl, hqn1]
  rw [if_neg h2]
  by_cases h3 : p = c
  · subst h3; simp [hc, hcn1]
  rw [if_neg h3]
  by_cases h4 : p = A
  · subst h4; simp [hA, hAl, han1]
  rw [if_neg h4]

end NodeBorrowRight

end BPlus

namespace BPlus

section Collapse

variable {K V : Type} [LinearOrder K]

theorem InvG.clear_exc {t : BPTree K V} {g : Ghost K} {Q : Nat} (inv : InvG t g (some Q))
    (h : ∀ qn, t.heap.read Q = some qn → qn.leaf = false → qn.key ≠ []) : InvG t g none :=
  ⟨inv.root, inv.nodes, inv.attached, fun p nd hp hl _ => by
    by_cases e : p = Q
    · subst e; exact h nd hp hl
    · exact inv.nonempty p nd hp hl (by simpa using Ne.symm e), inv.low, inv.chain⟩

/-- A root with keys stays. -/
theorem collapse_noop {t : BPTree K V} {g : Ghost K} (inv : InvG t g none) {r : Nat}
    (hroot : t.root = some r) (hr : 1 ≤ g.ht r) : collapseRoot t = some t := by
  obtain ⟨r1, rn, h1, h2, _⟩ := inv.root
  rw [hroot] at h1
  obtain rfl : r = r1 := by simpa using h1
  have ok := inv.nodes r rn h2
  have hl : rn.leaf = false := by
    cases hb : rn.leaf with
    | false => rfl
    | true => have := ok.leaf_iff.mp hb; omega
  have hne := inv.nonempty r rn h2 hl (by simp)
  have : rn.key.isEmpty = false := by
    cases hk : rn.key with
    | nil => exact absurd hk hne
    | cons _ _ => rfl
  simp [collapseRoot, hroot, h2, this]

/-- A root without keys hands the tree to its only child. -/
theorem collapse_spec {t : BPTree K V} {g : Ghost K} {Q : Nat} {qn : Node K V}
    (inv : InvG t g (some Q)) (hroot : t.root = some Q) (hQ : t.heap.read Q = some qn)
    (hl : qn.leaf = false) (hkey : qn.key = []) :
    ∃ t1, collapseRoot t = some t1 ∧ InvG t1 g none ∧ t1.order = t.order ∧
      (∀ p, leafView t1.heap p = leafView t.heap p) ∧
      ∃ r1, t1.root = some r1 ∧ g.ht Q = g.ht r1 + 1 := by
  obtain ⟨r1, rn, h1, h2, hpar, hlo, hhi⟩ := inv.root
  rw [hroot] at h1
  obtain rfl : Q = r1 := by simpa using h1
  rw [hQ] at h2
  obtain rfl : qn = rn := by simpa using h2
  have okQ := inv.nodes Q qn hQ
  have hk := okQ.kids hl
  rw [hkey] at hk
  obtain ⟨c0, hptr, c, cn, rfl, hc, hcp, hch, hclo, hchi⟩ := hk
  have hcQ : c ≠ Q := by intro e; rw [e] at hch; omega
  have okc := inv.nodes c cn hc
  obtain ⟨cn1, hcn1⟩ : ∃ cn1 : Node K V, cn1 = { cn with parent := none } := ⟨_, rfl⟩
  have r1 : (t.heap.free Q).read c = some cn := by
    rw [Heap.read_free, if_neg hcQ]; exact hc
  have hrun : collapseRoot t =
      some { t with root := some c, heap := (t.heap.free Q).write c cn1 } := by
    simp only [collapseRoot, hroot, hQ, hkey, hptr, List.isEmpty_nil, List.isEmpty_cons,
      vget_zero, List.getElem?_cons_zero, r1]
    simp [hcn1]
  have hrd : ∀ p, ((t.heap.free Q).write c cn1).read p =
      if p = c then some cn1 else if p = Q then none else t.heap.read p := by
    intro p
    by_cases h1 : p = c
    · subst h1; rw [if_pos rfl]; exact Heap.read_write_same r1 _
    rw [if_neg h1, Heap.read_write_ne _ h1, Heap.read_free]
  refine ⟨_, hrun, ?_, rfl, ?_, c, rfl, hch⟩
  · apply inv.frame (fun p => p = Q ∨ p = c) (fun _ => False)
    · exact ⟨c, cn1, rfl, by show ((t.heap.free Q).write c cn1).read c = _; rw [hrd, if_pos rfl],
        by rw [hcn1], by rw [hclo, hlo], by rw [hchi, hhi]⟩
    · right
      intro r hr
      rw [hroot] at hr
      exact Or.inl (by simpa using hr.symm)
    · intro e he
      exact Or.inl (Or.inl (by simpa using he.symm))
    · show t.heap.length ≤ ((t.heap.free Q).write c cn1).length
      simp
    · intro p hpD _
      simp only [not_or] at hpD
      refine ⟨?_, rfl, rfl, rfl⟩
      show ((t.heap.free Q).write c cn1).read p = _
      rw [hrd, if_neg hpD.2, if_neg hpD.1]
    · intro p hp
      exact absurd hp id
    · intro p nd1 hp hrd1
      change ((t.heap.free Q).write c cn1).read p = some nd1 at hrd1
      rcases hp with rfl | rfl
      · rw [hrd, if_neg (Ne.symm hcQ), if_pos rfl] at hrd1
        cases hrd1
      · rw [hrd, if_pos rfl] at hrd1
        obtain rfl : cn1 = nd1 := by simpa using hrd1
        refine ⟨?_, fun hne => absurd rfl hne, ?_, ?_⟩
        · apply okc.transfer (by rw [hcn1]) (by rw [hcn1]) (by rw [hcn1]) (by rw [hcn1])
            rfl rfl rfl
          intro x xn _ hmem hx hxp
          have hh := inv.ht_parent hx hxp
          have n1 : x ≠ p := by intro e; rw [e] at hh; omega
          have n2 : x ≠ Q := by intro e; rw [e] at hh; omega
          exact ⟨xn, by rw [hrd, if_neg n1, if_neg n2]; exact hx, hxp, rfl, rfl, rfl⟩
        · intro hlf _
          have hlf2 : cn.leaf = false := by rw [hcn1] at hlf; exact hlf
          have := inv.nonempty p cn hc hlf2 (by simpa using Ne.symm hcQ)
          rw [hcn1]; exact this
        · have := inv.low p cn hc
          show g.ht p < ((t.heap.free Q).write p cn1).length
          simpa using this
    · intro x xn q hx hxr hxp hq
      simp only [not_or] at hq
      rcases hx with rfl | rfl
      · rw [hQ] at hxr
        obtain rfl : qn = xn := by simpa using hxr
        rw [hpar] at hxp
        cases hxp
      · rw [hc] at hxr
        obtain rfl : cn = xn := by simpa using hxr
        rw [hcp] at hxp
        exact absurd (by simpa using hxp.symm) hq.1
    · intro q qn2 p hq hrq hql hpD _ hmem
      simp only [not_or] at hpD
      rcases hq with rfl | rfl
      · rw [hQ] at hrq
        obtain rfl : qn = qn2 := by simpa using hrq
        rw [hptr] at hmem
        simp only [List.mem_singleton, Option.some.injEq] at hmem
        exact absurd hmem hpD.2
      · rw [hc] at hrq
        obtain rfl : cn = qn2 := by simpa using hrq
        exact ⟨cn1, by show ((t.heap.free Q).write q cn1).read q = _; rw [hrd, if_pos rfl],
          by rw [hcn1]; exact hql, by rw [hcn1]; exact hmem⟩
    · intro p nd1 hp hrd1 hl1
      change ((t.heap.free Q).write c cn1).read p = some nd1 at hrd1
      rcases hp with hp | hp
      · subst hp
        rw [hrd, if_neg (Ne.symm hcQ), if_pos rfl] at hrd1
        cases hrd1
      · subst hp
        rw [hrd, if_pos rfl] at hrd1
        obtain rfl : cn1 = nd1 := by simpa using hrd1
        have hcl : cn.leaf = true := by rw [hcn1] at hl1; exact hl1
        have hcc := nextOK_iff.1 (inv.chain p cn hc hcl)
        refine nextOK_iff.2 ⟨fun hn => ?_, fun b hb => ?_⟩
        · rw [hcn1]; exact hcc.1 hn
        · rw [hchi, hhi] at hb; cases hb
    · intro p nd q qn2 _ _ _ _ hq hrq hql
      rcases hq with hq | hq
      · subst hq
        rw [hQ] at hrq
        obtain rfl : qn = qn2 := by simpa using hrq
        rw [hl] at hql; cases hql
      · subst hq
        rw [hc] at hrq
        obtain rfl : cn = qn2 := by simpa using hrq
        exact ⟨cn1, by show ((t.heap.free Q).write q cn1).read q = _; rw [hrd, if_pos rfl],
          by rw [hcn1]; exact hql, rfl⟩
  · intro p
    show leafView ((t.heap.free Q).write c cn1) p = leafView t.heap p
    simp only [leafView, hrd]
    by_cases h1 : p = c
    · subst h1; simp [hc, hcn1]
    rw [if_neg h1]
    by_cases h2 : p = Q
    · subst h2; simp [hQ, hl]
    rw [if_neg h2]

/-- What follows a merge under the parent `Q`: either the parent is handled
in turn, or the block `// parent is empty` ends the call. -/
theorem merge_tail {t : BPTree K V} {g : Ghost K} {Q r : Nat} {qn : Node K V}
    (inv : InvG t g (some Q)) (hQ : t.heap.read Q = some qn) (hl : qn.leaf = false)
    (hord : 1 ≤ t.order) (hroot : t.root = some r) :
    (parentUnderflow t Q = some true ∧ r ≠ Q) ∨
    (parentUnderflow t Q = some false ∧ ∃ t1 g1, collapseRoot t = some t1 ∧ InvG t1 g1 none ∧
      t1.order = t.order ∧ (∀ p, leafView t1.heap p = leafView t.heap p) ∧
      ∃ r1, t1.root = some r1 ∧ g.ht Q ≤ g1.ht r1 + 1) := by
  have hpu : parentUnderflow t Q =
      some (decide (qn.key.length < (t.order + 1) / 2) && decide (some Q ≠ t.root)) := by
    simp [parentUnderflow, hQ]
  have okQ := inv.nodes Q qn hQ
  have hQ1 := okQ.ht_pos hl
  by_cases hr : r = Q
  · subst hr
    right
    refine ⟨by rw [hpu]; simp [hroot], ?_⟩
    by_cases hk : qn.key = []
    · obtain ⟨t1, e1, e2, e3, e4, r1, e5, e6⟩ := collapse_spec inv hroot hQ hl hk
      exact ⟨t1, g, e1, e2, e3, e4, r1, e5, by omega⟩
    · have inv1 : InvG t g none := inv.clear_exc (by
        intro qn2 h2 _
        rw [hQ] at h2
        obtain rfl : qn = qn2 := by simpa using h2
        exact hk)
      exact ⟨t, g, collapse_noop inv1 hroot hQ1, inv1, rfl, fun _ => rfl, r, hroot, by omega⟩
  · by_cases hlt : qn.key.length < (t.order + 1) / 2
    · left
      refine ⟨?_, hr⟩
      rw [hpu, hroot]
      have : (some Q ≠ some r) := by intro e; exact hr (by simpa using e.symm)
      simp [hlt, this]
    · right
      refine ⟨by rw [hpu]; simp [hlt], ?_⟩
      have hk : qn.key ≠ [] := by
        intro e
        rw [e] at hlt
        simp only [List.length_nil] at hlt
        omega
      have inv1 : InvG t g none := inv.clear_exc (by
        intro qn2 h2 _
        rw [hQ] at h2
        obtain rfl : qn = qn2 := by simpa using h2
        exact hk)
      have hle := inv.ht_le hQ hroot
      exact ⟨t, g, collapse_noop inv1 hroot (by omega), inv1, rfl, fun _ => rfl, r, hroot,
        by omega⟩

end Collapse

end BPlus

namespace BPlus

section NodeStep

variable {K V : Type} [LinearOrder K]

/-- One round of `handleNodeUnderflow` up to the merge: which branch is taken
and what it leaves. -/
theorem node_step {t : BPTree K V} {g : Ghost K} {exc : Option Nat} (inv : InvG t g exc)
    {X : Nat} {xn : Node K V} (hexc : ∀ e, exc = some e → e = X) (hord : 1 ≤ t.order)
    (hX : t.heap.read X = some xn) (hxl : xn.leaf = false) (hrX : t.root ≠ some X) :
    ∃ Q qn, xn.parent = some Q ∧ t.heap.read Q = some qn ∧ g.ht Q = g.ht X + 1 ∧
      ∃ bl, (if childIndex qn.ptr2node X > 0
          then canLend t qn.ptr2node (childIndex qn.ptr2node X - 1) else some false) = some bl ∧
        (bl = true → ∃ t1 g1, nodeBorrowLeft t X Q (childIndex qn.ptr2node X) = some t1 ∧
          InvG t1 g1 none ∧ t1.root = t.root ∧ t1.order = t.order ∧
          (∀ p, leafView t1.heap p = leafView t.heap p) ∧ ∀ p, g1.ht p = g.ht p) ∧
        (bl = false → ∃ br,
          (if sizeT (childIndex qn.ptr2node X) < sizeT ((qn.ptr2node.length : Int) - 1)
            then canLend t qn.ptr2node (childIndex qn.ptr2node X + 1) else some false) = some br ∧
          (br = true → ∃ t1 g1, nodeBorrowRight t X Q (childIndex qn.ptr2node X) = some t1 ∧
            InvG t1 g1 none ∧ t1.root = t.root ∧ t1.order = t.order ∧
            (∀ p, leafView t1.heap p = leafView t.heap p) ∧ ∀ p, g1.ht p = g.ht p) ∧
          (br = false → ∃ t1 g1 qn1,
            (if childIndex qn.ptr2node X > 0
              then nodeMergeLeft t X Q (childIndex qn.ptr2node X)
              else nodeMergeRight t X Q (childIndex qn.ptr2node X)) = some t1 ∧
            InvG t1 g1 (some Q) ∧ t1.root = t.root ∧ t1.order = t.order ∧
            (∀ p, leafView t1.heap p = leafView t.heap p) ∧ t1.heap.read Q = some qn1 ∧
            qn1.leaf = false ∧ ∀ p, g1.ht p = g.ht p)) := by
  obtain ⟨Q, qn, a, b, ca, cb, hpar, hQ, hql, hkey, hptr, hlen, hht, hlo, hhi⟩ :=
    parent_split inv hX hrX
  have okQ := inv.nodes Q qn hQ
  have okX := inv.nodes X xn hX
  have hX1 := okX.ht_pos hxl
  have hnd := okQ.nodup hql
  rw [hptr] at hnd
  obtain ⟨hXca, hXcb⟩ := nodup_mid hnd
  have hidx : childIndex qn.ptr2node X = (ca.length : Int) := by
    rw [hptr]; exact childIndex_mid hXca
  have hQX : Q ≠ X := by intro e; rw [e] at hht; omega
  have hQne : qn.key ≠ [] := inv.nonempty Q qn hQ hql (by
    intro e
    have := hexc Q e
    exact hQX this)
  have hplen : qn.ptr2node.length = ca.length + 1 + cb.length := by
    rw [hptr]; simp; omega
  have hlend : ∀ n : Nat, 1 ≤ (t.order + 1) / 2 := fun _ => by omega
  refine ⟨Q, qn, hpar, hQ, hht, ?_⟩
  rw [hidx]
  -- the right neighbour, if there is one
  have right : ∃ br,
      (if sizeT (ca.length : Int) < sizeT ((qn.ptr2node.length : Int) - 1)
        then canLend t qn.ptr2node ((ca.length : Int) + 1) else some false) = some br ∧
      (br = true → ∃ t1 g1, nodeBorrowRight t X Q (ca.length : Int) = some t1 ∧
        InvG t1 g1 none ∧ t1.root = t.root ∧ t1.order = t.order ∧
        (∀ p, leafView t1.heap p = leafView t.heap p) ∧ ∀ p, g1.ht p = g.ht p) ∧
      (br = false → ca = [] → ∃ t1 g1 qn1,
        nodeMergeRight t X Q (ca.length : Int) = some t1 ∧
        InvG t1 g1 (some Q) ∧ t1.root = t.root ∧ t1.order = t.order ∧
        (∀ p, leafView t1.heap p = leafView t.heap p) ∧ t1.heap.read Q = some qn1 ∧
        qn1.leaf = false ∧ ∀ p, g1.ht p = g.ht p) := by
    by_cases hcb : cb = []
    · have hc : ¬ (sizeT (ca.length : Int) < sizeT ((qn.ptr2node.length : Int) - 1)) := by
        rw [sizeT_lt_iff (by omega)]
        rw [hplen, hcb]
        simp
      refine ⟨false, by rw [if_neg hc], (fun h => by cases h), ?_⟩
      intro _ hca
      exfalso
      subst hca
      subst hcb
      exact only_child inv hQ hql hptr hQne rfl
    · obtain ⟨R, m, b1, cb1, rfl, rfl⟩ := right_pair inv hQ hql hkey hptr hlen hcb
      have hc : sizeT (ca.length : Int) < sizeT ((qn.ptr2node.length : Int) - 1) := by
        rw [sizeT_lt_iff (by omega)]
        rw [hplen]
        simp
      obtain ⟨_, ⟨rn, hR, hRp⟩, hXh, hRh, _⟩ := pair_facts inv hQ hql hkey hptr hlen
      have hv : vget qn.ptr2node ((ca.length : Int) + 1) = some (some R) := by
        rw [hptr]; exact vget_at_succ _ _ _ _ rfl
      refine ⟨decide (rn.key.length > (t.order + 1) / 2), by rw [if_pos hc, canLend_eq hv hR],
        ?_, ?_⟩
      · intro hbr
        have h2 : 2 ≤ rn.key.length := by
          have := of_decide_eq_true hbr
          omega
        exact nodeBorrowRight_spec inv (fun e he => Or.inl (hexc e he)) hQ hql hkey hptr hlen
          hX hxl hR h2 rfl
      · intro _ _
        obtain ⟨t1, e1, e2, e3, e4, e5, e6, e7⟩ := nodeMergeRight_spec inv
          (fun e he => Or.inl (hexc e he)) hQ hql hkey hptr hlen hX hxl
          (i := (ca.length : Int)) rfl
        exact ⟨t1, _, _, e1, e2, e3, e4, e6, e7, hql, fun p => by simp⟩
  by_cases hca : ca = []
  · subst hca
    refine ⟨false, by simp, (fun h => by cases h), fun _ => ?_⟩
    obtain ⟨br, h1, h2, h3⟩ := right
    refine ⟨br, h1, h2, fun hbr => ?_⟩
    obtain ⟨t1, g1, qn1, e⟩ := h3 hbr rfl
    exact ⟨t1, g1, qn1, by simpa using e⟩
  · obtain ⟨L, a1, m, ca1, rfl, rfl, hlen1, hkey1, hptr1⟩ :=
      left_pair inv hQ hql hkey hptr hlen hca
    obtain ⟨⟨ln, hL, hLp⟩, _, hLh, _⟩ := pair_facts inv hQ hql hkey1 hptr1 hlen1
    have okL := inv.nodes L ln hL
    have hLl : ln.leaf = false := by
      cases hb : ln.leaf with
      | false => rfl
      | true => have := okL.leaf_iff.mp hb; omega
    have hpos : ((ca1 ++ [some L]).length : Int) > 0 := by simp only [List.length_append, List.length_singleton]; omega
    have hi1 : ((ca1 ++ [some L]).length : Int) - 1 = (ca1.length : Int) := by simp
    have hi2 : ((ca1 ++ [some L]).length : Int) = (ca1.length : Int) + 1 := by simp
    have hv : vget qn.ptr2node (((ca1 ++ [some L]).length : Int) - 1) = some (some L) := by
      rw [hptr1]; exact vget_at _ _ _ hi1
    have hv2 : vget qn.ptr2node ((ca1 ++ [some L]).length : Int) = some (some X) := by
      rw [hptr1]; exact vget_at_succ _ _ _ _ hi2
    refine ⟨decide (ln.key.length > (t.order + 1) / 2), by rw [if_pos hpos, canLend_eq hv hL],
      ?_, ?_⟩
    · intro hbl
      have h2 : 2 ≤ ln.key.length := by
        have := of_decide_eq_true hbl
        omega
      exact nodeBorrowLeft_spec inv (fun e he => Or.inr (hexc e he)) hQ hql hkey1 hptr1 hlen1
        hL hLl h2 hi2
    · intro _
      obtain ⟨br, h1, h2, _⟩ := right
      refine ⟨br, h1, h2, fun _ => ?_⟩
      rw [if_pos hpos, nodeMergeLeft_eq hX hQ hL hv hv2]
      obtain ⟨t1, e1, e2, e3, e4, e5, e6, e7⟩ := nodeMergeRight_spec inv
        (fun e he => Or.inr (hexc e he)) hQ hql hkey1 hptr1 hlen1 hL hLl hi1
      exact ⟨t1, _, _, e1, e2, e3, e4, e6, e7, hql, fun p => by simp⟩

end NodeStep

end BPlus

namespace BPlus

section NodeUnderflow

variable {K V : Type} [LinearOrder K]

/-- The function `handleNodeUnderflow` restores the invariant on the way to
the root and leaves the leaves as they are. -/
theorem handleNodeUnderflow_spec : ∀ (fuel : Nat) (t : BPTree K V) (g : Ghost K) (X : Nat)
    (xn : Node K V) (r : Nat),
    InvG t g (some X) → 1 ≤ t.order → t.heap.read X = some xn → xn.leaf = false →
    t.root = some r → r ≠ X → g.ht r < g.ht X + fuel →
    ∃ t1 g1, handleNodeUnderflow fuel t X = some t1 ∧ InvG t1 g1 none ∧ t1.order = t.order ∧
      (∀ p, leafView t1.heap p = leafView t.heap p) ∧ ∃ r1, t1.root = some r1 ∧ 1 ≤ g1.ht r1 := by
  intro fuel
  induction fuel with
  | zero =>
    intro t g X xn r inv _ hX _ hroot _ hlt
    have := inv.ht_le hX hroot
    omega
  | succ fuel ih =>
    intro t g X xn r inv hord hX hxl hroot hrX hlt
    have hrX2 : t.root ≠ some X := by
      rw [hroot]; intro e; exact hrX (by simpa using e)
    have okX := inv.nodes X xn hX
    have hX1 := okX.ht_pos hxl
    have hle := inv.ht_le hX hroot
    obtain ⟨Q, qn, hpar, hQ, hht, bl, hbl, hL, hR⟩ :=
      node_step inv (fun e he => by simpa using he.symm) hord hX hxl hrX2
    simp only [handleNodeUnderflow, hX, hpar, hQ, hbl]
    cases bl with
    | true =>
      obtain ⟨t1, g1, e1, e2, e3, e4, e5, e6⟩ := hL rfl
      refine ⟨t1, g1, by simpa using e1, e2, e4, e5, r, by rw [e3]; exact hroot, ?_⟩
      rw [e6]; omega
    | false =>
      obtain ⟨br, hbr, hR1, hM⟩ := hR rfl
      simp only [hbr, Bool.false_eq_true, if_false]
      cases br with
      | true =>
        obtain ⟨t1, g1, e1, e2, e3, e4, e5, e6⟩ := hR1 rfl
        refine ⟨t1, g1, by simpa using e1, e2, e4, e5, r, by rw [e3]; exact hroot, ?_⟩
        rw [e6]; omega
      | false =>
        obtain ⟨t1, g1, qn1, e1, e2, e3, e4, e5, e6, e7, e8⟩ := hM rfl
        simp only [e1, Bool.false_eq_true, if_false]
        have hroot1 : t1.root = some r := by rw [e3]; exact hroot
        rcases merge_tail e2 e6 e7 (by rw [e4]; exact hord) hroot1 with
          ⟨hpu, hne⟩ | ⟨hpu, t3, g3, f1, f2, f3, f4, r3, f5, f6⟩
        · obtain ⟨t2, g2, i1, i2, i3, i4, r2, i5, i6⟩ := ih t1 g1 Q qn1 r e2
            (by rw [e4]; exact hord) e6 e7 hroot1 hne (by rw [e8, e8]; omega)
          simp only [hpu, if_true, i1]
          exact ⟨t2, g2, collapse_noop i2 i5 i6, i2, by rw [i3, e4],
            fun p => by rw [i4, e5], r2, i5, i6⟩
        · simp only [hpu, Bool.false_eq_true, if_false]
          refine ⟨t3, g3, f1, f2, by rw [f3, e4], fun p => by rw [f4, e5], r3, f5, ?_⟩
          rw [e8] at f6
          omega

end NodeUnderflow

end BPlus

namespace BPlus

section LeafUnderflow

variable {K V : Type} [LinearOrder K]

/-- One round of `handleLeafUnderflow` up to the merge: which branch is taken
and what it leaves. -/
theorem leaf_step {t : BPTree K V} {g : Ghost K} (inv : InvG t g none)
    {X : Nat} {xn : Node K V} (hord : 1 ≤ t.order)
    (hX : t.heap.read X = some xn) (hxl : xn.leaf = true) (hrX : t.root ≠ some X) :
    ∃ Q qn, xn.parent = some Q ∧ t.heap.read Q = some qn ∧ g.ht Q = g.ht X + 1 ∧
      ∃ bl, (if childIndex qn.ptr2node X > 0
          then canLend t qn.ptr2node (childIndex qn.ptr2node X - 1) else some false) = some bl ∧
        (bl = true → ∃ t1 g1, leafBorrowLeft t X Q (childIndex qn.ptr2node X) = some t1 ∧
          InvG t1 g1 none ∧ t1.root = t.root ∧ t1.order = t.order ∧
          SamePairs t.heap t1.heap ∧ ∀ p, g1.ht p = g.ht p) ∧
        (bl = false → ∃ br,
          (if sizeT (childIndex qn.ptr2node X) < sizeT ((qn.ptr2node.length : Int) - 1)
            then canLend t qn.ptr2node (childIndex qn.ptr2node X + 1) else some false) = some br ∧
          (br = true → ∃ t1 g1, leafBorrowRight t X Q (childIndex qn.ptr2node X) = some t1 ∧
            InvG t1 g1 none ∧ t1.root = t.root ∧ t1.order = t.order ∧
            SamePairs t.heap t1.heap ∧ ∀ p, g1.ht p = g.ht p) ∧
          (br = false → ∃ t1 g1 qn1,
            (if childIndex qn.ptr2node X > 0
              then leafMergeLeft t X Q (childIndex qn.ptr2node X)
              else leafMergeRight t X Q (childIndex qn.ptr2node X)) = some t1 ∧
            InvG t1 g1 (some Q) ∧ t1.root = t.root ∧ t1.order = t.order ∧
            SamePairs t.heap t1.heap ∧ t1.heap.read Q = some qn1 ∧
            qn1.leaf = false ∧ ∀ p, g1.ht p = g.ht p)) := by
  obtain ⟨Q, qn, a, b, ca, cb, hpar, hQ, hql, hkey, hptr, hlen, hht, hlo, hhi⟩ :=
    parent_split inv hX hrX
  have okQ := inv.nodes Q qn hQ
  have okX := inv.nodes X xn hX
  have hX0 := (okX.leafOK hxl).1
  have hnd := okQ.nodup hql
  rw [hptr] at hnd
  obtain ⟨hXca, hXcb⟩ := nodup_mid hnd
  have hidx : childIndex qn.ptr2node X = (ca.length : Int) := by
    rw [hptr]; exact childIndex_mid hXca
  have hQne : qn.key ≠ [] := inv.nonempty Q qn hQ hql (by simp)
  have hplen : qn.ptr2node.length = ca.length + 1 + cb.length := by
    rw [hptr]; simp; omega
  refine ⟨Q, qn, hpar, hQ, hht, ?_⟩
  rw [hidx]
  -- the right neighbour, if there is one
  have right : ∃ br,
      (if sizeT (ca.length : Int) < sizeT ((qn.ptr2node.length : Int) - 1)
        then canLend t qn.ptr2node ((ca.length : Int) + 1) else some false) = some br ∧
      (br = true → ∃ t1 g1, leafBorrowRight t X Q (ca.length : Int) = some t1 ∧
        InvG t1 g1 none ∧ t1.root = t.root ∧ t1.order = t.order ∧
        SamePairs t.heap t1.heap ∧ ∀ p, g1.ht p = g.ht p) ∧
      (br = false → ca = [] → ∃ t1 g1 qn1,
        leafMergeRight t X Q (ca.length : Int) = some t1 ∧
        InvG t1 g1 (some Q) ∧ t1.root = t.root ∧ t1.order = t.order ∧
        SamePairs t.heap t1.heap ∧ t1.heap.read Q = some qn1 ∧
        qn1.leaf = false ∧ ∀ p, g1.ht p = g.ht p) := by
    by_cases hcb : cb = []
    · have hc : ¬ (sizeT (ca.length : Int) < sizeT ((qn.ptr2node.length : Int) - 1)) := by
        rw [sizeT_lt_iff (by omega)]
        rw [hplen, hcb]
        simp
      refine ⟨false, by rw [if_neg hc], (fun h => by cases h), ?_⟩
      intro _ hca
      exfalso
      subst hca
      subst hcb
      exact only_child inv hQ hql hptr hQne rfl
    · obtain ⟨R, m, b1, cb1, rfl, rfl⟩ := right_pair inv hQ hql hkey hptr hlen hcb
      have hc : sizeT (ca.length : Int) < sizeT ((qn.ptr2node.length : Int) - 1) := by
        rw [sizeT_lt_iff (by omega)]
        rw [hplen]
        simp
      obtain ⟨_, ⟨rn, hR, hRp⟩, hXh, hRh, _⟩ := pair_facts inv hQ hql hkey hptr hlen
      have hv : vget qn.ptr2node ((ca.length : Int) + 1) = some (some R) := by
        rw [hptr]; exact vget_at_succ _ _ _ _ rfl
      refine ⟨decide (rn.key.length > (t.order + 1) / 2), by rw [if_pos hc, canLend_eq hv hR],
        ?_, ?_⟩
      · intro hbr
        have h2 : 2 ≤ rn.key.length := by
          have := of_decide_eq_true hbr
          omega
        exact leafBorrowRight_spec inv hQ hql hkey hptr hlen hX hxl hR h2 rfl
      · intro _ _
        obtain ⟨t1, e1, e2, e3, e4, e5, e6, e7⟩ := leafMergeRight_spec inv
          hQ hql hkey hptr hlen hX hxl (i := (ca.length : Int)) rfl
        exact ⟨t1, _, _, e1, e2, e3, e4, e6, e7, hql, fun p => by simp⟩
  by_cases hca : ca = []
  · subst hca
    refine ⟨false, by simp, (fun h => by cases h), fun _ => ?_⟩
    obtain ⟨br, h1, h2, h3⟩ := right
    refine ⟨br, h1, h2, fun hbr => ?_⟩
    obtain ⟨t1, g1, qn1, e⟩ := h3 hbr rfl
    exact ⟨t1, g1, qn1, by simpa using e⟩
  · obtain ⟨L, a1, m, ca1, rfl, rfl, hlen1, hkey1, hptr1⟩ :=
      left_pair inv hQ hql hkey hptr hlen hca
    obtain ⟨⟨ln, hL, hLp⟩, _, hLh, _⟩ := pair_facts inv hQ hql hkey1 hptr1 hlen1
    have okL := inv.nodes L ln hL
    have hLl : ln.leaf = true := okL.leaf_iff.mpr (by omega)
    have hpos : ((ca1 ++ [some L]).length : Int) > 0 := by
      simp only [List.length_append, List.length_singleton]; omega
    have hi1 : ((ca1 ++ [some L]).length : Int) - 1 = (ca1.length : Int) := by simp
    have hi2 : ((ca1 ++ [some L]).length : Int) = (ca1.length : Int) + 1 := by simp
    have hv : vget qn.ptr2node (((ca1 ++ [some L]).length : Int) - 1) = some (some L) := by
      rw [hptr1]; exact vget_at _ _ _ hi1
    have hv2 : vget qn.ptr2node ((ca1 ++ [some L]).length : Int) = some (some X) := by
      rw [hptr1]; exact vget_at_succ _ _ _ _ hi2
    refine ⟨decide (ln.key.length > (t.order + 1) / 2), by rw [if_pos hpos, canLend_eq hv hL],
      ?_, ?_⟩
    · intro hbl
      have h2 : 2 ≤ ln.key.length := by
        have := of_decide_eq_true hbl
        omega
      exact leafBorrowLeft_spec inv hQ hql hkey1 hptr1 hlen1 hL hLl h2 hi2
    · intro _
      obtain ⟨br, h1, h2, _⟩ := right
      refine ⟨br, h1, h2, fun _ => ?_⟩
      rw [if_pos hpos, leafMergeLeft_eq hX hQ hL hv hv2]
      obtain ⟨t1, e1, e2, e3, e4, e5, e6, e7⟩ := leafMergeRight_spec inv
        hQ hql hkey1 hptr1 hlen1 hL hLl hi1
      exact ⟨t1, _, _, e1, e2, e3, e4, e6, e7, hql, fun p => by simp⟩

/-- The function `handleLeafUnderflow` restores the invariant and keeps the
stored pairs. -/
theorem handleLeafUnderflow_spec {t : BPTree K V} {g : Ghost K} (inv : InvG t g none)
    {X : Nat} {xn : Node K V} (hord : 1 ≤ t.order)
    (hX : t.heap.read X = some xn) (hxl : xn.leaf = true) (hrX : t.root ≠ some X) :
    ∃ t1 g1, handleLeafUnderflow t X = some t1 ∧ InvG t1 g1 none ∧ t1.order = t.order ∧
      SamePairs t.heap t1.heap := by
  obtain ⟨r, rn, hroot, hr, _⟩ := inv.root
  obtain ⟨Q, qn, hpar, hQ, hht, bl, hbl, hL, hR⟩ := leaf_step inv hord hX hxl hrX
  simp only [handleLeafUnderflow, hX, hpar, hQ, hbl]
  cases bl with
  | true =>
    obtain ⟨t1, g1, e1, e2, e3, e4, e5, e6⟩ := hL rfl
    exact ⟨t1, g1, by simpa using e1, e2, e4, e5⟩
  | false =>
    obtain ⟨br, hbr, hR1, hM⟩ := hR rfl
    simp only [hbr, Bool.false_eq_true, if_false]
    cases br with
    | true =>
      obtain ⟨t1, g1, e1, e2, e3, e4, e5, e6⟩ := hR1 rfl
      exact ⟨t1, g1, by simpa using e1, e2, e4, e5⟩
    | false =>
      obtain ⟨t1, g1, qn1, e1, e2, e3, e4, e5, e6, e7, e8⟩ := hM rfl
      simp only [e1, Bool.false_eq_true, if_false]
      have hroot1 : t1.root = some r := by rw [e3]; exact hroot
      rcases merge_tail e2 e6 e7 (by rw [e4]; exact hord) hroot1 with
        ⟨hpu, hne⟩ | ⟨hpu, t3, g3, f1, f2, f3, f4, r3, f5, f6⟩
      · obtain ⟨rn1, hr1, _⟩ : ∃ rn1, t1.heap.read r = some rn1 ∧ True := by
          obtain ⟨r2, rn2, h1, h2, _⟩ := e2.root
          rw [hroot1] at h1
          obtain rfl : r = r2 := by simpa using h1
          exact ⟨rn2, h2, trivial⟩
        have hlow := e2.low r rn1 hr1
        obtain ⟨t2, g2, i1, i2, i3, i4, r2, i5, i6⟩ := handleNodeUnderflow_spec t1.heap.length
          t1 g1 Q qn1 r e2 (by rw [e4]; exact hord) e6 e7 hroot1 hne (by omega)
        simp only [hpu, if_true, i1]
        exact ⟨t2, g2, collapse_noop i2 i5 i6, i2, by rw [i3, e4],
          e5.comp (SamePairs.of_view i4)⟩
      · simp only [hpu, Bool.false_eq_true, if_false]
        exact ⟨t3, g3, f1, f2, by rw [f3, e4], e5.comp (SamePairs.of_view f4)⟩

end LeafUnderflow

end BPlus

namespace BPlus

section Erase

variable {K V : Type} [LinearOrder K]

/-- The pairs of a leaf after the entry at index `i` was removed. -/
theorem zip_erase {keys : List K} {vals : List V} (hs : keys.Pairwise (fun p q => p < q))
    {i : Nat} {k : K} (hi : keys[i]? = some k) (hl : vals.length = keys.length) (k2 : K) (v2 : V) :
    (k2, v2) ∈ (keys.take i ++ keys.drop (i + 1)).zip (vals.take i ++ vals.drop (i + 1)) ↔
      (k2 ≠ k ∧ (k2, v2) ∈ keys.zip vals) := by
  obtain ⟨hk1, hk2⟩ := split_at hi
  have hil : i < keys.length := (List.getElem?_eq_some.mp hi).1
  obtain ⟨v, hv⟩ : ∃ v, vals[i]? = some v := ⟨vals[i], List.getElem?_eq_getElem (by omega)⟩
  obtain ⟨hv1, hv2⟩ := split_at hv
  have hlen : (keys.take i).length = (vals.take i).length := by rw [hk2, hv2]
  have e : keys.zip vals = (keys.take i).zip (vals.take i) ++
      (k, v) :: (keys.drop (i + 1)).zip (vals.drop (i + 1)) := by
    conv_lhs => rw [hk1, hv1]
    exact zip_insert hlen k v
  rw [List.zip_append hlen, e]
  rw [hk1] at hs
  obtain ⟨_, _, _, h4, h5⟩ := sorted_mid hs
  simp only [List.mem_append, List.mem_cons, Prod.mk.injEq]
  constructor
  · rintro (h | h)
    · have := h4 k2 (List.of_mem_zip h).1
      exact ⟨ne_of_lt this, Or.inl h⟩
    · have := h5 k2 (List.of_mem_zip h).1
      exact ⟨ne_of_gt this, Or.inr (Or.inr h)⟩
  · rintro ⟨hne, h | ⟨rfl, _⟩ | h⟩
    · exact Or.inl h
    · exact absurd rfl hne
    · exact Or.inr h

/-- The function `erase` on a key that is not stored. -/
theorem erase_absent {t : BPTree K V} {g : Ghost K} (inv : InvG t g none) (k : K)
    (habs : ∀ v, ¬ Contains t k v) : erase t k = some t := by
  obtain ⟨L, ln, hloc, hL, hleaf, hlo, hhi⟩ := keyIndexInLeaf_spec inv k
  have ok := inv.nodes L ln hL
  obtain ⟨_, hvl⟩ := ok.leafOK hleaf
  rcases locate_cases k ok.sorted with ⟨i, hrank, hi⟩ | ⟨hk, hr0 | ⟨i, x, hrank, hi, hne⟩⟩
  · exfalso
    have hil : i < ln.key.length := (List.getElem?_eq_some.mp hi).1
    have hiv : i < ln.ptr2val.length := by omega
    exact habs ln.ptr2val[i] ⟨L, ln, i, hL, hleaf, hi, List.getElem?_eq_getElem hiv⟩
  · rw [hr0] at hloc
    simp [erase, hloc]
  · have hloc2 : keyIndexInLeaf t k = some (some L, (i : Int)) := by
      rw [hloc, hrank]; simp
    have hne1 : ¬ ((i : Int) = -1) := by omega
    simp [erase, hloc2, hne1, hL, hi, hne]

/-- The function `erase` on a well-formed tree. -/
theorem erase_spec {t : BPTree K V} {g : Ghost K} (inv : InvG t g none) (hord : 1 ≤ t.order)
    (k : K) :
    ∃ t1 g1, erase t k = some t1 ∧ InvG t1 g1 none ∧ t1.order = t.order ∧
      ∀ k2 v2, Contains t1 k2 v2 ↔ (k2 ≠ k ∧ Contains t k2 v2) := by
  obtain ⟨L, ln, hloc, hL, hleaf, hlo, hhi⟩ := keyIndexInLeaf_spec inv k
  have ok := inv.nodes L ln hL
  obtain ⟨hL0, hvl⟩ := ok.leafOK hleaf
  have honly := pairs_only_in_located inv hloc
  rcases locate_cases k ok.sorted with ⟨i, hrank, hi⟩ | ⟨hk, hcase⟩
  · -- the key is stored at index `i`
    have hil : i < ln.key.length := (List.getElem?_eq_some.mp hi).1
    have hloc2 : keyIndexInLeaf t k = some (some L, (i : Int)) := by
      rw [hloc, hrank]; simp
    have hne1 : ¬ ((i : Int) = -1) := by omega
    obtain ⟨lf1, hlf1⟩ : ∃ lf1 : Node K V, lf1 = { ln with key := ln.key.take i ++ ln.key.drop (i + 1), ptr2val := ln.ptr2val.take i ++ ln.ptr2val.drop (i + 1) } := ⟨_, rfl⟩
    have hsub : ∀ x ∈ lf1.key, x ∈ ln.key := by
      intro x hx
      rw [hlf1] at hx
      rcases List.mem_append.mp hx with h | h
      · exact List.mem_of_mem_take h
      · exact List.mem_of_mem_drop h
    have hl1 : lf1.leaf = true := by rw [hlf1]; exact hleaf
    have ok1 : NodeOK g t.heap L lf1 := by
      refine ⟨?_, ?_, ?_, ?_, ?_⟩
      · have hs := ok.sorted
        rw [(split_at hi).1] at hs
        obtain ⟨s1, s2, s3⟩ := List.pairwise_append.mp hs
        rw [hlf1]
        exact List.pairwise_append.mpr ⟨s1, (List.pairwise_cons.mp s2).2,
          fun x hx y hy => s3 x hx y (List.mem_cons_of_mem _ hy)⟩
      · intro x hx
        rw [hl1]
        have := ok.lower x (hsub x hx)
        rw [hleaf] at this
        exact this
      · intro x hx
        exact ok.upper x (hsub x hx)
      · intro _
        refine ⟨hL0, ?_⟩
        rw [hlf1]
        simp only [List.length_append, List.length_take, List.length_drop]
        omega
      · intro hf; rw [hl1] at hf; cases hf
    have inv1 : InvG { t with heap := t.heap.write L lf1 } g none :=
      inv.update_leaf hL hleaf hl1 (by rw [hlf1]) (by rw [hlf1]) ok1
    have hc1 : ∀ k2 v2, Contains { t with heap := t.heap.write L lf1 } k2 v2 ↔
        (k2 ≠ k ∧ Contains t k2 v2) := by
      intro k2 v2
      rw [contains_write_leaf hL lf1 hl1, contains_split_at hL hleaf]
      have hz := zip_erase ok.sorted hi hvl k2 v2
      have hz1 : (k2, v2) ∈ lf1.key.zip lf1.ptr2val ↔
          (k2 ≠ k ∧ (k2, v2) ∈ ln.key.zip ln.ptr2val) := by
        rw [hlf1]; exact hz
      rw [hz1]
      constructor
      · rintro (⟨h1, h2⟩ | ⟨p, hp, hmem⟩)
        · exact ⟨h1, Or.inl h2⟩
        · refine ⟨?_, Or.inr ⟨p, hp, hmem⟩⟩
          rintro rfl
          exact hp (honly p v2 hmem)
      · rintro ⟨h1, h2 | h2⟩
        · exact Or.inl ⟨h1, h2⟩
        · exact Or.inr h2
    have hrun : erase t k =
        if (ln.key.take i ++ ln.key.drop (i + 1)).length ≥ (t.order + 1) / 2 ∨ some L = t.root
        then some { t with heap := t.heap.write L lf1 }
        else handleLeafUnderflow { t with heap := t.heap.write L lf1 } L := by
      simp only [erase, hloc2, hne1, if_false, hL, vget_natCast, hi, ne_eq, not_true_eq_false,
        verase_natCast _ _ hil, verase_natCast ln.ptr2val i (by omega)]
      rw [hlf1]
    rw [hrun]
    by_cases hc : (ln.key.take i ++ ln.key.drop (i + 1)).length ≥ (t.order + 1) / 2 ∨
        some L = t.root
    · rw [if_pos hc]
      exact ⟨_, g, rfl, inv1, rfl, hc1⟩
    · rw [if_neg hc]
      simp only [not_or] at hc
      have hr1 : (t.heap.write L lf1).read L = some lf1 := Heap.read_write_same hL _
      obtain ⟨t2, g2, e1, e2, e3, e4⟩ := handleLeafUnderflow_spec inv1 hord hr1 hl1
        (fun e => hc.2 e.symm)
      refine ⟨t2, g2, e1, e2, e3, ?_⟩
      intro k2 v2
      rw [SamePairs.contains e4, hc1]
  · -- the key is not stored
    have habs : ∀ v, ¬ Contains t k v := by
      rintro v ⟨p, nd, j, h1, h2, h3, h4⟩
      have hmem : (k, v) ∈ pairsAt t.heap p := by
        rw [pairsAt_of_leaf h1 h2]
        exact mem_zip_iff.mpr ⟨j, h3, h4⟩
      have := honly p v hmem
      subst this
      rw [hL] at h1
      obtain rfl : ln = nd := by simpa using h1
      exact hk (List.getElem?_mem h3)
    refine ⟨t, g, erase_absent inv k habs, inv, rfl, ?_⟩
    intro k2 v2
    constructor
    · intro h
      refine ⟨?_, h⟩
      rintro rfl
      exact habs v2 h
    · exact fun h => h.2

end Erase

end BPlus

namespace BPlus

section Reach

variable {K V : Type} [LinearOrder K]

/-- The function `update` on a key that is not stored. -/
theorem update_absent {t : BPTree K V} {g : Ghost K} (inv : InvG t g none) (k : K) (v : V)
    (habs : ∀ v0, ¬ Contains t k v0) : update t k v = some (t, false) := by
  obtain ⟨L, ln, hloc, hL, hleaf, hlo, hhi⟩ := keyIndexInLeaf_spec inv k
  have ok := inv.nodes L ln hL
  obtain ⟨_, hvl⟩ := ok.leafOK hleaf
  rcases locate_cases k ok.sorted with ⟨i, hrank, hi⟩ | ⟨hk, hr0 | ⟨i, x, hrank, hi, hne⟩⟩
  · exfalso
    have hil : i < ln.key.length := (List.getElem?_eq_some.mp hi).1
    have hiv : i < ln.ptr2val.length := by omega
    exact habs ln.ptr2val[i] ⟨L, ln, i, hL, hleaf, hi, List.getElem?_eq_getElem hiv⟩
  · rw [hr0] at hloc
    simp [update, hloc]
  · have hloc2 : keyIndexInLeaf t k = some (some L, (i : Int)) := by
      rw [hloc, hrank]; simp
    have hne1 : ¬ ((i : Int) = -1) := by omega
    simp [update, hloc2, hne1, hL, hi, hne]

/-- The function `update` on a stored key. -/
theorem update_present {t : BPTree K V} {g : Ghost K} (inv : InvG t g none) (k : K) (v : V)
    {v0 : V} (hpres : Contains t k v0) :
    ∃ t1, update t k v = some (t1, true) ∧ InvG t1 g none ∧ t1.order = t.order ∧
      t1.heap.length = t.heap.length ∧
      ∀ k2 v2, Contains t1 k2 v2 ↔ (k2 = k ∧ v2 = v) ∨ (k2 ≠ k ∧ Contains t k2 v2) := by
  obtain ⟨L, ln, hloc, hL, hleaf, hlo, hhi⟩ := keyIndexInLeaf_spec inv k
  have ok := inv.nodes L ln hL
  obtain ⟨ht0, hvl⟩ := ok.leafOK hleaf
  have honly := pairs_only_in_located inv hloc
  have hkin : k ∈ ln.key := by
    obtain ⟨p, nd, j, h1, h2, h3, h4⟩ := hpres
    have hmem : (k, v0) ∈ pairsAt t.heap p := by
      rw [pairsAt_of_leaf h1 h2]
      exact mem_zip_iff.mpr ⟨j, h3, h4⟩
    have := honly p v0 hmem
    subst this
    rw [hL] at h1
    obtain rfl : ln = nd := by simpa using h1
    exact List.getElem?_mem h3
  rcases locate_cases k ok.sorted with ⟨i, hrk, hki⟩ | ⟨hnot, _⟩
  · have hil : i < ln.key.length := (List.getElem?_eq_some.mp hki).1
    have hiv : i < ln.ptr2val.length := by omega
    have e : ((rank ln.key k : Int) - 1) = (i : Int) := by rw [hrk]; push_cast; ring
    rw [e] at hloc
    have hne : ¬ ((i : Int) = -1) := by omega
    obtain ⟨lf1, hlf1⟩ : ∃ lf1 : Node K V, lf1 = { ln with ptr2val := ln.ptr2val.set i v } := ⟨_, rfl⟩
    have hupd : update t k v = some ({ t with heap := t.heap.write L lf1 }, true) := by
      simp [update, hloc, hL, hne, hki, vset_natCast _ _ _ hiv, ← hlf1]
    have ok1 : NodeOK g t.heap L lf1 := by
      refine ⟨by rw [hlf1]; exact ok.sorted, ?_, ?_, ?_, ?_⟩
      · intro x hx; rw [hlf1] at hx ⊢; exact ok.lower x hx
      · intro x hx; rw [hlf1] at hx; exact ok.upper x hx
      · intro _; rw [hlf1]; exact ⟨ht0, by simp [hvl]⟩
      · intro hf; rw [hlf1] at hf; simp [hleaf] at hf
    refine ⟨_, hupd, inv.update_leaf hL hleaf (by rw [hlf1]; exact hleaf) (by rw [hlf1]) (by rw [hlf1]) ok1,
      rfl, by simp, ?_⟩
    intro k2 v2
    rw [contains_write_leaf hL lf1 (by rw [hlf1]; exact hleaf), contains_split_at hL hleaf, hlf1]
    simp only []
    rw [zip_set ok.sorted hki hiv]
    constructor
    · rintro ((h | ⟨h1, h2⟩) | ⟨p, hp1, hp2⟩)
      · exact Or.inl h
      · exact Or.inr ⟨h1, Or.inl h2⟩
      · refine Or.inr ⟨?_, Or.inr ⟨p, hp1, hp2⟩⟩
        rintro rfl
        exact hp1 (honly p v2 hp2)
    · rintro (h | ⟨h1, h2 | ⟨p, hp1, hp2⟩⟩)
      · exact Or.inl (Or.inl h)
      · exact Or.inl (Or.inr ⟨h1, h2⟩)
      · exact Or.inr ⟨p, hp1, hp2⟩
  · exact absurd hkin hnot

/-! ### The operations on any well-formed tree, the empty one included -/

theorem Inv.eq_new {t : BPTree K V} (h1 : t.root = none) (h2 : t.heap = []) :
    t = BPTree.new t.order := by
  cases t
  simp only [BPTree.new] at *
  simp [h1, h2]

theorem not_contains_empty {t : BPTree K V} (h2 : t.heap = []) (k : K) (v : V) :
    ¬ Contains t k v := by
  rintro ⟨p, nd, i, h, _⟩
  rw [h2] at h
  simp [Heap.read_def] at h

theorem insert_inv {t : BPTree K V} (hi : Inv t) (hord : 2 ≤ t.order) (k : K) (v : V) :
    ∃ t1, insert t k v = some t1 ∧ Inv t1 ∧ t1.order = t.order ∧
      ∀ k2 v2, Contains t1 k2 v2 ↔ (k2 = k ∧ v2 = v) ∨ (k2 ≠ k ∧ Contains t k2 v2) := by
  rcases hi with ⟨h1, h2⟩ | ⟨g, inv⟩
  · obtain ⟨t1, g1, e1, e2, e3, e4⟩ := insert_empty (V := V) t.order k v
    rw [← Inv.eq_new h1 h2] at e1
    refine ⟨t1, e1, Or.inr ⟨g1, e2⟩, e3, ?_⟩
    intro k2 v2
    rw [e4]
    constructor
    · exact fun h => Or.inl h
    · rintro (h | ⟨_, h⟩)
      · exact h
      · exact absurd h (not_contains_empty h2 k2 v2)
  · obtain ⟨t1, g1, e1, e2, e3, e4⟩ := insert_spec inv hord k v
    exact ⟨t1, e1, Or.inr ⟨g1, e2⟩, e3, e4⟩

theorem erase_inv {t : BPTree K V} (hi : Inv t) (hord : 2 ≤ t.order) (k : K) :
    ∃ t1, erase t k = some t1 ∧ Inv t1 ∧ t1.order = t.order ∧
      ∀ k2 v2, Contains t1 k2 v2 ↔ (k2 ≠ k ∧ Contains t k2 v2) := by
  rcases hi with ⟨h1, h2⟩ | ⟨g, inv⟩
  · refine ⟨t, by simp [erase, keyIndexInLeaf, h1], Or.inl ⟨h1, h2⟩, rfl, ?_⟩
    intro k2 v2
    constructor
    · exact fun h => absurd h (not_contains_empty h2 k2 v2)
    · exact fun h => h.2
  · obtain ⟨t1, g1, e1, e2, e3, e4⟩ := erase_spec inv (by omega) k
    exact ⟨t1, e1, Or.inr ⟨g1, e2⟩, e3, e4⟩

theorem update_inv {t : BPTree K V} (hi : Inv t) (k : K) (v : V) :
    ∃ t1 b, update t k v = some (t1, b) ∧ Inv t1 ∧ t1.order = t.order ∧
      (b = true ↔ ∃ v0, Contains t k v0) ∧
      ∀ k2 v2, Contains t1 k2 v2 ↔
        ((∃ v0, Contains t k v0) ∧ k2 = k ∧ v2 = v) ∨ (k2 ≠ k ∧ Contains t k2 v2) := by
  rcases hi with ⟨h1, h2⟩ | ⟨g, inv⟩
  · refine ⟨t, false, by simp [update, keyIndexInLeaf, h1], Or.inl ⟨h1, h2⟩, rfl, ?_, ?_⟩
    · constructor
      · intro h; cases h
      · rintro ⟨v0, h⟩
        exact absurd h (not_contains_empty h2 k v0)
    · intro k2 v2
      constructor
      · exact fun h => absurd h (not_contains_empty h2 k2 v2)
      · rintro (⟨⟨v0, h⟩, _⟩ | ⟨_, h⟩)
        · exact absurd h (not_contains_empty h2 k v0)
        · exact h
  · by_cases hp : ∃ v0, Contains t k v0
    · obtain ⟨v0, hv0⟩ := hp
      obtain ⟨t1, e1, e2, e3, _, e4⟩ := update_present inv k v hv0
      refine ⟨t1, true, e1, Or.inr ⟨g, e2⟩, e3, ?_, ?_⟩
      · exact ⟨fun _ => ⟨v0, hv0⟩, fun _ => rfl⟩
      · intro k2 v2
        rw [e4]
        constructor
        · rintro (h | h)
          · exact Or.inl ⟨⟨v0, hv0⟩, h⟩
          · exact Or.inr h
        · rintro (⟨_, h⟩ | h)
          · exact Or.inl h
          · exact Or.inr h
    · have habs : ∀ v0, ¬ Contains t k v0 := fun v0 h => hp ⟨v0, h⟩
      refine ⟨t, false, update_absent inv k v habs, Or.inr ⟨g, inv⟩, rfl, ?_, ?_⟩
      · constructor
        · intro h; cases h
        · intro h; exact absurd h hp
      · intro k2 v2
        constructor
        · intro h
          refine Or.inr ⟨?_, h⟩
          rintro rfl
          exact habs v2 h
        · rintro (⟨h, _⟩ | ⟨_, h⟩)
          · exact absurd h hp
          · exact h

/-- What `find` returns on a well-formed tree. -/
theorem find_inv {t : BPTree K V} (hi : Inv t) (k : K) :
    (∀ v, Contains t k v → find t k = some (some v)) ∧
    ((∀ v, ¬ Contains t k v) → find t k = some none) := by
  rcases hi with ⟨h1, h2⟩ | ⟨g, inv⟩
  · constructor
    · intro v h
      exact absurd h (not_contains_empty h2 k v)
    · intro _
      simp [find, keyIndexInLeaf, h1]
  · exact ⟨fun v h => find_of_contains inv h, fun h => find_of_not_contains inv h⟩

theorem step_inv {t : BPTree K V} (hi : Inv t) (hord : 2 ≤ t.order) (op : Op K V) :
    ∃ t1, step t op = some t1 ∧ Inv t1 ∧ t1.order = t.order := by
  cases op with
  | insert k v =>
    obtain ⟨t1, e1, e2, e3, _⟩ := insert_inv hi hord k v
    exact ⟨t1, e1, e2, e3⟩
  | erase k =>
    obtain ⟨t1, e1, e2, e3, _⟩ := erase_inv hi hord k
    exact ⟨t1, e1, e2, e3⟩
  | update k v =>
    obtain ⟨t1, b, e1, e2, e3, _⟩ := update_inv hi k v
    exact ⟨t1, by simp [step, e1], e2, e3⟩

theorem runFrom_inv : ∀ (ops : List (Op K V)) (t : BPTree K V), Inv t → 2 ≤ t.order →
    ∃ t1, runFrom t ops = some t1 ∧ Inv t1 ∧ t1.order = t.order := by
  intro ops
  induction ops with
  | nil => intro t hi _; exact ⟨t, rfl, hi, rfl⟩
  | cons op ops ih =>
    intro t hi hord
    obtain ⟨t1, e1, e2, e3⟩ := step_inv hi hord op
    obtain ⟨t2, f1, f2, f3⟩ := ih t1 e2 (by rw [e3]; exact hord)
    exact ⟨t2, by simp [runFrom, e1, f1], f2, by rw [f3, e3]⟩

/-- Every run of the public operations from the empty tree of an order of at
least two ends, in a well-formed tree. -/
theorem run_inv (n : Nat) (hn : 2 ≤ n) (ops : List (Op K V)) :
    ∃ t, run n ops = some t ∧ Inv t ∧ t.order = n := by
  obtain ⟨t, e1, e2, e3⟩ := runFrom_inv ops (BPTree.new n : BPTree K V) (Or.inl ⟨rfl, rfl⟩) hn
  exact ⟨t, e1, e2, e3⟩

theorem runFrom_append (t : BPTree K V) (ops1 ops2 : List (Op K V)) :
    runFrom t (ops1 ++ ops2) = (runFrom t ops1).bind fun t1 => runFrom t1 ops2 := by
  induction ops1 generalizing t with
  | nil => rfl
  | cons op ops ih =>
    simp only [List.cons_append, runFrom]
    cases step t op with
    | none => rfl
    | some t1 => exact ih t1

end Reach

end BPlus

namespace BPlus

section Traversal

variable {K V : Type} [LinearOrder K]

/-! ### The traversal of the children -/

theorem collect_all {α : Type} {f : Nat → Option (List α)} {Q : α → Prop} :
    ∀ (cs : List (Option Nat)),
      (∀ c ∈ cs, ∃ x xs, c = some x ∧ f x = some xs ∧ ∀ e ∈ xs, Q e) →
      ∃ ys, collect f cs = some ys ∧ ∀ e ∈ ys, Q e := by
  intro cs
  induction cs with
  | nil => intro _; exact ⟨[], rfl, by simp⟩
  | cons c cs ih =>
    intro hall
    obtain ⟨x, xs, rfl, hx, hq⟩ := hall c (by simp)
    obtain ⟨ys, hys, hqy⟩ := ih (fun c hc => hall c (by simp [hc]))
    refine ⟨xs ++ ys, by simp [collect, hx, hys], ?_⟩
    intro e he
    rcases List.mem_append.mp he with h | h
    · exact hq e h
    · exact hqy e h

theorem collect_mem {α : Type} {f : Nat → Option (List α)} :
    ∀ (cs : List (Option Nat)) {ys : List α}, collect f cs = some ys →
      ∀ x xs, some x ∈ cs → f x = some xs → ∀ e ∈ xs, e ∈ ys := by
  intro cs
  induction cs with
  | nil => intro ys _ x xs hx; simp at hx
  | cons c cs ih =>
    intro ys hys x xs hx hfx e he
    cases c with
    | none => simp [collect] at hys
    | some c1 =>
      cases hc1 : f c1 with
      | none => simp [collect, hc1] at hys
      | some zs =>
        cases hrest : collect f cs with
        | none => simp [collect, hc1, hrest] at hys
        | some ws =>
          simp only [collect, hc1, hrest, Option.some.injEq] at hys
          subst hys
          rcases List.mem_cons.mp hx with h | h
          · obtain rfl : x = c1 := by simpa using h
            rw [hc1] at hfx
            obtain rfl : zs = xs := by simpa using hfx
            exact List.mem_append_left _ he
          · exact List.mem_append_right _ (ih hrest x xs h hfx e he)

/-- The children of a node, each listing sorted keys of its range, list sorted
keys of the range of the node. -/
theorem collect_sorted {P : Option Nat → Option K → Option K → Prop}
    {f : Nat → Option (List (K × V))} {Q : K × V → Prop} :
    ∀ (ks : List K) (lo hi : Option K) (cs : List (Option Nat)),
      Kids P lo ks cs hi → ks.Pairwise (fun a b => a < b) → (∀ k ∈ ks, loLt lo k) →
      (∀ k ∈ ks, ltHi k hi) →
      (∀ c l u, c ∈ cs → P c l u → ∃ x es, c = some x ∧ f x = some es ∧
        (es.map Prod.fst).Pairwise (fun a b => a < b) ∧
        ∀ e ∈ es, loLe l e.1 ∧ ltHi e.1 u ∧ Q e) →
      ∃ ys, collect f cs = some ys ∧ (ys.map Prod.fst).Pairwise (fun a b => a < b) ∧
        ∀ e ∈ ys, loLe lo e.1 ∧ ltHi e.1 hi ∧ Q e := by
  intro ks
  induction ks with
  | nil =>
    intro lo hi cs hk _ _ _ hall
    obtain ⟨c, rfl, hc⟩ := hk
    obtain ⟨x, es, rfl, hx, hs, hb⟩ := hall c lo hi (by simp) hc
    exact ⟨es, by simp [collect, hx], hs, hb⟩
  | cons k ks ih =>
    intro lo hi cs hk hsort hlo hhi hall
    obtain ⟨c, cs1, rfl, hc, hrest⟩ := hk
    obtain ⟨hk1, hs1⟩ := List.pairwise_cons.mp hsort
    obtain ⟨x, es, rfl, hx, hs, hb⟩ := hall c lo (some k) (by simp) hc
    obtain ⟨ys, hys, hsy, hby⟩ := ih (some k) hi cs1 hrest hs1
      (fun z hz => by simpa using hk1 z hz) (fun z hz => hhi z (by simp [hz]))
      (fun c l u hc h => hall c l u (by simp [hc]) h)
    refine ⟨es ++ ys, by simp [collect, hx, hys], ?_, ?_⟩
    · rw [List.map_append]
      refine List.pairwise_append.mpr ⟨hs, hsy, ?_⟩
      intro a ha b hb2
      obtain ⟨e1, he1, rfl⟩ := List.mem_map.mp ha
      obtain ⟨e2, he2, rfl⟩ := List.mem_map.mp hb2
      have h1 := (hb e1 he1).2.1
      have h2 := (hby e2 he2).1
      simp only [ltHi_some] at h1
      simp only [loLe_some] at h2
      exact lt_of_lt_of_le h1 h2
    · intro e he
      rcases List.mem_append.mp he with h | h
      · obtain ⟨h1, h2, h3⟩ := hb e h
        simp only [ltHi_some] at h2
        exact ⟨h1, ltHi.anti (le_of_lt h2) (hhi k (by simp)), h3⟩
      · obtain ⟨h1, h2, h3⟩ := hby e h
        simp only [loLe_some] at h1
        exact ⟨((hlo k (by simp)).mono_lt h1).loLe, h2, h3⟩

/-- The traversal below a node ends and lists, in strictly ascending order of
the keys, pairs of the range of the node that are stored in leaves. -/
theorem entriesLoop_spec {t : BPTree K V} {g : Ghost K} {exc : Option Nat}
    (inv : InvG t g exc) :
    ∀ (d p : Nat) (nd : Node K V), t.heap.read p = some nd → g.ht p = d →
      ∀ fuel, d < fuel → ∃ es, entriesLoop t.heap fuel p = some es ∧
        (es.map Prod.fst).Pairwise (fun a b => a < b) ∧
        (∀ e ∈ es, loLe (g.lo p) e.1 ∧ ltHi e.1 (g.hi p)) ∧
        (∀ e ∈ es, ∃ L, e ∈ pairsAt t.heap L) ∧
        (nd.leaf = true → es = nd.key.zip nd.ptr2val) := by
  intro d
  induction d with
  | zero =>
    intro p nd hp hd fuel hf
    obtain ⟨f1, rfl⟩ : ∃ f1, fuel = f1 + 1 := ⟨fuel - 1, by omega⟩
    have ok := inv.nodes p nd hp
    have hl : nd.leaf = true := ok.leaf_iff.mpr hd
    obtain ⟨_, hvl⟩ := ok.leafOK hl
    have hfst : (nd.key.zip nd.ptr2val).map Prod.fst = nd.key :=
      List.map_fst_zip _ _ (by omega)
    refine ⟨nd.key.zip nd.ptr2val, by simp [entriesLoop, hp, hl], ?_, ?_, ?_, fun _ => rfl⟩
    · rw [hfst]; exact ok.sorted
    · intro e he
      have : e.1 ∈ nd.key := by
        rw [← hfst]; exact List.mem_map_of_mem _ he
      exact ok.range_of_mem this
    · intro e he
      exact ⟨p, by rw [pairsAt_of_leaf hp hl]; exact he⟩
  | succ d ih =>
    intro p nd hp hd fuel hf
    obtain ⟨f1, rfl⟩ : ∃ f1, fuel = f1 + 1 := ⟨fuel - 1, by omega⟩
    have ok := inv.nodes p nd hp
    have hl : nd.leaf = false := by
      cases hb : nd.leaf with
      | false => rfl
      | true => have := ok.leaf_iff.mp hb; omega
    have hk := ok.kids hl
    have hlow : ∀ k ∈ nd.key, loLt (g.lo p) k := by
      intro k hk
      have := ok.lower k hk
      simpa [hl] using this
    obtain ⟨ys, hys, hs, hb⟩ := collect_sorted (f := entriesLoop t.heap f1)
      (Q := fun e => ∃ L, e ∈ pairsAt t.heap L)
      nd.key (g.lo p) (g.hi p) nd.ptr2node hk ok.sorted hlow ok.upper (by
        rintro c l u hc ⟨c1, cn, rfl, h1, h2, h3, h4, h5⟩
        obtain ⟨es, e1, e2, e3, e4, _⟩ := ih c1 cn h1 (by omega) f1 (by omega)
        refine ⟨c1, es, rfl, e1, e2, ?_⟩
        intro e he
        rw [← h4, ← h5]
        exact ⟨(e3 e he).1, (e3 e he).2, e4 e he⟩)
    refine ⟨ys, by simp [entriesLoop, hp, hl, hys], hs, fun e he => ⟨(hb e he).1, (hb e he).2.1⟩,
      fun e he => (hb e he).2.2, ?_⟩
    intro hf2
    rw [hl] at hf2
    cases hf2

end Traversal

end BPlus

namespace BPlus

section Observe

variable {K V : Type} [LinearOrder K]

/-- A pair listed below a node is listed below the root. -/
theorem entries_up {t : BPTree K V} {g : Ghost K} {exc : Option Nat} (inv : InvG t g exc)
    (e : K × V) :
    ∀ (n X : Nat) (xn : Node K V), t.heap.length ≤ g.ht X + n → t.heap.read X = some xn →
      (∀ fuel, g.ht X < fuel → ∃ es, entriesLoop t.heap fuel X = some es ∧ e ∈ es) →
      ∃ r, t.root = some r ∧
        ∀ fuel, g.ht r < fuel → ∃ es, entriesLoop t.heap fuel r = some es ∧ e ∈ es := by
  intro n
  induction n with
  | zero =>
    intro X xn hn hX _
    have := inv.low X xn hX
    omega
  | succ n ih =>
    intro X xn hn hX hP
    by_cases hr : t.root = some X
    · exact ⟨X, hr, hP⟩
    · obtain ⟨Q, qn, a, b, ca, cb, hpar, hQ, hql, _, hptr, _, hht, _⟩ := parent_split inv hX hr
      refine ih Q qn (by omega) hQ ?_
      intro fuel hf
      obtain ⟨f1, rfl⟩ : ∃ f1, fuel = f1 + 1 := ⟨fuel - 1, by omega⟩
      obtain ⟨xs, hxs, hex⟩ := hP f1 (by omega)
      obtain ⟨ys, hys, _⟩ := entriesLoop_spec inv (g.ht Q) Q qn hQ rfl (f1 + 1) hf
      refine ⟨ys, hys, ?_⟩
      have hc : collect (entriesLoop t.heap f1) qn.ptr2node = some ys := by
        simpa [entriesLoop, hQ, hql] using hys
      exact collect_mem _ hc X xs (by rw [hptr]; simp) hxs e hex

/-- The left-to-right traversal of a well-formed tree ends; it lists the
stored pairs, each once, in strictly ascending order of the keys. -/
theorem entries_spec {t : BPTree K V} (hi : Inv t) :
    ∃ es, entries t = some es ∧ (es.map Prod.fst).Pairwise (fun a b => a < b) ∧
      ∀ k v, (k, v) ∈ es ↔ Contains t k v := by
  rcases hi with ⟨h1, h2⟩ | ⟨g, inv⟩
  · refine ⟨[], by simp [entries, h1], by simp, ?_⟩
    intro k v
    constructor
    · intro h; simp at h
    · intro h; exact absurd h (not_contains_empty h2 k v)
  · obtain ⟨r, rn, hroot, hr, _⟩ := inv.root
    have hlow := inv.low r rn hr
    obtain ⟨es, e1, e2, _, e4, _⟩ := entriesLoop_spec inv (g.ht r) r rn hr rfl t.heap.length hlow
    refine ⟨es, by simp [entries, hroot, e1], e2, ?_⟩
    intro k v
    constructor
    · intro h
      rw [contains_iff_pairs]
      exact e4 (k, v) h
    · intro h
      rw [contains_iff_pairs] at h
      obtain ⟨L, hL⟩ := h
      obtain ⟨ln, h1, h2, h3⟩ := mem_pairsAt.mp hL
      have hP : ∀ fuel, g.ht L < fuel →
          ∃ es, entriesLoop t.heap fuel L = some es ∧ (k, v) ∈ es := by
        intro fuel hf
        obtain ⟨xs, f1, _, _, _, f5⟩ := entriesLoop_spec inv (g.ht L) L ln h1 rfl fuel hf
        exact ⟨xs, f1, by rw [f5 h2]; exact h3⟩
      obtain ⟨r1, hr1, hup⟩ := entries_up inv (k, v) t.heap.length L ln (by omega) h1 hP
      rw [hroot] at hr1
      obtain rfl : r = r1 := by simpa using hr1
      obtain ⟨es1, g1, g2⟩ := hup t.heap.length hlow
      rw [e1] at g1
      obtain rfl : es = es1 := by simpa using g1
      exact g2

/-- The keys met by the left-to-right traversal: strictly ascending, and
exactly the stored keys. -/
theorem leafKeys_spec {t : BPTree K V} (hi : Inv t) :
    ∃ ks, leafKeys t = some ks ∧ ks.Pairwise (fun a b => a < b) ∧
      ∀ k, k ∈ ks ↔ ∃ v, Contains t k v := by
  obtain ⟨es, e1, e2, e3⟩ := entries_spec hi
  refine ⟨es.map Prod.fst, by simp [leafKeys, e1], e2, ?_⟩
  intro k
  constructor
  · intro h
    obtain ⟨e, he, rfl⟩ := List.mem_map.mp h
    exact ⟨e.2, (e3 e.1 e.2).mp he⟩
  · rintro ⟨v, h⟩
    exact List.mem_map.mpr ⟨(k, v), (e3 k v).mpr h, rfl⟩

/-- Two strictly ascending lists with the same members are equal. -/
theorem sorted_ext {l1 l2 : List K} (h1 : l1.Pairwise (fun a b => a < b))
    (h2 : l2.Pairwise (fun a b => a < b)) (h : ∀ k, k ∈ l1 ↔ k ∈ l2) : l1 = l2 := by
  have d1 : l1.Nodup := h1.imp (fun h => ne_of_lt h)
  have d2 : l2.Nodup := h2.imp (fun h => ne_of_lt h)
  have hp : l1.Perm l2 := (List.perm_ext_iff_of_nodup d1 d2).mpr h
  exact List.eq_of_perm_of_sorted hp h1 h2

/-! ### The depth of the leaves -/

theorem depthsLoop_spec {t : BPTree K V} {g : Ghost K} {exc : Option Nat}
    (inv : InvG t g exc) :
    ∀ (d p : Nat) (nd : Node K V), t.heap.read p = some nd → g.ht p = d →
      ∀ fuel, d < fuel → ∀ dep, ∃ ds, depthsLoop t.heap fuel p dep = some ds ∧
        ∀ x ∈ ds, x = dep + d := by
  intro d
  induction d with
  | zero =>
    intro p nd hp hd fuel hf dep
    obtain ⟨f1, rfl⟩ : ∃ f1, fuel = f1 + 1 := ⟨fuel - 1, by omega⟩
    have ok := inv.nodes p nd hp
    have hl : nd.leaf = true := ok.leaf_iff.mpr hd
    exact ⟨[dep], by simp [depthsLoop, hp, hl], by simp⟩
  | succ d ih =>
    intro p nd hp hd fuel hf dep
    obtain ⟨f1, rfl⟩ : ∃ f1, fuel = f1 + 1 := ⟨fuel - 1, by omega⟩
    have ok := inv.nodes p nd hp
    have hl : nd.leaf = false := by
      cases hb : nd.leaf with
      | false => rfl
      | true => have := ok.leaf_iff.mp hb; omega
    obtain ⟨ys, hys, hq⟩ := collect_all (f := fun c => depthsLoop t.heap f1 c (dep + 1))
      (Q := fun x => x = dep + (d + 1)) nd.ptr2node (by
        intro c hc
        obtain ⟨c1, cn, rfl, h1, _, h3⟩ := ok.child hl hc
        obtain ⟨ds, e1, e2⟩ := ih c1 cn h1 (by omega) f1 (by omega) (dep + 1)
        exact ⟨c1, ds, rfl, e1, fun x hx => by rw [e2 x hx]; omega⟩)
    exact ⟨ys, by simp [depthsLoop, hp, hl, hys], hq⟩

/-- All leaves of a well-formed tree are at the same depth. -/
theorem leafDepths_spec {t : BPTree K V} (hi : Inv t) :
    ∃ ds, leafDepths t = some ds ∧ ∀ x ∈ ds, ∀ y ∈ ds, x = y := by
  rcases hi with ⟨h1, h2⟩ | ⟨g, inv⟩
  · exact ⟨[], by simp [leafDepths, h1], by simp⟩
  · obtain ⟨r, rn, hroot, hr, _⟩ := inv.root
    have hlow := inv.low r rn hr
    obtain ⟨ds, e1, e2⟩ := depthsLoop_spec inv (g.ht r) r rn hr rfl t.heap.length hlow 0
    refine ⟨ds, by simp [leafDepths, hroot, e1], ?_⟩
    intro x hx y hy
    rw [e2 x hx, e2 y hy]

end Observe

end BPlus

namespace BPlus

section Size

variable {K V : Type} [LinearOrder K]

theorem parentOf_eq {h : Heap K V} {x p : Nat} {xn : Node K V} (hx : h.read x = some xn)
    (hp : xn.parent = some p) : parentOf h x = p := by
  simp [parentOf, hx, hp]

/-- Every address below a node belongs to a live node that is not higher and
has the node as its ancestor. -/
theorem nodesBelow_spec {t : BPTree K V} {g : Ghost K} {exc : Option Nat}
    (inv : InvG t g exc) :
    ∀ (d c : Nat) (cn : Node K V), t.heap.read c = some cn → g.ht c = d →
      ∀ y ∈ nodesBelow t.heap d c, g.ht y ≤ d ∧ (∃ yn, t.heap.read y = some yn) ∧
        (parentOf t.heap)^[d - g.ht y] y = c := by
  intro d
  induction d with
  | zero =>
    intro c cn hc hd y hy
    simp only [nodesBelow, List.mem_singleton] at hy
    subst hy
    exact ⟨by omega, ⟨cn, hc⟩, by simp [hd]⟩
  | succ d ih =>
    intro c cn hc hd y hy
    have ok := inv.nodes c cn hc
    have hl : cn.leaf = false := by
      cases hb : cn.leaf with
      | false => rfl
      | true => have := ok.leaf_iff.mp hb; omega
    simp only [nodesBelow, hc, List.mem_cons, List.mem_flatMap] at hy
    rcases hy with rfl | ⟨ch, hch, hy⟩
    · exact ⟨by omega, ⟨cn, hc⟩, by simp [hd]⟩
    · obtain ⟨x, xn, rfl, hx, hxp, hxh⟩ := ok.child hl hch
      simp only at hy
      obtain ⟨h1, h2, h3⟩ := ih x xn hx (by omega) y hy
      refine ⟨by omega, h2, ?_⟩
      have e : d + 1 - g.ht y = (d - g.ht y) + 1 := by omega
      rw [e, Function.iterate_succ_apply', h3]
      exact parentOf_eq hx hxp

theorem nodesBelow_nodup {t : BPTree K V} {g : Ghost K} {exc : Option Nat}
    (inv : InvG t g exc) :
    ∀ (d c : Nat) (cn : Node K V), t.heap.read c = some cn → g.ht c = d →
      (nodesBelow t.heap d c).Nodup := by
  intro d
  induction d with
  | zero => intro c cn _ _; simp [nodesBelow]
  | succ d ih =>
    intro c cn hc hd
    have ok := inv.nodes c cn hc
    have hl : cn.leaf = false := by
      cases hb : cn.leaf with
      | false => rfl
      | true => have := ok.leaf_iff.mp hb; omega
    simp only [nodesBelow, hc]
    refine List.nodup_cons.mpr ⟨?_, ?_⟩
    · intro hmem
      simp only [List.mem_flatMap] at hmem
      obtain ⟨ch, hch, hy⟩ := hmem
      obtain ⟨x, xn, rfl, hx, hxp, hxh⟩ := ok.child hl hch
      have := (nodesBelow_spec inv d x xn hx (by omega) c hy).1
      omega
    · rw [List.nodup_flatMap]
      refine ⟨?_, ?_⟩
      · intro ch hch
        obtain ⟨x, xn, rfl, hx, hxp, hxh⟩ := ok.child hl hch
        exact ih x xn hx (by omega)
      · have hnd := ok.nodup hl
        refine List.Pairwise.imp_of_mem ?_ hnd
        intro a b ha hb hab
        obtain ⟨x1, xn1, rfl, hx1, _, hh1⟩ := ok.child hl ha
        obtain ⟨x2, xn2, rfl, hx2, _, hh2⟩ := ok.child hl hb
        intro y hy1 hy2
        have e1 := (nodesBelow_spec inv d x1 xn1 hx1 (by omega) y hy1).2.2
        have e2 := (nodesBelow_spec inv d x2 xn2 hx2 (by omega) y hy2).2.2
        rw [e1] at e2
        exact hab (by rw [e2])

/-- There are at most as many nodes below a node as the store has cells. -/
theorem nodesBelow_length_le {t : BPTree K V} {g : Ghost K} {exc : Option Nat}
    (inv : InvG t g exc) {c : Nat} {cn : Node K V} (hc : t.heap.read c = some cn) :
    (nodesBelow t.heap (g.ht c) c).length ≤ t.heap.length := by
  have hnd := nodesBelow_nodup inv (g.ht c) c cn hc rfl
  have hsub : nodesBelow t.heap (g.ht c) c ⊆ List.range t.heap.length := by
    intro y hy
    obtain ⟨_, ⟨yn, hyn⟩, _⟩ := nodesBelow_spec inv (g.ht c) c cn hc rfl y hy
    exact List.mem_range.mpr (Heap.read_lt hyn)
  have := (List.subperm_of_subset hnd hsub).length_le
  simpa using this

theorem nodesBelow_pos (h : Heap K V) (d c : Nat) : 1 ≤ (nodesBelow h d c).length := by
  cases d <;> simp [nodesBelow]

theorem queueSize_cons (g : Ghost K) (h : Heap K V) (x : Nat) (q : List (Option Nat)) :
    queueSize g h (some x :: q) = (nodesBelow h (g.ht x) x).length + queueSize g h q := by
  simp [queueSize]

theorem queueSize_append (g : Ghost K) (h : Heap K V) (q1 q2 : List (Option Nat)) :
    queueSize g h (q1 ++ q2) = queueSize g h q1 + queueSize g h q2 := by
  simp [queueSize]

/-- The nodes below an internal node: itself and the nodes below its children. -/
theorem nodesBelow_internal {t : BPTree K V} {g : Ghost K} {exc : Option Nat}
    (inv : InvG t g exc) {c : Nat} {cn : Node K V} (hc : t.heap.read c = some cn)
    (hl : cn.leaf = false) :
    (nodesBelow t.heap (g.ht c) c).length = 1 + queueSize g t.heap cn.ptr2node := by
  have ok := inv.nodes c cn hc
  have hpos := ok.ht_pos hl
  obtain ⟨d, hd⟩ : ∃ d, g.ht c = d + 1 := ⟨g.ht c - 1, by omega⟩
  rw [hd]
  simp only [nodesBelow, hc, List.length_cons, List.length_flatMap, queueSize]
  rw [Nat.add_comm]
  congr 1
  congr 1
  apply List.map_congr_left
  intro ch hch
  obtain ⟨x, xn, rfl, hx, hxp, hxh⟩ := ok.child hl hch
  have : g.ht x = d := by omega
  simp [this]

/-- The loop of `serialize` ends when its fuel covers the nodes below the queue. -/
theorem serializeLoop_total {t : BPTree K V} {g : Ghost K} {exc : Option Nat}
    (inv : InvG t g exc) :
    ∀ (fuel : Nat) (q : List (Option Nat)),
      (∀ c ∈ q, ∃ x xn, c = some x ∧ t.heap.read x = some xn) →
      queueSize g t.heap q ≤ fuel → ∃ s, serializeLoop t.heap fuel q = some s := by
  intro fuel
  induction fuel with
  | zero =>
    intro q hq hs
    cases q with
    | nil => exact ⟨[], rfl⟩
    | cons c q1 =>
      obtain ⟨x, xn, rfl, hx⟩ := hq c (by simp)
      rw [queueSize_cons] at hs
      have := nodesBelow_pos t.heap (g.ht x) x
      omega
  | succ fuel ih =>
    intro q hq hs
    cases q with
    | nil => exact ⟨[], rfl⟩
    | cons c q1 =>
      obtain ⟨x, xn, rfl, hx⟩ := hq c (by simp)
      rw [queueSize_cons] at hs
      have hq1 : ∀ c ∈ q1, ∃ x xn, c = some x ∧ t.heap.read x = some xn :=
        fun c hc => hq c (by simp [hc])
      cases hl : xn.leaf with
      | true =>
        have := nodesBelow_pos t.heap (g.ht x) x
        obtain ⟨s, hs1⟩ := ih q1 hq1 (by omega)
        simp only [serializeLoop, hx, hl, hs1, if_true]
        exact ⟨_, rfl⟩
      | false =>
        have ok := inv.nodes x xn hx
        rw [nodesBelow_internal inv hx hl] at hs
        obtain ⟨s, hs1⟩ := ih (q1 ++ xn.ptr2node) (by
          intro c hc
          rcases List.mem_append.mp hc with h | h
          · exact hq1 c h
          · obtain ⟨y, yn, e1, e2, _⟩ := ok.child hl h
            exact ⟨y, yn, e1, e2⟩) (by rw [queueSize_append]; omega)
        simp only [serializeLoop, hx, hl, hs1, Bool.false_eq_true, if_false]
        exact ⟨_, rfl⟩

/-- The function `serialize` ends on a well-formed tree. -/
theorem serialize_total {t : BPTree K V} {g : Ghost K} (inv : InvG t g none) :
    ∃ r s, t.root = some r ∧ serializeLoop t.heap t.heap.length [some r] = some s ∧
      serialize t = some s := by
  obtain ⟨r, rn, hroot, hr, _⟩ := inv.root
  obtain ⟨s, hs⟩ := serializeLoop_total inv t.heap.length [some r]
    (by intro c hc; simp only [List.mem_singleton] at hc; exact ⟨r, rn, hc, hr⟩)
    (by rw [queueSize_cons]; simp [queueSize]; exact nodesBelow_length_le inv hr)
  exact ⟨r, s, hroot, hs, by simp [serialize, hroot, hs]⟩

end Size

end BPlus

namespace BPlus

section DecodeStep

variable {K V : Type} [LinearOrder K] [Inhabited K] [Inhabited V]

theorem readKeys_map (ks : List K) (rest : List (Tok K V)) :
    readKeys ks.length (ks.map Tok.key ++ rest) = some (ks, rest) := by
  induction ks with
  | nil => simp [readKeys]
  | cons k ks ih => simp [readKeys, ih]

theorem readVals_map (vs : List V) (rest : List (Tok K V)) :
    readVals vs.length (vs.map Tok.val ++ rest) = some (vs, rest) := by
  induction vs with
  | nil => simp [readVals]
  | cons v vs ih => simp [readVals, ih]

theorem indexOf_none_mid (l r : List (Option Nat)) (h : none ∉ l) :
    (l ++ none :: r).indexOf none = l.length := by
  induction l with
  | nil => simp [List.indexOf, List.findIdx_cons]
  | cons y ys ih =>
    have h1 : y ≠ none := fun e => h (by simp [e])
    have h2 : none ∉ ys := fun e => h (by simp [e])
    have := ih h2
    simp only [List.indexOf] at this ⊢
    simp only [List.cons_append, List.findIdx_cons, List.length_cons]
    have h3 : (y == none) = false := by
      cases y with
      | none => exact absurd rfl h1
      | some _ => rfl
    rw [h3]
    simp only [cond_false]
    omega

theorem set_mid {α : Type} (l r : List α) (x y : α) :
    (l ++ x :: r).set l.length y = l ++ y :: r := by
  induction l with
  | nil => simp
  | cons a l ih => simp [ih]

/-- The loop `// Find the correct position to insert the child` on a parent
whose first free slot follows the children `F`. -/
theorem linkChild_spec {h : Heap K V} {P j : Nat} {q c : Node K V} {F : List (Option Nat)}
    {m : Nat} (hP : h.read P = some q) (hptr : q.ptr2node = F ++ List.replicate (m + 1) none)
    (hF : none ∉ F) (hj : h.read j = some c) (hjP : j ≠ P) :
    linkChild h P j = some ((h.write P
      { q with ptr2node := F ++ some j :: List.replicate m none }).write j
      { c with parent := some P }) := by
  have e1 : q.ptr2node = F ++ none :: List.replicate m none := by
    rw [hptr, List.replicate_succ]
  have e2 : q.ptr2node.indexOf none = F.length := by
    rw [e1]; exact indexOf_none_mid _ _ hF
  have e3 : F.length < q.ptr2node.length := by
    rw [e1]; simp
  have e4 : q.ptr2node.set F.length (some j) = F ++ some j :: List.replicate m none := by
    rw [e1]; exact set_mid _ _ _ _
  have e5 : (h.write P { q with ptr2node := F ++ some j :: List.replicate m none }).read j =
      some c := by
    rw [Heap.read_write_ne _ hjP]; exact hj
  simp only [linkChild, hP, e2, e3, if_true, e4, e5]

/-- One round of the loop of `deserialize` on the record of a node that is
not the first one. -/
theorem dec_step (h1 : Heap K V) (ord r1 : Nat) (lf : Bool) (keys : List K) (vals : List V)
    (rest : List (Tok K V)) (P : Nat) (pq : List Nat) (pn : Node K V) (F : List (Option Nat))
    (m f1 : Nat) (hP : h1.read P = some pn)
    (hptr : pn.ptr2node = F ++ List.replicate (m + 1) none) (hF : none ∉ F)
    (hv : lf = true → vals.length = keys.length) :
    deserializeLoop (f1 + 1)
        (Tok.flag lf :: Tok.count keys.length ::
          (keys.map Tok.key ++ ((if lf then vals.map Tok.val else []) ++ rest)))
        (P :: pq) { order := ord, root := some r1, heap := h1 } =
      deserializeLoop f1 rest
        (if lf then pq else pq ++ List.replicate (keys.length + 1) h1.length)
        { order := ord, root := some r1,
          heap := ((h1.alloc
              { leaf := lf, parent := none, next := none, key := keys,
                ptr2node := if lf then [] else List.replicate (keys.length + 1) none,
                ptr2val := if lf then vals else [] }).1.write P
              { pn with ptr2node := F ++ some h1.length :: List.replicate m none }).write
            h1.length
              { leaf := lf, parent := some P, next := none, key := keys,
                ptr2node := if lf then [] else List.replicate (keys.length + 1) none,
                ptr2val := if lf then vals else [] } } := by
  have hPlt : P < h1.length := Heap.read_lt hP
  have hjP : h1.length ≠ P := by omega
  cases lf with
  | true =>
    have hl := linkChild_spec (h := (h1.alloc
        { leaf := true, parent := none, next := none, key := keys, ptr2node := [],
          ptr2val := vals }).1) (P := P) (j := h1.length) (q := pn) (F := F) (m := m)
      (by rw [Heap.read_alloc, if_neg (Ne.symm hjP)]; exact hP) hptr hF
      (by rw [Heap.read_alloc, if_pos rfl]) hjP
    have rv : readVals keys.length (vals.map Tok.val ++ rest) = some (vals, rest) := by
      rw [← hv rfl]; exact readVals_map _ _
    simp only [deserializeLoop, readKeys_map, if_true, rv, hl]
  | false =>
    have hl := linkChild_spec (h := (h1.alloc
        { leaf := false, parent := none, next := none, key := keys,
          ptr2node := List.replicate (keys.length + 1) none, ptr2val := [] }).1)
      (P := P) (j := h1.length) (q := pn) (F := F) (m := m)
      (by rw [Heap.read_alloc, if_neg (Ne.symm hjP)]; exact hP) hptr hF
      (by rw [Heap.read_alloc, if_pos rfl]) hjP
    simp only [deserializeLoop, Bool.false_eq_true, if_false, List.nil_append, readKeys_map, hl]

/-- The first round of the loop of `deserialize`: the record becomes the root. -/
theorem dec_root (h1 : Heap K V) (ord : Nat) (lf : Bool) (keys : List K) (vals : List V)
    (rest : List (Tok K V)) (f1 : Nat) (hv : lf = true → vals.length = keys.length) :
    deserializeLoop (f1 + 1)
        (Tok.flag lf :: Tok.count keys.length ::
          (keys.map Tok.key ++ ((if lf then vals.map Tok.val else []) ++ rest)))
        [] { order := ord, root := none, heap := h1 } =
      deserializeLoop f1 rest
        (if lf then [] else List.replicate (keys.length + 1) h1.length)
        { order := ord, root := some h1.length,
          heap := (h1.alloc
              { leaf := lf, parent := none, next := none, key := keys,
                ptr2node := if lf then [] else List.replicate (keys.length + 1) none,
                ptr2val := if lf then vals else [] }).1 } := by
  cases lf with
  | true =>
    have rv : readVals keys.length (vals.map Tok.val ++ rest) = some (vals, rest) := by
      rw [← hv rfl]; exact readVals_map _ _
    simp only [deserializeLoop, readKeys_map, if_true, rv, Heap.alloc_snd]
  | false =>
    simp only [deserializeLoop, Bool.false_eq_true, if_false, List.nil_append, readKeys_map,
      Heap.alloc_snd]

end DecodeStep

end BPlus

namespace BPlus

section DecodeSim

variable {K V : Type} [LinearOrder K] [Inhabited K] [Inhabited V]

theorem pend_nil {g : Ghost K} {h h1 : Heap K V} {pend : List Pending}
    (hq : [] = pend.flatMap (fun b => b.rem)) (hok : ∀ b ∈ pend, PendOK g h h1 b) : pend = [] := by
  cases pend with
  | nil => rfl
  | cons b pend1 =>
    obtain ⟨_, _, _, _, _, hrem, _⟩ := hok b (by simp)
    simp only [List.flatMap_cons] at hq
    have := (List.append_eq_nil.mp hq.symm).1
    exact absurd this hrem

/-- The loop of `deserialize`, run on what the loop of `serialize` writes from
a queue, completes the pending nodes with the subtrees of the queue. -/
theorem dec_sim {t : BPTree K V} {g : Ghost K} {exc : Option Nat} (inv : InvG t g exc) :
    ∀ (fuel : Nat) (q : List (Option Nat)) (s : List (Tok K V)),
      serializeLoop t.heap fuel q = some s →
      ∀ (pend : List Pending) (h1 : Heap K V) (ord r1 : Nat),
        q = pend.flatMap (fun b => b.rem) →
        (pend.map fun b => b.addr).Nodup →
        (∀ b ∈ pend, PendOK g t.heap h1 b) →
        ∀ fuel1, s.length < fuel1 →
        ∃ h2, deserializeLoop fuel1 s (pend.flatMap fun b => List.replicate b.rem.length b.addr)
            { order := ord, root := some r1, heap := h1 } =
            some { order := ord, root := some r1, heap := h2 } ∧
          h1.length ≤ h2.length ∧
          (∀ a, a < h1.length → a ∉ pend.map (fun b => b.addr) → h2.read a = h1.read a) ∧
          (∀ b ∈ pend, ∃ nd1 cs, h1.read b.addr = some nd1 ∧
            h2.read b.addr = some { nd1 with ptr2node := b.filled ++ cs } ∧
            List.Forall₂ (fun c c1 => ∃ x y, c = some x ∧ c1 = some y ∧ h1.length ≤ y ∧
              Iso t.heap h2 b.d x y) b.rem cs) := by
  -- an empty queue
  have nil_case : ∀ (fuel : Nat) (s : List (Tok K V)), serializeLoop t.heap fuel [] = some s →
      ∀ (pend : List Pending) (h1 : Heap K V) (ord r1 : Nat),
        [] = pend.flatMap (fun b => b.rem) →
        (∀ b ∈ pend, PendOK g t.heap h1 b) →
        ∀ fuel1, s.length < fuel1 →
        ∃ h2, deserializeLoop fuel1 s (pend.flatMap fun b => List.replicate b.rem.length b.addr)
            { order := ord, root := some r1, heap := h1 } =
            some { order := ord, root := some r1, heap := h2 } ∧
          h1.length ≤ h2.length ∧
          (∀ a, a < h1.length → a ∉ pend.map (fun b => b.addr) → h2.read a = h1.read a) ∧
          (∀ b ∈ pend, ∃ nd1 cs, h1.read b.addr = some nd1 ∧
            h2.read b.addr = some { nd1 with ptr2node := b.filled ++ cs } ∧
            List.Forall₂ (fun c c1 => ∃ x y, c = some x ∧ c1 = some y ∧ h1.length ≤ y ∧
              Iso t.heap h2 b.d x y) b.rem cs) := by
    intro fuel s hs pend h1 ord r1 hq hok fuel1 hf
    have hp := pend_nil hq hok
    subst hp
    have hs2 : s = [] := by
      cases fuel <;> simpa [serializeLoop] using hs.symm
    subst hs2
    obtain ⟨f1, rfl⟩ : ∃ f1, fuel1 = f1 + 1 := ⟨fuel1 - 1, by simp at hf; omega⟩
    exact ⟨h1, by simp [deserializeLoop], le_refl _, fun _ _ _ => rfl, by simp⟩
  intro fuel
  induction fuel with
  | zero =>
    intro q s hs pend h1 ord r1 hq _ hok fuel1 hf
    cases q with
    | nil => exact nil_case 0 s hs pend h1 ord r1 hq hok fuel1 hf
    | cons c q1 => simp [serializeLoop] at hs
  | succ f ih =>
    intro q s hs pend h1 ord r1 hq hnd hok fuel1 hf
    cases q with
    | nil => exact nil_case (f + 1) s hs pend h1 ord r1 hq hok fuel1 hf
    | cons c q1 =>
      cases pend with
      | nil => simp at hq
      | cons b pend1 =>
        obtain ⟨pn, hPn, hpl, hpp, hpF, hrem, hkids⟩ := hok b (by simp)
        obtain ⟨c0, rem1, hrem1⟩ := List.exists_cons_of_ne_nil hrem
        simp only [List.flatMap_cons, hrem1, List.cons_append] at hq
        obtain ⟨rfl, hq1⟩ := List.cons.inj hq
        obtain ⟨x, xn, rfl, hx, hxd⟩ := hkids c (by rw [hrem1]; simp)
        have okx := inv.nodes x xn hx
        -- what was written
        have hser : ∃ rest, serializeLoop t.heap f
              (if xn.leaf then q1 else q1 ++ xn.ptr2node) = some rest ∧
            s = Tok.flag xn.leaf :: Tok.count xn.key.length ::
              (xn.key.map Tok.key ++
                ((if xn.leaf then xn.ptr2val.map Tok.val else []) ++ rest)) := by
          cases hl : xn.leaf with
          | true =>
            cases hr : serializeLoop t.heap f q1 with
            | none => simp [serializeLoop, hx, hl, hr] at hs
            | some rest =>
              refine ⟨rest, by simp [hr], ?_⟩
              simp only [serializeLoop, hx, hl, hr, if_true, Option.some.injEq] at hs
              rw [← hs]
              simp
          | false =>
            cases hr : serializeLoop t.heap f (q1 ++ xn.ptr2node) with
            | none => simp [serializeLoop, hx, hl, hr] at hs
            | some rest =>
              refine ⟨rest, by simp [hr], ?_⟩
              simp only [serializeLoop, hx, hl, hr, Bool.false_eq_true, if_false,
                Option.some.injEq] at hs
              rw [← hs]
              simp
        obtain ⟨rest, hrest, hs2⟩ := hser
        subst hs2
        obtain ⟨f1, rfl⟩ : ∃ f1, fuel1 = f1 + 1 := ⟨fuel1 - 1, by simp at hf; omega⟩
        have hPlt : b.addr < h1.length := Heap.read_lt hPn
        have hvl : xn.leaf = true → xn.ptr2val.length = xn.key.length :=
          fun hl => (okx.leafOK hl).2
        have hpp2 : pn.ptr2node = b.filled ++ List.replicate (rem1.length + 1) none := by
          rw [hpp, hrem1]; rfl
        -- the step of the decoder
        have hstep := dec_step h1 ord r1 xn.leaf xn.key xn.ptr2val rest b.addr
          (List.replicate rem1.length b.addr ++
            pend1.flatMap fun b => List.replicate b.rem.length b.addr)
          pn b.filled rem1.length f1 hPn hpp2 hpF hvl
        obtain ⟨ndj, hndj⟩ : ∃ ndj : Node K V, ndj = { leaf := xn.leaf, parent := some b.addr, next := none, key := xn.key, ptr2node := if xn.leaf then [] else List.replicate (xn.key.length + 1) none, ptr2val := if xn.leaf then xn.ptr2val else [] } := ⟨_, rfl⟩
        obtain ⟨nd0, hnd0⟩ : ∃ nd0 : Node K V, nd0 = { leaf := xn.leaf, parent := none, next := none, key := xn.key, ptr2node := if xn.leaf then [] else List.replicate (xn.key.length + 1) none, ptr2val := if xn.leaf then xn.ptr2val else [] } := ⟨_, rfl⟩
        obtain ⟨pn1, hpn1⟩ : ∃ pn1 : Node K V, pn1 = { pn with ptr2node := b.filled ++ some h1.length :: List.replicate rem1.length none } := ⟨_, rfl⟩
        rw [← hndj, ← hnd0, ← hpn1] at hstep
        obtain ⟨H2, hH2⟩ : ∃ H2 : Heap K V,
            H2 = ((h1.alloc nd0).1.write b.addr pn1).write h1.length ndj := ⟨_, rfl⟩
        rw [← hH2] at hstep
        have hH2len : H2.length = h1.length + 1 := by rw [hH2]; simp
        have hrd : ∀ a, H2.read a = if a = h1.length then some ndj
            else if a = b.addr then some pn1 else h1.read a := by
          intro a
          rw [hH2]
          have r0 : (h1.alloc nd0).1.read b.addr = some pn := by
            rw [Heap.read_alloc, if_neg (by omega)]; exact hPn
          have r1 : ((h1.alloc nd0).1.write b.addr pn1).read h1.length = some nd0 := by
            rw [Heap.read_write_ne _ (by omega), Heap.read_alloc, if_pos rfl]
          by_cases e1 : a = h1.length
          · subst e1; rw [if_pos rfl]; exact Heap.read_write_same r1 _
          rw [if_neg e1, Heap.read_write_ne _ e1]
          by_cases e2 : a = b.addr
          · subst e2; rw [if_pos rfl]; exact Heap.read_write_same r0 _
          rw [if_neg e2, Heap.read_write_ne _ e2, Heap.read_alloc, if_neg e1]
        -- the pending nodes after the step
        obtain ⟨b1, hb1⟩ : ∃ b1 : Pending,
            b1 = ⟨b.addr, b.filled ++ [some h1.length], rem1, b.d⟩ := ⟨_, rfl⟩
        obtain ⟨bj, hbj⟩ : ∃ bj : Pending,
            bj = ⟨h1.length, [], xn.ptr2node, b.d - 1⟩ := ⟨_, rfl⟩
        obtain ⟨pendA, hpendA⟩ : ∃ pendA : List Pending,
            pendA = if rem1 = [] then pend1 else b1 :: pend1 := ⟨_, rfl⟩
        obtain ⟨pendB, hpendB⟩ : ∃ pendB : List Pending,
            pendB = if xn.leaf then [] else [bj] := ⟨_, rfl⟩
        have hnd1 : b.addr ∉ pend1.map (fun b => b.addr) ∧
            (pend1.map fun b => b.addr).Nodup := by
          simpa using hnd
        have hold : ∀ b2 ∈ pend1, b2.addr < h1.length ∧ b2.addr ≠ b.addr := by
          intro b2 hb2
          obtain ⟨n2, hn2, _⟩ := hok b2 (by simp [hb2])
          refine ⟨Heap.read_lt hn2, ?_⟩
          intro e
          exact hnd1.1 (List.mem_map.mpr ⟨b2, hb2, e⟩)
        have hAmem : ∀ b2 ∈ pendA, b2 ∈ pend1 ∨ (b2 = b1 ∧ rem1 ≠ []) := by
          intro b2 hb2
          rw [hpendA] at hb2
          by_cases hr : rem1 = []
          · rw [if_pos hr] at hb2; exact Or.inl hb2
          · rw [if_neg hr] at hb2
            rcases List.mem_cons.mp hb2 with h | h
            · exact Or.inr ⟨h, hr⟩
            · exact Or.inl h
        have hBmem : ∀ b2 ∈ pendB, b2 = bj ∧ xn.leaf = false := by
          intro b2 hb2
          rw [hpendB] at hb2
          cases hl : xn.leaf with
          | true => rw [hl] at hb2; simp at hb2
          | false => rw [hl] at hb2; simp at hb2; exact ⟨hb2, rfl⟩
        have hq2 : (if xn.leaf then q1 else q1 ++ xn.ptr2node) =
            (pendA ++ pendB).flatMap (fun b => b.rem) := by
          have e1 : pendA.flatMap (fun b => b.rem) = q1 := by
            rw [hq1, hpendA]
            by_cases hr : rem1 = []
            · rw [if_pos hr, hr]; simp
            · rw [if_neg hr, hb1]; simp
          rw [List.flatMap_append, e1, hpendB]
          cases xn.leaf <;> simp [hbj]
        have hklen : xn.leaf = false → xn.ptr2node.length = xn.key.length + 1 :=
          fun hl => (okx.kids hl).length_eq
        have hpq2 : (if xn.leaf then
              (List.replicate rem1.length b.addr ++
                pend1.flatMap fun b => List.replicate b.rem.length b.addr)
            else (List.replicate rem1.length b.addr ++
                pend1.flatMap fun b => List.replicate b.rem.length b.addr) ++
              List.replicate (xn.key.length + 1) h1.length) =
            (pendA ++ pendB).flatMap (fun b => List.replicate b.rem.length b.addr) := by
          have e1 : pendA.flatMap (fun b => List.replicate b.rem.length b.addr) =
              List.replicate rem1.length b.addr ++
                pend1.flatMap fun b => List.replicate b.rem.length b.addr := by
            rw [hpendA]
            by_cases hr : rem1 = []
            · rw [if_pos hr, hr]; simp
            · rw [if_neg hr, hb1]; simp
          rw [List.flatMap_append, e1, hpendB]
          cases hl : xn.leaf with
          | true => simp
          | false => simp [hbj, hklen hl]
        have hnd2 : ((pendA ++ pendB).map fun b => b.addr).Nodup := by
          rw [List.map_append, List.nodup_append]
          refine ⟨?_, ?_, ?_⟩
          · rw [hpendA]
            by_cases hr : rem1 = []
            · rw [if_pos hr]; exact hnd1.2
            · rw [if_neg hr, hb1]
              simpa using hnd1
          · rw [hpendB]
            cases xn.leaf <;> simp
          · intro a ha1 ha2
            obtain ⟨b2, hb2, rfl⟩ := List.mem_map.mp ha1
            obtain ⟨b3, hb3, e3⟩ := List.mem_map.mp ha2
            obtain ⟨rfl, _⟩ := hBmem b3 hb3
            rw [hbj] at e3
            simp only at e3
            rcases hAmem b2 hb2 with h | ⟨h, _⟩
            · have := (hold b2 h).1; omega
            · rw [h, hb1] at e3; simp only at e3; omega
        have hok2 : ∀ b2 ∈ pendA ++ pendB, PendOK g t.heap H2 b2 := by
          intro b2 hb2
          rcases List.mem_append.mp hb2 with h | h
          · rcases hAmem b2 h with h2 | ⟨rfl, hr⟩
            · obtain ⟨n2, e1, e2, e3, e4, e5, e6⟩ := hok b2 (by simp [h2])
              obtain ⟨i1, i2⟩ := hold b2 h2
              exact ⟨n2, by rw [hrd, if_neg (by omega), if_neg i2]; exact e1, e2, e3, e4, e5, e6⟩
            · rw [hb1]
              refine ⟨pn1, by rw [hrd, if_neg (by simp only; omega), if_pos rfl],
                by rw [hpn1]; exact hpl, by rw [hpn1]; simp, ?_, hr, ?_⟩
              · simp only [List.mem_append, List.mem_singleton, not_or]
                exact ⟨hpF, by simp⟩
              · intro c hc
                exact hkids c (by rw [hrem1]; exact List.mem_cons_of_mem _ hc)
          · obtain ⟨rfl, hl⟩ := hBmem b2 h
            rw [hbj]
            refine ⟨ndj, by rw [hrd, if_pos rfl], by rw [hndj]; exact hl,
              by rw [hndj]; simp [hl, hklen hl], by simp, ?_, ?_⟩
            · intro e
              have := hklen hl
              simp only at e
              rw [e] at this
              simp at this
            · intro c hc
              obtain ⟨y, yn, e1, e2, _, e4⟩ := okx.child hl hc
              exact ⟨y, yn, e1, e2, by simp only; omega⟩
        obtain ⟨h2, i1, i2, i3, i4⟩ := ih _ rest hrest (pendA ++ pendB) H2 ord r1 hq2 hnd2 hok2
          f1 (by simp at hf; omega)
        have hlen2 : h1.length ≤ h2.length := by omega
        -- the record of the node just read
        have hiso : Iso t.heap h2 b.d x h1.length := by
          cases hl : xn.leaf with
          | true =>
            have hd0 : b.d = 0 := by rw [← hxd]; exact (okx.leafOK hl).1
            have hj : h2.read h1.length = some ndj := by
              rw [i3 h1.length (by omega), hrd, if_pos rfl]
              intro hmem
              obtain ⟨b2, hb2, e2⟩ := List.mem_map.mp hmem
              rcases List.mem_append.mp hb2 with h | h
              · rcases hAmem b2 h with h3 | ⟨h3, _⟩
                · have := (hold b2 h3).1; omega
                · rw [h3, hb1] at e2; simp only at e2; omega
              · have := (hBmem b2 h).2
                rw [hl] at this
                cases this
            rw [hd0]
            exact ⟨xn, ndj, hx, hj, hl, by rw [hndj]; exact hl, by rw [hndj],
              by rw [hndj]; simp [hl]⟩
          | false =>
            have hpos := okx.ht_pos hl
            obtain ⟨d1, hd1⟩ : ∃ d1, b.d = d1 + 1 := ⟨b.d - 1, by omega⟩
            have hbjm : bj ∈ pendA ++ pendB := by
              rw [hpendB, hl]; simp
            obtain ⟨n3, cs3, j1, j2, j3⟩ := i4 bj hbjm
            rw [hbj] at j1 j2 j3
            simp only [List.nil_append] at j1 j2 j3
            rw [hrd, if_pos rfl] at j1
            obtain rfl : ndj = n3 := by simpa using j1
            rw [hd1]
            refine ⟨xn, _, hx, j2, hl, by rw [hndj]; exact hl, by rw [hndj], ?_, ?_⟩
            · intro e
              have := hklen hl
              rw [e] at this
              simp at this
            · have e : b.d - 1 = d1 := by omega
              rw [e] at j3
              refine j3.imp ?_
              rintro c c1 ⟨y, z, e1, e2, e3, e4⟩
              exact ⟨y, z, e1, e2, by omega, e4⟩
        refine ⟨h2, ?_, hlen2, ?_, ?_⟩
        · have e0 : ((b :: pend1).flatMap fun b => List.replicate b.rem.length b.addr) =
              b.addr :: (List.replicate rem1.length b.addr ++
                pend1.flatMap fun b => List.replicate b.rem.length b.addr) := by
            simp [hrem1, List.replicate_succ]
          rw [e0, hstep, hpq2]
          exact i1
        · intro a ha hmem
          have ha1 : a ≠ b.addr := by
            intro e; apply hmem; simp [e]
          have ha2 : a ∉ (pendA ++ pendB).map fun b => b.addr := by
            intro hm
            obtain ⟨b2, hb2, e2⟩ := List.mem_map.mp hm
            rcases List.mem_append.mp hb2 with h | h
            · rcases hAmem b2 h with h3 | ⟨h3, _⟩
              · apply hmem
                simp only [List.map_cons, List.mem_cons]
                exact Or.inr (List.mem_map.mpr ⟨b2, h3, e2⟩)
              · rw [h3, hb1] at e2; simp only at e2; exact ha1 e2.symm
            · obtain ⟨h3, _⟩ := hBmem b2 h
              rw [h3, hbj] at e2; simp only at e2; omega
          rw [i3 a (by omega) ha2, hrd, if_neg (by omega), if_neg ha1]
        · intro b2 hb2
          rcases List.mem_cons.mp hb2 with rfl | hb2
          · -- the node whose slot was filled
            by_cases hr : rem1 = []
            · have hb : h2.read b2.addr = some pn1 := by
                rw [i3 b2.addr (by omega), hrd, if_neg (by omega), if_pos rfl]
                intro hm
                obtain ⟨b3, hb3, e3⟩ := List.mem_map.mp hm
                rcases List.mem_append.mp hb3 with h | h
                · rcases hAmem b3 h with h3 | ⟨_, h3⟩
                  · exact (hold b3 h3).2 e3
                  · exact h3 hr
                · obtain ⟨h3, _⟩ := hBmem b3 h
                  rw [h3, hbj] at e3; simp only at e3; omega
              refine ⟨pn, [some h1.length], hPn, ?_, ?_⟩
              · rw [hb, hpn1, hr]; simp
              · rw [hrem1, hr]
                exact List.Forall₂.cons ⟨x, h1.length, rfl, rfl, le_refl _, hiso⟩ List.Forall₂.nil
            · have hb1m : b1 ∈ pendA ++ pendB := by
                rw [hpendA, if_neg hr]; simp
              obtain ⟨n3, cs3, j1, j2, j3⟩ := i4 b1 hb1m
              rw [hb1] at j1 j2 j3
              simp only at j1 j2 j3
              rw [hrd, if_neg (by omega), if_pos rfl] at j1
              obtain rfl : pn1 = n3 := by simpa using j1
              refine ⟨pn, some h1.length :: cs3, hPn, ?_, ?_⟩
              · rw [j2, hpn1]; simp
              · rw [hrem1]
                refine List.Forall₂.cons ⟨x, h1.length, rfl, rfl, le_refl _, hiso⟩ (j3.imp ?_)
                rintro c c1 ⟨y, z, e1, e2, e3, e4⟩
                exact ⟨y, z, e1, e2, by omega, e4⟩
          · -- the other pending nodes
            have hmA : b2 ∈ pendA ++ pendB := by
              apply List.mem_append_left
              rw [hpendA]
              by_cases hr : rem1 = []
              · rw [if_pos hr]; exact hb2
              · rw [if_neg hr]; exact List.mem_cons_of_mem _ hb2
            obtain ⟨n3, cs3, j1, j2, j3⟩ := i4 b2 hmA
            obtain ⟨k1, k2⟩ := hold b2 hb2
            rw [hrd, if_neg (by omega), if_neg k2] at j1
            refine ⟨n3, cs3, j1, j2, j3.imp ?_⟩
            rintro c c1 ⟨y, z, e1, e2, e3, e4⟩
            exact ⟨y, z, e1, e2, by omega, e4⟩

end DecodeSim

end BPlus

namespace BPlus

section RoundTrip

variable {K V : Type} [LinearOrder K] [Inhabited K] [Inhabited V]

theorem forall2_get {α β : Type} {R : α → β → Prop} {l1 : List α} {l2 : List β}
    (h : List.Forall₂ R l1 l2) : ∀ (i : Nat) (a : α), l1[i]? = some a →
      ∃ b, l2[i]? = some b ∧ R a b := by
  induction h with
  | nil => intro i a hi; simp at hi
  | cons hab _ ih =>
    intro i a hi
    cases i with
    | zero =>
      simp only [List.getElem?_cons_zero, Option.some.injEq] at hi
      subst hi
      exact ⟨_, by simp, hab⟩
    | succ i =>
      simp only [List.getElem?_cons_succ] at hi
      obtain ⟨b, hb, hr⟩ := ih i a hi
      exact ⟨b, by simpa using hb, hr⟩

/-- A subtree of height `d` copied to the address `q` ends `d` cells later at the earliest. -/
theorem iso_low {h h1 : Heap K V} : ∀ (d p q : Nat), Iso h h1 d p q → q + d < h1.length := by
  intro d
  induction d with
  | zero =>
    rintro p q ⟨nd, nd1, _, hq, _⟩
    exact Heap.read_lt hq
  | succ d ih =>
    rintro p q ⟨nd, nd1, _, hq, _, _, _, hne, hf⟩
    cases hnp : nd.ptr2node with
    | nil => exact absurd hnp hne
    | cons c cs =>
      obtain ⟨b, _, x, y, _, _, hlt, hiso⟩ := forall2_get hf 0 c (by rw [hnp]; simp)
      have := ih x y hiso
      omega

theorem keyIndex_congr {nd nd1 : Node K V} (h : nd1.key = nd.key) (k : K) :
    keyIndex nd1 k = keyIndex nd k := by
  simp [keyIndex, h]

/-- The descent in a copy ends in the copy of the leaf, at the same index. -/
theorem iso_loop {h h1 : Heap K V} (k : K) : ∀ (d p q : Nat), Iso h h1 d p q →
    ∀ (fuel L : Nat) (i : Int), keyIndexInLeafLoop h k fuel p = some (L, i) →
    ∀ fuel1, d < fuel1 → ∃ L1 ln ln1, keyIndexInLeafLoop h1 k fuel1 q = some (L1, i) ∧
      h.read L = some ln ∧ h1.read L1 = some ln1 ∧ ln1.key = ln.key ∧
      ln1.ptr2val = ln.ptr2val := by
  intro d
  induction d with
  | zero =>
    rintro p q ⟨nd, nd1, hp, hq, hl, hl1, hk, hv⟩ fuel L i hloop fuel1 hf
    obtain ⟨f, rfl⟩ : ∃ f, fuel = f + 1 := by
      cases fuel with
      | zero => simp [keyIndexInLeafLoop] at hloop
      | succ f => exact ⟨f, rfl⟩
    obtain ⟨f1, rfl⟩ : ∃ f1, fuel1 = f1 + 1 := ⟨fuel1 - 1, by omega⟩
    rw [loop_leaf hp hl] at hloop
    simp only [Option.some.injEq, Prod.mk.injEq] at hloop
    obtain ⟨rfl, rfl⟩ := hloop
    exact ⟨q, nd, nd1, by rw [loop_leaf hq hl1, keyIndex_congr hk], hp, hq, hk, hv⟩
  | succ d ih =>
    rintro p q ⟨nd, nd1, hp, hq, hl, hl1, hk, _, hf2⟩ fuel L i hloop fuel1 hf
    obtain ⟨f, rfl⟩ : ∃ f, fuel = f + 1 := by
      cases fuel with
      | zero => simp [keyIndexInLeafLoop] at hloop
      | succ f => exact ⟨f, rfl⟩
    obtain ⟨f1, rfl⟩ : ∃ f1, fuel1 = f1 + 1 := ⟨fuel1 - 1, by omega⟩
    cases hc : nd.ptr2node[rank nd.key k]? with
    | none =>
      simp [keyIndexInLeafLoop, hp, hl, keyIndex_add_one, hc] at hloop
    | some c =>
      cases c with
      | none => simp [keyIndexInLeafLoop, hp, hl, keyIndex_add_one, hc] at hloop
      | some x =>
        rw [loop_node hp hl hc] at hloop
        obtain ⟨c1, hc1, x1, y, e1, e2, _, hiso⟩ := forall2_get hf2 _ _ hc
        obtain rfl : x = x1 := by simpa using e1
        subst e2
        obtain ⟨L1, ln, ln1, g1, g2, g3, g4, g5⟩ := ih x y hiso f L i hloop f1 (by omega)
        refine ⟨L1, ln, ln1, ?_, g2, g3, g4, g5⟩
        rw [loop_node hq hl1 (by rw [hk]; exact hc1)]
        exact g1

/-- The function `find` cannot tell a tree from its copy. -/
theorem find_iso {t t2 : BPTree K V} {g : Ghost K} {exc : Option Nat} (inv : InvG t g exc)
    {r r2 : Nat} (hroot : t.root = some r) (hroot2 : t2.root = some r2)
    (hiso : Iso t.heap t2.heap (g.ht r) r r2) (k : K) : find t2 k = find t k := by
  obtain ⟨L, ln, hloc, hL, _⟩ := keyIndexInLeaf_spec inv k
  have hloop : keyIndexInLeafLoop t.heap k t.heap.length r =
      some (L, (rank ln.key k : Int) - 1) := by
    simp only [keyIndexInLeaf, hroot] at hloc
    cases hh : keyIndexInLeafLoop t.heap k t.heap.length r with
    | none => simp [hh] at hloc
    | some x =>
      simp only [hh, Option.map_some', Option.some.injEq, Prod.mk.injEq] at hloc
      obtain ⟨e1, e2⟩ := hloc
      obtain ⟨x1, x2⟩ := x
      simp only at e1 e2
      rw [e1, e2]
  have hlow := iso_low _ _ _ hiso
  obtain ⟨L1, ln0, ln1, g1, g2, g3, g4, g5⟩ :=
    iso_loop k _ _ _ hiso _ _ _ hloop t2.heap.length (by omega)
  rw [hL] at g2
  obtain rfl : ln = ln0 := by simpa using g2
  have hloc2 : keyIndexInLeaf t2 k = some (some L1, (rank ln.key k : Int) - 1) := by
    simp [keyIndexInLeaf, hroot2, g1]
  simp only [find, hloc, hloc2, hL, g3, g4, g5]

/-- The round trip: what `serialize` writes of a well-formed tree, `deserialize`
reads as a copy of the tree. -/
theorem roundtrip {t : BPTree K V} {g : Ghost K} (inv : InvG t g none) (t0 : BPTree K V) :
    ∃ s t2 r r2, serialize t = some s ∧ deserialize t0 (some s) = some (t2, []) ∧
      t.root = some r ∧ t2.root = some r2 ∧ Iso t.heap t2.heap (g.ht r) r r2 := by
  obtain ⟨r, s, hroot, hs, hser⟩ := serialize_total inv
  obtain ⟨r1, rn, hroot1, hr, _⟩ := inv.root
  rw [hroot] at hroot1
  obtain rfl : r = r1 := by simpa using hroot1
  have okr := inv.nodes r rn hr
  obtain ⟨f, hf⟩ : ∃ f, t.heap.length = f + 1 := ⟨t.heap.length - 1, by
    have := Heap.read_lt hr; omega⟩
  rw [hf] at hs
  have hwr : ∃ rest, serializeLoop t.heap f (if rn.leaf then [] else rn.ptr2node) = some rest ∧
      s = Tok.flag rn.leaf :: Tok.count rn.key.length ::
        (rn.key.map Tok.key ++ ((if rn.leaf then rn.ptr2val.map Tok.val else []) ++ rest)) := by
    cases hl : rn.leaf with
    | true =>
      cases hrs : serializeLoop t.heap f [] with
      | none => simp [serializeLoop, hr, hl, hrs] at hs
      | some rest =>
        refine ⟨rest, by simp [hrs], ?_⟩
        simp only [serializeLoop, hr, hl, hrs, if_true, Option.some.injEq] at hs
        rw [← hs]
        simp
    | false =>
      cases hrs : serializeLoop t.heap f rn.ptr2node with
      | none => simp [serializeLoop, hr, hl, hrs] at hs
      | some rest =>
        refine ⟨rest, by simpa using hrs, ?_⟩
        simp only [serializeLoop, hr, hl, List.nil_append, hrs, Bool.false_eq_true, if_false,
          Option.some.injEq] at hs
        rw [← hs]
        simp
  obtain ⟨rest, hrest, hs2⟩ := hwr
  have hvl : rn.leaf = true → rn.ptr2val.length = rn.key.length :=
    fun hl => (okr.leafOK hl).2
  have hklen : rn.leaf = false → rn.ptr2node.length = rn.key.length + 1 :=
    fun hl => (okr.kids hl).length_eq
  obtain ⟨nd0, hnd0⟩ : ∃ nd0 : Node K V, nd0 = { leaf := rn.leaf, parent := none, next := none, key := rn.key, ptr2node := if rn.leaf then [] else List.replicate (rn.key.length + 1) none, ptr2val := if rn.leaf then rn.ptr2val else [] } := ⟨_, rfl⟩
  have hroot0 := dec_root t0.heap t0.order rn.leaf rn.key rn.ptr2val rest s.length hvl
  rw [← hs2, ← hnd0] at hroot0
  obtain ⟨bj, hbj⟩ : ∃ bj : Pending,
      bj = ⟨t0.heap.length, [], rn.ptr2node, g.ht r - 1⟩ := ⟨_, rfl⟩
  obtain ⟨pend, hpend⟩ : ∃ pend : List Pending,
      pend = if rn.leaf then [] else [bj] := ⟨_, rfl⟩
  have hrd1 : (t0.heap.alloc nd0).1.read t0.heap.length = some nd0 := by
    rw [Heap.read_alloc, if_pos rfl]
  have hq : (if rn.leaf then [] else rn.ptr2node) = pend.flatMap (fun b => b.rem) := by
    rw [hpend]
    cases rn.leaf <;> simp [hbj]
  have hpq : (if rn.leaf then [] else List.replicate (rn.key.length + 1) t0.heap.length) =
      pend.flatMap (fun b => List.replicate b.rem.length b.addr) := by
    rw [hpend]
    cases hl : rn.leaf with
    | true => simp
    | false => simp [hbj, hklen hl]
  have hnd : (pend.map fun b => b.addr).Nodup := by
    rw [hpend]
    cases rn.leaf <;> simp
  have hok : ∀ b ∈ pend, PendOK g t.heap (t0.heap.alloc nd0).1 b := by
    intro b hb
    rw [hpend] at hb
    cases hl : rn.leaf with
    | true => rw [hl] at hb; simp at hb
    | false =>
      rw [hl] at hb
      simp only [Bool.false_eq_true, if_false, List.mem_singleton] at hb
      subst hb
      rw [hbj]
      refine ⟨nd0, hrd1, by rw [hnd0]; exact hl, by rw [hnd0]; simp [hl, hklen hl], by simp,
        ?_, ?_⟩
      · intro e
        have := hklen hl
        simp only at e
        rw [e] at this
        simp at this
      · intro c hc
        obtain ⟨y, yn, e1, e2, _, e4⟩ := okr.child hl hc
        exact ⟨y, yn, e1, e2, by simp only; omega⟩
  have hlen : rest.length < s.length := by rw [hs2]; simp; omega
  obtain ⟨h2, i1, i2, i3, i4⟩ := dec_sim inv f _ rest hrest pend (t0.heap.alloc nd0).1
    t0.order t0.heap.length hq hnd hok s.length hlen
  rw [hpq, i1] at hroot0
  have hdes : deserialize t0 (some s) =
      some ({ order := t0.order, root := some t0.heap.length, heap := h2 }, []) := by
    simp only [deserialize]
    have e : ({ t0 with root := none } : BPTree K V) =
        { order := t0.order, root := none, heap := t0.heap } := rfl
    rw [e, hroot0]
  refine ⟨s, _, r, t0.heap.length, hser, hdes, hroot, rfl, ?_⟩
  show Iso t.heap h2 (g.ht r) r t0.heap.length
  cases hl : rn.leaf with
  | true =>
    have hd0 : g.ht r = 0 := (okr.leafOK hl).1
    have hj : h2.read t0.heap.length = some nd0 := by
      rw [i3 t0.heap.length (by simp), hrd1]
      rw [hpend, hl]
      simp
    rw [hd0]
    exact ⟨rn, nd0, hr, hj, hl, by rw [hnd0]; exact hl, by rw [hnd0], by rw [hnd0]; simp [hl]⟩
  | false =>
    have hpos := okr.ht_pos hl
    obtain ⟨d1, hd1⟩ : ∃ d1, g.ht r = d1 + 1 := ⟨g.ht r - 1, by omega⟩
    have hbjm : bj ∈ pend := by rw [hpend, hl]; simp
    obtain ⟨n3, cs3, j1, j2, j3⟩ := i4 bj hbjm
    rw [hbj] at j1 j2 j3
    simp only [List.nil_append] at j1 j2 j3
    rw [hrd1] at j1
    obtain rfl : nd0 = n3 := by simpa using j1
    rw [hd1]
    refine ⟨rn, _, hr, j2, hl, by rw [hnd0]; exact hl, by rw [hnd0], ?_, ?_⟩
    · intro e
      have := hklen hl
      rw [e] at this
      simp at this
    · have e : g.ht r - 1 = d1 := by omega
      rw [e] at j3
      refine j3.imp ?_
      rintro c c1 ⟨y, z, e1, e2, e3, e4⟩
      refine ⟨y, z, e1, e2, ?_, e4⟩
      simp only [Heap.length_alloc] at e3
      omega

/-- After the round trip `find` answers as before. -/
theorem roundtrip_find {t : BPTree K V} (hi : Inv t) (t0 : BPTree K V) :
    ∃ s t2, serialize t = some s ∧ deserialize t0 (some s) = some (t2, []) ∧
      ∀ k, find t2 k = find t k := by
  rcases hi with ⟨h1, h2⟩ | ⟨g, inv⟩
  · refine ⟨[], { t0 with root := none }, by simp [serialize, h1, h2, serializeLoop],
      by simp [deserialize, deserializeLoop], ?_⟩
    intro k
    simp [find, keyIndexInLeaf, h1]
  · obtain ⟨s, t2, r, r2, e1, e2, e3, e4, e5⟩ := roundtrip inv t0
    exact ⟨s, t2, e1, e2, fun k => find_iso inv e3 e4 e5 k⟩

/-- After the round trip `find` answers as before, and the tree read is a
copy, node for node, of the tree written. -/
theorem roundtrip_full {t : BPTree K V} (hi : Inv t) (t0 : BPTree K V) :
    ∃ s t2, serialize t = some s ∧ deserialize t0 (some s) = some (t2, []) ∧
      (∀ k, find t2 k = find t k) ∧
      ((t.root = none ∧ t2.root = none) ∨
        ∃ d r r2, t.root = some r ∧ t2.root = some r2 ∧ Iso t.heap t2.heap d r r2) := by
  rcases hi with ⟨h1, h2⟩ | ⟨g, inv⟩
  · refine ⟨[], { t0 with root := none }, by simp [serialize, h1, h2, serializeLoop],
      by simp [deserialize, deserializeLoop], ?_, Or.inl ⟨h1, rfl⟩⟩
    intro k
    simp [find, keyIndexInLeaf, h1]
  · obtain ⟨s, t2, r, r2, e1, e2, e3, e4, e5⟩ := roundtrip inv t0
    exact ⟨s, t2, e1, e2, fun k => find_iso inv e3 e4 e5 k, Or.inr ⟨_, r, r2, e3, e4, e5⟩⟩

end RoundTrip

end BPlus

namespace BPlus

section ForClaims

variable {K V : Type} [LinearOrder K]

/-- The function `insert` on a stored key: the value is overwritten in place. -/
theorem insert_present {t : BPTree K V} {g : Ghost K} (inv : InvG t g none) (k : K) (v : V)
    {v0 : V} (hpres : Contains t k v0) :
    ∃ t1, insert t k v = some t1 ∧ InvG t1 g none ∧ t1.order = t.order ∧
      t1.heap.length = t.heap.length ∧
      ∀ k2 v2, Contains t1 k2 v2 ↔ (k2 = k ∧ v2 = v) ∨ (k2 ≠ k ∧ Contains t k2 v2) := by
  obtain ⟨r, rn, hroot, hr, _⟩ := inv.root
  obtain ⟨L, ln, hloc, hL, hleaf, hlo, hhi⟩ := keyIndexInLeaf_spec inv k
  have ok := inv.nodes L ln hL
  obtain ⟨ht0, hvl⟩ := ok.leafOK hleaf
  have honly := pairs_only_in_located inv hloc
  have hkin : k ∈ ln.key := by
    obtain ⟨p, nd, j, h1, h2, h3, h4⟩ := hpres
    have hmem : (k, v0) ∈ pairsAt t.heap p := by
      rw [pairsAt_of_leaf h1 h2]
      exact mem_zip_iff.mpr ⟨j, h3, h4⟩
    have := honly p v0 hmem
    subst this
    rw [hL] at h1
    obtain rfl : ln = nd := by simpa using h1
    exact List.getElem?_mem h3
  rcases locate_cases k ok.sorted with ⟨i, hrk, hki⟩ | ⟨hnot, _⟩
  · have hil : i < ln.key.length := (List.getElem?_eq_some.mp hki).1
    have hiv : i < ln.ptr2val.length := by omega
    have e : ((rank ln.key k : Int) - 1) = (i : Int) := by rw [hrk]; push_cast; ring
    rw [e] at hloc
    have hne : ¬ ((i : Int) = -1) := by omega
    obtain ⟨lf1, hlf1⟩ : ∃ lf1 : Node K V, lf1 = { ln with ptr2val := ln.ptr2val.set i v } := ⟨_, rfl⟩
    have hins : insert t k v = some { t with heap := t.heap.write L lf1 } := by
      simp [insert, hroot, hloc, hL, hne, hki, vset_natCast _ _ _ hiv, ← hlf1]
    have ok1 : NodeOK g t.heap L lf1 := by
      refine ⟨by rw [hlf1]; exact ok.sorted, ?_, ?_, ?_, ?_⟩
      · intro x hx; rw [hlf1] at hx ⊢; exact ok.lower x hx
      · intro x hx; rw [hlf1] at hx; exact ok.upper x hx
      · intro _; rw [hlf1]; exact ⟨ht0, by simp [hvl]⟩
      · intro hf; rw [hlf1] at hf; simp [hleaf] at hf
    refine ⟨_, hins, inv.update_leaf hL hleaf (by rw [hlf1]; exact hleaf) (by rw [hlf1]) (by rw [hlf1]) ok1,
      rfl, by simp, ?_⟩
    intro k2 v2
    rw [contains_write_leaf hL lf1 (by rw [hlf1]; exact hleaf), contains_split_at hL hleaf, hlf1]
    simp only []
    rw [zip_set ok.sorted hki hiv]
    constructor
    · rintro ((h | ⟨h1, h2⟩) | ⟨p, hp1, hp2⟩)
      · exact Or.inl h
      · exact Or.inr ⟨h1, Or.inl h2⟩
      · refine Or.inr ⟨?_, Or.inr ⟨p, hp1, hp2⟩⟩
        rintro rfl
        exact hp1 (honly p v2 hp2)
    · rintro (h | ⟨h1, h2 | ⟨p, hp1, hp2⟩⟩)
      · exact Or.inl (Or.inl h)
      · exact Or.inl (Or.inr ⟨h1, h2⟩)
      · exact Or.inr ⟨p, hp1, hp2⟩
  · exact absurd hkin hnot

/-- The keys after a run of `insert` calls. -/
theorem runFrom_inserts : ∀ (kvs : List (K × V)) (t : BPTree K V), Inv t → 2 ≤ t.order →
    ∃ t1, runFrom t (kvs.map fun kv => Op.insert kv.1 kv.2) = some t1 ∧ Inv t1 ∧
      t1.order = t.order ∧
      ∀ k, (∃ v, Contains t1 k v) ↔ (k ∈ kvs.map Prod.fst ∨ ∃ v, Contains t k v) := by
  intro kvs
  induction kvs with
  | nil => intro t hi _; exact ⟨t, rfl, hi, rfl, by simp⟩
  | cons kv kvs ih =>
    intro t hi hord
    obtain ⟨t1, e1, e2, e3, e4⟩ := insert_inv hi hord kv.1 kv.2
    obtain ⟨t2, f1, f2, f3, f4⟩ := ih t1 e2 (by rw [e3]; exact hord)
    refine ⟨t2, by simp [runFrom, step, e1, f1], f2, by rw [f3, e3], ?_⟩
    intro k
    rw [f4]
    simp only [List.map_cons, List.mem_cons]
    constructor
    · rintro (h | ⟨v, h⟩)
      · exact Or.inl (Or.inr h)
      · rcases (e4 k v).mp h with ⟨h1, _⟩ | ⟨_, h2⟩
        · exact Or.inl (Or.inl h1)
        · exact Or.inr ⟨v, h2⟩
    · rintro ((h | h) | ⟨v, h⟩)
      · exact Or.inr ⟨kv.2, (e4 k kv.2).mpr (Or.inl ⟨h, rfl⟩)⟩
      · exact Or.inl h
      · by_cases hk : k = kv.1
        · exact Or.inr ⟨kv.2, (e4 k kv.2).mpr (Or.inl ⟨hk, rfl⟩)⟩
        · exact Or.inr ⟨v, (e4 k v).mpr (Or.inr ⟨hk, h⟩)⟩

/-- The keys after a run of `erase` calls. -/
theorem runFrom_erases : ∀ (es : List K) (t : BPTree K V), Inv t → 2 ≤ t.order →
    ∃ t1, runFrom t (es.map fun e => (Op.erase e : Op K V)) = some t1 ∧ Inv t1 ∧
      t1.order = t.order ∧
      ∀ k, (∃ v, Contains t1 k v) ↔ (k ∉ es ∧ ∃ v, Contains t k v) := by
  intro es
  induction es with
  | nil => intro t hi _; exact ⟨t, rfl, hi, rfl, by simp⟩
  | cons e es ih =>
    intro t hi hord
    obtain ⟨t1, e1, e2, e3, e4⟩ := erase_inv hi hord e
    obtain ⟨t2, f1, f2, f3, f4⟩ := ih t1 e2 (by rw [e3]; exact hord)
    refine ⟨t2, by simp [runFrom, step, e1, f1], f2, by rw [f3, e3], ?_⟩
    intro k
    rw [f4]
    simp only [List.mem_cons, not_or]
    constructor
    · rintro ⟨h1, v, h2⟩
      obtain ⟨h3, h4⟩ := (e4 k v).mp h2
      exact ⟨⟨h3, h1⟩, v, h4⟩
    · rintro ⟨⟨h1, h2⟩, v, h3⟩
      exact ⟨h2, v, (e4 k v).mpr ⟨h1, h3⟩⟩

/-- A key of an internal node is above the keys below the child before it and
not above the keys below the child after it. -/
theorem sep_bounds {t : BPTree K V} {g : Ghost K} {exc : Option Nat} (inv : InvG t g exc)
    {p i : Nat} {nd : Node K V} {s : K} (hp : t.heap.read p = some nd) (hl : nd.leaf = false)
    (hs : nd.key[i]? = some s) :
    ∃ c0 c1 ks0 ks1, nd.ptr2node[i]? = some (some c0) ∧ nd.ptr2node[i + 1]? = some (some c1) ∧
      subtreeKeys t c0 = some ks0 ∧ subtreeKeys t c1 = some ks1 ∧
      (∀ x ∈ ks0, x < s) ∧ (∀ x ∈ ks1, s ≤ x) := by
  have ok := inv.nodes p nd hp
  have hk := ok.kids hl
  have hlen := hk.length_eq
  obtain ⟨hil, hsv⟩ := List.getElem?_eq_some.mp hs
  have hi0 : i < nd.ptr2node.length := by omega
  have hi1 : i + 1 < nd.ptr2node.length := by omega
  have hg0 : nd.ptr2node[i]? = some nd.ptr2node[i] := List.getElem?_eq_getElem hi0
  have hg1 : nd.ptr2node[i + 1]? = some nd.ptr2node[i + 1] := List.getElem?_eq_getElem hi1
  have hd : nd.key.drop i = s :: nd.key.drop (i + 1) := by
    rw [← hsv]; exact List.drop_eq_getElem_cons hil
  have ht : nd.key.take (i + 1) = nd.key.take i ++ [s] := by
    rw [List.take_succ, hs]; rfl
  obtain ⟨c0, cn0, e0, hc0, _, _, hlo0, hhi0⟩ := kids_at hk hg0
  obtain ⟨c1, cn1, e1, hc1, _, _, hlo1, hhi1⟩ := kids_at hk hg1
  rw [hd] at hhi0
  rw [ht] at hlo1
  simp only [headOr_cons] at hhi0
  simp only [lastOr_concat] at hlo1
  obtain ⟨es0, f0, _, b0, _⟩ := entriesLoop_spec inv (g.ht c0) c0 cn0 hc0 rfl t.heap.length
    (inv.low c0 cn0 hc0)
  obtain ⟨es1, f1, _, b1, _⟩ := entriesLoop_spec inv (g.ht c1) c1 cn1 hc1 rfl t.heap.length
    (inv.low c1 cn1 hc1)
  refine ⟨c0, c1, es0.map Prod.fst, es1.map Prod.fst, by rw [hg0, e0], by rw [hg1, e1],
    by simp [subtreeKeys, f0], by simp [subtreeKeys, f1], ?_, ?_⟩
  · intro x hx
    obtain ⟨e, he, rfl⟩ := List.mem_map.mp hx
    have := (b0 e he).2
    rw [hhi0] at this
    simpa using this
  · intro x hx
    obtain ⟨e, he, rfl⟩ := List.mem_map.mp hx
    have := (b1 e he).1
    rw [hlo1] at this
    simpa using this

end ForClaims

end BPlus

namespace BPlus

section Lookups

variable {K V : Type} [LinearOrder K]

/-! ### What `find` tells about the other operations -/

/-- On a well-formed tree `find` returns the value stored with the key. -/
theorem find_some_iff {t : BPTree K V} (hi : Inv t) (k : K) (v : V) :
    find t k = some (some v) ↔ Contains t k v := by
  constructor
  · intro h
    by_contra hc
    by_cases hex : ∃ v0, Contains t k v0
    · obtain ⟨v0, h0⟩ := hex
      have := (find_inv hi k).1 v0 h0
      rw [h] at this
      obtain rfl : v = v0 := by simpa using this
      exact hc h0
    · have := (find_inv hi k).2 (fun v0 h0 => hex ⟨v0, h0⟩)
      rw [h] at this
      cases this
  · exact (find_inv hi k).1 v

/-- On a well-formed tree `find` returns null for the keys no leaf stores. -/
theorem find_none_iff {t : BPTree K V} (hi : Inv t) (k : K) :
    find t k = some none ↔ ∀ v, ¬ Contains t k v := by
  constructor
  · intro h v hc
    have := (find_inv hi k).1 v hc
    rw [h] at this
    cases this
  · exact (find_inv hi k).2

/-- Two well-formed trees that store the same values with `k` answer `find(k)` alike. -/
theorem find_congr {t t1 : BPTree K V} (hi : Inv t) (hi1 : Inv t1) (k : K)
    (h : ∀ v, Contains t1 k v ↔ Contains t k v) : find t1 k = find t k := by
  by_cases hex : ∃ v0, Contains t k v0
  · obtain ⟨v0, h0⟩ := hex
    rw [(find_inv hi k).1 v0 h0, (find_inv hi1 k).1 v0 ((h v0).mpr h0)]
  · rw [(find_inv hi k).2 (fun v0 h0 => hex ⟨v0, h0⟩),
      (find_inv hi1 k).2 (fun v0 h0 => hex ⟨v0, (h v0).mp h0⟩)]

/-- Whatever the state, when `find` returns null `erase` returns at its first test. -/
theorem erase_of_find_none (t : BPTree K V) (k : K) (h : find t k = some none) :
    erase t k = some t := by
  simp only [find] at h
  simp only [erase]
  cases hp : keyIndexInLeaf t k with
  | none => simp [hp] at h
  | some pair =>
    simp only [hp] at h ⊢
    by_cases hloc : pair.2 = -1
    · simp [hloc]
    · simp only [hloc, if_false] at h ⊢
      cases hl : pair.1 with
      | none => simp [hl] at h
      | some leaf =>
        simp only [hl] at h ⊢
        cases hr : t.heap.read leaf with
        | none => simp [hr] at h
        | some lf =>
          simp only [hr] at h ⊢
          cases hk : vget lf.key pair.2 with
          | none => simp [hk] at h
          | some x =>
            simp only [hk] at h ⊢
            by_cases hx : x = k
            · simp only [hx, ne_eq, not_true_eq_false, if_false] at h
              cases hv : vget lf.ptr2val pair.2 with
              | none => simp [hv] at h
              | some w => simp [hv] at h
            · simp [hx]

/-- Whatever the state, `update` changes nothing but the values of one leaf,
and nothing at all when it returns `false`. -/
theorem update_shape {t t1 : BPTree K V} {k : K} {v : V} {b : Bool}
    (h : update t k v = some (t1, b)) :
    t1.root = t.root ∧ t1.order = t.order ∧ (b = false → t1 = t) ∧
      ∀ p, (t1.heap.read p).map (fun nd => (nd.leaf, nd.parent, nd.next, nd.key, nd.ptr2node)) =
        (t.heap.read p).map (fun nd => (nd.leaf, nd.parent, nd.next, nd.key, nd.ptr2node)) := by
  simp only [update] at h
  cases hp : keyIndexInLeaf t k with
  | none => simp [hp] at h
  | some pair =>
    simp only [hp] at h
    by_cases hloc : pair.2 = -1
    · simp only [hloc, if_true, Option.some.injEq, Prod.mk.injEq] at h
      obtain ⟨rfl, rfl⟩ := h
      exact ⟨rfl, rfl, fun _ => rfl, fun _ => rfl⟩
    · simp only [hloc, if_false] at h
      cases hl : pair.1 with
      | none => simp [hl] at h
      | some leaf =>
        simp only [hl] at h
        cases hr : t.heap.read leaf with
        | none => simp [hr] at h
        | some lf =>
          simp only [hr] at h
          cases hk : vget lf.key pair.2 with
          | none => simp [hk] at h
          | some x =>
            simp only [hk] at h
            by_cases hx : x = k
            · simp only [hx, ne_eq, not_true_eq_false, if_false] at h
              cases hv : vset lf.ptr2val pair.2 v with
              | none => simp [hv] at h
              | some w =>
                simp only [hv, Option.some.injEq, Prod.mk.injEq] at h
                obtain ⟨rfl, rfl⟩ := h
                refine ⟨rfl, rfl, (fun hb => by cases hb), ?_⟩
                intro p
                by_cases hpl : p = leaf
                · subst hpl
                  rw [Heap.read_write_same hr, hr]
                  rfl
                · rw [Heap.read_write_ne _ hpl]
            · simp only [hx, ne_eq, not_false_eq_true, if_true, Option.some.injEq,
                Prod.mk.injEq] at h
              obtain ⟨rfl, rfl⟩ := h
              exact ⟨rfl, rfl, fun _ => rfl, fun _ => rfl⟩

end Lookups

end BPlus

namespace BPlus

section Locator

variable {K V : Type} [LinearOrder K]

/-! ### The result of `keyIndex` on sorted keys -/

/-- On sorted keys `keyIndex` separates the keys `<= x` from the keys `> x`. -/
theorem keyIndex_spec (nd : Node K V) (x : K) (hs : nd.key.Pairwise (fun a b => a < b)) :
    -1 ≤ keyIndex nd x ∧ keyIndex nd x < (nd.key.length : Int) ∧
      (∀ (j : Nat) (y : K), nd.key[j]? = some y →
        ((j : Int) ≤ keyIndex nd x → y ≤ x) ∧ (keyIndex nd x < (j : Int) → x < y)) ∧
      (keyIndex nd x = -1 ↔ ∀ y ∈ nd.key, ¬ y ≤ x) ∧
      (keyIndex nd x ≠ -1 → ∃ y, vget nd.key (keyIndex nd x) = some y ∧ y ≤ x) := by
  obtain ⟨a, b, hab, hlen, ha, hb⟩ := rank_split x hs
  have hle := rank_le_length nd.key x
  rw [keyIndex_eq]
  refine ⟨by omega, by omega, ?_, ?_, ?_⟩
  · intro j y hj
    rw [hab] at hj
    constructor
    · intro hji
      have hja : j < a.length := by omega
      rw [List.getElem?_append_left hja] at hj
      exact ha y (List.getElem?_mem hj)
    · intro hji
      have hja : a.length ≤ j := by omega
      rw [List.getElem?_append_right hja] at hj
      exact hb y (List.getElem?_mem hj)
  · constructor
    · intro h0 y hy hyx
      have ha0 : a = [] := List.length_eq_zero.mp (by omega)
      rw [hab, ha0] at hy
      exact absurd hyx (not_le.mpr (hb y (by simpa using hy)))
    · intro hall
      have ha0 : a = [] := by
        cases a with
        | nil => rfl
        | cons z zs =>
          exact absurd (ha z (by simp)) (hall z (by rw [hab]; simp))
      rw [ha0] at hlen
      simp only [List.length_nil] at hlen
      omega
  · intro hne
    have hpos : 0 < a.length := by omega
    have hi : ((rank nd.key x : Int) - 1) = ((a.length - 1 : Nat) : Int) := by omega
    have hlt : a.length - 1 < a.length := by omega
    refine ⟨a[a.length - 1], ?_, ha _ (List.getElem_mem _)⟩
    rw [hi, vget_natCast, hab, List.getElem?_append_left hlt]
    exact List.getElem?_eq_getElem hlt

end Locator

end BPlus

namespace BPlus

section SplitShape

variable {K V : Type} [LinearOrder K]

/-! ### The two halves that `splitNode` makes, whatever the state -/

/-- The function `splitNode` on a node with `s >= 1` keys and `s + 1` live
children: what the node keeps, what the new node receives, and the key that
goes up. -/
theorem splitNode_shape (t : BPTree K V) (node : Nat) (nd : Node K V)
    (hnd : t.heap.read node = some nd) (hs : 1 ≤ nd.key.length)
    (hc : nd.ptr2node.length = nd.key.length + 1)
    (hlive : ∀ c ∈ nd.ptr2node, ∃ x cn, c = some x ∧ t.heap.read x = some cn) :
    ∃ mid t2 push od nn, mid + 1 = (nd.key.length + 1) / 2 ∧
      splitNode t node = some (t2, t.heap.length, push) ∧
      nd.key[mid]? = some push ∧
      t2.heap.read node = some od ∧ t2.heap.read t.heap.length = some nn ∧
      od.key = nd.key.take mid ∧ od.ptr2node = nd.ptr2node.take (mid + 1) ∧
      nn.key = nd.key.drop (mid + 1) ∧ nn.ptr2node = nd.ptr2node.drop (mid + 1) ∧
      od.key ++ push :: nn.key = nd.key ∧ od.ptr2node ++ nn.ptr2node = nd.ptr2node ∧
      od.ptr2node.length = od.key.length + 1 ∧ nn.ptr2node.length = nn.key.length + 1 ∧
      (nd.key.Nodup → push ∉ od.key ∧ push ∉ nn.key) ∧
      od.leaf = nd.leaf ∧ nn.leaf = false ∧ nn.parent = nd.parent ∧
      (∀ c ∈ nn.ptr2node, ∃ x cn, c = some x ∧ t2.heap.read x = some cn ∧
        cn.parent = some t.heap.length) := by
  obtain ⟨j, hj⟩ : ∃ j, j = (nd.key.length + 1) / 2 - 1 := ⟨_, rfl⟩
  have hj1 : j + 1 = (nd.key.length + 1) / 2 := by omega
  have hj2 : j < nd.key.length := by omega
  have hmidI : (((nd.key.length + 1) / 2 : Nat) : Int) - 1 = (j : Int) := by omega
  have hmidI1 : (j : Int) + 1 = ((j + 1 : Nat) : Int) := by push_cast; ring
  have hnlt : node < t.heap.length := Heap.read_lt hnd
  have hnN : node ≠ t.heap.length := by omega
  obtain ⟨a, ha⟩ : ∃ a, a = nd.key.take j := ⟨_, rfl⟩
  obtain ⟨b, hb⟩ : ∃ b, b = nd.key.drop (j + 1) := ⟨_, rfl⟩
  obtain ⟨s, hs1⟩ : ∃ s, s = nd.key[j] := ⟨_, rfl⟩
  obtain ⟨ca, hca⟩ : ∃ ca, ca = nd.ptr2node.take (j + 1) := ⟨_, rfl⟩
  obtain ⟨cb, hcb⟩ : ∃ cb, cb = nd.ptr2node.drop (j + 1) := ⟨_, rfl⟩
  have hget : nd.key[j]? = some s := by rw [hs1]; exact List.getElem?_eq_getElem hj2
  have hdrop : nd.key.drop j = s :: b := by
    rw [hs1, hb]; exact List.drop_eq_getElem_cons hj2
  have hkey : a ++ s :: b = nd.key := by rw [ha, ← hdrop]; exact List.take_append_drop _ _
  have hptr : ca ++ cb = nd.ptr2node := by rw [hca, hcb]; exact List.take_append_drop _ _
  have halen : a.length = j := by rw [ha, List.length_take]; omega
  have hblen : b.length = nd.key.length - (j + 1) := by rw [hb, List.length_drop]
  have hcalen : ca.length = j + 1 := by rw [hca, List.length_take]; omega
  have hcblen : cb.length = nd.ptr2node.length - (j + 1) := by rw [hcb, List.length_drop]
  obtain ⟨nn, hnn⟩ : ∃ nn : Node K V, nn = { leaf := false, parent := nd.parent, next := none, key := b, ptr2node := cb, ptr2val := [] } := ⟨_, rfl⟩
  obtain ⟨q1, hq1⟩ : ∃ q1 : Node K V, q1 = { nd with key := a, ptr2node := ca } := ⟨_, rfl⟩
  have hQa : (t.heap.alloc nn).1.read node = some nd := by
    rw [Heap.read_alloc, if_neg hnN]; exact hnd
  have hrd2 : ∀ p, (((t.heap.alloc nn).1).write node q1).read p =
      if p = node then some q1 else if p = t.heap.length then some nn else t.heap.read p := by
    intro p
    by_cases h1 : p = node
    · subst h1; rw [if_pos rfl]; exact Heap.read_write_same hQa q1
    · rw [Heap.read_write_ne _ h1, if_neg h1, Heap.read_alloc]
  have hcbl : ∀ c ∈ cb, ∃ x cn, c = some x ∧ t.heap.read x = some cn := by
    intro c hcm
    exact hlive c (by rw [hcb] at hcm; exact List.mem_of_mem_drop hcm)
  obtain ⟨h3, hrep, hlen3, hrd3⟩ := reparent_spec t.heap.length cb
    (((t.heap.alloc nn).1).write node q1) (by
      intro c hcm
      obtain ⟨x, cn, rfl, hx⟩ := hcbl c hcm
      by_cases h1 : x = node
      · exact ⟨x, q1, rfl, by rw [hrd2, if_pos h1]⟩
      · have h2 : x ≠ t.heap.length := by have := Heap.read_lt hx; omega
        exact ⟨x, cn, rfl, by rw [hrd2, if_neg h1, if_neg h2]; exact hx⟩)
  have hsplit : splitNode t node = some ({ t with heap := h3 }, t.heap.length, s) := by
    simp only [splitNode, hnd, hmidI, vget_natCast, hget, hmidI1,
      vfrom_natCast _ _ (show j + 1 ≤ nd.key.length by omega),
      vfrom_natCast nd.ptr2node (j + 1) (by omega),
      vtrunc_natCast _ _ (le_of_lt hj2), vtrunc_natCast nd.ptr2node (j + 1) (by omega),
      ← ha, ← hb, ← hca, ← hcb, ← hnn, ← hq1, hrep]
  have hNot : some t.heap.length ∉ cb := by
    intro hm
    obtain ⟨x, cn, e, hx⟩ := hcbl _ hm
    obtain rfl : t.heap.length = x := by simpa using e
    have := Heap.read_lt hx
    omega
  have hreadN : h3.read t.heap.length = some nn := by
    rw [hrd3, if_neg hNot, hrd2, if_neg (Ne.symm hnN), if_pos rfl]
  obtain ⟨od, hod, hodk, hodp, hodl⟩ : ∃ od, h3.read node = some od ∧ od.key = a ∧
      od.ptr2node = ca ∧ od.leaf = nd.leaf := by
    rw [hrd3, hrd2, if_pos rfl]
    by_cases hm : some node ∈ cb
    · rw [if_pos hm]
      exact ⟨_, rfl, by rw [hq1], by rw [hq1], by rw [hq1]⟩
    · rw [if_neg hm]
      exact ⟨_, rfl, by rw [hq1], by rw [hq1], by rw [hq1]⟩
  refine ⟨j, { t with heap := h3 }, s, od, nn, hj1, hsplit, hget, hod, hreadN, by rw [hodk, ha],
    by rw [hodp, hca], by rw [hnn, hb], by rw [hnn, hcb], by rw [hodk, hnn]; exact hkey,
    by rw [hodp, hnn]; exact hptr, by rw [hodp, hodk, hcalen, halen],
    by rw [hnn]; simp only []; rw [hcblen, hblen]; omega, ?_, hodl, by rw [hnn], by rw [hnn], ?_⟩
  · intro hnd2
    rw [← hkey] at hnd2
    obtain ⟨h1, h2⟩ := nodup_mid hnd2
    rw [hodk, hnn]
    exact ⟨h1, h2⟩
  · intro c hcm
    have hcm2 : c ∈ cb := by rw [hnn] at hcm; exact hcm
    obtain ⟨x, cn, rfl, hx⟩ := hcbl c hcm2
    have hx3 := hrd3 x
    rw [if_pos hcm2, hrd2] at hx3
    by_cases h1 : x = node
    · rw [if_pos h1] at hx3
      exact ⟨x, _, rfl, hx3, rfl⟩
    · have h2 : x ≠ t.heap.length := by have := Heap.read_lt hx; omega
      rw [if_neg h1, if_neg h2, hx] at hx3
      exact ⟨x, _, rfl, hx3, rfl⟩

end SplitShape

end BPlus

namespace BPlus

section LeafSplit

variable {K V : Type} [LinearOrder K]

/-! ### An insert into a full leaf, whatever the state -/

/-- The descent of `keyIndexInLeaf` ends in a leaf, with the result of `keyIndex` there. -/
theorem loop_result {h : Heap K V} {k : K} : ∀ (fuel p : Nat) {L : Nat} {loc : Int},
    keyIndexInLeafLoop h k fuel p = some (L, loc) →
    ∃ nd, h.read L = some nd ∧ nd.leaf = true ∧ loc = keyIndex nd k := by
  intro fuel
  induction fuel with
  | zero => intro p L loc h0; simp [keyIndexInLeafLoop] at h0
  | succ f ih =>
    intro p L loc h0
    simp only [keyIndexInLeafLoop] at h0
    cases hp : h.read p with
    | none => simp [hp] at h0
    | some nd =>
      simp only [hp] at h0
      by_cases hl : nd.leaf = true
      · simp only [hl, if_true, Option.some.injEq, Prod.mk.injEq] at h0
        obtain ⟨rfl, rfl⟩ := h0
        exact ⟨nd, hp, hl, rfl⟩
      · simp only [hl, if_false] at h0
        cases hc : vget nd.ptr2node (keyIndex nd k + 1) with
        | none => simp [hc] at h0
        | some c =>
          cases c with
          | none => simp [hc] at h0
          | some c1 =>
            simp only [hc] at h0
            exact ih c1 h0

theorem keyIndexInLeaf_result {t : BPTree K V} {k : K} {leaf : Nat} {loc : Int}
    (h : keyIndexInLeaf t k = some (some leaf, loc)) :
    (∃ r, t.root = some r) ∧
      ∃ nd, t.heap.read leaf = some nd ∧ nd.leaf = true ∧ loc = keyIndex nd k := by
  simp only [keyIndexInLeaf] at h
  cases hr : t.root with
  | none => simp [hr] at h
  | some r =>
    simp only [hr] at h
    cases hl : keyIndexInLeafLoop t.heap k t.heap.length r with
    | none => simp [hl] at h
    | some x =>
      simp only [hl, Option.map_some', Option.some.injEq, Prod.mk.injEq] at h
      obtain ⟨h1, h2⟩ := h
      have : x = (leaf, loc) := by
        cases x
        simp only at h1 h2
        rw [h1, h2]
      rw [this] at hl
      exact ⟨⟨r, rfl⟩, loop_result _ _ hl⟩

/-- The function `createIndex` below a parent that has room for one more key. -/
theorem createIndex_room {t : BPTree K V} {N Q : Nat} {nn qn : Node K V} (s : K) (fuel : Nat)
    (hN : t.heap.read N = some nn) (hpar : nn.parent = some Q) (hQ : t.heap.read Q = some qn)
    (hroom : qn.key.length < t.order) (hc : qn.ptr2node.length = qn.key.length + 1) :
    createIndex (fuel + 1) t N s = some { t with heap := t.heap.write Q { qn with key := qn.key.take (rank qn.key s) ++ s :: qn.key.drop (rank qn.key s), ptr2node := qn.ptr2node.take (rank qn.key s + 1) ++ some N :: qn.ptr2node.drop (rank qn.key s + 1) } } := by
  have hr := rank_le_length qn.key s
  have hloc1 : keyIndex qn s + 1 = (rank qn.key s : Int) := keyIndex_add_one qn s
  have hloc2 : keyIndex qn s + 2 = ((rank qn.key s + 1 : Nat) : Int) := by
    have : keyIndex qn s + 2 = keyIndex qn s + 1 + 1 := by ring
    rw [this, hloc1]; push_cast; ring
  have hsmall : ¬ ((qn.key.take (rank qn.key s) ++ s :: qn.key.drop (rank qn.key s)).length >
      t.order) := by
    simp only [List.length_append, List.length_take, List.length_cons, List.length_drop]
    omega
  simp only [createIndex, hN, hpar, hQ, hloc1, hloc2, vinsert_natCast _ _ _ hr,
    vinsert_natCast qn.ptr2node (rank qn.key s + 1) (some N) (by omega), if_neg hsmall]

end LeafSplit

end BPlus

namespace BPlus

section LeafSplitMain

variable {K V : Type} [LinearOrder K]

/-- The function `insert` with a new key for a leaf that holds `order` keys:
the leaf after the insertion, the two leaves that `splitLeaf` makes of it, and
how `insert` goes on. -/
theorem insert_full_leaf {t : BPTree K V} {k : K} {v : V} {leaf : Nat} {loc : Int}
    {lf : Node K V} (hloc : keyIndexInLeaf t k = some (some leaf, loc))
    (hlf : t.heap.read leaf = some lf) (hfull : lf.key.length = t.order)
    (hval : lf.ptr2val.length = lf.key.length) (hnew : k ∉ lf.key) :
    ∃ keys vals sep t2,
      vinsert lf.key (loc + 1) k = some keys ∧ vinsert lf.ptr2val (loc + 1) v = some vals ∧
      keys.length = t.order + 1 ∧ vals.length = t.order + 1 ∧
      (keys.drop ((t.order + 1) / 2)).head? = some sep ∧
      splitLeaf { t with heap := t.heap.write leaf { lf with key := keys, ptr2val := vals } } leaf =
        some (t2, t.heap.length) ∧
      t2.order = t.order ∧ t2.root = t.root ∧ t2.heap.length = t.heap.length + 1 ∧
      (∀ p, t2.heap.read p =
        if p = leaf then some { lf with next := some t.heap.length, key := keys.take ((t.order + 1) / 2), ptr2val := vals.take ((t.order + 1) / 2) }
        else if p = t.heap.length then some { leaf := true, parent := lf.parent, next := lf.next, key := keys.drop ((t.order + 1) / 2), ptr2node := [], ptr2val := vals.drop ((t.order + 1) / 2) }
        else t.heap.read p) ∧
      (some leaf = t.root → ∃ t3, insert t k v = some t3 ∧ t3.order = t.order ∧
        t3.root = some (t.heap.length + 1) ∧
        ∀ p, t3.heap.read p =
          if p = leaf then some { lf with parent := some (t.heap.length + 1), next := some t.heap.length, key := keys.take ((t.order + 1) / 2), ptr2val := vals.take ((t.order + 1) / 2) }
          else if p = t.heap.length then some { leaf := true, parent := some (t.heap.length + 1), next := lf.next, key := keys.drop ((t.order + 1) / 2), ptr2node := [], ptr2val := vals.drop ((t.order + 1) / 2) }
          else if p = t.heap.length + 1 then some { leaf := false, parent := none, next := none, key := [sep], ptr2node := [some leaf, some t.heap.length], ptr2val := [] }
          else t.heap.read p) ∧
      (some leaf ≠ t.root → insert t k v = createIndex (t.heap.length + 1) t2 t.heap.length sep) := by
  obtain ⟨⟨r, hroot⟩, nd, hnd, hleaf, hlocv⟩ := keyIndexInLeaf_result hloc
  rw [hlf] at hnd
  obtain rfl : lf = nd := by simpa using hnd
  have hrk := rank_le_length lf.key k
  have hloc1 : loc + 1 = (rank lf.key k : Int) := by rw [hlocv]; exact keyIndex_add_one lf k
  obtain ⟨m, hm⟩ : ∃ m, m = rank lf.key k := ⟨_, rfl⟩
  rw [← hm] at hloc1 hrk
  obtain ⟨mid, hmid⟩ : ∃ mid, mid = (t.order + 1) / 2 := ⟨_, rfl⟩
  have hmid2 : mid < t.order + 1 := by omega
  obtain ⟨keys, hkeys⟩ : ∃ keys, keys = lf.key.take m ++ k :: lf.key.drop m := ⟨_, rfl⟩
  obtain ⟨vals, hvals⟩ : ∃ vals, vals = lf.ptr2val.take m ++ v :: lf.ptr2val.drop m := ⟨_, rfl⟩
  have hk1 : vinsert lf.key (loc + 1) k = some keys := by
    rw [hloc1, vinsert_natCast _ _ _ hrk, hkeys]
  have hv1 : vinsert lf.ptr2val (loc + 1) v = some vals := by
    rw [hloc1, vinsert_natCast _ _ _ (by omega), hvals]
  have hkl : keys.length = t.order + 1 := by
    rw [hkeys]
    simp only [List.length_append, List.length_take, List.length_cons, List.length_drop]
    omega
  have hvl : vals.length = t.order + 1 := by
    rw [hvals]
    simp only [List.length_append, List.length_take, List.length_cons, List.length_drop]
    omega
  have hhit : (if loc ≠ -1 then (vget lf.key loc).map (fun x => decide (x = k))
      else some false) = some false := by
    by_cases h0 : loc = -1
    · simp [h0]
    · have hmpos : 0 < m := by omega
      have hl : loc = ((m - 1 : Nat) : Int) := by omega
      have hlt : m - 1 < lf.key.length := by omega
      rw [if_pos h0, hl, vget_natCast, List.getElem?_eq_getElem hlt]
      have hne : lf.key[m - 1] ≠ k := fun e => hnew (e ▸ List.getElem_mem _)
      simp [hne]
  obtain ⟨sep, hsep⟩ : ∃ sep, (keys.drop mid).head? = some sep := by
    have : keys.drop mid ≠ [] := by
      intro e
      have := congrArg List.length e
      rw [List.length_drop, hkl] at this
      simp at this
      omega
    cases hd : keys.drop mid with
    | nil => exact absurd hd this
    | cons x xs => exact ⟨x, rfl⟩
  obtain ⟨lf1, hlf1⟩ : ∃ lf1 : Node K V, lf1 = { lf with key := keys, ptr2val := vals } :=
    ⟨_, rfl⟩
  obtain ⟨od, hod⟩ : ∃ od : Node K V, od = { lf with next := some t.heap.length, key := keys.take mid, ptr2val := vals.take mid } := ⟨_, rfl⟩
  obtain ⟨nl, hnl⟩ : ∃ nl : Node K V, nl = { leaf := true, parent := lf.parent, next := lf.next, key := keys.drop mid, ptr2node := [], ptr2val := vals.drop mid } := ⟨_, rfl⟩
  have hLlt : leaf < t.heap.length := Heap.read_lt hlf
  have hLN : leaf ≠ t.heap.length := by omega
  have hr1 : (t.heap.write leaf lf1).read leaf = some lf1 := Heap.read_write_same hlf _
  have hmidI : ((lf1.key.length / 2 : Nat) : Int) = (mid : Int) := by
    rw [hlf1]; simp only []; rw [hkl, hmid]
  have hsplit : splitLeaf { t with heap := t.heap.write leaf lf1 } leaf =
      some ({ t with heap := (((t.heap.write leaf lf1).alloc nl).1).write leaf od },
        t.heap.length) := by
    have e1 : lf1.key = keys := by rw [hlf1]
    have e2 : lf1.ptr2val = vals := by rw [hlf1]
    simp only [splitLeaf, hr1, hmidI, Heap.length_write]
    rw [vfrom_natCast _ _ (by rw [e1, hkl]; omega), vfrom_natCast _ _ (by rw [e2, hvl]; omega),
      vtrunc_natCast _ _ (by rw [e1, hkl]; omega), vtrunc_natCast _ _ (by rw [e2, hvl]; omega)]
    simp only [e1, e2]
    rw [hod, hnl, hlf1]
  have hLa : ((t.heap.write leaf lf1).alloc nl).1.read leaf = some lf1 := by
    rw [Heap.read_alloc, Heap.length_write, if_neg hLN]; exact hr1
  have hrd : ∀ p, ((((t.heap.write leaf lf1).alloc nl).1).write leaf od).read p =
      if p = leaf then some od else if p = t.heap.length then some nl else t.heap.read p := by
    intro p
    by_cases h1 : p = leaf
    · subst h1; rw [if_pos rfl]; exact Heap.read_write_same hLa od
    · rw [Heap.read_write_ne _ h1, if_neg h1, Heap.read_alloc, Heap.length_write,
        Heap.read_write_ne _ h1]
  obtain ⟨t2, ht2⟩ : ∃ t2 : BPTree K V, t2 = { t with heap := (((t.heap.write leaf lf1).alloc nl).1).write leaf od } := ⟨_, rfl⟩
  have ht2len : t2.heap.length = t.heap.length + 1 := by rw [ht2]; simp
  have hsepv : vget nl.key 0 = some sep := by
    rw [hnl]
    simp only [vget_zero]
    rw [← List.head?_eq_getElem?]
    exact hsep
  have hins : insert t k v = if some leaf = t.root then newRoot t2 leaf t.heap.length sep
      else createIndex (t.heap.length + 1) t2 t.heap.length sep := by
    have hbig : keys.length > t.order := by omega
    have hrN : t2.heap.read t.heap.length = some nl := by
      rw [ht2]; simp only []; rw [hrd, if_neg (Ne.symm hLN), if_pos rfl]
    rw [ht2] at hrN
    simp only [insert, hroot, hloc, hlf, hhit, hk1, hv1, ← hlf1, if_pos hbig]
    rw [← hroot, hsplit]
    simp only [hrN, hsepv, ← ht2, Bool.false_eq_true, if_false]
    simp only [Heap.length_write, Heap.length_alloc]
  refine ⟨keys, vals, sep, t2, hk1, hv1, hkl, hvl, by rw [← hmid]; exact hsep,
    by rw [← hlf1, hsplit, ht2], by rw [ht2], by rw [ht2], ht2len, ?_, ?_, ?_⟩
  · intro p
    rw [ht2]; simp only []
    rw [hrd, hod, hnl, hmid]
  · intro hrt
    rw [hins, if_pos hrt]
    obtain ⟨nr, hnr⟩ : ∃ nr : Node K V, nr = { leaf := false, parent := none, next := none, key := [sep], ptr2node := [some leaf, some t.heap.length], ptr2val := [] } := ⟨_, rfl⟩
    have h2rd : ∀ p, t2.heap.read p =
        if p = leaf then some od else if p = t.heap.length then some nl else t.heap.read p := by
      intro p
      rw [ht2]
      exact hrd p
    have hA : (t2.heap.alloc nr).1.read leaf = some od := by
      rw [Heap.read_alloc, ht2len, if_neg (by omega), h2rd, if_pos rfl]
    have hB : ((t2.heap.alloc nr).1.write leaf { od with parent := some t2.heap.length }).read
        t.heap.length = some nl := by
      rw [Heap.read_write_ne _ (Ne.symm hLN), Heap.read_alloc, ht2len, if_neg (by omega), h2rd,
        if_neg (Ne.symm hLN), if_pos rfl]
    have hnew : newRoot t2 leaf t.heap.length sep = some { t2 with root := some t2.heap.length, heap := ((t2.heap.alloc nr).1.write leaf { od with parent := some t2.heap.length }).write t.heap.length { nl with parent := some t2.heap.length } } := by
      simp only [newRoot, ← hnr, hA, hB]
    refine ⟨_, hnew, by rw [ht2], by simp only []; rw [ht2len], ?_⟩
    intro p
    simp only []
    by_cases h1 : p = leaf
    · subst h1
      rw [Heap.read_write_ne _ hLN, Heap.read_write_same hA, if_pos rfl, ht2len, hod, hmid]
    · rw [if_neg h1]
      by_cases h2 : p = t.heap.length
      · subst h2
        rw [Heap.read_write_same hB, if_pos rfl, ht2len, hnl, hmid]
      · rw [if_neg h2, Heap.read_write_ne _ h2, Heap.read_write_ne _ h1, Heap.read_alloc, ht2len]
        by_cases h3 : p = t.heap.length + 1
        · rw [if_pos h3, if_pos h3, hnr]
        · rw [if_neg h3, if_neg h3, h2rd, if_neg h1, if_neg h2]
  · intro hrt
    rw [hins, if_neg hrt]

end LeafSplitMain

end BPlus

namespace BPlus

section Ranges

variable {K V : Type} [LinearOrder K]

/-! ### The keys below a node lie in the range of the node -/

theorem keysBelowLoop_spec {t : BPTree K V} {g : Ghost K} {exc : Option Nat}
    (inv : InvG t g exc) :
    ∀ (d p : Nat) (nd : Node K V), t.heap.read p = some nd → g.ht p = d →
      ∀ fuel, d < fuel → ∃ ks, keysBelowLoop t.heap fuel p = some ks ∧
        (∀ x ∈ nd.key, x ∈ ks) ∧ ∀ x ∈ ks, loLe (g.lo p) x ∧ ltHi x (g.hi p) := by
  intro d
  induction d with
  | zero =>
    intro p nd hp hd fuel hf
    obtain ⟨f1, rfl⟩ : ∃ f1, fuel = f1 + 1 := ⟨fuel - 1, by omega⟩
    have ok := inv.nodes p nd hp
    have hl : nd.leaf = true := ok.leaf_iff.mpr hd
    refine ⟨nd.key, by simp [keysBelowLoop, hp, hl], fun x hx => hx, ?_⟩
    intro x hx
    exact ok.range_of_mem hx
  | succ d ih =>
    intro p nd hp hd fuel hf
    obtain ⟨f1, rfl⟩ : ∃ f1, fuel = f1 + 1 := ⟨fuel - 1, by omega⟩
    have ok := inv.nodes p nd hp
    have hl : nd.leaf = false := by
      cases hb : nd.leaf with
      | false => rfl
      | true => have := ok.leaf_iff.mp hb; omega
    have hk := ok.kids hl
    have hlow : ∀ k ∈ nd.key, loLt (g.lo p) k := by
      intro k hk
      have := ok.lower k hk
      simpa [hl] using this
    obtain ⟨ys, hys, hb⟩ := collect_all (f := keysBelowLoop t.heap f1)
      (Q := fun x => loLe (g.lo p) x ∧ ltHi x (g.hi p)) nd.ptr2node (by
        intro c hc
        obtain ⟨i, hi⟩ := List.getElem?_of_mem hc
        obtain ⟨c1, cn, e1, h1, h2, h3, h4, h5⟩ := kids_at hk hi
        obtain ⟨ks, e2, _, e3⟩ := ih c1 cn h1 (by omega) f1 (by omega)
        refine ⟨c1, ks, e1, e2, ?_⟩
        intro x hx
        obtain ⟨b1, b2⟩ := e3 x hx
        rw [h4] at b1
        rw [h5] at b2
        exact ⟨loLe_of_lastOr (fun z hz => hlow z (List.mem_of_mem_take hz)) b1,
          ltHi_of_headOr (fun z hz => ok.upper z (List.mem_of_mem_drop hz)) b2⟩)
    refine ⟨nd.key ++ ys, by simp [keysBelowLoop, hp, hl, hys],
      fun x hx => List.mem_append_left _ hx, ?_⟩
    intro x hx
    rcases List.mem_append.mp hx with h | h
    · exact ok.range_of_mem h
    · exact hb x h

/-- In a well-formed tree every node has sorted keys, and the keys stored
below the child `i` of an internal node lie between the keys `i - 1` and `i`
of the node. -/
theorem node_ranges {t : BPTree K V} {g : Ghost K} {exc : Option Nat} (inv : InvG t g exc)
    {p : Nat} {nd : Node K V} (hp : t.heap.read p = some nd) :
    nd.key.Pairwise (fun a b => a < b) ∧
      (nd.leaf = false → nd.ptr2node.length = nd.key.length + 1 ∧
        ∀ (i : Nat) (c : Option Nat), nd.ptr2node[i]? = some c →
          ∃ x xn ks, c = some x ∧ t.heap.read x = some xn ∧ keysBelow t x = some ks ∧
            (∀ y ∈ xn.key, y ∈ ks) ∧
            (∀ s, nd.key[i]? = some s → ∀ y ∈ ks, y < s) ∧
            (∀ s, 0 < i → nd.key[i - 1]? = some s → ∀ y ∈ ks, s ≤ y)) := by
  have ok := inv.nodes p nd hp
  refine ⟨ok.sorted, ?_⟩
  intro hl
  have hk := ok.kids hl
  refine ⟨hk.length_eq, ?_⟩
  intro i c hc
  obtain ⟨c1, cn, e1, h1, h2, h3, h4, h5⟩ := kids_at hk hc
  obtain ⟨ks, e2, e3, e4⟩ := keysBelowLoop_spec inv (g.ht c1) c1 cn h1 rfl t.heap.length
    (inv.low c1 cn h1)
  refine ⟨c1, cn, ks, e1, h1, e2, e3, ?_, ?_⟩
  · intro s hs y hy
    have hd : nd.key.drop i = s :: nd.key.drop (i + 1) := by
      obtain ⟨hil, hsv⟩ := List.getElem?_eq_some.mp hs
      rw [← hsv]; exact List.drop_eq_getElem_cons hil
    have := (e4 y hy).2
    rw [h5, hd] at this
    simpa using this
  · intro s hi hs y hy
    have ht : nd.key.take i = nd.key.take (i - 1) ++ [s] := by
      obtain ⟨j, rfl⟩ : ∃ j, i = j + 1 := ⟨i - 1, by omega⟩
      simp only [Nat.add_sub_cancel] at hs ⊢
      rw [List.take_succ, hs]; rfl
    have := (e4 y hy).1
    rw [h4, ht] at this
    simpa using this

end Ranges

end BPlus

namespace BPlus

section Safety

variable {K V : Type} [LinearOrder K]

/-! ### What a result of the underflow handlers tells

In the embedding an access outside a vector and a null or dangling pointer
dereferenced give no result.  So a handler that returns a result has found
the node among the children of its parent, and the sibling it used. -/

theorem vget_some {α : Type} {v : List α} {i : Int} {x : α} (h : vget v i = some x) :
    0 ≤ i ∧ v[i.toNat]? = some x := by
  simp only [vget] at h
  split at h
  · exact ⟨by assumption, h⟩
  · cases h

theorem vset_some {α : Type} {v w : List α} {i : Int} {x : α} (h : vset v i x = some w) :
    0 ≤ i ∧ i.toNat < v.length := by
  simp only [vset] at h
  split at h
  · assumption
  · cases h

theorem verase_some {α : Type} {v w : List α} {i : Int} (h : verase v i = some w) :
    0 ≤ i ∧ i.toNat < v.length := by
  simp only [verase] at h
  split at h
  · assumption
  · cases h

/-- The search of a node among the children of its parent ends with `-1` or
with an index at which the node is. -/
theorem childIndex_cases (ptrs : List (Option Nat)) (x : Nat) :
    childIndex ptrs x = -1 ∨
      ∃ i : Nat, childIndex ptrs x = (i : Int) ∧ ptrs[i]? = some (some x) := by
  by_cases h : ptrs.indexOf (some x) < ptrs.length
  · right
    refine ⟨ptrs.indexOf (some x), by simp [childIndex, h], ?_⟩
    rw [List.getElem?_eq_getElem h]
    congr 1
    have := @List.findIdx_getElem _ (fun y => y == some x) ptrs h
    simpa using this
  · left
    simp [childIndex, h]

theorem canLend_some {t : BPTree K V} {ptrs : List (Option Nat)} {i : Int} {b : Bool}
    (h : canLend t ptrs i = some b) :
    ∃ s sn, vget ptrs i = some (some s) ∧ t.heap.read s = some sn := by
  unfold canLend at h
  repeat' (first | contradiction | split at h | dsimp only at h)
  exact ⟨_, _, ‹vget ptrs i = some (some _)›, ‹t.heap.read _ = some _›⟩

theorem leafBorrowRight_some {t t1 : BPTree K V} {leaf parent : Nat} {idx : Int}
    (h : leafBorrowRight t leaf parent idx = some t1) : 0 ≤ idx := by
  unfold leafBorrowRight at h
  repeat' (first | contradiction | split at h | dsimp only at h)
  exact (vset_some ‹vset _ idx _ = some _›).1

theorem nodeBorrowRight_some {t t1 : BPTree K V} {node parent : Nat} {idx : Int}
    (h : nodeBorrowRight t node parent idx = some t1) : 0 ≤ idx := by
  unfold nodeBorrowRight at h
  repeat' (first | contradiction | split at h | dsimp only at h)
  exact (vset_some ‹vset _ idx _ = some _›).1

theorem leafMergeRight_some {t t1 : BPTree K V} {leaf parent : Nat} {idx : Int}
    (h : leafMergeRight t leaf parent idx = some t1) :
    0 ≤ idx ∧ ∃ pn s sn, t.heap.read parent = some pn ∧
      vget pn.ptr2node (idx + 1) = some (some s) ∧ t.heap.read s = some sn := by
  unfold leafMergeRight at h
  repeat' (first | contradiction | split at h | dsimp only at h)
  exact ⟨(verase_some ‹verase _ idx = some _›).1, _, _, _, ‹t.heap.read parent = some _›,
    ‹vget _ (idx + 1) = some (some _)›, ‹t.heap.read _ = some _›⟩

theorem nodeMergeRight_some {t t1 : BPTree K V} {node parent : Nat} {idx : Int}
    (h : nodeMergeRight t node parent idx = some t1) :
    0 ≤ idx ∧ ∃ pn s sn, t.heap.read parent = some pn ∧
      vget pn.ptr2node (idx + 1) = some (some s) ∧ t.heap.read s = some sn := by
  unfold nodeMergeRight at h
  repeat' (first | contradiction | split at h | dsimp only at h)
  exact ⟨(vget_some ‹vget _ idx = some _›).1, _, _, _, ‹t.heap.read parent = some _›,
    ‹vget _ (idx + 1) = some (some _)›, ‹t.heap.read _ = some _›⟩

/-- A call of `handleLeafUnderflow` that returns has found the leaf among the
children of its parent, at an index `idx`, and the sibling it borrows from or
merges with is there: the left one when `idx > 0`, the one at `idx + 1` when
`idx == 0`. -/
theorem handleLeafUnderflow_found {t t1 : BPTree K V} {leaf : Nat}
    (h : handleLeafUnderflow t leaf = some t1) :
    ∃ (lf : Node K V) (parent : Nat) (pn : Node K V) (idx sib : Nat) (sn : Node K V),
      t.heap.read leaf = some lf ∧ lf.parent = some parent ∧
      t.heap.read parent = some pn ∧ childIndex pn.ptr2node leaf = (idx : Int) ∧
      pn.ptr2node[idx]? = some (some leaf) ∧
      pn.ptr2node[if idx = 0 then 1 else idx - 1]? = some (some sib) ∧
      t.heap.read sib = some sn := by
  unfold handleLeafUnderflow at h
  cases hlf : t.heap.read leaf with
  | none => simp [hlf] at h
  | some lf =>
    cases hpar : lf.parent with
    | none => simp [hlf, hpar] at h
    | some parent =>
      cases hpn : t.heap.read parent with
      | none => simp [hlf, hpar, hpn] at h
      | some pn =>
        simp only [hlf, hpar, hpn] at h
        rcases childIndex_cases pn.ptr2node leaf with hm | ⟨i, hi, hget⟩
        · exfalso
          rw [hm] at h
          simp only [show ¬ ((-1 : Int) > 0) by decide, if_false, Bool.false_eq_true] at h
          cases hbr : (if sizeT (-1) < sizeT ((pn.ptr2node.length : Int) - 1)
              then canLend t pn.ptr2node (-1 + 1) else some false) with
          | none => rw [hbr] at h; cases h
          | some br =>
            rw [hbr] at h
            by_cases hb : br = true
            · simp only [hb, if_true] at h
              have := leafBorrowRight_some h
              omega
            · simp only [hb, if_false] at h
              cases hm2 : leafMergeRight t leaf parent (-1) with
              | none => rw [hm2] at h; cases h
              | some t2 =>
                have := (leafMergeRight_some hm2).1
                omega
        · rw [hi] at h
          by_cases hpos : 0 < i
          · have hp2 : ((i : Int) > 0) := by omega
            simp only [hp2, if_true] at h
            cases hbl : canLend t pn.ptr2node ((i : Int) - 1) with
            | none => rw [hbl] at h; cases h
            | some bl =>
              obtain ⟨s, sn, h1, h2⟩ := canLend_some hbl
              have e : ((i : Int) - 1) = ((i - 1 : Nat) : Int) := by omega
              rw [e, vget_natCast] at h1
              exact ⟨lf, parent, pn, i, s, sn, rfl, hpar, hpn, hi, hget,
                by rw [if_neg (by omega)]; exact h1, h2⟩
          · have hi0 : i = 0 := by omega
            subst hi0
            simp only [Nat.cast_zero, show ¬ ((0 : Int) > 0) by decide, if_false,
              Bool.false_eq_true] at h
            have e1 : ((0 : Int) + 1) = ((1 : Nat) : Int) := by norm_num
            by_cases hc : sizeT 0 < sizeT ((pn.ptr2node.length : Int) - 1)
            · rw [if_pos hc] at h
              cases hbr : canLend t pn.ptr2node (0 + 1) with
              | none => rw [hbr] at h; cases h
              | some br =>
                obtain ⟨s, sn, h1, h2⟩ := canLend_some hbr
                rw [e1, vget_natCast] at h1
                exact ⟨lf, parent, pn, 0, s, sn, rfl, hpar, hpn, hi, hget, h1, h2⟩
            · rw [if_neg hc] at h
              simp only [Bool.false_eq_true, if_false] at h
              cases hm2 : leafMergeRight t leaf parent 0 with
              | none => rw [hm2] at h; cases h
              | some t2 =>
                obtain ⟨_, pn2, s, sn, h0, h1, h2⟩ := leafMergeRight_some hm2
                rw [hpn] at h0
                obtain rfl : pn = pn2 := by simpa using h0
                rw [e1, vget_natCast] at h1
                exact ⟨lf, parent, pn, 0, s, sn, rfl, hpar, hpn, hi, hget, h1, h2⟩

/-- A call of `handleNodeUnderflow` that returns has found the node among the
children of its parent, at an index `idx`, and the sibling it borrows from or
merges with is there: the left one when `idx > 0`, the one at `idx + 1` when
`idx == 0`. -/
theorem handleNodeUnderflow_found {t t1 : BPTree K V} {node fuel : Nat}
    (h : handleNodeUnderflow fuel t node = some t1) :
    ∃ (nd : Node K V) (parent : Nat) (pn : Node K V) (idx sib : Nat) (sn : Node K V),
      t.heap.read node = some nd ∧ nd.parent = some parent ∧
      t.heap.read parent = some pn ∧ childIndex pn.ptr2node node = (idx : Int) ∧
      pn.ptr2node[idx]? = some (some node) ∧
      pn.ptr2node[if idx = 0 then 1 else idx - 1]? = some (some sib) ∧
      t.heap.read sib = some sn := by
  cases fuel with
  | zero => simp [handleNodeUnderflow] at h
  | succ f =>
  unfold handleNodeUnderflow at h
  cases hnd : t.heap.read node with
  | none => simp [hnd] at h
  | some nd =>
    cases hpar : nd.parent with
    | none => simp [hnd, hpar] at h
    | some parent =>
      cases hpn : t.heap.read parent with
      | none => simp [hnd, hpar, hpn] at h
      | some pn =>
        simp only [hnd, hpar, hpn] at h
        rcases childIndex_cases pn.ptr2node node with hm | ⟨i, hi, hget⟩
        · exfalso
          rw [hm] at h
          simp only [show ¬ ((-1 : Int) > 0) by decide, if_false, Bool.false_eq_true] at h
          cases hbr : (if sizeT (-1) < sizeT ((pn.ptr2node.length : Int) - 1)
              then canLend t pn.ptr2node (-1 + 1) else some false) with
          | none => rw [hbr] at h; cases h
          | some br =>
            rw [hbr] at h
            by_cases hb : br = true
            · simp only [hb, if_true] at h
              have := nodeBorrowRight_some h
              omega
            · simp only [hb, if_false] at h
              cases hm2 : nodeMergeRight t node parent (-1) with
              | none => rw [hm2] at h; cases h
              | some t2 =>
                have := (nodeMergeRight_some hm2).1
                omega
        · rw [hi] at h
          by_cases hpos : 0 < i
          · have hp2 : ((i : Int) > 0) := by omega
            simp only [hp2, if_true] at h
            cases hbl : canLend t pn.ptr2node ((i : Int) - 1) with
            | none => rw [hbl] at h; cases h
            | some bl =>
              obtain ⟨s, sn, h1, h2⟩ := canLend_some hbl
              have e : ((i : Int) - 1) = ((i - 1 : Nat) : Int) := by omega
              rw [e, vget_natCast] at h1
              exact ⟨nd, parent, pn, i, s, sn, rfl, hpar, hpn, hi, hget,
                by rw [if_neg (by omega)]; exact h1, h2⟩
          · have hi0 : i = 0 := by omega
            subst hi0
            simp only [Nat.cast_zero, show ¬ ((0 : Int) > 0) by decide, if_false,
              Bool.false_eq_true] at h
            have e1 : ((0 : Int) + 1) = ((1 : Nat) : Int) := by norm_num
            by_cases hc : sizeT 0 < sizeT ((pn.ptr2node.length : Int) - 1)
            · rw [if_pos hc] at h
              cases hbr : canLend t pn.ptr2node (0 + 1) with
              | none => rw [hbr] at h; cases h
              | some br =>
                obtain ⟨s, sn, h1, h2⟩ := canLend_some hbr
                rw [e1, vget_natCast] at h1
                exact ⟨nd, parent, pn, 0, s, sn, rfl, hpar, hpn, hi, hget, h1, h2⟩
            · rw [if_neg hc] at h
              simp only [Bool.false_eq_true, if_false] at h
              cases hm2 : nodeMergeRight t node parent 0 with
              | none => rw [hm2] at h; cases h
              | some t2 =>
                obtain ⟨_, pn2, s, sn, h0, h1, h2⟩ := nodeMergeRight_some hm2
                rw [hpn] at h0
                obtain rfl : pn = pn2 := by simpa using h0
                rw [e1, vget_natCast] at h1
                exact ⟨nd, parent, pn, 0, s, sn, rfl, hpar, hpn, hi, hget, h1, h2⟩

/-- A call of the closing block `// parent is empty` that returns leaves the
tree as it is, or has found the first child of the root live and made it the
root. -/
theorem collapseRoot_child {t t1 : BPTree K V} (h : collapseRoot t = some t1) :
    ∃ (r : Nat) (rn : Node K V), t.root = some r ∧ t.heap.read r = some rn ∧
      (¬ (rn.key = [] ∧ rn.ptr2node ≠ []) → t1 = t) ∧
      (rn.key = [] ∧ rn.ptr2node ≠ [] → ∃ (c : Nat) (cn : Node K V),
        rn.ptr2node[0]? = some (some c) ∧ c ≠ r ∧ t.heap.read c = some cn ∧
        t1.root = some c) := by
  unfold collapseRoot at h
  cases hr : t.root with
  | none => simp [hr] at h
  | some r =>
    cases hrn : t.heap.read r with
    | none => simp [hr, hrn] at h
    | some rn =>
      simp only [hr, hrn] at h
      refine ⟨r, rn, rfl, hrn, ?_, ?_⟩
      · intro hc
        have hc2 : ¬ (rn.key.isEmpty = true ∧ ¬ rn.ptr2node.isEmpty = true) := by
          simpa [List.isEmpty_iff] using hc
        rw [if_neg hc2] at h
        simp only [Option.some.injEq] at h
        exact h.symm
      · intro hc
        have hc2 : rn.key.isEmpty = true ∧ ¬ rn.ptr2node.isEmpty = true := by
          simpa [List.isEmpty_iff] using hc
        rw [if_pos hc2] at h
        repeat' (first | contradiction | split at h | dsimp only at h)
        rename_i c h0 _ cn hcn
        rw [vget_zero] at h0
        rw [Heap.read_free] at hcn
        by_cases hcr : c = r
        · rw [if_pos hcr] at hcn; cases hcn
        · rw [if_neg hcr] at hcn
          simp only [Option.some.injEq] at h
          exact ⟨c, cn, h0, hcr, hcn, by rw [← h]⟩

end Safety

end BPlus

namespace BPlus

section Walk

variable {K V : Type} [LinearOrder K]

/-- The leftmost leaf below a node begins where the node begins. -/
theorem leftmost_spec {t : BPTree K V} {g : Ghost K} {exc : Option Nat} (inv : InvG t g exc) :
    ∀ (d p : Nat) (nd : Node K V), t.heap.read p = some nd → g.ht p = d →
      ∀ fuel, d < fuel → ∃ l ln, leftmostLoop t.heap fuel p = some l ∧
        t.heap.read l = some ln ∧ ln.leaf = true ∧ g.lo l = g.lo p := by
  intro d
  induction d with
  | zero =>
    intro p nd hp hd fuel hf
    obtain ⟨f1, rfl⟩ : ∃ f1, fuel = f1 + 1 := ⟨fuel - 1, by omega⟩
    have hl := (inv.nodes p nd hp).leaf_iff.mpr hd
    exact ⟨p, nd, by simp [leftmostLoop, hp, hl], hp, hl, rfl⟩
  | succ d ih =>
    intro p nd hp hd fuel hf
    obtain ⟨f1, rfl⟩ : ∃ f1, fuel = f1 + 1 := ⟨fuel - 1, by omega⟩
    have ok := inv.nodes p nd hp
    have hl : nd.leaf = false := by
      cases h : nd.leaf with
      | false => rfl
      | true => have := ok.leaf_iff.mp h; omega
    have hk := ok.kids hl
    have hne : ∃ c cs, nd.ptr2node = c :: cs := by
      cases hkey : nd.key with
      | nil =>
        rw [hkey] at hk
        obtain ⟨c, e, _⟩ := hk
        exact ⟨c, [], e⟩
      | cons y ys =>
        rw [hkey] at hk
        obtain ⟨c, cs, e, _⟩ := hk
        exact ⟨c, cs, e⟩
    obtain ⟨c, cs, hptr⟩ := hne
    have h0 : nd.ptr2node[0]? = some c := by rw [hptr]; simp
    obtain ⟨c1, cn, e1, e2, e3, e4, e5, _⟩ := kids_at hk h0
    subst e1
    simp only [List.take_zero, lastOr_nil] at e5
    obtain ⟨l, ln, a1, a2, a3, a4⟩ := ih c1 cn e2 (by omega) f1 (by omega)
    refine ⟨l, ln, ?_, a2, a3, by rw [a4, e5]⟩
    simp [leftmostLoop, hp, hl, hptr, vget_zero, a1]

/-- The leaves below the children of a node, one child after the other. -/
theorem collect_run {P : Option Nat → Option K → Option K → Prop} {g : Ghost K} {h : Heap K V}
    {f : Nat → Option (List (K × V))} :
    ∀ (ks : List K) (lo hi : Option K) (cs : List (Option Nat)), Kids P lo ks cs hi →
      (∀ c l u, c ∈ cs → P c l u → ∃ x ls, c = some x ∧
        f x = some (ls.flatMap (pairsAt h)) ∧ LeafRun g h ls l u) →
      ∃ ls, collect f cs = some (ls.flatMap (pairsAt h)) ∧ LeafRun g h ls lo hi := by
  intro ks
  induction ks with
  | nil =>
    intro lo hi cs hk hall
    obtain ⟨c, rfl, hc⟩ := hk
    obtain ⟨x, ls, rfl, hx, hrun⟩ := hall c lo hi (by simp) hc
    exact ⟨ls, by simp [collect, hx], hrun⟩
  | cons k ks ih =>
    intro lo hi cs hk hall
    obtain ⟨c, cs1, rfl, hc, hk1⟩ := hk
    obtain ⟨x, ls1, rfl, hx, ⟨a1, b1, r1, r2, r3, r4⟩, r5, r6⟩ := hall c lo (some k) (by simp) hc
    obtain ⟨ls2, hys, ⟨a2, b2, s1, s2, s3, s4⟩, s5, s6⟩ :=
      ih (some k) hi cs1 hk1 (fun c l u hc => hall c l u (by simp [hc]))
    refine ⟨ls1 ++ ls2, by simp [collect, hx, hys], ⟨a1, b2, ?_, ?_, r3, s4⟩, ?_, ?_⟩
    · cases ls1 with
      | nil => simp at r1
      | cons y ys => simpa using r1
    · cases ls2 with
      | nil => simp at s2
      | cons y ys => rw [List.getLast?_append_cons]; simpa using s2
    · refine List.chain'_append.mpr ⟨r5, s5, ?_⟩
      intro x hx y hy
      rw [r2] at hx
      rw [s1] at hy
      obtain rfl : b1 = x := by simpa using hx
      obtain rfl : a2 = y := by simpa using hy
      exact ⟨k, r4, s3⟩
    · intro l hl
      rcases List.mem_append.mp hl with hl | hl
      · exact r6 l hl
      · exact s6 l hl

/-- The pairs below a node are those of a row of leaves that covers its range. -/
theorem leaves_spec {t : BPTree K V} {g : Ghost K} {exc : Option Nat} (inv : InvG t g exc) :
    ∀ (d p : Nat) (nd : Node K V), t.heap.read p = some nd → g.ht p = d →
      ∀ fuel, d < fuel → ∃ ls, entriesLoop t.heap fuel p = some (ls.flatMap (pairsAt t.heap)) ∧
        LeafRun g t.heap ls (g.lo p) (g.hi p) := by
  intro d
  induction d with
  | zero =>
    intro p nd hp hd fuel hf
    obtain ⟨f1, rfl⟩ : ∃ f1, fuel = f1 + 1 := ⟨fuel - 1, by omega⟩
    have hl := (inv.nodes p nd hp).leaf_iff.mpr hd
    refine ⟨[p], by simp [entriesLoop, hp, hl, pairsAt_of_leaf hp hl],
      ⟨p, p, rfl, rfl, rfl, rfl⟩, by simp, ?_⟩
    intro l hl1
    obtain rfl : l = p := by simpa using hl1
    exact ⟨nd, hp, hl⟩
  | succ d ih =>
    intro p nd hp hd fuel hf
    obtain ⟨f1, rfl⟩ : ∃ f1, fuel = f1 + 1 := ⟨fuel - 1, by omega⟩
    have ok := inv.nodes p nd hp
    have hl : nd.leaf = false := by
      cases h : nd.leaf with
      | false => rfl
      | true => have := ok.leaf_iff.mp h; omega
    obtain ⟨ls, h1, h2⟩ := collect_run (g := g) (h := t.heap) (f := entriesLoop t.heap f1)
      nd.key (g.lo p) (g.hi p) nd.ptr2node (ok.kids hl) (by
        rintro c l u _ ⟨c1, cn, rfl, e2, _, e4, e5, e6⟩
        obtain ⟨ls, a1, a2⟩ := ih c1 cn e2 (by omega) f1 (by omega)
        exact ⟨c1, ls, rfl, a1, by rw [← e5, ← e6]; exact a2⟩)
    exact ⟨ls, by simp [entriesLoop, hp, hl, h1], h2⟩

/-- The leaves of a row are pairwise different, so there are no more of them
than cells in the store. -/
theorem LeafRun.length_le {t : BPTree K V} {g : Ghost K} {exc : Option Nat} (inv : InvG t g exc)
    {ls : List Nat} (hch : ls.Chain' (fun a b => ∃ k, g.hi a = some k ∧ g.lo b = some k))
    (hlv : ∀ l ∈ ls, ∃ ln, t.heap.read l = some ln ∧ ln.leaf = true) :
    ls.length ≤ t.heap.length := by
  have hpw : ls.Pairwise (fun a b => ∃ y, g.lo b = some y ∧ ∀ x, g.lo a = some x → x < y) := by
    induction ls with
    | nil => exact List.Pairwise.nil
    | cons l rest ih =>
      have hrest := ih (List.Chain'.tail hch) (fun x hx => hlv x (by simp [hx]))
      refine List.pairwise_cons.mpr ⟨?_, hrest⟩
      cases rest with
      | nil => intro b hb; simp at hb
      | cons l2 rest2 =>
        obtain ⟨⟨k, k1, k2⟩, _⟩ := List.chain'_cons.mp hch
        obtain ⟨ln, hln, _⟩ := hlv l (by simp)
        have hlow := inv.low l ln hln
        have first : ∀ x, g.lo l = some x → x < k := fun x hx =>
          inv.range_lt t.heap.length l ln (by omega) hln x k hx k1
        intro b hb
        rcases List.mem_cons.mp hb with rfl | hb
        · exact ⟨k, k2, first⟩
        · obtain ⟨y, hy, hlt⟩ := (List.pairwise_cons.mp hrest).1 b hb
          exact ⟨y, hy, fun x hx => lt_trans (first x hx) (hlt k k2)⟩
  have hnd : ls.Nodup := by
    refine hpw.imp ?_
    rintro a b ⟨y, hy, hlt⟩ rfl
    exact lt_irrefl y (hlt y hy)
  have hsub : ls ⊆ List.range t.heap.length := by
    intro y hy
    obtain ⟨yn, hyn, _⟩ := hlv y hy
    exact List.mem_range.mpr (Heap.read_lt hyn)
  have := (List.subperm_of_subset hnd hsub).length_le
  simpa using this

/-- The walk along `next` from the first leaf of a row that reaches the end
of the key space meets the keys of the row. -/
theorem chain_walk {t : BPTree K V} {g : Ghost K} {exc : Option Nat} (inv : InvG t g exc) :
    ∀ (ls : List Nat) (a : Nat) (lo : Option K), LeafRun g t.heap ls lo none →
      ls.head? = some a → ∀ fuel, ls.length ≤ fuel →
      chainLoop t.heap fuel (some a) = some ((ls.flatMap (pairsAt t.heap)).map Prod.fst) := by
  intro ls
  induction ls with
  | nil => intro a lo _ ha; simp at ha
  | cons l rest ih =>
    intro a lo hrun ha fuel hf
    obtain rfl : l = a := by simpa using ha
    obtain ⟨⟨a1, b1, r1, r2, r3, r4⟩, r5, r6⟩ := hrun
    obtain ⟨f1, rfl⟩ : ∃ f1, fuel = f1 + 1 := ⟨fuel - 1, by simp at hf; omega⟩
    obtain ⟨ln, hln, hll⟩ := r6 l (by simp)
    have hkeys : (pairsAt t.heap l).map Prod.fst = ln.key := by
      rw [pairsAt_of_leaf hln hll]
      exact List.map_fst_zip _ _ (le_of_eq ((inv.nodes l ln hln).leafOK hll).2.symm)
    have hc := nextOK_iff.1 (inv.chain l ln hln hll)
    cases rest with
    | nil =>
      obtain rfl : l = b1 := by simpa using r2
      have hn := hc.1 r4
      simp [chainLoop, hln, hn, hkeys]
    | cons l2 rest2 =>
      obtain ⟨⟨k, k1, k2⟩, htail⟩ := List.chain'_cons.mp r5
      obtain ⟨q, qn, hn, hq, hql, hlo⟩ := hc.2 k k1
      obtain ⟨ln2, hln2, hll2⟩ := r6 l2 (by simp)
      obtain rfl : q = l2 := inv.lo_unique hq hln2 hql hll2 (by rw [hlo, k2])
      have hr := ih q (g.lo q) ⟨⟨q, b1, rfl, by
          rw [List.getLast?_cons_cons] at r2; exact r2, rfl, r4⟩, htail,
          fun x hx => r6 x (by simp [hx])⟩ rfl f1 (by simp at hf ⊢; omega)
      simp only [List.flatMap_cons, List.map_append] at hr ⊢
      simp [chainLoop, hln, hn, hr, hkeys]

/-- On a well-formed tree the walk along `next` from the leftmost leaf meets
the keys that the leaves hold, taken left to right through the children. -/
theorem chainKeys_eq_leafKeys {t : BPTree K V} (hi : Inv t) : chainKeys t = leafKeys t := by
  rcases hi with ⟨h1, _⟩ | ⟨g, inv⟩
  · simp [chainKeys, leafKeys, entries, h1]
  · obtain ⟨r, rn, hroot, hr, _, hlo, hhi⟩ := inv.root
    have hlow := inv.low r rn hr
    obtain ⟨ls, e1, e2⟩ := leaves_spec inv (g.ht r) r rn hr rfl t.heap.length hlow
    obtain ⟨l, ln, a1, a2, a3, a4⟩ := leftmost_spec inv (g.ht r) r rn hr rfl t.heap.length hlow
    obtain ⟨⟨a, b, r1, r2, r3, r4⟩, r5, r6⟩ := e2
    have hmem : a ∈ ls := by
      cases ls with
      | nil => simp at r1
      | cons y ys =>
        obtain rfl : y = a := by simpa using r1
        simp
    obtain ⟨an, han, hal⟩ := r6 a hmem
    obtain rfl : l = a := inv.lo_unique a2 han a3 hal (by rw [a4, r3])
    rw [hhi] at r4
    rw [hlo] at r3
    have hw := chain_walk inv ls l none ⟨⟨l, b, r1, r2, r3, r4⟩, r5, r6⟩ r1 t.heap.length
      (LeafRun.length_le inv r5 r6)
    simp [chainKeys, leafKeys, entries, hroot, a1, hw, e1]

end Walk

end BPlus

namespace BPlus

section Truncate

variable {K V : Type} [LinearOrder K] [Inhabited K] [Inhabited V]

/-! ### Files cut short -/

end Truncate

end BPlus

namespace BPlus

/-! ## The claims -/

section Claims

variable {K V : Type} [LinearOrder K]

/-- C1: for every order `n >= 2`, every tree built from the empty tree by a
finite sequence of `insert`, `erase` and `update` calls, every key `k` and
value `v`: the calls end, and after `insert(k, v)` the call `find(k)` returns
(a pointer to) `v`. -/
theorem find_after_insert (n : Nat) (hn : 2 ≤ n) (ops : List (Op K V)) (k : K) (v : V) :
    ∃ t t1, run n ops = some t ∧ insert t k v = some t1 ∧ find t1 k = some (some v) := by
  obtain ⟨t, e1, e2, e3⟩ := run_inv n hn ops
  obtain ⟨t1, f1, f2, _, f4⟩ := insert_inv e2 (by rw [e3]; exact hn) k v
  exact ⟨t, t1, e1, f1, (find_inv f2 k).1 v ((f4 k v).mpr (Or.inl ⟨rfl, rfl⟩))⟩

theorem find_after_insert_witness :
    2 ≤ 3 ∧ ∃ t t1, run 3 [Op.insert 1 10, Op.insert 2 20, Op.erase 1] = some t ∧
      insert t 5 50 = some t1 ∧ find t1 5 = some (some 50) :=
  ⟨by decide, find_after_insert 3 (by decide) [Op.insert 1 10, Op.insert 2 20, Op.erase 1] 5 50⟩

/-- C2: for every order `n >= 2`, every tree built from the empty tree by a
finite sequence of `insert`, `erase` and `update` calls and every key `k`:
after `erase(k)` the call `find(k)` returns the null pointer, whichever path
the erase takes; in particular `insert(k, v)` followed by `erase(k)` leaves
`find(k)` null. -/
theorem find_after_erase (n : Nat) (hn : 2 ≤ n) (ops : List (Op K V)) (k : K) :
    ∃ t, run n ops = some t ∧
      (∃ t1, erase t k = some t1 ∧ find t1 k = some none) ∧
      ∀ v, ∃ t2 t3, insert t k v = some t2 ∧ erase t2 k = some t3 ∧ find t3 k = some none := by
  obtain ⟨t, e1, e2, e3⟩ := run_inv n hn ops
  have hord : 2 ≤ t.order := by rw [e3]; exact hn
  refine ⟨t, e1, ?_, ?_⟩
  · obtain ⟨t1, f1, f2, _, f4⟩ := erase_inv e2 hord k
    exact ⟨t1, f1, (find_inv f2 k).2 (fun v h => ((f4 k v).mp h).1 rfl)⟩
  · intro v
    obtain ⟨t2, f1, f2, f3, _⟩ := insert_inv e2 hord k v
    obtain ⟨t3, g1, g2, _, g4⟩ := erase_inv f2 (by rw [f3]; exact hord) k
    exact ⟨t2, t3, f1, g1, (find_inv g2 k).2 (fun v h => ((g4 k v).mp h).1 rfl)⟩

theorem find_after_erase_witness :
    2 ≤ 3 ∧ ∃ t, run 3 [Op.insert 1 10, Op.insert 2 20, Op.insert 3 30, Op.insert 4 40] = some t ∧
      (∃ t1, erase t 2 = some t1 ∧ find t1 2 = some none) ∧
      ∀ v, ∃ t2 t3, insert t 2 v = some t2 ∧ erase t2 2 = some t3 ∧ find t3 2 = some none :=
  ⟨by decide, find_after_erase 3 (by decide)
    [Op.insert 1 10, Op.insert 2 20, Op.insert 3 30, Op.insert 4 40] 2⟩

/-- C3: for every order `n >= 2`, every tree built from the empty tree by
`insert`, `erase` and `update` calls and every `k`, `v1`, `v2`: after
`insert(k, v1)` and `insert(k, v2)` the call `find(k)` returns `v2`, and the
second insert leaves the sequence of keys in the leaves as it was, with `k`
in it once, and allocates no node (no split). -/
theorem insert_twice_one_entry (n : Nat) (hn : 2 ≤ n) (ops : List (Op K V)) (k : K)
    (v1 v2 : V) :
    ∃ t t1 t2 ks, run n ops = some t ∧ insert t k v1 = some t1 ∧ insert t1 k v2 = some t2 ∧
      find t2 k = some (some v2) ∧ leafKeys t1 = some ks ∧ leafKeys t2 = some ks ∧
      ks.count k = 1 ∧ t2.heap.length = t1.heap.length := by
  obtain ⟨t, e1, e2, e3⟩ := run_inv n hn ops
  obtain ⟨t1, f1, f2, _, f4⟩ := insert_inv e2 (by rw [e3]; exact hn) k v1
  have hc1 : Contains t1 k v1 := (f4 k v1).mpr (Or.inl ⟨rfl, rfl⟩)
  rcases f2 with ⟨_, h2⟩ | ⟨g, inv1⟩
  · exact absurd hc1 (not_contains_empty h2 k v1)
  · obtain ⟨t2, g1, g2, _, g4, g5⟩ := insert_present inv1 k v2 hc1
    have hi1 : Inv t1 := Or.inr ⟨g, inv1⟩
    have hi2 : Inv t2 := Or.inr ⟨g, g2⟩
    obtain ⟨ks1, a1, a2, a3⟩ := leafKeys_spec hi1
    obtain ⟨ks2, b1, b2, b3⟩ := leafKeys_spec hi2
    have hks : ks2 = ks1 := by
      apply sorted_ext b2 a2
      intro x
      rw [a3, b3]
      constructor
      · rintro ⟨v, h⟩
        rcases (g5 x v).mp h with ⟨rfl, _⟩ | ⟨_, h1⟩
        · exact ⟨v1, hc1⟩
        · exact ⟨v, h1⟩
      · rintro ⟨v, h⟩
        by_cases hx : x = k
        · exact ⟨v2, (g5 x v2).mpr (Or.inl ⟨hx, rfl⟩)⟩
        · exact ⟨v, (g5 x v).mpr (Or.inr ⟨hx, h⟩)⟩
    refine ⟨t, t1, t2, ks1, e1, f1, g1,
      (find_inv hi2 k).1 v2 ((g5 k v2).mpr (Or.inl ⟨rfl, rfl⟩)), a1, by rw [b1, hks], ?_, g4⟩
    exact List.count_eq_one_of_mem (a2.imp fun h => ne_of_lt h) ((a3 k).mpr ⟨v1, hc1⟩)

theorem insert_twice_one_entry_witness :
    2 ≤ 3 ∧ ∃ t t1 t2 ks, run 3 [Op.insert 1 10, Op.insert 2 20, Op.insert 3 30] = some t ∧
      insert t 4 40 = some t1 ∧ insert t1 4 41 = some t2 ∧
      find t2 4 = some (some 41) ∧ leafKeys t1 = some ks ∧ leafKeys t2 = some ks ∧
      ks.count 4 = 1 ∧ t2.heap.length = t1.heap.length :=
  ⟨by decide, insert_twice_one_entry 3 (by decide)
    [Op.insert 1 10, Op.insert 2 20, Op.insert 3 30] 4 40 41⟩

/-- C4: for every order `n >= 2`, every list of keys with their values (in
any order; the keys need not even be distinct) and every list `es` of keys
(from the first list or not): inserting the first list into the empty tree
and then erasing all of `es` ends in a tree whose leaf linked list, followed
from the leftmost leaf along `next` to the null pointer, lists exactly the
inserted keys that are not in `es`, in strictly ascending order; the leaves
taken left to right through the children list the same keys. -/
theorem insert_then_erase_sorted (n : Nat) (hn : 2 ≤ n) (kvs : List (K × V)) (es : List K) :
    ∃ t ks, run n ((kvs.map fun kv => Op.insert kv.1 kv.2) ++ es.map fun e => Op.erase e) =
        some t ∧ chainKeys t = some ks ∧ leafKeys t = some ks ∧
      ks.Pairwise (fun a b => a < b) ∧
      ∀ k, k ∈ ks ↔ (k ∈ kvs.map Prod.fst ∧ k ∉ es) := by
  obtain ⟨t1, e1, e2, e3, e4⟩ := runFrom_inserts kvs (BPTree.new n : BPTree K V)
    (Or.inl ⟨rfl, rfl⟩) hn
  obtain ⟨t2, f1, f2, _, f4⟩ := runFrom_erases es t1 e2 (by rw [e3]; exact hn)
  obtain ⟨ks, a1, a2, a3⟩ := leafKeys_spec f2
  refine ⟨t2, ks, ?_, by rw [chainKeys_eq_leafKeys f2]; exact a1, a1, a2, ?_⟩
  · simp only [run, runFrom_append, e1, Option.some_bind, f1]
  · intro k
    rw [a3, f4, e4]
    constructor
    · rintro ⟨h1, h2 | ⟨v, h2⟩⟩
      · exact ⟨h2, h1⟩
      · exact absurd h2 (not_contains_empty rfl k v)
    · rintro ⟨h1, h2⟩
      exact ⟨h2, Or.inl h1⟩

theorem insert_then_erase_sorted_witness :
    2 ≤ 3 ∧ ∃ t ks, run 3 (([(3, 30), (1, 10), (4, 40), (2, 20), (5, 50)].map
          fun kv => Op.insert kv.1 kv.2) ++ [4, 1].map fun e => Op.erase e) = some t ∧
      chainKeys t = some ks ∧ leafKeys t = some ks ∧ ks.Pairwise (fun a b => a < b) ∧
      ∀ k, k ∈ ks ↔ (k ∈ [(3, 30), (1, 10), (4, 40), (2, 20), (5, 50)].map Prod.fst ∧
        k ∉ [4, 1]) :=
  ⟨by decide, insert_then_erase_sorted 3 (by decide)
    [(3, 30), (1, 10), (4, 40), (2, 20), (5, 50)] [4, 1]⟩

set_option maxRecDepth 100000

/-- C5, what the code does: at order 3, once the keys 16, 15, ..., 1 are
inserted and the key 11 is erased, the node at address 11 is an internal node
below the root (the root is at address 7) and holds the four keys 7, 9, 11,
15, one more than the order. -/
theorem occupancy_exceeded_order3 :
    ((run 3 (([16, 15, 14, 13, 12, 11, 10, 9, 8, 7, 6, 5, 4, 3, 2, 1].map
        fun k => Op.insert k (10 * k)) ++ [Op.erase 11])).bind
      fun t => (t.heap.read 11).map fun nd => (t.root, nd.leaf, nd.parent, nd.key)) =
      some (some 7, false, some 7, [7, 9, 11, 15]) := by
  decide

/-- C6 as stated fails: at order 3, once the keys 1 to 5 are inserted and the
key 3 is erased, the first key of the root is 3 while the smallest key below
its second child is 4. -/
theorem separator_not_smallest :
    ((run 3 ([Op.insert 1 10, Op.insert 2 20, Op.insert 3 30, Op.insert 4 40, Op.insert 5 50,
        Op.erase 3])).bind fun t => t.root.bind fun r => sepAt t r 0) = some (3, some 4) := by
  decide

/-- C6 amended: for every order `n >= 2` and every sequence of calls from
the empty tree, in every internal node each key `keys[i]` is greater than
every key in the leaves below `children[i]` and less than or equal to every
key in the leaves below `children[i+1]`. -/
theorem separator_bounds (n : Nat) (hn : 2 ≤ n) (ops : List (Op K V)) :
    ∃ t, run n ops = some t ∧
      ∀ (p i : Nat) (nd : Node K V) (s : K), t.heap.read p = some nd → nd.leaf = false →
        nd.key[i]? = some s →
        ∃ c0 c1 ks0 ks1, nd.ptr2node[i]? = some (some c0) ∧
          nd.ptr2node[i + 1]? = some (some c1) ∧
          subtreeKeys t c0 = some ks0 ∧ subtreeKeys t c1 = some ks1 ∧
          (∀ x ∈ ks0, x < s) ∧ (∀ x ∈ ks1, s ≤ x) := by
  obtain ⟨t, e1, e2, _⟩ := run_inv n hn ops
  refine ⟨t, e1, ?_⟩
  intro p i nd s hp hl hs
  rcases e2 with ⟨_, h2⟩ | ⟨g, inv⟩
  · rw [h2] at hp
    simp [Heap.read_def] at hp
  · exact sep_bounds inv hp hl hs

theorem separator_bounds_witness :
    2 ≤ 3 ∧ ∃ t, run 3 [Op.insert 1 10, Op.insert 2 20, Op.insert 3 30, Op.insert 4 40,
        Op.insert 5 50, Op.erase 3] = some t ∧
      ∀ (p i : Nat) (nd : Node Nat Nat) (s : Nat), t.heap.read p = some nd → nd.leaf = false →
        nd.key[i]? = some s →
        ∃ c0 c1 ks0 ks1, nd.ptr2node[i]? = some (some c0) ∧
          nd.ptr2node[i + 1]? = some (some c1) ∧
          subtreeKeys t c0 = some ks0 ∧ subtreeKeys t c1 = some ks1 ∧
          (∀ x ∈ ks0, x < s) ∧ (∀ x ∈ ks1, s ≤ x) :=
  ⟨by decide, separator_bounds 3 (by decide) [Op.insert 1 10, Op.insert 2 20, Op.insert 3 30,
    Op.insert 4 40, Op.insert 5 50, Op.erase 3]⟩

/-- C7: for every order `n >= 2` and every sequence of calls from the empty
tree, the calls end and all leaves of the tree are then at the same depth. -/
theorem leaves_same_depth (n : Nat) (hn : 2 ≤ n) (ops : List (Op K V)) :
    ∃ t ds, run n ops = some t ∧ leafDepths t = some ds ∧ ∀ x ∈ ds, ∀ y ∈ ds, x = y := by
  obtain ⟨t, e1, e2, _⟩ := run_inv n hn ops
  obtain ⟨ds, f1, f2⟩ := leafDepths_spec e2
  exact ⟨t, ds, e1, f1, f2⟩

theorem leaves_same_depth_witness :
    2 ≤ 3 ∧ ∃ t ds, run 3 [Op.insert 1 10, Op.insert 2 20, Op.insert 3 30, Op.insert 4 40,
        Op.erase 2, Op.erase 1] = some t ∧
      leafDepths t = some ds ∧ ∀ x ∈ ds, ∀ y ∈ ds, x = y :=
  ⟨by decide, leaves_same_depth 3 (by decide) [Op.insert 1 10, Op.insert 2 20, Op.insert 3 30,
    Op.insert 4 40, Op.erase 2, Op.erase 1]⟩

/-- C8: for every order `n >= 2` and every tree `T` built from the empty
tree by `insert`, `erase` and `update` calls, `serialize` ends, and
`deserialize`, called on any tree object with what `serialize` wrote, ends
without a message and leaves a tree on which `find(k)` has the result it has
on `T`, for every key `k`; and the decoded tree is a copy of `T` node for
node: both are empty, or the decoded root carries the subtree of the root of
`T` (`Iso`: at every node the same keys, in the leaves the same values, and
the same number of children, which are copies in turn). -/
theorem roundtrip_same_find [Inhabited K] [Inhabited V] (n : Nat) (hn : 2 ≤ n)
    (ops : List (Op K V)) (t0 : BPTree K V) :
    ∃ t s t2, run n ops = some t ∧ serialize t = some s ∧
      deserialize t0 (some s) = some (t2, []) ∧ (∀ k, find t2 k = find t k) ∧
      ((t.root = none ∧ t2.root = none) ∨
        ∃ d r r2, t.root = some r ∧ t2.root = some r2 ∧ Iso t.heap t2.heap d r r2) := by
  obtain ⟨t, e1, e2, _⟩ := run_inv n hn ops
  obtain ⟨s, t2, f1, f2, f3, f4⟩ := roundtrip_full e2 t0
  exact ⟨t, s, t2, e1, f1, f2, f3, f4⟩

theorem roundtrip_same_find_witness :
    2 ≤ 3 ∧ ∃ t s t2, run 3 [Op.insert 1 10, Op.insert 2 20, Op.insert 3 30, Op.insert 4 40] =
        some t ∧ serialize t = some s ∧
      deserialize (BPTree.new 3) (some s) = some (t2, []) ∧ (∀ k, find t2 k = find t k) ∧
      ((t.root = none ∧ t2.root = none) ∨
        ∃ d r r2, t.root = some r ∧ t2.root = some r2 ∧ Iso t.heap t2.heap d r r2) :=
  ⟨by decide, roundtrip_same_find 3 (by decide)
    [Op.insert 1 10, Op.insert 2 20, Op.insert 3 30, Op.insert 4 40] (BPTree.new 3)⟩

/-- C9, what the code does: at order 3, for the tree with the keys 1 to 4
(two leaves), the walk along `next` from the leftmost leaf meets 1, 2, 3, 4;
in the tree that `deserialize` builds from what `serialize` wrote it meets
only 1, 2, because `deserialize` leaves every `next` null. -/
theorem roundtrip_chain_lost :
    ((run 3 [Op.insert 1 10, Op.insert 2 20, Op.insert 3 30, Op.insert 4 40]).bind fun t =>
      (serialize t).bind fun s => (deserialize (BPTree.new 3) (some s)).map fun r =>
        (chainKeys t, chainKeys r.1, leafKeys r.1)) =
      some (some [1, 2, 3, 4], some [1, 2], some [1, 2, 3, 4]) := by
  decide

end Claims

end BPlus

namespace BPlus

/-! ## The claims, continued -/

section MoreClaims

variable {K V : Type} [LinearOrder K]

set_option maxRecDepth 100000

/-- C11: for every order `n >= 2`, every tree `T` built from the empty tree
by `insert`, `erase` and `update` calls, every key `k` and value `v`: the call
`update(k, v)` ends; it returns `true` exactly when `find(k)` on `T` is not
null; when it returns `true`, `find(k)` afterwards returns `v`, the root and
every node keep their kind, links, keys and children, the leaves list the
same keys, and `find` has its former result for every other key; when it
returns `false` the tree is the one it was. -/
theorem update_reports_presence (n : Nat) (hn : 2 ≤ n) (ops : List (Op K V)) (k : K) (v : V) :
    ∃ t t1 b, run n ops = some t ∧ update t k v = some (t1, b) ∧
      (b = true ↔ ∃ v0, find t k = some (some v0)) ∧
      (b = true → find t1 k = some (some v) ∧ t1.root = t.root ∧
        (∀ p, (t1.heap.read p).map (fun nd => (nd.leaf, nd.parent, nd.next, nd.key, nd.ptr2node)) =
          (t.heap.read p).map (fun nd => (nd.leaf, nd.parent, nd.next, nd.key, nd.ptr2node))) ∧
        leafKeys t1 = leafKeys t ∧ ∀ k2, k2 ≠ k → find t1 k2 = find t k2) ∧
      (b = false → t1 = t) := by
  obtain ⟨t, e1, e2, e3⟩ := run_inv n hn ops
  obtain ⟨t1, b, f1, f2, _, f4, f5⟩ := update_inv e2 k v
  obtain ⟨s1, _, s3, s4⟩ := update_shape f1
  refine ⟨t, t1, b, e1, f1, ?_, ?_, s3⟩
  · rw [f4]
    constructor
    · rintro ⟨v0, h⟩
      exact ⟨v0, (find_some_iff e2 k v0).mpr h⟩
    · rintro ⟨v0, h⟩
      exact ⟨v0, (find_some_iff e2 k v0).mp h⟩
  · intro hb
    have hex := f4.mp hb
    refine ⟨(find_some_iff f2 k v).mpr ((f5 k v).mpr (Or.inl ⟨hex, rfl, rfl⟩)), s1, s4, ?_, ?_⟩
    · obtain ⟨ks, a1, a2, a3⟩ := leafKeys_spec e2
      obtain ⟨ks1, b1, b2, b3⟩ := leafKeys_spec f2
      rw [a1, b1]
      congr 1
      apply sorted_ext b2 a2
      intro x
      rw [a3, b3]
      constructor
      · rintro ⟨w, h⟩
        rcases (f5 x w).mp h with ⟨_, rfl, _⟩ | ⟨_, h1⟩
        · exact hex
        · exact ⟨w, h1⟩
      · rintro ⟨w, h⟩
        by_cases hx : x = k
        · exact ⟨v, (f5 x v).mpr (Or.inl ⟨hex, hx, rfl⟩)⟩
        · exact ⟨w, (f5 x w).mpr (Or.inr ⟨hx, h⟩)⟩
    · intro k2 hk2
      apply find_congr e2 f2
      intro w
      rw [f5]
      constructor
      · rintro (⟨_, h, _⟩ | ⟨_, h⟩)
        · exact absurd h hk2
        · exact h
      · exact fun h => Or.inr ⟨hk2, h⟩

theorem update_reports_presence_witness :
    2 ≤ 3 ∧ ∃ t t1 b, run 3 [Op.insert 1 10, Op.insert 2 20, Op.insert 3 30, Op.insert 4 40] =
        some t ∧ update t 3 31 = some (t1, b) ∧
      (b = true ↔ ∃ v0, find t 3 = some (some v0)) ∧
      (b = true → find t1 3 = some (some 31) ∧ t1.root = t.root ∧
        (∀ p, (t1.heap.read p).map (fun nd => (nd.leaf, nd.parent, nd.next, nd.key, nd.ptr2node)) =
          (t.heap.read p).map (fun nd => (nd.leaf, nd.parent, nd.next, nd.key, nd.ptr2node))) ∧
        leafKeys t1 = leafKeys t ∧ ∀ k2, k2 ≠ 3 → find t1 k2 = find t k2) ∧
      (b = false → t1 = t) :=
  ⟨by decide, update_reports_presence 3 (by decide)
    [Op.insert 1 10, Op.insert 2 20, Op.insert 3 30, Op.insert 4 40] 3 31⟩

/-- C12: `erase(k)` is a no-op on a tree that does not contain `k`.  Whatever
the tree, when `find(k)` returns null the call `erase(k)` returns with the
root and every node as they were; so it does on the empty tree of any order;
and for every order `n >= 2` and every tree built from the empty tree by
`insert`, `erase` and `update` calls, a key that is not among the keys of the
leaves is reported absent by `find` and `erase` of it changes nothing. -/
theorem erase_absent_noop (n : Nat) (hn : 2 ≤ n) (ops : List (Op K V)) (k : K) :
    (∀ t0 : BPTree K V, find t0 k = some none → erase t0 k = some t0) ∧
    (∀ m : Nat, erase (BPTree.new m : BPTree K V) k = some (BPTree.new m)) ∧
    ∃ t ks, run n ops = some t ∧ leafKeys t = some ks ∧
      (k ∉ ks → find t k = some none ∧ erase t k = some t) := by
  refine ⟨fun t0 h => erase_of_find_none t0 k h, fun m => rfl, ?_⟩
  obtain ⟨t, e1, e2, _⟩ := run_inv n hn ops
  obtain ⟨ks, a1, _, a3⟩ := leafKeys_spec e2
  refine ⟨t, ks, e1, a1, ?_⟩
  intro hk
  have hf : find t k = some none :=
    (find_none_iff e2 k).mpr (fun w h => hk ((a3 k).mpr ⟨w, h⟩))
  exact ⟨hf, erase_of_find_none t k hf⟩

theorem erase_absent_noop_witness :
    2 ≤ 3 ∧ (∀ t0 : BPTree Nat Nat, find t0 5 = some none → erase t0 5 = some t0) ∧
    (∀ m : Nat, erase (BPTree.new m : BPTree Nat Nat) 5 = some (BPTree.new m)) ∧
    ∃ t ks, run 3 [Op.insert 1 10, Op.insert 2 20, Op.insert 3 30, Op.insert 4 40] = some t ∧
      leafKeys t = some ks ∧ (5 ∉ ks → find t 5 = some none ∧ erase t 5 = some t) :=
  ⟨by decide, erase_absent_noop 3 (by decide)
    [Op.insert 1 10, Op.insert 2 20, Op.insert 3 30, Op.insert 4 40] 5⟩

/-- C13: for every order (so for every order `n >= 1`), when `insert` adds a
new key to a leaf that holds `n` keys, the leaf comes to `n + 1` keys and is
split at `mid = (n + 1) / 2`: the old leaf keeps the first `mid` keys and
values, the new leaf (at the fresh address) receives the others in order, the
`next` of the old leaf is the new leaf and the `next` of the new leaf is the
former `next` of the old one, and `sep` is the first key of the new leaf.
When the split leaf was the root, `insert` returns a tree whose root is a
fresh internal node with the one key `sep` and the two leaves as children.
Otherwise `insert` goes on as `createIndex(new_leaf, sep)`, and when the
parent has room this puts `sep` into its keys, after the keys `<= sep`, and
the new leaf into its children, one place further. -/
theorem split_leaf_on_overflow (t : BPTree K V) (k : K) (v : V) (leaf : Nat) (loc : Int)
    (lf : Node K V) (hloc : keyIndexInLeaf t k = some (some leaf, loc))
    (hlf : t.heap.read leaf = some lf) (hfull : lf.key.length = t.order)
    (hval : lf.ptr2val.length = lf.key.length) (hnew : k ∉ lf.key) :
    ∃ keys vals sep t2,
      vinsert lf.key (loc + 1) k = some keys ∧ vinsert lf.ptr2val (loc + 1) v = some vals ∧
      keys.length = t.order + 1 ∧ vals.length = t.order + 1 ∧
      (keys.drop ((t.order + 1) / 2)).head? = some sep ∧
      splitLeaf { t with heap := t.heap.write leaf { lf with key := keys, ptr2val := vals } } leaf =
        some (t2, t.heap.length) ∧
      t2.order = t.order ∧ t2.root = t.root ∧ t2.heap.length = t.heap.length + 1 ∧
      (∀ p, t2.heap.read p =
        if p = leaf then some { lf with next := some t.heap.length, key := keys.take ((t.order + 1) / 2), ptr2val := vals.take ((t.order + 1) / 2) }
        else if p = t.heap.length then some { leaf := true, parent := lf.parent, next := lf.next, key := keys.drop ((t.order + 1) / 2), ptr2node := [], ptr2val := vals.drop ((t.order + 1) / 2) }
        else t.heap.read p) ∧
      (some leaf = t.root → ∃ t3, insert t k v = some t3 ∧ t3.order = t.order ∧
        t3.root = some (t.heap.length + 1) ∧
        ∀ p, t3.heap.read p =
          if p = leaf then some { lf with parent := some (t.heap.length + 1), next := some t.heap.length, key := keys.take ((t.order + 1) / 2), ptr2val := vals.take ((t.order + 1) / 2) }
          else if p = t.heap.length then some { leaf := true, parent := some (t.heap.length + 1), next := lf.next, key := keys.drop ((t.order + 1) / 2), ptr2node := [], ptr2val := vals.drop ((t.order + 1) / 2) }
          else if p = t.heap.length + 1 then some { leaf := false, parent := none, next := none, key := [sep], ptr2node := [some leaf, some t.heap.length], ptr2val := [] }
          else t.heap.read p) ∧
      (some leaf ≠ t.root →
        insert t k v = createIndex (t.heap.length + 1) t2 t.heap.length sep) ∧
      (some leaf ≠ t.root → ∀ (q : Nat) (qn : Node K V), lf.parent = some q → q ≠ leaf →
        t.heap.read q = some qn → qn.key.length < t.order →
        qn.ptr2node.length = qn.key.length + 1 →
        insert t k v = some { t2 with heap := t2.heap.write q { qn with key := qn.key.take (rank qn.key sep) ++ sep :: qn.key.drop (rank qn.key sep), ptr2node := qn.ptr2node.take (rank qn.key sep + 1) ++ some t.heap.length :: qn.ptr2node.drop (rank qn.key sep + 1) } }) := by
  obtain ⟨keys, vals, sep, t2, h1, h2, h3, h4, h5, h6, h7, h8, h9, h10, h11, h12⟩ :=
    insert_full_leaf (v := v) hloc hlf hfull hval hnew
  refine ⟨keys, vals, sep, t2, h1, h2, h3, h4, h5, h6, h7, h8, h9, h10, h11, h12, ?_⟩
  intro hrt q qn hpar hql hq hroom hc
  have hqlt : q < t.heap.length := Heap.read_lt hq
  have hN : t2.heap.read t.heap.length = some { leaf := true, parent := lf.parent, next := lf.next, key := keys.drop ((t.order + 1) / 2), ptr2node := [], ptr2val := vals.drop ((t.order + 1) / 2) } := by
    have hne : t.heap.length ≠ leaf := by have := Heap.read_lt hlf; omega
    rw [h10, if_neg hne, if_pos rfl]
  have hQ : t2.heap.read q = some qn := by
    rw [h10, if_neg hql, if_neg (by omega)]
    exact hq
  rw [h12 hrt]
  exact createIndex_room sep t.heap.length hN hpar hQ (by rw [h7]; exact hroom) hc

theorem split_leaf_on_overflow_witness :
    (run 3 [Op.insert 1 10, Op.insert 2 20, Op.insert 3 30] = some ({ order := 3, root := some 0, heap := [some { leaf := true, parent := none, next := none, key := [1, 2, 3], ptr2node := [none], ptr2val := [10, 20, 30] }] } : BPTree Nat Nat) ∧
    ∃ t3, insert ({ order := 3, root := some 0, heap := [some { leaf := true, parent := none, next := none, key := [1, 2, 3], ptr2node := [none], ptr2val := [10, 20, 30] }] } : BPTree Nat Nat) 4 40 = some t3 ∧
      t3.root = some 2 ∧
      t3.heap.read 0 = some { leaf := true, parent := some 2, next := some 1, key := [1, 2], ptr2node := [none], ptr2val := [10, 20] } ∧
      t3.heap.read 1 = some { leaf := true, parent := some 2, next := none, key := [3, 4], ptr2node := [], ptr2val := [30, 40] } ∧
      t3.heap.read 2 = some { leaf := false, parent := none, next := none, key := [3], ptr2node := [some 0, some 1], ptr2val := [] }) ∧
    (run 3 [Op.insert 1 10, Op.insert 2 20, Op.insert 3 30, Op.insert 4 40, Op.insert 5 50] = some ({ order := 3, root := some 2, heap := [some { leaf := true, parent := some 2, next := some 1, key := [1, 2], ptr2node := [none], ptr2val := [10, 20] }, some { leaf := true, parent := some 2, next := none, key := [3, 4, 5], ptr2node := [], ptr2val := [30, 40, 50] }, some { leaf := false, parent := none, next := none, key := [3], ptr2node := [some 0, some 1], ptr2val := [] }] } : BPTree Nat Nat) ∧
    ∃ t3, insert ({ order := 3, root := some 2, heap := [some { leaf := true, parent := some 2, next := some 1, key := [1, 2], ptr2node := [none], ptr2val := [10, 20] }, some { leaf := true, parent := some 2, next := none, key := [3, 4, 5], ptr2node := [], ptr2val := [30, 40, 50] }, some { leaf := false, parent := none, next := none, key := [3], ptr2node := [some 0, some 1], ptr2val := [] }] } : BPTree Nat Nat) 6 60 = some t3 ∧
      t3.root = some 2 ∧
      t3.heap.read 1 = some { leaf := true, parent := some 2, next := some 3, key := [3, 4], ptr2node := [], ptr2val := [30, 40] } ∧
      t3.heap.read 3 = some { leaf := true, parent := some 2, next := none, key := [5, 6], ptr2node := [], ptr2val := [50, 60] } ∧
      t3.heap.read 2 = some { leaf := false, parent := none, next := none, key := [3, 5], ptr2node := [some 0, some 1, some 3], ptr2val := [] }) := by
  constructor
  · refine ⟨by decide, ?_⟩
    obtain ⟨keys, vals, sep, t2, h1, h2, _, _, h5, _, _, _, _, _, hr, _, _⟩ :=
      split_leaf_on_overflow ({ order := 3, root := some 0, heap := [some { leaf := true, parent := none, next := none, key := [1, 2, 3], ptr2node := [none], ptr2val := [10, 20, 30] }] } : BPTree Nat Nat) 4 40 0 2
        { leaf := true, parent := none, next := none, key := [1, 2, 3], ptr2node := [none], ptr2val := [10, 20, 30] }
        (by decide) (by decide) (by decide) (by decide) (by decide)
    obtain ⟨t3, e1, _, e3, e4⟩ := hr (by decide)
    obtain rfl : keys = [1, 2, 3, 4] := Option.some.inj (h1.symm.trans (by decide))
    obtain rfl : vals = [10, 20, 30, 40] := Option.some.inj (h2.symm.trans (by decide))
    obtain rfl : sep = 3 := Option.some.inj (h5.symm.trans (by decide))
    exact ⟨t3, e1, e3, (e4 0).trans (by decide), (e4 1).trans (by decide),
      (e4 2).trans (by decide)⟩
  · refine ⟨by decide, ?_⟩
    obtain ⟨keys, vals, sep, t2, h1, h2, _, _, h5, _, _, h8, h9, h10, _, _, hroom⟩ :=
      split_leaf_on_overflow ({ order := 3, root := some 2, heap := [some { leaf := true, parent := some 2, next := some 1, key := [1, 2], ptr2node := [none], ptr2val := [10, 20] }, some { leaf := true, parent := some 2, next := none, key := [3, 4, 5], ptr2node := [], ptr2val := [30, 40, 50] }, some { leaf := false, parent := none, next := none, key := [3], ptr2node := [some 0, some 1], ptr2val := [] }] } : BPTree Nat Nat) 6 60 1 2
        { leaf := true, parent := some 2, next := none, key := [3, 4, 5], ptr2node := [], ptr2val := [30, 40, 50] }
        (by decide) (by decide) (by decide) (by decide) (by decide)
    have e := hroom (by decide) 2 { leaf := false, parent := none, next := none, key := [3], ptr2node := [some 0, some 1], ptr2val := [] } (by decide) (by decide) (by decide) (by decide) (by decide)
    obtain rfl : keys = [3, 4, 5, 6] := Option.some.inj (h1.symm.trans (by decide))
    obtain rfl : vals = [30, 40, 50, 60] := Option.some.inj (h2.symm.trans (by decide))
    obtain rfl : sep = 5 := Option.some.inj (h5.symm.trans (by decide))
    have hlen : (2 : Nat) < t2.heap.length := by rw [h9]; decide
    refine ⟨_, e, h8, ?_, ?_, ?_⟩
    · exact (Heap.read_write_ne _ (by decide) _).trans ((h10 1).trans (by decide))
    · exact (Heap.read_write_ne _ (by decide) _).trans ((h10 3).trans (by decide))
    · refine (Heap.read_write _ _ _ _).trans ?_
      rw [if_pos ⟨rfl, hlen⟩]
      decide

/-- C14 as stated fails: at order 3, the height of the tree with the keys 1
to 7 inserted in ascending order is 1, and it is still 1 once 1, 2 and 3 are
erased in that sequence. -/
theorem height_not_shrunk :
    (run 3 [Op.insert 1 10, Op.insert 2 20, Op.insert 3 30, Op.insert 4 40, Op.insert 5 50,
      Op.insert 6 60, Op.insert 7 70]).bind height = some 1 ∧
    (run 3 [Op.insert 1 10, Op.insert 2 20, Op.insert 3 30, Op.insert 4 40, Op.insert 5 50,
      Op.insert 6 60, Op.insert 7 70, Op.erase 1, Op.erase 2, Op.erase 3]).bind height =
      some 1 := by
  decide

/-- C14 amended: at order 3, after the keys 1 to 7 are inserted in ascending
order and 1, 2 and 3 are erased in that sequence, the root is still the
internal node it was (at address 2), with the one key 6 and the two leaves
`{4, 5}` and `{6, 7}`; the height shrinks, by root collapse, only with the
next erase, of the key 4: the leaf `{5, 6, 7}` is then the root, the old root
is destroyed and the height is 0. -/
theorem height_shrinks_at_fourth_erase :
    ((run 3 [Op.insert 1 10, Op.insert 2 20, Op.insert 3 30, Op.insert 4 40, Op.insert 5 50,
      Op.insert 6 60, Op.insert 7 70, Op.erase 1, Op.erase 2, Op.erase 3]).map fun t =>
        (t.root, height t)) = some (some 2, some 1) ∧
    ((run 3 [Op.insert 1 10, Op.insert 2 20, Op.insert 3 30, Op.insert 4 40, Op.insert 5 50,
      Op.insert 6 60, Op.insert 7 70, Op.erase 1, Op.erase 2, Op.erase 3]).bind fun t =>
        (t.heap.read 2).map fun nd => (nd.leaf, nd.key, nd.ptr2node)) =
      some (false, [6], [some 0, some 3]) ∧
    ((run 3 [Op.insert 1 10, Op.insert 2 20, Op.insert 3 30, Op.insert 4 40, Op.insert 5 50,
      Op.insert 6 60, Op.insert 7 70, Op.erase 1, Op.erase 2, Op.erase 3]).map fun t =>
        (leafView t.heap 0, leafView t.heap 3)) =
      some (some ([4, 5], [40, 50]), some ([6, 7], [60, 70])) ∧
    ((run 3 [Op.insert 1 10, Op.insert 2 20, Op.insert 3 30, Op.insert 4 40, Op.insert 5 50,
      Op.insert 6 60, Op.insert 7 70, Op.erase 1, Op.erase 2, Op.erase 3, Op.erase 4]).map
        fun t => (t.root, t.heap.read 2, height t)) = some (some 0, none, some 0) ∧
    ((run 3 [Op.insert 1 10, Op.insert 2 20, Op.insert 3 30, Op.insert 4 40, Op.insert 5 50,
      Op.insert 6 60, Op.insert 7 70, Op.erase 1, Op.erase 2, Op.erase 3, Op.erase 4]).bind
        fun t => leafView t.heap 0) = some ([5, 6, 7], [50, 60, 70]) := by
  decide

/-- C15: for every node whose keys are strictly ascending and every search
key `x`, the result `i` of `keyIndex` satisfies `-1 <= i < number of keys`,
every key at an index `<= i` is `<= x`, every key at an index `> i` is `> x`,
`i` is `-1` exactly when no key of the node is `<= x`, and otherwise
`keys[i]` exists and is `<= x`: it is the rightmost key that is `<= x`. -/
theorem keyIndex_rightmost (nd : Node K V) (x : K)
    (hs : nd.key.Pairwise (fun a b => a < b)) :
    -1 ≤ keyIndex nd x ∧ keyIndex nd x < (nd.key.length : Int) ∧
      (∀ (j : Nat) (y : K), nd.key[j]? = some y →
        ((j : Int) ≤ keyIndex nd x → y ≤ x) ∧ (keyIndex nd x < (j : Int) → x < y)) ∧
      (keyIndex nd x = -1 ↔ ∀ y ∈ nd.key, ¬ y ≤ x) ∧
      (keyIndex nd x ≠ -1 → ∃ y, vget nd.key (keyIndex nd x) = some y ∧ y ≤ x) :=
  keyIndex_spec nd x hs

theorem keyIndex_rightmost_witness :
    ([2, 4, 6] : List Nat).Pairwise (fun a b => a < b) ∧
    keyIndex ({ leaf := true, parent := none, next := none, key := [2, 4, 6], ptr2node := [], ptr2val := [20, 40, 60] } : Node Nat Nat) 5 = 1 ∧
    ∀ (j : Nat) (y : Nat), ([2, 4, 6] : List Nat)[j]? = some y →
      ((j : Int) ≤ 1 → y ≤ 5) ∧ ((1 : Int) < (j : Int) → 5 < y) :=
  ⟨by decide, by decide,
    (keyIndex_rightmost ({ leaf := true, parent := none, next := none, key := [2, 4, 6], ptr2node := [], ptr2val := [20, 40, 60] } : Node Nat Nat) 5 (by decide)).2.2.1⟩

/-- C16: for every order `n >= 2` and every sequence of calls from the empty
tree, the calls end and in the tree every node has strictly ascending keys,
every internal node with `k` keys has `k + 1` children, none of them null,
and all the keys stored in the subtree of `children[i]` (those of the child
itself and of every node below it) are `< keys[i]` (for `i < k`) and
`>= keys[i-1]` (for `i > 0`); the keys in the leaves, taken left to right,
have no duplicates. -/
theorem keys_sorted_and_ranged (n : Nat) (hn : 2 ≤ n) (ops : List (Op K V)) :
    ∃ t ks, run n ops = some t ∧ leafKeys t = some ks ∧ ks.Nodup ∧
      ∀ (p : Nat) (nd : Node K V), t.heap.read p = some nd →
        nd.key.Pairwise (fun a b => a < b) ∧
        (nd.leaf = false → nd.ptr2node.length = nd.key.length + 1 ∧
          ∀ (i : Nat) (c : Option Nat), nd.ptr2node[i]? = some c →
            ∃ x xn xs, c = some x ∧ t.heap.read x = some xn ∧ keysBelow t x = some xs ∧
              (∀ y ∈ xn.key, y ∈ xs) ∧
              (∀ s, nd.key[i]? = some s → ∀ y ∈ xs, y < s) ∧
              (∀ s, 0 < i → nd.key[i - 1]? = some s → ∀ y ∈ xs, s ≤ y)) := by
  obtain ⟨t, e1, e2, _⟩ := run_inv n hn ops
  obtain ⟨ks, a1, a2, _⟩ := leafKeys_spec e2
  refine ⟨t, ks, e1, a1, a2.imp (fun h => ne_of_lt h), ?_⟩
  intro p nd hp
  rcases e2 with ⟨_, h2⟩ | ⟨g, inv⟩
  · rw [h2] at hp
    simp [Heap.read_def] at hp
  · exact node_ranges inv hp

theorem keys_sorted_and_ranged_witness :
    2 ≤ 3 ∧ ∃ t ks, run 3 [Op.insert 1 10, Op.insert 2 20, Op.insert 3 30, Op.insert 4 40,
        Op.insert 5 50, Op.erase 3] = some t ∧ leafKeys t = some ks ∧ ks.Nodup ∧
      ∀ (p : Nat) (nd : Node Nat Nat), t.heap.read p = some nd →
        nd.key.Pairwise (fun a b => a < b) ∧
        (nd.leaf = false → nd.ptr2node.length = nd.key.length + 1 ∧
          ∀ (i : Nat) (c : Option Nat), nd.ptr2node[i]? = some c →
            ∃ x xn xs, c = some x ∧ t.heap.read x = some xn ∧ keysBelow t x = some xs ∧
              (∀ y ∈ xn.key, y ∈ xs) ∧
              (∀ s, nd.key[i]? = some s → ∀ y ∈ xs, y < s) ∧
              (∀ s, 0 < i → nd.key[i - 1]? = some s → ∀ y ∈ xs, s ≤ y)) :=
  ⟨by decide, keys_sorted_and_ranged 3 (by decide) [Op.insert 1 10, Op.insert 2 20,
    Op.insert 3 30, Op.insert 4 40, Op.insert 5 50, Op.erase 3]⟩

/-- C17: for every internal node with `s >= 1` keys (in particular
`s >= 2`) and `s + 1` children, all live, `splitNode` uses `mid` with
`mid + 1 = (s + 1) / 2`, that is `mid = ceil(s/2) - 1`, and returns the key at
`mid` as the key pushed up; the old node keeps the keys before `mid` and the
children up to `mid`, the new node (at the fresh address) receives the keys
after `mid` and the children from `mid + 1` on; so old keys, pushed key, new
keys make the former keys, old children and new children make the former
children, each half has one more child than keys, the pushed key is in
neither half when the keys are distinct, and the children handed over have
the new node as their parent. -/
theorem splitNode_halves (t : BPTree K V) (node : Nat) (nd : Node K V)
    (hnd : t.heap.read node = some nd) (hs : 1 ≤ nd.key.length)
    (hc : nd.ptr2node.length = nd.key.length + 1)
    (hlive : ∀ c ∈ nd.ptr2node, ∃ x cn, c = some x ∧ t.heap.read x = some cn) :
    ∃ mid t2 push od nn, mid + 1 = (nd.key.length + 1) / 2 ∧
      splitNode t node = some (t2, t.heap.length, push) ∧
      nd.key[mid]? = some push ∧
      t2.heap.read node = some od ∧ t2.heap.read t.heap.length = some nn ∧
      od.key = nd.key.take mid ∧ od.ptr2node = nd.ptr2node.take (mid + 1) ∧
      nn.key = nd.key.drop (mid + 1) ∧ nn.ptr2node = nd.ptr2node.drop (mid + 1) ∧
      od.key ++ push :: nn.key = nd.key ∧ od.ptr2node ++ nn.ptr2node = nd.ptr2node ∧
      od.ptr2node.length = od.key.length + 1 ∧ nn.ptr2node.length = nn.key.length + 1 ∧
      (nd.key.Nodup → push ∉ od.key ∧ push ∉ nn.key) ∧
      od.leaf = nd.leaf ∧ nn.leaf = false ∧ nn.parent = nd.parent ∧
      (∀ c ∈ nn.ptr2node, ∃ x cn, c = some x ∧ t2.heap.read x = some cn ∧
        cn.parent = some t.heap.length) :=
  splitNode_shape t node nd hnd hs hc hlive

theorem splitNode_halves_witness :
    ∃ t2 od nn, splitNode ({ order := 3, root := some 0, heap := [some { leaf := false, parent := none, next := none, key := [3, 5, 7, 9], ptr2node := [some 1, some 2, some 3, some 4, some 5], ptr2val := [] }, some { leaf := true, parent := some 0, next := some 2, key := [1, 2], ptr2node := [], ptr2val := [10, 20] }, some { leaf := true, parent := some 0, next := some 3, key := [3, 4], ptr2node := [], ptr2val := [30, 40] }, some { leaf := true, parent := some 0, next := some 4, key := [5, 6], ptr2node := [], ptr2val := [50, 60] }, some { leaf := true, parent := some 0, next := some 5, key := [7, 8], ptr2node := [], ptr2val := [70, 80] }, some { leaf := true, parent := some 0, next := none, key := [9, 10], ptr2node := [], ptr2val := [90, 100] }] } : BPTree Nat Nat) 0 = some (t2, 6, 5) ∧
      t2.heap.read 0 = some od ∧ t2.heap.read 6 = some nn ∧
      od.key = [3] ∧ od.ptr2node = [some 1, some 2] ∧
      nn.key = [7, 9] ∧ nn.ptr2node = [some 3, some 4, some 5] := by
  obtain ⟨mid, t2, push, od, nn, h1, h2, h3, h4, h5, h6, h7, h8, h9, _⟩ :=
    splitNode_halves ({ order := 3, root := some 0, heap := [some { leaf := false, parent := none, next := none, key := [3, 5, 7, 9], ptr2node := [some 1, some 2, some 3, some 4, some 5], ptr2val := [] }, some { leaf := true, parent := some 0, next := some 2, key := [1, 2], ptr2node := [], ptr2val := [10, 20] }, some { leaf := true, parent := some 0, next := some 3, key := [3, 4], ptr2node := [], ptr2val := [30, 40] }, some { leaf := true, parent := some 0, next := some 4, key := [5, 6], ptr2node := [], ptr2val := [50, 60] }, some { leaf := true, parent := some 0, next := some 5, key := [7, 8], ptr2node := [], ptr2val := [70, 80] }, some { leaf := true, parent := some 0, next := none, key := [9, 10], ptr2node := [], ptr2val := [90, 100] }] } : BPTree Nat Nat) 0
      { leaf := false, parent := none, next := none, key := [3, 5, 7, 9], ptr2node := [some 1, some 2, some 3, some 4, some 5], ptr2val := [] }
      (by decide) (by decide) (by decide) (by
        intro c hc
        simp only [List.mem_cons, List.mem_singleton, List.not_mem_nil, or_false] at hc
        rcases hc with rfl | rfl | rfl | rfl | rfl
        · exact ⟨1, _, rfl, rfl⟩
        · exact ⟨2, _, rfl, rfl⟩
        · exact ⟨3, _, rfl, rfl⟩
        · exact ⟨4, _, rfl, rfl⟩
        · exact ⟨5, _, rfl, rfl⟩)
  obtain rfl : mid = 1 := by
    have : mid + 1 = 2 := h1
    omega
  obtain rfl : push = 5 := Option.some.inj (h3.symm.trans (by decide))
  exact ⟨t2, od, nn, h2, h4, h5, h6, h7, h8, h9⟩

/-- C18: for every order `n >= 2` and every finite sequence of `insert`,
`erase` and `update` calls from the empty tree, every call ends with a
result, and so does `find` of any key on the tree reached (hence at every
point of the sequence).  In the embedding an index outside a key, value or
child vector and a null or destroyed node that is dereferenced leave a call
without result, so none of them occurs.  In particular every call of
`handleLeafUnderflow` or `handleNodeUnderflow` that returns, as all those of
such a sequence do, has found the node among the children of its parent, at
an index `idx`, and the sibling it used there (at `idx - 1` when `idx > 0`,
at `idx + 1` when `idx == 0`); and the closing block that collapses a root
without keys has found the first child of the root live. -/
theorem no_access_out_of_range (n : Nat) (hn : 2 ≤ n) (ops : List (Op K V)) :
    (∃ t, run n ops = some t ∧ ∀ k, ∃ r, find t k = some r) ∧
    (∀ (t t1 : BPTree K V) (leaf : Nat), handleLeafUnderflow t leaf = some t1 →
      ∃ (lf : Node K V) (parent : Nat) (pn : Node K V) (idx sib : Nat) (sn : Node K V),
        t.heap.read leaf = some lf ∧ lf.parent = some parent ∧
        t.heap.read parent = some pn ∧ childIndex pn.ptr2node leaf = (idx : Int) ∧
        pn.ptr2node[idx]? = some (some leaf) ∧
        pn.ptr2node[if idx = 0 then 1 else idx - 1]? = some (some sib) ∧
        t.heap.read sib = some sn) ∧
    (∀ (t t1 : BPTree K V) (node fuel : Nat), handleNodeUnderflow fuel t node = some t1 →
      ∃ (nd : Node K V) (parent : Nat) (pn : Node K V) (idx sib : Nat) (sn : Node K V),
        t.heap.read node = some nd ∧ nd.parent = some parent ∧
        t.heap.read parent = some pn ∧ childIndex pn.ptr2node node = (idx : Int) ∧
        pn.ptr2node[idx]? = some (some node) ∧
        pn.ptr2node[if idx = 0 then 1 else idx - 1]? = some (some sib) ∧
        t.heap.read sib = some sn) ∧
    (∀ (t t1 : BPTree K V), collapseRoot t = some t1 →
      ∃ (r : Nat) (rn : Node K V), t.root = some r ∧ t.heap.read r = some rn ∧
        (¬ (rn.key = [] ∧ rn.ptr2node ≠ []) → t1 = t) ∧
        (rn.key = [] ∧ rn.ptr2node ≠ [] → ∃ (c : Nat) (cn : Node K V),
          rn.ptr2node[0]? = some (some c) ∧ c ≠ r ∧ t.heap.read c = some cn ∧
          t1.root = some c)) := by
  refine ⟨?_, fun t t1 leaf h => handleLeafUnderflow_found h,
    fun t t1 node fuel h => handleNodeUnderflow_found h, fun t t1 h => collapseRoot_child h⟩
  obtain ⟨t, e1, e2, _⟩ := run_inv n hn ops
  refine ⟨t, e1, ?_⟩
  intro k
  by_cases hex : ∃ v, Contains t k v
  · obtain ⟨v, hv⟩ := hex
    exact ⟨some v, (find_inv e2 k).1 v hv⟩
  · exact ⟨none, (find_inv e2 k).2 (fun v hv => hex ⟨v, hv⟩)⟩

theorem no_access_out_of_range_witness :
    2 ≤ 3 ∧ ∃ t, run 3 [Op.insert 1 10, Op.insert 2 20, Op.insert 3 30, Op.insert 4 40,
        Op.erase 1, Op.update 2 21, Op.erase 2] = some t ∧ ∀ k, ∃ r, find t k = some r :=
  ⟨by decide, (no_access_out_of_range 3 (by decide) [Op.insert 1 10, Op.insert 2 20,
    Op.insert 3 30, Op.insert 4 40, Op.erase 1, Op.update 2 21, Op.erase 2]).1⟩

/-- C19: for every order `n >= 2`, every tree built from the empty tree by
`insert`, `erase` and `update` calls and all keys `k2 != k`: the call
`insert(k, v)` ends and `find(k2)` has the same result after it as before,
whatever the insert splits. -/
theorem insert_keeps_other_finds (n : Nat) (hn : 2 ≤ n) (ops : List (Op K V)) (k : K) (v : V)
    (k2 : K) (hk : k2 ≠ k) :
    ∃ t t1, run n ops = some t ∧ insert t k v = some t1 ∧ find t1 k2 = find t k2 := by
  obtain ⟨t, e1, e2, e3⟩ := run_inv n hn ops
  obtain ⟨t1, f1, f2, _, f4⟩ := insert_inv e2 (by rw [e3]; exact hn) k v
  refine ⟨t, t1, e1, f1, find_congr e2 f2 k2 ?_⟩
  intro w
  rw [f4]
  constructor
  · rintro (⟨h, _⟩ | ⟨_, h⟩)
    · exact absurd h hk
    · exact h
  · exact fun h => Or.inr ⟨hk, h⟩

theorem insert_keeps_other_finds_witness :
    2 ≤ 3 ∧ (3 : Nat) ≠ 4 ∧ ∃ t t1,
      run 3 [Op.insert 1 10, Op.insert 2 20, Op.insert 3 30] = some t ∧
      insert t 4 40 = some t1 ∧ find t1 3 = find t 3 :=
  ⟨by decide, by decide, insert_keeps_other_finds 3 (by decide)
    [Op.insert 1 10, Op.insert 2 20, Op.insert 3 30] 4 40 3 (by decide)⟩

/-- C20: for every order `n >= 2`, every tree built from the empty tree by
`insert`, `erase` and `update` calls and all keys `k2 != k`: the call
`erase(k)` ends and `find(k2)` has the same result after it as before,
whether the erase borrows, merges or collapses the root. -/
theorem erase_keeps_other_finds (n : Nat) (hn : 2 ≤ n) (ops : List (Op K V)) (k k2 : K)
    (hk : k2 ≠ k) :
    ∃ t t1, run n ops = some t ∧ erase t k = some t1 ∧ find t1 k2 = find t k2 := by
  obtain ⟨t, e1, e2, e3⟩ := run_inv n hn ops
  obtain ⟨t1, f1, f2, _, f4⟩ := erase_inv e2 (by rw [e3]; exact hn) k
  refine ⟨t, t1, e1, f1, find_congr e2 f2 k2 ?_⟩
  intro w
  rw [f4]
  exact ⟨fun h => h.2, fun h => ⟨hk, h⟩⟩

theorem erase_keeps_other_finds_witness :
    2 ≤ 3 ∧ (2 : Nat) ≠ 1 ∧ ∃ t t1,
      run 3 [Op.insert 1 10, Op.insert 2 20, Op.insert 3 30, Op.insert 4 40] = some t ∧
      erase t 1 = some t1 ∧ find t1 2 = find t 2 :=
  ⟨by decide, by decide, erase_keeps_other_finds 3 (by decide)
    [Op.insert 1 10, Op.insert 2 20, Op.insert 3 30, Op.insert 4 40] 1 2 (by decide)⟩

end MoreClaims

end BPlus

